import Mathlib

/-!
Radix-2 FFT and pitch detection: a shallow embedding.

Definitions follow `src/radix2_dit.c`, `src/audio_spectrum.c` and
`src/pitch_detection.c`.  C arrays are maps from index to value, C `int`s are
integers, and an `int` product that can leave the 32-bit range (`80 * n`,
`1000 * n`, `2000 * n`, `2 * harmonics`, `2 * h`, `i * h`) is taken with
two's-complement wraparound (`int_mul`); `double` and `complex_t` arithmetic is
exact arithmetic in an ordered field, respectively a field.  Loops are written
with loop combinators that pass the mutated state explicitly.
-/

namespace PitchFFT

/-! ## Loops -/

/-- Worker of `for_loop`: at most `fuel` further iterations starting at index `i`. -/
def for_loop_go {σ : Type*} (stop step : Nat) (body : Nat → σ → σ) : Nat → Nat → σ → σ
  | 0, _, s => s
  | fuel + 1, i, s =>
    if i < stop then for_loop_go stop step body fuel (i + step) (body i s) else s

/-- The C loop `for (i = start; i < stop; i += step) body`, threading the state.
For `step ≥ 1` the loop ends within `stop - start` iterations, which is the fuel
that is supplied. -/
def for_loop {σ : Type*} (start stop step : Nat) (body : Nat → σ → σ) (s : σ) : σ :=
  for_loop_go stop step body (stop - start) start s

/-! ## Declarations of `fft_common.h` (header not among the sources) -/

/-- The two-valued direction selector `fft_direction`. -/
inductive fft_direction
  | FFT_FORWARD
  | FFT_INVERSE
  deriving DecidableEq

/-- Failure reported by the size check of the transform. -/
inductive fft_error
  | InvalidSize
  deriving DecidableEq

/-- Modelled from the spec: `is_power_of_two` behind the `CHECK_POWER_OF_TWO` macro of
`fft_common.h`, which is not among the sources.  The spec words: "Precondition check:
N is a power of two". -/
def is_power_of_two (n : Int) : Bool :=
  decide (0 < n ∧ 2 ^ Nat.log 2 n.toNat = n.toNat)

/-- Modelled from the spec: `log2_int` of `fft_common.h`, which is not among the
sources; the number `log₂N` of butterfly stages. -/
def log2_int (n : Int) : Nat := Nat.log 2 n.toNat

/-- Modelled from the spec: `bit_reverse` of `fft_common.h`, which is not among the
sources; "its log₂N-bit-reversed index": the lowest of the `bits` low bits of `x`
becomes the highest, and so on. -/
def bit_reverse : Nat → Nat → Nat
  | _, 0 => 0
  | x, bits + 1 => (x % 2) * 2 ^ bits + bit_reverse (x / 2) bits

/-- Modelled from the spec: `twiddle_factor` of `fft_common.h`, which is not among
the sources; "w_m = exp(∓2πi/m) (sign per direction)", here for the power `k`:
`exp(∓2πi·k/n)`, minus for FORWARD and plus for INVERSE. -/
noncomputable def twiddle_factor (k n : Int) (dir : fft_direction) : ℂ :=
  match dir with
  | fft_direction.FFT_FORWARD => Complex.exp (-(2 * Real.pi * Complex.I * k / n))
  | fft_direction.FFT_INVERSE => Complex.exp (2 * Real.pi * Complex.I * k / n)

/-! ## `radix2_dit.c` -/

/-- Body of the bit-reversal loop (`radix2_dit.c`, lines 71-76): swap `x[i]` and
`x[j]` when `i < j`. -/
def bit_reversal_body {K : Type*} (log2n : Nat) (i : Nat) (x : Nat → K) : Nat → K :=
  let j := bit_reverse i log2n
  if i < j then
    let temp := x i
    let x1 := Function.update x i (x j)
    Function.update x1 j temp
  else x

/-- One butterfly (`radix2_dit.c`, lines 97-109) on the state `(x, w)`. -/
def butterfly_body {K : Type*} [Field K] (w_m : K) (k half_m : Nat) (j : Nat)
    (s : (Nat → K) × K) : (Nat → K) × K :=
  let x := s.1
  let w := s.2
  let t := k + j
  let u := t + half_m
  let temp := x u * w
  let x1 := Function.update x u (x t - temp)
  let x2 := Function.update x1 t (x1 t + temp)
  (x2, w * w_m)

/-- One pass of the stage loop (`radix2_dit.c`, lines 85-111): all butterflies of
sub-transform size `m = 1 << stage`. -/
def fft_stage_body {K : Type*} [Field K] (tw : Int → Int → fft_direction → K)
    (n : Nat) (dir : fft_direction) (stage : Nat) (x : Nat → K) : Nat → K :=
  let m := 1 <<< stage
  let half_m := m >>> 1
  let w_m := tw 1 (m : Int) dir
  for_loop 0 n m (fun k x =>
    (for_loop 0 half_m 1 (butterfly_body w_m k half_m) (x, (1 : K))).1) x

/-- The function `radix2_dit_fft(x, n, dir)`.  The result is the outcome of the size
check together with the buffer as the call leaves it.  `tw` stands for
`twiddle_factor` of the absent header. -/
def radix2_dit_fft {K : Type*} [Field K] (tw : Int → Int → fft_direction → K)
    (x : Nat → K) (n : Int) (dir : fft_direction) :
    Except fft_error Unit × (Nat → K) :=
  if is_power_of_two n = false then (Except.error fft_error.InvalidSize, x)
  else
    let log2n := log2_int n
    let x1 := for_loop 0 n.toNat 1 (bit_reversal_body log2n) x
    let x2 := for_loop 1 (log2n + 1) 1 (fft_stage_body tw n.toNat dir) x1
    let x3 :=
      if dir = fft_direction.FFT_INVERSE then
        for_loop 0 n.toNat 1 (fun i y => Function.update y i (y i / (n : K))) x2
      else x2
    (Except.ok (), x3)

/-- The wrapper `fft_radix2_dit(x, n)`. -/
def fft_radix2_dit {K : Type*} [Field K] (tw : Int → Int → fft_direction → K)
    (x : Nat → K) (n : Int) : Except fft_error Unit × (Nat → K) :=
  radix2_dit_fft tw x n fft_direction.FFT_FORWARD

/-- The wrapper `ifft_radix2_dit(x, n)`. -/
def ifft_radix2_dit {K : Type*} [Field K] (tw : Int → Int → fft_direction → K)
    (x : Nat → K) (n : Int) : Except fft_error Unit × (Nat → K) :=
  radix2_dit_fft tw x n fft_direction.FFT_INVERSE

/-! ## `audio_spectrum.c` -/

/-- Worker of `while_loop`: at most `fuel` further iterations starting at index `i`. -/
def while_loop_go {σ : Type*} (cond : Nat → σ → Bool) (body : Nat → σ → σ) :
    Nat → Nat → σ → σ
  | 0, _, s => s
  | fuel + 1, i, s =>
    if cond i s then while_loop_go cond body fuel (i + 1) (body i s) else s

/-- The record `peak_t` of `audio_spectrum.h`. -/
structure peak_t (K : Type*) where
  frequency : K
  magnitude : K
  bin : Int

/-- The function `bin_to_frequency(bin, fft_size, sample_rate)`. -/
def bin_to_frequency {K : Type*} [Field K] (bin : Int) (fft_size : Int) (sample_rate : K) : K :=
  (bin : K) * sample_rate / (fft_size : K)

/-- Body of the scan loop of `find_peaks` (`audio_spectrum.c`, lines 56-64) on the state
`(peaks, *num_peaks)`. -/
def find_peaks_scan_body {K : Type*} [LinearOrderedField K] (magnitude : Nat → K) (n : Int)
    (sample_rate : K) (i : Nat) (s : (Nat → peak_t K) × Nat) : (Nat → peak_t K) × Nat :=
  let threshold : K := 1 / 10
  if magnitude i > magnitude (i - 1) ∧ magnitude i > magnitude (i + 1) ∧
      magnitude i > threshold then
    (Function.update s.1 s.2
      { bin := (i : Int), frequency := bin_to_frequency (i : Int) n sample_rate,
        magnitude := magnitude i },
     s.2 + 1)
  else s

/-- Body of the inner loop of the bubble sort of `find_peaks` (`audio_spectrum.c`,
lines 70-74). -/
def find_peaks_sort_body {K : Type*} [LinearOrderedField K] (j : Nat)
    (peaks : Nat → peak_t K) : Nat → peak_t K :=
  if (peaks j).magnitude < (peaks (j + 1)).magnitude then
    let temp := peaks j
    let p1 := Function.update peaks j (peaks (j + 1))
    Function.update p1 (j + 1) temp
  else peaks

/-- The scan loop of `find_peaks` (`audio_spectrum.c`, lines 51-65) from the state
`(peaks, 0)`: `for (i = 1; i < n/2 - 1 && *num_peaks < max_peaks; i++)`.  The index
rises by one each time, so `n/2 - 1` iterations of fuel are enough. -/
def find_peaks_scan {K : Type*} [LinearOrderedField K] (magnitude : Nat → K) (n : Int)
    (sample_rate : K) (peaks : Nat → peak_t K) (max_peaks : Int) :
    (Nat → peak_t K) × Nat :=
  while_loop_go
    (fun i s => decide ((i : Int) < Int.tdiv n 2 - 1) && decide ((s.2 : Int) < max_peaks))
    (find_peaks_scan_body magnitude n sample_rate) (Int.tdiv n 2 - 1).toNat 1 (peaks, 0)

/-- The two nested sort loops of `find_peaks` (`audio_spectrum.c`, lines 68-76).  The
bounds `*num_peaks - 1` and `*num_peaks - i - 1` are compared with indices that start
at 0, where the truncated subtraction gives the same loop as the signed one. -/
def find_peaks_sort {K : Type*} [LinearOrderedField K] (peaks : Nat → peak_t K)
    (num_peaks : Nat) : Nat → peak_t K :=
  for_loop 0 (num_peaks - 1) 1
    (fun i p => for_loop 0 (num_peaks - i - 1) 1 find_peaks_sort_body p) peaks

/-- The function `find_peaks(magnitude, n, sample_rate, peaks, num_peaks, max_peaks)`;
the result is the array `peaks` and the counter `*num_peaks` as the call leaves them.
The counter starts at 0 and only grows, so it is a natural number. -/
def find_peaks {K : Type*} [LinearOrderedField K] (magnitude : Nat → K) (n : Int)
    (sample_rate : K) (peaks : Nat → peak_t K) (max_peaks : Int) :
    (Nat → peak_t K) × Nat :=
  let s1 := find_peaks_scan magnitude n sample_rate peaks max_peaks
  (find_peaks_sort s1.1 s1.2, s1.2)

/-! ## `pitch_detection.c` -/

/-- The value that a 32-bit C `int` holds for the mathematical result `z`:
two's-complement wraparound into `-2^31 .. 2^31 - 1`, the identity inside that range.  It
is what the compiled code computes when an `int` product overflows. -/
def int_wrap (z : Int) : Int := (z + 2147483648) % 4294967296 - 2147483648

/-- The C product `a * b` of two `int`s. -/
def int_mul (a b : Int) : Int := int_wrap (a * b)

/-- The C conversion `(int)x` of a `double`: truncation toward zero. -/
def c_trunc {K : Type*} [LinearOrderedField K] [FloorRing K] (x : K) : Int :=
  if 0 ≤ x then ⌊x⌋ else ⌈x⌉

/-- Worker of `for_loop_int`. -/
def for_loop_int_go {σ : Type*} (stop : Int) (body : Int → σ → σ) : Nat → Int → σ → σ
  | 0, _, s => s
  | fuel + 1, i, s =>
    if i < stop then for_loop_int_go stop body fuel (i + 1) (body i s) else s

/-- The C loop `for (i = start; i < stop; i++) body` with `int` bounds of either sign. -/
def for_loop_int {σ : Type*} (start stop : Int) (body : Int → σ → σ) (s : σ) : σ :=
  for_loop_int_go stop body (stop - start).toNat start s

/-- The search range of `detect_pitch_peak` (`pitch_detection.c`, lines 64-66):
`(min_bin, max_bin)`.  In `80 * n / sample_rate` the product is an `int` product, which is
then converted to `double` and divided. -/
def peak_search_range {K : Type*} [LinearOrderedField K] [FloorRing K] (n : Int)
    (sample_rate : K) : Int × Int :=
  let min_bin := c_trunc (((int_mul 80 n : Int) : K) / sample_rate)
  let max_bin := c_trunc (((int_mul 2000 n : Int) : K) / sample_rate)
  let max_bin := if max_bin > Int.tdiv n 2 then Int.tdiv n 2 else max_bin
  (min_bin, max_bin)

/-- The maximum search of `detect_pitch_peak` (`pitch_detection.c`, lines 68-76) on the
magnitude array: the final `(max_mag, peak_bin)`.  An array is read at the index
`i.toNat`; the C code has no defined behaviour for a negative index. -/
def peak_search {K : Type*} [LinearOrderedField K] [FloorRing K] (magnitude : Nat → K)
    (n : Int) (sample_rate : K) : K × Int :=
  let r := peak_search_range n sample_rate
  for_loop_int r.1 r.2
    (fun i s => if magnitude i.toNat > s.1 then (magnitude i.toNat, i) else s) (0, 0)

/-- The quadratic interpolation of `detect_pitch_peak` (`pitch_detection.c`, lines
79-86): the value of the `int` variable `peak_bin` after `peak_bin += delta`. -/
def peak_interpolate {K : Type*} [LinearOrderedField K] [FloorRing K] (magnitude : Nat → K)
    (n : Int) (peak_bin : Int) : Int :=
  if peak_bin > 0 ∧ peak_bin < Int.tdiv n 2 - 1 then
    let y1 := magnitude (peak_bin - 1).toNat
    let y2 := magnitude peak_bin.toNat
    let y3 := magnitude (peak_bin + 1).toNat
    let delta := (1 / 2 : K) * (y1 - y3) / (y1 - 2 * y2 + y3)
    c_trunc ((peak_bin : K) + delta)
  else peak_bin

/-- The function `detect_pitch_peak(spectrum, n, sample_rate)`.  `compute_magnitude` of
the absent `fft_common.h` is a parameter. -/
def detect_pitch_peak {C K : Type*} [LinearOrderedField K] [FloorRing K]
    (compute_magnitude : (Nat → C) → Int → (Nat → K)) (spectrum : Nat → C) (n : Int)
    (sample_rate : K) : K :=
  let magnitude := compute_magnitude spectrum n
  let peak_bin := (peak_search magnitude n sample_rate).2
  let peak_bin := peak_interpolate magnitude n peak_bin
  (peak_bin : K) * sample_rate / (n : K)


/-- Modelled from the spec: `compute_magnitude` of `fft_common.h`, which is not among
the sources; "produces a new sequence of length N where element i = sqrt(re²+im²) of
spectrum[i]". -/
noncomputable def compute_magnitude (spectrum : Nat → ℂ) (_n : Int) : Nat → ℝ :=
  fun i => Real.sqrt ((spectrum i).re ^ 2 + (spectrum i).im ^ 2)

/-! ## Concrete inputs used below -/

/-- A magnitude array with strict local maxima at bins 1 and 3. -/
def two_peak_magnitude : Nat → ℚ :=
  fun i => if i = 1 then 1 else if i = 3 then 2 else 0

/-- A peaks array filled with zero records. -/
def zero_peaks : Nat → peak_t ℚ :=
  fun _ => { frequency := 0, magnitude := 0, bin := 0 }

/-- A spectrum of length 8 with the real values 1, 4, 2 in bins 1, 2, 3 and 0 elsewhere. -/
def skewed_peak_spectrum : Nat → ℂ :=
  fun i => if i = 1 then 1 else if i = 2 then 4 else if i = 3 then 2 else 0

/-- The all-zero spectrum. -/
def zero_spectrum : Nat → ℂ := fun _ => 0

/-- The constant signal 1. -/
def constant_one_signal : Nat → ℂ := fun _ => 1

/-- The test tone `sin(2π·440·j/44100)`. -/
noncomputable def sine_440_signal : Nat → ℂ :=
  fun j => ((Real.sin (2 * Real.pi * 440 * j / 44100) : ℝ) : ℂ)

/-- The test tone at 220 Hz with harmonics at 440, 660 and 880 Hz of amplitudes 1.0, 0.5,
0.33 and 0.25, sampled at 44100 Hz. -/
noncomputable def harmonic_tone_signal : Nat → ℂ :=
  fun j => ((1.0 * Real.sin (2 * Real.pi * 220 * j / 44100) +
    0.5 * Real.sin (2 * Real.pi * 440 * j / 44100) +
    0.33 * Real.sin (2 * Real.pi * 660 * j / 44100) +
    0.25 * Real.sin (2 * Real.pi * 880 * j / 44100) : ℝ) : ℂ)

/-- The magnitude of a real-valued spectrum: the absolute value of each bin. -/
def abs_magnitude : (Nat → ℚ) → Int → (Nat → ℚ) := fun s _ i => |s i|


/-! ## `pitch_detection.c`: harmonic product spectrum -/

/-- The initialisation loop of `detect_pitch_hps` (`pitch_detection.c`, lines 114-116):
`for (i = 0; i <= n/2; i++) hps[i] = magnitude[i]`. -/
def hps_init {K : Type*} (magnitude : Nat → K) (n : Int) (hps : Nat → K) : Nat → K :=
  for_loop 0 (Int.tdiv n 2 + 1).toNat 1 (fun i y => Function.update y i (magnitude i)) hps

/-- The multiplication loops of `detect_pitch_hps` (`pitch_detection.c`, lines 119-123):
`for (h = 2; h <= harmonics; h++) for (i = 0; i <= n/(2*h); i++)
hps[i] *= magnitude[i * h]`.  The counter `h` starts at 2, so it is a natural number; it
stays inside the `int` range for `harmonics` below `INT_MAX`.  The products `2*h` and
`i * h` are `int` products. -/
def hps_multiply {K : Type*} [Field K] (magnitude : Nat → K) (n : Int) (harmonics : Int)
    (hps : Nat → K) : Nat → K :=
  for_loop 2 (harmonics + 1).toNat 1
    (fun h y => for_loop 0 (Int.tdiv n (int_mul 2 (h : Int)) + 1).toNat 1
      (fun i z => Function.update z i (z i * magnitude (int_mul (i : Int) (h : Int)).toNat))
      y) hps

/-- The search range of `detect_pitch_hps` (`pitch_detection.c`, lines 126-128):
`(min_bin, max_bin)`.  The products `80 * n`, `1000 * n` and `2*harmonics` are `int`
products; the first two are converted to `double` before the division. -/
def hps_search_range {K : Type*} [LinearOrderedField K] [FloorRing K] (n : Int)
    (sample_rate : K) (harmonics : Int) : Int × Int :=
  let min_bin := c_trunc (((int_mul 80 n : Int) : K) / sample_rate)
  let max_bin := c_trunc (((int_mul 1000 n : Int) : K) / sample_rate)
  let max_bin :=
    if max_bin > Int.tdiv n (int_mul 2 harmonics) then Int.tdiv n (int_mul 2 harmonics)
    else max_bin
  (min_bin, max_bin)

/-- The array `hps` that the search of `detect_pitch_hps` reads; `hps_alloc` is the
content of the array as `malloc` returns it. -/
def hps_array {K : Type*} [Field K] (magnitude : Nat → K) (n : Int) (harmonics : Int)
    (hps_alloc : Nat → K) : Nat → K :=
  hps_multiply magnitude n harmonics (hps_init magnitude n hps_alloc)

/-- The maximum search of `detect_pitch_hps` (`pitch_detection.c`, lines 130-138): the
final `(max_hps, peak_bin)`. -/
def hps_search {K : Type*} [LinearOrderedField K] [FloorRing K] (hps : Nat → K) (n : Int)
    (sample_rate : K) (harmonics : Int) : K × Int :=
  let r := hps_search_range n sample_rate harmonics
  for_loop_int r.1 r.2 (fun i s => if hps i.toNat > s.1 then (hps i.toNat, i) else s) (0, 0)

/-- The function `detect_pitch_hps(spectrum, n, sample_rate, harmonics)`.
`compute_magnitude` of the absent `fft_common.h` is a parameter. -/
def detect_pitch_hps {C K : Type*} [LinearOrderedField K] [FloorRing K]
    (compute_magnitude : (Nat → C) → Int → (Nat → K)) (hps_alloc : Nat → K)
    (spectrum : Nat → C) (n : Int) (sample_rate : K) (harmonics : Int) : K :=
  let magnitude := compute_magnitude spectrum n
  let hps := hps_array magnitude n harmonics hps_alloc
  let peak_bin := (hps_search hps n sample_rate harmonics).2
  (peak_bin : K) * sample_rate / (n : K)

/-! ## `pitch_detection.c`: autocorrelation -/

/-- The call `memcpy(dst, src, n * sizeof(complex_t))`: the first `n` elements of `dst`
become those of `src`. -/
def memcpy_complex {C : Type*} (dst src : Nat → C) (n : Int) : Nat → C :=
  fun i => if (i : Int) < n then src i else dst i

/-- The buffer `signal_copy` of `detect_pitch_autocorr` after lines 151-163 of
`pitch_detection.c` (copy, forward transform, power spectrum, inverse transform),
together with the outcome of the size checks of the two transforms and the caller's
array `signal` after these lines.  `alloc` is the content of the array that
`allocate_complex_array` (absent header) returns; `conj` is the C library function. -/
def autocorr_buffer {C : Type*} [Field C] (tw : Int → Int → fft_direction → C)
    (conj : C → C) (alloc signal : Nat → C) (n : Int) :
    Except fft_error Unit × (Nat → C) × (Nat → C) :=
  let signal_copy := memcpy_complex alloc signal n
  let r1 := radix2_dit_fft tw signal_copy n fft_direction.FFT_FORWARD
  match r1.1 with
  | Except.error e => (Except.error e, signal, r1.2)
  | Except.ok _ =>
    let power := for_loop 0 n.toNat 1 (fun i y => Function.update y i (y i * conj (y i))) r1.2
    let r2 := radix2_dit_fft tw power n fft_direction.FFT_INVERSE
    (r2.1, signal, r2.2)

/-- The search range of `detect_pitch_autocorr` (`pitch_detection.c`, lines 166-168):
`(min_lag, max_lag)`. -/
def autocorr_search_range {K : Type*} [LinearOrderedField K] [FloorRing K] (n : Int)
    (sample_rate : K) : Int × Int :=
  let min_lag := c_trunc (sample_rate / 1000)
  let max_lag := c_trunc (sample_rate / 80)
  let max_lag := if max_lag > Int.tdiv n 2 then Int.tdiv n 2 else max_lag
  (min_lag, max_lag)

/-- The maximum search of `detect_pitch_autocorr` (`pitch_detection.c`, lines 170-179)
over the real parts `corr` of the buffer: the final `(max_corr, peak_lag)`. -/
def autocorr_search {K : Type*} [LinearOrderedField K] [FloorRing K] (corr : Nat → K)
    (n : Int) (sample_rate : K) : K × Int :=
  let r := autocorr_search_range n sample_rate
  for_loop_int r.1 r.2 (fun lag s => if corr lag.toNat > s.1 then (corr lag.toNat, lag) else s)
    (0, 0)

/-- The function `detect_pitch_autocorr(signal, n, sample_rate)`.  The size check of
`radix2_dit_fft` is the macro `CHECK_POWER_OF_TWO` of the absent `fft_common.h`, which
aborts the operation for a size that is not a power of two; such a call ends without a
value.  `creal` is the C library function. -/
def detect_pitch_autocorr {C K : Type*} [Field C] [LinearOrderedField K] [FloorRing K]
    (tw : Int → Int → fft_direction → C) (conj : C → C) (creal : C → K)
    (alloc signal : Nat → C) (n : Int) (sample_rate : K) : Except fft_error K :=
  let r := autocorr_buffer tw conj alloc signal n
  match r.1 with
  | Except.error e => Except.error e
  | Except.ok _ =>
    let peak_lag := (autocorr_search (fun i => creal (r.2.2 i)) n sample_rate).2
    if peak_lag > 0 then Except.ok (sample_rate / (peak_lag : K))
    else Except.ok 0


/-! ## `pitch_detection.c`: note table and confidence -/

/-- The table `notes[]` of `pitch_detection.c` (lines 5-31): name and frequency of each
entry, in the order of the source. -/
def notes : List (String × ℚ) := [
  ("C0", 16.35), ("C#0", 17.32), ("D0", 18.35), ("D#0", 19.45),
  ("E0", 20.60), ("F0", 21.83), ("F#0", 23.12), ("G0", 24.50),
  ("G#0", 25.96), ("A0", 27.50), ("A#0", 29.14), ("B0", 30.87),
  ("C1", 32.70), ("C#1", 34.65), ("D1", 36.71), ("D#1", 38.89),
  ("E1", 41.20), ("F1", 43.65), ("F#1", 46.25), ("G1", 49.00),
  ("G#1", 51.91), ("A1", 55.00), ("A#1", 58.27), ("B1", 61.74),
  ("C2", 65.41), ("C#2", 69.30), ("D2", 73.42), ("D#2", 77.78),
  ("E2", 82.41), ("F2", 87.31), ("F#2", 92.50), ("G2", 98.00),
  ("G#2", 103.83), ("A2", 110.00), ("A#2", 116.54), ("B2", 123.47),
  ("C3", 130.81), ("C#3", 138.59), ("D3", 146.83), ("D#3", 155.56),
  ("E3", 164.81), ("F3", 174.61), ("F#3", 185.00), ("G3", 196.00),
  ("G#3", 207.65), ("A3", 220.00), ("A#3", 233.08), ("B3", 246.94),
  ("C4", 261.63), ("C#4", 277.18), ("D4", 293.66), ("D#4", 311.13),
  ("E4", 329.63), ("F4", 349.23), ("F#4", 369.99), ("G4", 392.00),
  ("G#4", 415.30), ("A4", 440.00), ("A#4", 466.16), ("B4", 493.88),
  ("C5", 523.25), ("C#5", 554.37), ("D5", 587.33), ("D#5", 622.25),
  ("E5", 659.25), ("F5", 698.46), ("F#5", 739.99), ("G5", 783.99),
  ("G#5", 830.61), ("A5", 880.00), ("A#5", 932.33), ("B5", 987.77),
  ("C6", 1046.50), ("C#6", 1108.73), ("D6", 1174.66), ("D#6", 1244.51),
  ("E6", 1318.51), ("F6", 1396.91), ("F#6", 1479.98), ("G6", 1567.98),
  ("G#6", 1661.22), ("A6", 1760.00), ("A#6", 1864.66), ("B6", 1975.53),
  ("C7", 2093.00), ("C#7", 2217.46), ("D7", 2349.32), ("D#7", 2489.02),
  ("E7", 2637.02), ("F7", 2793.83), ("F#7", 2959.96), ("G7", 3135.96),
  ("G#7", 3322.44), ("A7", 3520.00), ("A#7", 3729.31), ("B7", 3951.07),
  ("C8", 4186.01)
]

/-- The variable `num_notes = sizeof(notes) / sizeof(notes[0])`. -/
def num_notes : Nat := notes.length

/-- What `frequency_to_note_name` reports: the name of the chosen entry, whether the
"(in tune)" form is printed, and the value `min_cents` handed to the `"%+.0f cents"`
form (the rounding done by `snprintf` is not part of the model). -/
structure note_report (K : Type*) where
  name : String
  in_tune : Bool
  cents : K

/-- The state `(min_cents, closest_idx)` after the loop of `frequency_to_note_name`
(`pitch_detection.c`, lines 37-46).  `log2` is the C library function on positive
arguments.  For an argument that is zero or negative the C function gives `-inf` or NaN,
for which `fabs(cents) < fabs(min_cents)` is false and the state is kept: that is the
guard `0 < ratio`. -/
def closest_note {K : Type*} [LinearOrderedField K] (log2 : K → K) (freq : K) : K × Nat :=
  for_loop 0 num_notes 1
    (fun i s =>
      let ratio := freq / ((notes.getD i ("", 0)).2 : K)
      let cents := 1200 * log2 ratio
      if 0 < ratio ∧ |cents| < |s.1| then (cents, i) else s)
    (1200, 0)

/-- The function `frequency_to_note_name(freq)`. -/
def frequency_to_note_name {K : Type*} [LinearOrderedField K] (log2 : K → K) (freq : K) :
    note_report K :=
  let s := closest_note log2 freq
  let min_cents := s.1
  let closest_idx := s.2
  if |min_cents| < 1 then
    { name := (notes.getD closest_idx ("", 0)).1, in_tune := true, cents := min_cents }
  else
    { name := (notes.getD closest_idx ("", 0)).1, in_tune := false, cents := min_cents }

/-- The variable `avg_pitch` of `detect_pitch_with_confidence` (`pitch_detection.c`,
line 210). -/
def confidence_avg_pitch {K : Type*} [LinearOrderedField K] (pitch1 pitch2 pitch3 : K) : K :=
  (pitch1 + pitch2 + pitch3) / 3

/-- The variable `variance` of `detect_pitch_with_confidence` after `variance /= 3`
(`pitch_detection.c`, lines 211-214); `pow(x, 2)` is the square. -/
def confidence_variance {K : Type*} [LinearOrderedField K] (pitch1 pitch2 pitch3 : K) : K :=
  let avg_pitch := confidence_avg_pitch pitch1 pitch2 pitch3
  let variance := (pitch1 - avg_pitch) ^ 2 + (pitch2 - avg_pitch) ^ 2 +
    (pitch3 - avg_pitch) ^ 2
  variance / 3

/-- The confidence of `detect_pitch_with_confidence` (`pitch_detection.c`, line 216) as
a function of the three estimates; `sqrt` is the C library function. -/
def pitch_confidence {K : Type*} [LinearOrderedField K] (sqrt : K → K)
    (pitch1 pitch2 pitch3 : K) : K :=
  1 / (1 + sqrt (confidence_variance pitch1 pitch2 pitch3) /
    confidence_avg_pitch pitch1 pitch2 pitch3)

/-- The record `pitch_result_t` of `pitch_detection.h`. -/
structure pitch_result_t (K : Type*) where
  frequency : K
  confidence : K
  note : note_report K
  cents_off : K

/-- The function `detect_pitch_with_confidence(signal, n, sample_rate)`; a failed size
check ends the call without a value. -/
def detect_pitch_with_confidence {C K : Type*} [Field C] [LinearOrderedField K]
    [FloorRing K] (tw : Int → Int → fft_direction → C) (conj : C → C) (creal : C → K)
    (compute_magnitude : (Nat → C) → Int → (Nat → K)) (sqrt log2 : K → K)
    (alloc : Nat → C) (hps_alloc : Nat → K) (signal : Nat → C) (n : Int) (sample_rate : K) :
    Except fft_error (pitch_result_t K) :=
  let spectrum := memcpy_complex alloc signal n
  let r := radix2_dit_fft tw spectrum n fft_direction.FFT_FORWARD
  match r.1 with
  | Except.error e => Except.error e
  | Except.ok _ =>
    let spectrum := r.2
    let pitch1 := detect_pitch_peak compute_magnitude spectrum n sample_rate
    let pitch2 := detect_pitch_hps compute_magnitude hps_alloc spectrum n sample_rate 5
    match detect_pitch_autocorr tw conj creal alloc signal n sample_rate with
    | Except.error e => Except.error e
    | Except.ok pitch3 =>
      Except.ok
        { frequency := pitch2
          confidence := pitch_confidence sqrt pitch1 pitch2 pitch3
          note := frequency_to_note_name log2 pitch2
          cents_off := 0 }


/-! ## Reference quantities used in the statements -/

/-- Value at index `p` after one butterfly stage with twiddle `w` and half-size `half`,
written from the buffer `old` before the stage: the top element of a butterfly gets
`T + w^j * B`, the bottom element `T - w^j * B`. -/
def butterfly_stage {K : Type*} [Field K] (w : K) (half : Nat) (old : Nat → K) (p : Nat) : K :=
  if p % (2 * half) < half then old p + w ^ (p % (2 * half)) * old (p + half)
  else old (p - half) - w ^ (p % (2 * half) - half) * old p

/-- The discrete Fourier sum of length `2 ^ s` over the samples of `x` taken with stride
`2 ^ t` from offset `r`, evaluated at bin `q` with root `W`. -/
def sub_dft {K : Type*} [Field K] (W : K) (x : Nat → K) (s t r q : Nat) : K :=
  ∑ j in Finset.range (2 ^ s), x (j * 2 ^ t + r) * W ^ (j * q)

/-- The buffer of `radix2_dit_fft` after steps 1 and 2 (swap loop and all butterfly
stages), before the scaling of step 3. -/
def fft_unscaled {K : Type*} [Field K] (tw : Int → Int → fft_direction → K)
    (x : Nat → K) (n : Int) (dir : fft_direction) : Nat → K :=
  for_loop 1 (log2_int n + 1) 1 (fft_stage_body tw n.toNat dir)
    (for_loop 0 n.toNat 1 (bit_reversal_body (log2_int n)) x)

/-- The first `num` entries of a peaks array, as a list. -/
def peak_list {α : Type*} (peaks : Nat → α) (num : Nat) : List α :=
  (List.range num).map peaks

/-- Bin `i` is a strict local maximum of the magnitude array above the threshold 0.1. -/
def is_peak_bin {K : Type*} [LinearOrderedField K] (magnitude : Nat → K) (i : Nat) : Bool :=
  decide (magnitude i > magnitude (i - 1) ∧ magnitude i > magnitude (i + 1) ∧
    magnitude i > 1 / 10)

/-- The qualifying bins below `stop`, in ascending order: `1 ≤ i < stop` and
`is_peak_bin`. -/
def peak_bins_below {K : Type*} [LinearOrderedField K] (magnitude : Nat → K) (stop : Nat) :
    List Nat :=
  (List.range stop).filter (fun i => decide (1 ≤ i) && is_peak_bin magnitude i)

/-- The list `Q` of the qualifying bins `i` with `1 ≤ i ≤ n/2 - 2`, in ascending order. -/
def qualifying_bins {K : Type*} [LinearOrderedField K] (magnitude : Nat → K) (n : Int) :
    List Nat :=
  peak_bins_below magnitude (Int.tdiv n 2 - 1).toNat

/-- The record `(bin = i, frequency = i*sample_rate/n, magnitude = magnitude[i])`. -/
def peak_record {K : Type*} [LinearOrderedField K] (magnitude : Nat → K) (n : Int)
    (sample_rate : K) (i : Nat) : peak_t K :=
  { bin := (i : Int), frequency := (i : K) * sample_rate / (n : K), magnitude := magnitude i }

/-- The product `P(i)` of the magnitudes at the bins `i*h` for `h = 1 .. harmonics`. -/
def harmonic_product {K : Type*} [Field K] (magnitude : Nat → K) (harmonics : Int)
    (i : Nat) : K :=
  ∏ h in Finset.Icc 1 harmonics.toNat, magnitude (i * h)

/-- The circular autocorrelation `r[l] = Σ_{m<n} x[(m + l) mod n] * conj(x[m])`. -/
def circular_autocorrelation {C : Type*} [Field C] (conj : C → C) (x : Nat → C) (n l : Nat) : C :=
  ∑ m in Finset.range n, x ((m + l) % n) * conj (x m)

/-- The cents difference `1200 * log2(freq / f_note)` of `freq` to entry `i` of the
note table. -/
def note_cents {K : Type*} [LinearOrderedField K] (log2 : K → K) (freq : K) (i : Nat) : K :=
  1200 * log2 (freq / ((notes.getD i ("", 0)).2 : K))


/-! ## Further quantities of the sources used in the statements -/

/-- The buffer `signal_copy` of `detect_pitch_autocorr` after the power-spectrum loop
(`pitch_detection.c`, lines 150-158: copy, forward transform,
`signal_copy[i] = signal_copy[i] * conj(signal_copy[i])`), which is the array passed to
the inverse transform of line 161. -/
def autocorr_power {C : Type*} [Field C] (tw : Int → Int → fft_direction → C)
    (conj : C → C) (alloc signal : Nat → C) (n : Int) : Nat → C :=
  for_loop 0 n.toNat 1 (fun i y => Function.update y i (y i * conj (y i)))
    (radix2_dit_fft tw (memcpy_complex alloc signal n) n fft_direction.FFT_FORWARD).2

/-- The first loop of `radix2_dit_fft` (`radix2_dit.c`, lines 63-77) on the buffer `x`:
`log2n = log2_int(n)` and the swap loop over `i = 0 .. n-1`. -/
def bit_reversal_step {K : Type*} (x : Nat → K) (n : Int) : Nat → K :=
  for_loop 0 n.toNat 1 (bit_reversal_body (log2_int n)) x

/-! ## `detect_pitch_hps` with array bounds and divisors checked

The functions below repeat `detect_pitch_hps` statement by statement on `Option` states:
an array access outside `0 .. len-1` or a division by zero gives `none`, and `none` is
kept to the end.  The array `hps` has `n/2 + 1` elements (`malloc((n/2 + 1) *
sizeof(double))`); `mag_len` is the number of elements of the array that
`compute_magnitude` returns. -/

/-- The index `i` lies inside a C array of `len` elements. -/
def in_bounds (i len : Int) : Bool := decide (0 ≤ i ∧ i < len)

/-- The initialisation loop of `detect_pitch_hps` with the accesses `hps[i]` and
`magnitude[i]` checked. -/
def hps_init_checked {K : Type*} (magnitude : Nat → K) (mag_len n : Int) (hps : Nat → K) :
    Option (Nat → K) :=
  for_loop 0 (Int.tdiv n 2 + 1).toNat 1
    (fun i s => s.bind (fun y =>
      if in_bounds i (Int.tdiv n 2 + 1) && in_bounds i mag_len then
        some (Function.update y i (magnitude i))
      else none)) (some hps)

/-- The multiplication loops of `detect_pitch_hps` with the divisor `2*h` and the
accesses `hps[i]` and `magnitude[i * h]` checked. -/
def hps_multiply_checked {K : Type*} [Field K] (magnitude : Nat → K) (mag_len n : Int)
    (harmonics : Int) (hps : Option (Nat → K)) : Option (Nat → K) :=
  for_loop 2 (harmonics + 1).toNat 1
    (fun h s =>
      if int_mul 2 (h : Int) = 0 then none
      else for_loop 0 (Int.tdiv n (int_mul 2 (h : Int)) + 1).toNat 1
        (fun i t => t.bind (fun z =>
          if in_bounds i (Int.tdiv n 2 + 1) &&
              in_bounds (int_mul (i : Int) (h : Int)) mag_len then
            some (Function.update z i (z i * magnitude (int_mul (i : Int) (h : Int)).toNat))
          else none)) s) hps

/-- The search of `detect_pitch_hps` with the divisors `sample_rate` and `2*harmonics`
and the access `hps[i]` checked. -/
def hps_search_checked {K : Type*} [LinearOrderedField K] [FloorRing K] (hps : Nat → K)
    (n : Int) (sample_rate : K) (harmonics : Int) : Option (K × Int) :=
  if sample_rate = 0 ∨ int_mul 2 harmonics = 0 then none
  else
    let r := hps_search_range n sample_rate harmonics
    for_loop_int r.1 r.2
      (fun i s => s.bind (fun st =>
        if in_bounds i (Int.tdiv n 2 + 1) then
          some (if hps i.toNat > st.1 then (hps i.toNat, i) else st)
        else none)) (some (0, 0))

/-- The function `detect_pitch_hps` with every array access and every divisor checked;
the last divisor is `n` in `peak_bin * sample_rate / n`. -/
def detect_pitch_hps_checked {C K : Type*} [LinearOrderedField K] [FloorRing K]
    (compute_magnitude : (Nat → C) → Int → (Nat → K)) (mag_len : Int) (hps_alloc : Nat → K)
    (spectrum : Nat → C) (n : Int) (sample_rate : K) (harmonics : Int) : Option K :=
  let magnitude := compute_magnitude spectrum n
  (hps_multiply_checked magnitude mag_len n harmonics
    (hps_init_checked magnitude mag_len n hps_alloc)).bind (fun hps =>
      (hps_search_checked hps n sample_rate harmonics).bind (fun st =>
        if (n : K) = 0 then none else some ((st.2 : K) * sample_rate / (n : K))))

/-! ## The interpolation of `detect_pitch_peak` -/

/-- The denominator `y1 - 2*y2 + y3` of the interpolation of `detect_pitch_peak`
(`pitch_detection.c`, lines 80-84), with `y1`, `y2`, `y3` the magnitudes at
`peak_bin - 1`, `peak_bin`, `peak_bin + 1`. -/
def peak_denominator {K : Type*} [LinearOrderedField K] (magnitude : Nat → K)
    (peak_bin : Int) : K :=
  let y1 := magnitude (peak_bin - 1).toNat
  let y2 := magnitude peak_bin.toNat
  let y3 := magnitude (peak_bin + 1).toNat
  y1 - 2 * y2 + y3

/-- The variable `delta` of `detect_pitch_peak` (`pitch_detection.c`, line 84):
`0.5 * (y1 - y3) / (y1 - 2*y2 + y3)`. -/
def peak_delta {K : Type*} [LinearOrderedField K] (magnitude : Nat → K)
    (peak_bin : Int) : K :=
  let y1 := magnitude (peak_bin - 1).toNat
  let y2 := magnitude peak_bin.toNat
  let y3 := magnitude (peak_bin + 1).toNat
  (1 / 2 : K) * (y1 - y3) / (y1 - 2 * y2 + y3)

/-- A real-valued spectrum of length 8 that falls from bin 1 to bin 3: the values 3, 2, 1
in bins 1, 2, 3 and 0 elsewhere. -/
def falling_spectrum : Nat → ℚ :=
  fun i => if i = 1 then 3 else if i = 2 then 2 else if i = 3 then 1 else 0


/-! ## Auxiliary quantities for the spectrum of the 220 Hz tone with harmonics -/

/-- The sum of the first `n` powers of the point of angle `φ` on the unit circle. -/
noncomputable def unit_circle_sum (φ : ℝ) (n : Nat) : ℂ :=
  ∑ j in Finset.range n, Complex.exp ((φ : ℂ) * Complex.I) ^ j

/-- The upper bound `1/(p·x·(1 - (P·x)²/4))` of `1/sin(π·x)` and of `cot(π·x)` for
`0 < x ≤ 3/10`, with `p = 3.141592 < π < P = 3.141593`. -/
noncomputable def csc_pi_upper (x : ℝ) : ℝ :=
  1 / (3.141592 * x * (1 - (3.141593 * x) ^ 2 / 4))

/-- The lower bound `(1 - (P·x)²/2)/(P·x)` of `cot(π·x)` for `0 < x ≤ 3/10`, with
`P = 3.141593 > π`. -/
noncomputable def cot_pi_lower (x : ℝ) : ℝ :=
  (1 - (3.141593 * x) ^ 2 / 2) / (3.141593 * x)

/-- The number `m` is at most, and `M` at least, each of the four products of an end of
`[xl, xh]` with an end of `[yl, yh]`. -/
def interval_mul_ok (m M xl xh yl yh : ℝ) : Prop :=
  (m ≤ xl * yl ∧ m ≤ xl * yh ∧ m ≤ xh * yl ∧ m ≤ xh * yh) ∧
  (xl * yl ≤ M ∧ xl * yh ≤ M ∧ xh * yl ≤ M ∧ xh * yh ≤ M)

/-- The distance `|45056·t - 2205·k|` between bin `k` and the partial `220·t` Hz, in
units of `1/(2205·4096)` of the sample rate: `220·t/44100 - k/4096 =
(45056·t - 2205·k)/9031680`. -/
def tone_bin_distance (t k : Nat) : Nat := (45056 * t - 2205 * k) + (2205 * k - 45056 * t)

/-- Fixed-point upper bound, in thousandths, of `w/10⁷ · csc_pi_upper (d/9031680)`. -/
def csc_fixed (w d : Nat) : Nat :=
  w * (4 * 10 ^ 14 * 9031680 ^ 3) /
    (3141592 * d * (4 * 10 ^ 12 * 9031680 ^ 2 - 3141593 ^ 2 * d ^ 2)) + 1

/-- Fixed-point upper bound, in thousandths, of the magnitude of bin `k` of the spectrum
of the 220 Hz tone with harmonics, by the triangle inequality over the eight geometric
sums; the weights are `10⁷` times `amplitude · (bound on |sin(πν)|) / 2`. -/
def tone_leak_fixed (k : Nat) : Nat :=
  csc_fixed 4892000 (tone_bin_distance 1 k) + csc_fixed 4892000 (45056 * 1 + 2205 * k) +
  (csc_fixed 1014250 (tone_bin_distance 2 k) + csc_fixed 1014250 (45056 * 2 + 2205 * k)) +
  (csc_fixed 1337325 (tone_bin_distance 3 k) + csc_fixed 1337325 (45056 * 3 + 2205 * k)) +
  (csc_fixed 927125 (tone_bin_distance 4 k) + csc_fixed 927125 (45056 * 4 + 2205 * k))

/-- Upper bound, in thousandths, of the magnitude of bin `k` of the spectrum of the 220 Hz
tone with harmonics: the bins 30, 40 and 42 carry the bounds obtained with the phases of
the partials, every other bin the bound `tone_leak_fixed`. -/
def tone_bin_bound (k : Nat) : Nat :=
  if k = 30 then 45824 else if k = 40 then 153425 else if k = 42 then 116226
  else tone_leak_fixed k

/-! ## Loop rules -/

theorem for_loop_go_rule {σ : Type*} (stop step : Nat) (body : Nat → σ → σ)
    (P : Nat → σ → Prop) (hstep : 0 < step) (start c : Nat)
    (hstop : stop = start + c * step)
    (hbody : ∀ b s, b < c → P b s → P (b + 1) (body (start + b * step) s)) :
    ∀ (fuel b : Nat) (s : σ), b ≤ c → c - b ≤ fuel → P b s →
      P c (for_loop_go stop step body fuel (start + b * step) s) := by
  intro fuel
  induction fuel with
  | zero =>
    intro b s hb hfuel hP
    have hbc : b = c := by omega
    subst hbc
    simpa [for_loop_go] using hP
  | succ fuel ih =>
    intro b s hb hfuel hP
    rw [for_loop_go]
    by_cases hlt : b < c
    · have h1 : start + b * step < stop := by
        rw [hstop]
        have := Nat.mul_lt_mul_of_pos_right hlt hstep
        omega
      rw [if_pos h1]
      have h2 : start + b * step + step = start + (b + 1) * step := by ring
      rw [h2]
      exact ih (b + 1) _ hlt (by omega) (hbody b s hlt hP)
    · have hbc : b = c := by omega
      subst hbc
      have h1 : ¬ (start + b * step < stop) := by omega
      rw [if_neg h1]
      exact hP

/-- Hoare rule for a loop whose range is `c` whole steps. -/
theorem for_loop_rule {σ : Type*} (start stop step : Nat) (body : Nat → σ → σ)
    (P : Nat → σ → Prop) (hstep : 0 < step) (c : Nat)
    (hstop : stop = start + c * step) (s : σ) (h0 : P 0 s)
    (hbody : ∀ b s, b < c → P b s → P (b + 1) (body (start + b * step) s)) :
    P c (for_loop start stop step body s) := by
  have h := for_loop_go_rule stop step body P hstep start c hstop hbody
    (stop - start) 0 s (Nat.zero_le _) ?_ h0
  · simpa [for_loop] using h
  · rw [hstop]
    have : c * 1 ≤ c * step := Nat.mul_le_mul_left c hstep
    omega

/-- Hoare rule for a loop with unit step. -/
theorem for_loop_induction {σ : Type*} (start stop : Nat) (body : Nat → σ → σ)
    (P : Nat → σ → Prop) (hle : start ≤ stop) (s : σ) (h0 : P start s)
    (hbody : ∀ i s, start ≤ i → i < stop → P i s → P (i + 1) (body i s)) :
    P stop (for_loop start stop 1 body s) := by
  have h := for_loop_rule start stop 1 body (fun b s => P (start + b) s) Nat.one_pos
    (stop - start) (by omega) s (by simpa using h0) ?_
  · have e : start + (stop - start) = stop := by omega
    simpa [e] using h
  · intro b s hb hP
    have := hbody (start + b) s (by omega) (by omega) hP
    simpa [Nat.add_assoc] using this

/-! ## Bit reversal -/

theorem bit_reverse_lt (bits x : Nat) : bit_reverse x bits < 2 ^ bits := by
  induction bits generalizing x with
  | zero => simp [bit_reverse]
  | succ t ih =>
    rw [bit_reverse, pow_succ]
    have h1 := ih (x / 2)
    have h2 : x % 2 < 2 := Nat.mod_lt _ (by norm_num)
    have h3 : x % 2 * 2 ^ t ≤ 1 * 2 ^ t := Nat.mul_le_mul_right _ (by omega)
    omega

theorem bit_reverse_even (bits b : Nat) :
    bit_reverse (2 * b) (bits + 1) = bit_reverse b bits := by
  rw [bit_reverse]
  have h1 : 2 * b % 2 = 0 := by omega
  have h2 : 2 * b / 2 = b := by omega
  rw [h1, h2]; simp

theorem bit_reverse_odd (bits b : Nat) :
    bit_reverse (2 * b + 1) (bits + 1) = 2 ^ bits + bit_reverse b bits := by
  rw [bit_reverse]
  have h1 : (2 * b + 1) % 2 = 1 := by omega
  have h2 : (2 * b + 1) / 2 = b := by omega
  rw [h1, h2]; simp

/-- Reversal seen from the top bit. -/
theorem bit_reverse_high (bits x : Nat) (hx : x < 2 ^ (bits + 1)) :
    bit_reverse x (bits + 1) = 2 * bit_reverse (x % 2 ^ bits) bits + x / 2 ^ bits := by
  induction bits generalizing x with
  | zero =>
    simp [bit_reverse] at hx ⊢
    omega
  | succ t ih =>
    have hx2 : x / 2 < 2 ^ (t + 1) := by
      rw [pow_succ] at hx
      omega
    rw [bit_reverse, ih (x / 2) hx2]
    conv_rhs => rw [bit_reverse]
    have e1 : x % 2 ^ (t + 1) % 2 = x % 2 :=
      Nat.mod_mod_of_dvd x (Dvd.intro_left (2 ^ t) (by rw [pow_succ]))
    have e2 : x % 2 ^ (t + 1) / 2 = x / 2 % 2 ^ t := by
      rw [pow_succ, Nat.mul_comm (2 ^ t) 2, Nat.mod_mul_right_div_self]
    have e3 : x / 2 / 2 ^ t = x / 2 ^ (t + 1) := by
      rw [Nat.div_div_eq_div_mul, pow_succ, Nat.mul_comm]
    rw [e1, e2, e3]
    ring

theorem bit_reverse_involutive (bits x : Nat) (hx : x < 2 ^ bits) :
    bit_reverse (bit_reverse x bits) bits = x := by
  induction bits generalizing x with
  | zero =>
    simp at hx
    simp [bit_reverse, hx]
  | succ t ih =>
    have hx2 : x / 2 < 2 ^ t := by
      rw [pow_succ] at hx
      omega
    rw [bit_reverse_high t _ (bit_reverse_lt _ _)]
    have hr := bit_reverse_lt t (x / 2)
    have hb : x % 2 < 2 := Nat.mod_lt _ (by norm_num)
    have e1 : bit_reverse x (t + 1) % 2 ^ t = bit_reverse (x / 2) t := by
      rw [bit_reverse, Nat.mul_add_mod_of_lt hr]
    have e2 : bit_reverse x (t + 1) / 2 ^ t = x % 2 := by
      rw [bit_reverse, Nat.add_comm, Nat.add_mul_div_right _ _ (by positivity),
        Nat.div_eq_of_lt hr]
      simp
    rw [e1, e2, ih _ hx2]
    omega


/-- Step 1 of `radix2_dit_fft`: the swap loop leaves the bit-reversed reordering of the
first `2 ^ bits` elements and touches nothing else. -/
theorem bit_reversal_loop_apply {K : Type*} (bits : Nat) (x : Nat → K) (p : Nat) :
    for_loop 0 (2 ^ bits) 1 (bit_reversal_body bits) x p =
      if p < 2 ^ bits then x (bit_reverse p bits) else x p := by
  have key := for_loop_induction 0 (2 ^ bits) (bit_reversal_body bits)
    (fun i cur => ∀ p, cur p =
      if p < 2 ^ bits ∧ (p < i ∨ bit_reverse p bits < i) then x (bit_reverse p bits) else x p)
    (Nat.zero_le _) x (by intro p; simp) ?_
  · rw [key p]
    by_cases hp : p < 2 ^ bits
    · simp [hp]
    · simp [hp]
  · intro i cur _ hi hcur p
    have hinv := bit_reverse_involutive bits
    have hlt := bit_reverse_lt bits
    have hci : cur i = if bit_reverse i bits < i then x (bit_reverse i bits) else x i := by
      rw [hcur i]
      by_cases h : bit_reverse i bits < i
      · simp [h, hi]
      · simp [h]
    unfold bit_reversal_body
    by_cases hij : i < bit_reverse i bits
    · simp only [hij, if_true]
      have hcj : cur (bit_reverse i bits) = x (bit_reverse i bits) := by
        rw [hcur]
        rw [hinv i hi]
        have : ¬ (bit_reverse i bits < 2 ^ bits ∧ (bit_reverse i bits < i ∨ i < i)) := by
          omega
        rw [if_neg this]
      have hci2 : cur i = x i := by
        rw [hci, if_neg (by omega)]
      rw [Function.update_apply, Function.update_apply]
      by_cases hpj : p = bit_reverse i bits
      · subst hpj
        rw [if_pos rfl, hci2, hinv i hi]
        have : bit_reverse i bits < 2 ^ bits ∧
            (bit_reverse i bits < i + 1 ∨ i < i + 1) := ⟨hlt i, Or.inr (by omega)⟩
        rw [if_pos this]
      · rw [if_neg hpj]
        by_cases hpi : p = i
        · subst hpi
          rw [if_pos rfl, hcj]
          have : p < 2 ^ bits ∧ (p < p + 1 ∨ bit_reverse p bits < p + 1) :=
            ⟨hi, Or.inl (by omega)⟩
          rw [if_pos this]
        · rw [if_neg hpi, hcur p]
          by_cases hp : p < 2 ^ bits
          · have hne : bit_reverse p bits ≠ i := by
              intro h
              apply hpj
              rw [← h, hinv p hp]
            have e : (p < 2 ^ bits ∧ (p < i ∨ bit_reverse p bits < i)) ↔
                (p < 2 ^ bits ∧ (p < i + 1 ∨ bit_reverse p bits < i + 1)) := by
              constructor
              · rintro ⟨h1, h2⟩; exact ⟨h1, by omega⟩
              · rintro ⟨h1, h2⟩; exact ⟨h1, by omega⟩
            simp only [e]
          · simp [hp]
    · simp only [hij, if_false]
      rw [hcur p]
      by_cases hp : p < 2 ^ bits
      · by_cases hpi : p = i
        · subst hpi
          have h1 : p < 2 ^ bits ∧ (p < p + 1 ∨ bit_reverse p bits < p + 1) :=
            ⟨hp, Or.inl (by omega)⟩
          rw [if_pos h1]
          by_cases h2 : bit_reverse p bits < p
          · rw [if_pos ⟨hp, Or.inr h2⟩]
          · have h3 : bit_reverse p bits = p := by omega
            rw [h3]; simp
        · by_cases hri : bit_reverse p bits = i
          · have hpr : p = bit_reverse i bits := by rw [← hri, hinv p hp]
            have h1 : p < 2 ^ bits ∧ (p < i + 1 ∨ bit_reverse p bits < i + 1) :=
              ⟨hp, Or.inl (by omega)⟩
            have h2 : p < 2 ^ bits ∧ (p < i ∨ bit_reverse p bits < i) :=
              ⟨hp, Or.inl (by omega)⟩
            rw [if_pos h1, if_pos h2]
          · have e : (p < 2 ^ bits ∧ (p < i ∨ bit_reverse p bits < i)) ↔
                (p < 2 ^ bits ∧ (p < i + 1 ∨ bit_reverse p bits < i + 1)) := by
              constructor
              · rintro ⟨h1, h2⟩; exact ⟨h1, by omega⟩
              · rintro ⟨h1, h2⟩; exact ⟨h1, by omega⟩
            simp only [e]
      · simp [hp]


/-! ## One butterfly stage -/

/-- The `j` loop of one block starting at `k`. -/
theorem butterfly_loop_apply {K : Type*} [Field K] (w_m : K) (k half : Nat) (x : Nat → K) :
    (for_loop 0 half 1 (butterfly_body w_m k half) (x, (1 : K))).2 = w_m ^ half ∧
    ∀ p, (for_loop 0 half 1 (butterfly_body w_m k half) (x, (1 : K))).1 p =
      if k ≤ p ∧ p < k + half then x p + w_m ^ (p - k) * x (p + half)
      else if k + half ≤ p ∧ p < k + half + half then
        x (p - half) - w_m ^ (p - k - half) * x p
      else x p := by
  refine for_loop_induction 0 half (butterfly_body w_m k half)
    (fun j s => s.2 = w_m ^ j ∧ ∀ p, s.1 p =
      if k ≤ p ∧ p < k + j then x p + w_m ^ (p - k) * x (p + half)
      else if k + half ≤ p ∧ p < k + half + j then
        x (p - half) - w_m ^ (p - k - half) * x p
      else x p)
    (Nat.zero_le _) (x, 1) ⟨by simp, ?_⟩ ?_
  · intro p
    have h1 : ¬ (k ≤ p ∧ p < k + 0) := by omega
    have h2 : ¬ (k + half ≤ p ∧ p < k + half + 0) := by omega
    simp only [h1, h2, if_false]
  · rintro j ⟨cur, w⟩ _ hj ⟨hw, hcur⟩
    simp only at hw hcur
    subst hw
    have ht : cur (k + j) = x (k + j) := by
      rw [hcur]
      rw [if_neg (by omega), if_neg (by omega)]
    have hu : cur (k + j + half) = x (k + j + half) := by
      rw [hcur]
      rw [if_neg (by omega), if_neg (by omega)]
    refine ⟨by simp [butterfly_body, pow_succ], ?_⟩
    intro p
    simp only [butterfly_body]
    rw [Function.update_apply]
    by_cases hpt : p = k + j
    · subst hpt
      rw [if_pos rfl, Function.update_apply, if_neg (by omega), ht, hu,
        if_pos (by omega)]
      have : k + j - k = j := by omega
      rw [this]; ring
    · rw [if_neg hpt, Function.update_apply]
      by_cases hpu : p = k + j + half
      · subst hpu
        rw [if_pos rfl, ht, hu, if_neg (by omega), if_pos (by omega)]
        have e1 : k + j + half - half = k + j := by omega
        have e2 : k + j + half - k - half = j := by omega
        rw [e1, e2]; ring
      · rw [if_neg hpu, hcur p]
        have eA : (k ≤ p ∧ p < k + (j + 1)) ↔ (k ≤ p ∧ p < k + j) := by omega
        have eB : (k + half ≤ p ∧ p < k + half + (j + 1)) ↔
            (k + half ≤ p ∧ p < k + half + j) := by omega
        simp only [eA, eB]

theorem mod_of_block (b m p : Nat) (h1 : b * m ≤ p) (h2 : p < b * m + m) :
    p % m = p - b * m := by
  obtain ⟨r, rfl⟩ : ∃ r, p = b * m + r := ⟨p - b * m, by omega⟩
  rw [Nat.add_sub_cancel_left, Nat.mul_add_mod_of_lt (by omega)]

/-- The `k` loop of one stage: every block of size `2 * half` below `c * (2 * half)`
is replaced by its butterflies, the rest of the buffer is untouched. -/
theorem stage_loop_apply {K : Type*} [Field K] (w_m : K) (half c : Nat) (hhalf : 0 < half)
    (x : Nat → K) (p : Nat) :
    for_loop 0 (c * (2 * half)) (2 * half) (fun k y =>
      (for_loop 0 half 1 (butterfly_body w_m k half) (y, (1 : K))).1) x p =
      if p < c * (2 * half) then butterfly_stage w_m half x p else x p := by
  have key := for_loop_rule 0 (c * (2 * half)) (2 * half) (fun k y =>
      (for_loop 0 half 1 (butterfly_body w_m k half) (y, (1 : K))).1)
    (fun b cur => ∀ p, cur p =
      if p < b * (2 * half) then butterfly_stage w_m half x p else x p)
    (by omega) c (by simp) x (by intro p; simp) ?_
  · exact key p
  · intro b cur _ hcur p
    simp only [Nat.zero_add]
    rw [(butterfly_loop_apply w_m (b * (2 * half)) half cur).2 p]
    have hsucc : (b + 1) * (2 * half) = b * (2 * half) + 2 * half := by ring
    rw [hsucc]
    generalize hk : b * (2 * half) = k at *
    by_cases h1 : k ≤ p ∧ p < k + half
    · have hm : p % (2 * half) = p - k := by
        rw [← hk]; apply mod_of_block <;> omega
      rw [if_pos h1, hcur p, if_neg (by omega), hcur (p + half), if_neg (by omega),
        if_pos (by omega)]
      unfold butterfly_stage
      rw [hm, if_pos (by omega)]
    · rw [if_neg h1]
      by_cases h2 : k + half ≤ p ∧ p < k + half + half
      · have hm : p % (2 * half) = p - k := by
          rw [← hk]; apply mod_of_block <;> omega
        rw [if_pos h2, hcur p, if_neg (by omega), hcur (p - half), if_neg (by omega),
          if_pos (by omega)]
        unfold butterfly_stage
        rw [hm, if_neg (by omega)]
      · rw [if_neg h2, hcur p]
        by_cases h3 : p < k
        · rw [if_pos h3, if_pos (by omega)]
        · rw [if_neg h3, if_neg (by omega)]


/-! ## Danielson-Lanczos recombination -/

theorem sum_range_even_odd {M : Type*} [AddCommMonoid M] (f : Nat → M) (N : Nat) :
    ∑ j in Finset.range (2 * N), f j =
      ∑ j in Finset.range N, f (2 * j) + ∑ j in Finset.range N, f (2 * j + 1) := by
  induction N with
  | zero => simp
  | succ N ih =>
    have e : 2 * (N + 1) = 2 * N + 1 + 1 := by ring
    rw [e, Finset.sum_range_succ, Finset.sum_range_succ, ih, Finset.sum_range_succ,
      Finset.sum_range_succ]
    abel

theorem sub_dft_step_low {K : Type*} [Field K] (W1 W0 : K) (hsq : W1 ^ 2 = W0)
    (x : Nat → K) (s t r q : Nat) :
    sub_dft W1 x (s + 1) t r q =
      sub_dft W0 x s (t + 1) r q + W1 ^ q * sub_dft W0 x s (t + 1) (2 ^ t + r) q := by
  unfold sub_dft
  have e : 2 ^ (s + 1) = 2 * 2 ^ s := by ring
  rw [e, sum_range_even_odd, Finset.mul_sum]
  congr 1
  · apply Finset.sum_congr rfl
    intro j _
    have i1 : 2 * j * 2 ^ t + r = j * 2 ^ (t + 1) + r := by ring
    rw [i1, ← hsq, ← pow_mul]
    congr 2
    ring
  · apply Finset.sum_congr rfl
    intro j _
    have i1 : (2 * j + 1) * 2 ^ t + r = j * 2 ^ (t + 1) + (2 ^ t + r) := by ring
    rw [i1, ← hsq, ← pow_mul]
    have i2 : (2 * j + 1) * q = q + 2 * (j * q) := by ring
    rw [i2, pow_add W1]
    ring

theorem sub_dft_step_high {K : Type*} [Field K] (W1 W0 : K) (hsq : W1 ^ 2 = W0)
    (s : Nat) (hneg : W1 ^ (2 ^ s) = -1) (x : Nat → K) (t r q : Nat) :
    sub_dft W1 x (s + 1) t r (q + 2 ^ s) =
      sub_dft W0 x s (t + 1) r q - W1 ^ q * sub_dft W0 x s (t + 1) (2 ^ t + r) q := by
  unfold sub_dft
  have e : 2 ^ (s + 1) = 2 * 2 ^ s := by ring
  have hone : ∀ j : Nat, W1 ^ (2 * j * 2 ^ s) = 1 := by
    intro j
    have : 2 * j * 2 ^ s = 2 ^ s * (2 * j) := by ring
    rw [this, pow_mul, hneg, pow_mul]
    simp
  rw [e, sum_range_even_odd, Finset.mul_sum, sub_eq_add_neg, ← Finset.sum_neg_distrib]
  congr 1
  · apply Finset.sum_congr rfl
    intro j _
    have i1 : 2 * j * 2 ^ t + r = j * 2 ^ (t + 1) + r := by ring
    have i2 : 2 * j * (q + 2 ^ s) = 2 * (j * q) + 2 * j * 2 ^ s := by ring
    rw [i1, i2, pow_add W1, hone, ← hsq, ← pow_mul]
    ring
  · apply Finset.sum_congr rfl
    intro j _
    have i1 : (2 * j + 1) * 2 ^ t + r = j * 2 ^ (t + 1) + (2 ^ t + r) := by ring
    have i2 : (2 * j + 1) * (q + 2 ^ s) = 2 * (j * q) + 2 * j * 2 ^ s + q + 2 ^ s := by ring
    rw [i1, i2, pow_add W1, pow_add W1, pow_add W1, hone, hneg, ← hsq, ← pow_mul]
    ring


/-! ## The stage loop -/

theorem fft_stage_body_apply {K : Type*} [Field K] (tw : Int → Int → fft_direction → K)
    (n : Nat) (dir : fft_direction) (s c : Nat) (hn : n = c * (2 * 2 ^ s))
    (x : Nat → K) (p : Nat) :
    fft_stage_body tw n dir (s + 1) x p =
      if p < n then butterfly_stage (tw 1 ((2 ^ (s + 1) : Nat) : Int) dir) (2 ^ s) x p
      else x p := by
  have hm : 1 <<< (s + 1) = 2 * 2 ^ s := by rw [Nat.one_shiftLeft]; ring
  have hh : (2 * 2 ^ s) >>> 1 = 2 ^ s := by rw [Nat.shiftRight_eq_div_pow]; simp
  have hp : (2 : Nat) ^ (s + 1) = 2 * 2 ^ s := by ring
  unfold fft_stage_body
  simp only [hm, hh, hp, hn]
  exact stage_loop_apply _ (2 ^ s) c (by positivity) x p

/-- The buffer after the swap loop and the first `s` butterfly stages: block `b` of
size `2 ^ s` holds the transform of the samples of stride `2 ^ t` at offset
`bit_reverse b t`, where `s + t = bits`. -/
theorem stage_loop_invariant {K : Type*} [Field K] (tw : Int → Int → fft_direction → K)
    (dir : fft_direction) (bits : Nat)
    (hsq : ∀ s, s < bits →
      tw 1 ((2 ^ (s + 1) : Nat) : Int) dir ^ 2 = tw 1 ((2 ^ s : Nat) : Int) dir)
    (hneg : ∀ s, s < bits → tw 1 ((2 ^ (s + 1) : Nat) : Int) dir ^ (2 ^ s) = -1)
    (x : Nat → K) (s : Nat) (hs : s ≤ bits) :
    (∀ t, s + t = bits → ∀ b, b < 2 ^ t → ∀ q, q < 2 ^ s →
      for_loop 1 (s + 1) 1 (fft_stage_body tw (2 ^ bits) dir)
          (for_loop 0 (2 ^ bits) 1 (bit_reversal_body bits) x) (b * 2 ^ s + q) =
        sub_dft (tw 1 ((2 ^ s : Nat) : Int) dir) x s t (bit_reverse b t) q) ∧
    (∀ p, 2 ^ bits ≤ p →
      for_loop 1 (s + 1) 1 (fft_stage_body tw (2 ^ bits) dir)
          (for_loop 0 (2 ^ bits) 1 (bit_reversal_body bits) x) p = x p) := by
  have key := for_loop_induction 1 (s + 1) (fft_stage_body tw (2 ^ bits) dir)
    (fun i buf => i ≤ bits + 1 ∧
      (∀ t, (i - 1) + t = bits → ∀ b, b < 2 ^ t → ∀ q, q < 2 ^ (i - 1) →
        buf (b * 2 ^ (i - 1) + q) =
          sub_dft (tw 1 ((2 ^ (i - 1) : Nat) : Int) dir) x (i - 1) t (bit_reverse b t) q) ∧
      (∀ p, 2 ^ bits ≤ p → buf p = x p))
    (by omega) (for_loop 0 (2 ^ bits) 1 (bit_reversal_body bits) x) ?_ ?_
  · simpa using key.2
  · refine ⟨by omega, ?_, ?_⟩
    · intro t ht b hb q hq
      simp only [Nat.sub_self, Nat.zero_add, pow_zero, Nat.lt_one_iff] at ht hq ⊢
      subst ht hq
      rw [bit_reversal_loop_apply]
      simp [sub_dft, hb]
    · intro p hp
      rw [bit_reversal_loop_apply, if_neg (by omega)]
  · intro i buf hi1 hi2 ⟨_, hblk, hout⟩
    obtain ⟨s', rfl⟩ : ∃ s', i = s' + 1 := ⟨i - 1, by omega⟩
    simp only [Nat.add_sub_cancel] at hblk ⊢
    have hs' : s' < bits := by omega
    obtain ⟨t', ht'⟩ : ∃ t', s' + 1 + t' = bits := ⟨bits - (s' + 1), by omega⟩
    have hn : 2 ^ bits = 2 ^ t' * (2 * 2 ^ s') := by
      rw [← ht']; ring
    refine ⟨by omega, ?_, ?_⟩
    · intro t ht b hb q hq
      have htt : t = t' := by omega
      subst htt
      have hplt : b * 2 ^ (s' + 1) + q < 2 ^ bits := by
        rw [hn]
        have h2 : 2 ^ (s' + 1) = 2 * 2 ^ s' := by ring
        rw [h2] at hq ⊢
        calc b * (2 * 2 ^ s') + q < b * (2 * 2 ^ s') + 2 * 2 ^ s' := by omega
          _ = (b + 1) * (2 * 2 ^ s') := by ring
          _ ≤ 2 ^ t * (2 * 2 ^ s') := Nat.mul_le_mul_right _ hb
      rw [fft_stage_body_apply tw (2 ^ bits) dir s' (2 ^ t) hn, if_pos hplt]
      have hmod : (b * 2 ^ (s' + 1) + q) % (2 * 2 ^ s') = q := by
        have h2 : 2 ^ (s' + 1) = 2 * 2 ^ s' := by ring
        rw [h2] at hq ⊢
        rw [Nat.mul_add_mod_of_lt hq]
      have hst : s' + (t + 1) = bits := by omega
      have hb0 : 2 * b < 2 ^ (t + 1) := by rw [pow_succ]; omega
      have hb1 : 2 * b + 1 < 2 ^ (t + 1) := by rw [pow_succ]; omega
      unfold butterfly_stage
      rw [hmod]
      by_cases hlow : q < 2 ^ s'
      · rw [if_pos hlow]
        have e0 : b * 2 ^ (s' + 1) + q = (2 * b) * 2 ^ s' + q := by ring
        have e1 : b * 2 ^ (s' + 1) + q + 2 ^ s' = (2 * b + 1) * 2 ^ s' + q := by ring
        rw [e1, e0, hblk (t + 1) hst (2 * b) hb0 q hlow,
          hblk (t + 1) hst (2 * b + 1) hb1 q hlow, bit_reverse_even, bit_reverse_odd]
        exact (sub_dft_step_low _ _ (hsq s' hs') x s' t _ q).symm
      · rw [if_neg hlow]
        obtain ⟨q0, rfl⟩ : ∃ q0, q = q0 + 2 ^ s' := ⟨q - 2 ^ s', by omega⟩
        have hq0 : q0 < 2 ^ s' := by
          rw [pow_succ] at hq; omega
        have e0 : b * 2 ^ (s' + 1) + (q0 + 2 ^ s') - 2 ^ s' = (2 * b) * 2 ^ s' + q0 := by
          rw [← Nat.add_assoc, Nat.add_sub_cancel]; ring
        have e1 : b * 2 ^ (s' + 1) + (q0 + 2 ^ s') = (2 * b + 1) * 2 ^ s' + q0 := by ring
        rw [e0, e1, Nat.add_sub_cancel, hblk (t + 1) hst (2 * b) hb0 q0 hq0,
          hblk (t + 1) hst (2 * b + 1) hb1 q0 hq0, bit_reverse_even, bit_reverse_odd]
        exact (sub_dft_step_high _ _ (hsq s' hs') s' (hneg s' hs') x t _ q0).symm
    · intro p hp
      rw [fft_stage_body_apply tw (2 ^ bits) dir s' (2 ^ t') hn, if_neg (by omega)]
      exact hout p hp

/-- The buffer after the swap loop and all `bits` stages is the Fourier sum with the
root `tw 1 n dir`; elements from index `n = 2 ^ bits` on are untouched. -/
theorem stage_loop_dft {K : Type*} [Field K] (tw : Int → Int → fft_direction → K)
    (dir : fft_direction) (bits : Nat)
    (hsq : ∀ s, s < bits →
      tw 1 ((2 ^ (s + 1) : Nat) : Int) dir ^ 2 = tw 1 ((2 ^ s : Nat) : Int) dir)
    (hneg : ∀ s, s < bits → tw 1 ((2 ^ (s + 1) : Nat) : Int) dir ^ (2 ^ s) = -1)
    (x : Nat → K) (p : Nat) :
    for_loop 1 (bits + 1) 1 (fft_stage_body tw (2 ^ bits) dir)
        (for_loop 0 (2 ^ bits) 1 (bit_reversal_body bits) x) p =
      if p < 2 ^ bits then
        ∑ j in Finset.range (2 ^ bits), x j * tw 1 ((2 ^ bits : Nat) : Int) dir ^ (j * p)
      else x p := by
  have h := stage_loop_invariant tw dir bits hsq hneg x bits le_rfl
  by_cases hp : p < 2 ^ bits
  · rw [if_pos hp]
    have := h.1 0 (by omega) 0 (by simp) p hp
    simp only [Nat.zero_mul, Nat.zero_add] at this
    rw [this]
    simp [sub_dft, bit_reverse]
  · rw [if_neg hp]
    exact h.2 p (by omega)


/-! ## The whole transform -/

theorem is_power_of_two_iff (n : Int) : is_power_of_two n = true ↔ ∃ k : Nat, n = 2 ^ k := by
  unfold is_power_of_two
  rw [decide_eq_true_iff]
  constructor
  · rintro ⟨hpos, h⟩
    refine ⟨Nat.log 2 n.toNat, ?_⟩
    have h1 : ((n.toNat : Nat) : Int) = n := Int.toNat_of_nonneg hpos.le
    have h2 : ((2 ^ Nat.log 2 n.toNat : Nat) : Int) = n := by rw [h, h1]
    exact_mod_cast h2.symm
  · rintro ⟨k, rfl⟩
    have h1 : ((2 : Int) ^ k).toNat = 2 ^ k := by
      have : ((2 : Int) ^ k) = ((2 ^ k : Nat) : Int) := by push_cast; rfl
      rw [this, Int.toNat_natCast]
    refine ⟨by positivity, ?_⟩
    rw [h1, Nat.log_pow (by norm_num)]

theorem toNat_two_pow (k : Nat) : ((2 : Int) ^ k).toNat = 2 ^ k := by
  have : ((2 : Int) ^ k) = ((2 ^ k : Nat) : Int) := by push_cast; rfl
  rw [this, Int.toNat_natCast]

theorem log2_int_two_pow (k : Nat) : log2_int ((2 : Int) ^ k) = k := by
  unfold log2_int
  rw [toNat_two_pow, Nat.log_pow (by norm_num)]

/-- Step 3 of `radix2_dit_fft`: the scaling loop divides each of the first `n` elements
once. -/
theorem scale_loop_apply {K : Type*} [Field K] (n : Nat) (c : K) (x : Nat → K) (p : Nat) :
    for_loop 0 n 1 (fun i y => Function.update y i (y i / c)) x p =
      if p < n then x p / c else x p := by
  have key := for_loop_induction 0 n (fun i y => Function.update y i (y i / c))
    (fun i cur => ∀ p, cur p = if p < i then x p / c else x p)
    (Nat.zero_le _) x (by intro p; simp) ?_
  · exact key p
  · intro i cur _ _ hcur p
    show Function.update cur i (cur i / c) p = _
    rw [Function.update_apply]
    by_cases hpi : p = i
    · subst hpi
      rw [if_pos rfl, hcur p, if_neg (by omega), if_pos (by omega)]
    · rw [if_neg hpi, hcur p]
      by_cases h : p < i
      · rw [if_pos h, if_pos (by omega)]
      · rw [if_neg h, if_neg (by omega)]

/-- For a power-of-two size the call succeeds. -/
theorem radix2_dit_fft_ok {K : Type*} [Field K] (tw : Int → Int → fft_direction → K)
    (x : Nat → K) (k : Nat) (dir : fft_direction) :
    (radix2_dit_fft tw x ((2 : Int) ^ k) dir).1 = Except.ok () := by
  have h : is_power_of_two ((2 : Int) ^ k) = true := (is_power_of_two_iff _).2 ⟨k, rfl⟩
  simp [radix2_dit_fft, h]

/-- The buffer a forward call leaves, for any twiddle function with the two root
properties. -/
theorem radix2_dit_fft_forward_apply {K : Type*} [Field K]
    (tw : Int → Int → fft_direction → K) (k : Nat)
    (hsq : ∀ s, s < k → tw 1 ((2 ^ (s + 1) : Nat) : Int) fft_direction.FFT_FORWARD ^ 2 =
      tw 1 ((2 ^ s : Nat) : Int) fft_direction.FFT_FORWARD)
    (hneg : ∀ s, s < k →
      tw 1 ((2 ^ (s + 1) : Nat) : Int) fft_direction.FFT_FORWARD ^ (2 ^ s) = -1)
    (x : Nat → K) (p : Nat) :
    (radix2_dit_fft tw x ((2 : Int) ^ k) fft_direction.FFT_FORWARD).2 p =
      if p < 2 ^ k then
        ∑ j in Finset.range (2 ^ k),
          x j * tw 1 ((2 ^ k : Nat) : Int) fft_direction.FFT_FORWARD ^ (j * p)
      else x p := by
  have h : is_power_of_two ((2 : Int) ^ k) = true := (is_power_of_two_iff _).2 ⟨k, rfl⟩
  simp only [radix2_dit_fft, h, log2_int_two_pow, toNat_two_pow]
  simp only [Bool.true_eq_false, if_false, reduceCtorEq]
  exact stage_loop_dft tw _ k hsq hneg x p

/-- The buffer an inverse call leaves, for any twiddle function with the two root
properties. -/
theorem radix2_dit_fft_inverse_apply {K : Type*} [Field K]
    (tw : Int → Int → fft_direction → K) (k : Nat)
    (hsq : ∀ s, s < k → tw 1 ((2 ^ (s + 1) : Nat) : Int) fft_direction.FFT_INVERSE ^ 2 =
      tw 1 ((2 ^ s : Nat) : Int) fft_direction.FFT_INVERSE)
    (hneg : ∀ s, s < k →
      tw 1 ((2 ^ (s + 1) : Nat) : Int) fft_direction.FFT_INVERSE ^ (2 ^ s) = -1)
    (x : Nat → K) (p : Nat) :
    (radix2_dit_fft tw x ((2 : Int) ^ k) fft_direction.FFT_INVERSE).2 p =
      if p < 2 ^ k then
        (∑ j in Finset.range (2 ^ k),
          x j * tw 1 ((2 ^ k : Nat) : Int) fft_direction.FFT_INVERSE ^ (j * p)) / (2 : K) ^ k
      else x p := by
  have h : is_power_of_two ((2 : Int) ^ k) = true := (is_power_of_two_iff _).2 ⟨k, rfl⟩
  simp only [radix2_dit_fft, h, log2_int_two_pow, toNat_two_pow]
  simp only [Bool.true_eq_false, if_false, if_true]
  rw [scale_loop_apply]
  by_cases hp : p < 2 ^ k
  · rw [if_pos hp, if_pos hp, stage_loop_dft tw _ k hsq hneg x p, if_pos hp]
    push_cast
    rfl
  · rw [if_neg hp, if_neg hp, stage_loop_dft tw _ k hsq hneg x p, if_neg hp]


/-! ## The complex twiddle factors -/

theorem twiddle_forward_eq (s : Nat) :
    twiddle_factor 1 ((2 ^ s : Nat) : Int) fft_direction.FFT_FORWARD =
      Complex.exp (-(2 * Real.pi * Complex.I / 2 ^ s)) := by
  simp [twiddle_factor]

theorem twiddle_inverse_eq (s : Nat) :
    twiddle_factor 1 ((2 ^ s : Nat) : Int) fft_direction.FFT_INVERSE =
      Complex.exp (2 * Real.pi * Complex.I / 2 ^ s) := by
  simp [twiddle_factor]

theorem twiddle_forward_sq (s : Nat) :
    twiddle_factor 1 ((2 ^ (s + 1) : Nat) : Int) fft_direction.FFT_FORWARD ^ 2 =
      twiddle_factor 1 ((2 ^ s : Nat) : Int) fft_direction.FFT_FORWARD := by
  rw [twiddle_forward_eq, twiddle_forward_eq, ← Complex.exp_nat_mul]
  congr 1
  rw [pow_succ]
  push_cast
  field_simp
  ring

theorem twiddle_inverse_sq (s : Nat) :
    twiddle_factor 1 ((2 ^ (s + 1) : Nat) : Int) fft_direction.FFT_INVERSE ^ 2 =
      twiddle_factor 1 ((2 ^ s : Nat) : Int) fft_direction.FFT_INVERSE := by
  rw [twiddle_inverse_eq, twiddle_inverse_eq, ← Complex.exp_nat_mul]
  congr 1
  rw [pow_succ]
  push_cast
  field_simp
  ring

theorem twiddle_forward_half (s : Nat) :
    twiddle_factor 1 ((2 ^ (s + 1) : Nat) : Int) fft_direction.FFT_FORWARD ^ (2 ^ s) = -1 := by
  rw [twiddle_forward_eq, ← Complex.exp_nat_mul]
  have e : ((2 ^ s : Nat) : ℂ) * -(2 * Real.pi * Complex.I / 2 ^ (s + 1)) =
      -(Real.pi * Complex.I) := by
    rw [pow_succ]
    push_cast
    field_simp
    ring
  rw [e, Complex.exp_neg, Complex.exp_pi_mul_I]
  norm_num

theorem twiddle_inverse_half (s : Nat) :
    twiddle_factor 1 ((2 ^ (s + 1) : Nat) : Int) fft_direction.FFT_INVERSE ^ (2 ^ s) = -1 := by
  rw [twiddle_inverse_eq, ← Complex.exp_nat_mul]
  have e : ((2 ^ s : Nat) : ℂ) * (2 * Real.pi * Complex.I / 2 ^ (s + 1)) =
      Real.pi * Complex.I := by
    rw [pow_succ]
    push_cast
    field_simp
    ring
  rw [e, Complex.exp_pi_mul_I]

theorem twiddle_forward_pow (k j q : Nat) :
    twiddle_factor 1 ((2 ^ k : Nat) : Int) fft_direction.FFT_FORWARD ^ (j * q) =
      Complex.exp (-(2 * Real.pi * Complex.I * q * j / 2 ^ k)) := by
  rw [twiddle_forward_eq, ← Complex.exp_nat_mul]
  congr 1
  push_cast
  ring

theorem twiddle_inverse_pow (k j q : Nat) :
    twiddle_factor 1 ((2 ^ k : Nat) : Int) fft_direction.FFT_INVERSE ^ (j * q) =
      Complex.exp (2 * Real.pi * Complex.I * q * j / 2 ^ k) := by
  rw [twiddle_inverse_eq, ← Complex.exp_nat_mul]
  congr 1
  push_cast
  ring

theorem twiddle_inverse_primitive (k : Nat) :
    IsPrimitiveRoot (twiddle_factor 1 ((2 ^ k : Nat) : Int) fft_direction.FFT_INVERSE)
      (2 ^ k) := by
  rw [twiddle_inverse_eq]
  have h := Complex.isPrimitiveRoot_exp (2 ^ k) (by positivity)
  simpa using h

theorem twiddle_forward_inv (k : Nat) :
    twiddle_factor 1 ((2 ^ k : Nat) : Int) fft_direction.FFT_FORWARD =
      (twiddle_factor 1 ((2 ^ k : Nat) : Int) fft_direction.FFT_INVERSE)⁻¹ := by
  rw [twiddle_forward_eq, twiddle_inverse_eq, Complex.exp_neg]

/-- Orthogonality of the powers of a primitive root. -/
theorem root_orthogonality {K : Type*} [Field K] (z : K) (n : Nat) (hz : IsPrimitiveRoot z n)
    (j l : Nat) (hj : j < n) (hl : l < n) :
    ∑ q in Finset.range n, z⁻¹ ^ (j * q) * z ^ (q * l) = if j = l then (n : K) else 0 := by
  have hz0 : z ≠ 0 := hz.ne_zero (by omega)
  have hterm : ∀ q, z⁻¹ ^ (j * q) * z ^ (q * l) = (z⁻¹ ^ j * z ^ l) ^ q := by
    intro q
    rw [mul_pow, ← pow_mul, ← pow_mul, Nat.mul_comm l q]
  simp only [hterm]
  by_cases hjl : j = l
  · subst hjl
    rw [if_pos rfl]
    have : z⁻¹ ^ j * z ^ j = 1 := by
      rw [inv_pow, inv_mul_cancel₀ (pow_ne_zero _ hz0)]
    rw [this]
    simp
  · rw [if_neg hjl]
    have hne : z⁻¹ ^ j * z ^ l ≠ 1 := by
      intro h
      apply hjl
      have h2 : z ^ l = z ^ j := by
        rw [inv_pow] at h
        field_simp at h
        exact h
      exact (hz.pow_inj hl hj h2).symm
    have hpow : (z⁻¹ ^ j * z ^ l) ^ n = 1 := by
      rw [mul_pow, ← pow_mul, ← pow_mul, Nat.mul_comm j n, Nat.mul_comm l n, pow_mul, pow_mul,
        inv_pow, hz.pow_eq_one]
      simp
    have hg := geom_sum_mul (z⁻¹ ^ j * z ^ l) n
    rw [hpow, sub_self] at hg
    rcases mul_eq_zero.1 hg with h | h
    · exact h
    · exact absurd (sub_eq_zero.1 h) hne


/-! ## The transform over the complex numbers -/

theorem forward_apply (k : Nat) (x : Nat → ℂ) (p : Nat) :
    (radix2_dit_fft twiddle_factor x ((2 : Int) ^ k) fft_direction.FFT_FORWARD).2 p =
      if p < 2 ^ k then
        ∑ j in Finset.range (2 ^ k),
          x j * twiddle_factor 1 ((2 ^ k : Nat) : Int) fft_direction.FFT_FORWARD ^ (j * p)
      else x p :=
  radix2_dit_fft_forward_apply twiddle_factor k (fun s _ => twiddle_forward_sq s)
    (fun s _ => twiddle_forward_half s) x p

theorem inverse_apply (k : Nat) (x : Nat → ℂ) (p : Nat) :
    (radix2_dit_fft twiddle_factor x ((2 : Int) ^ k) fft_direction.FFT_INVERSE).2 p =
      if p < 2 ^ k then
        (∑ j in Finset.range (2 ^ k),
          x j * twiddle_factor 1 ((2 ^ k : Nat) : Int) fft_direction.FFT_INVERSE ^ (j * p)) /
          (2 : ℂ) ^ k
      else x p :=
  radix2_dit_fft_inverse_apply twiddle_factor k (fun s _ => twiddle_inverse_sq s)
    (fun s _ => twiddle_inverse_half s) x p

/-- C1: for every size `n = 2 ^ k` and every complex buffer `x`, the forward call
`radix2_dit_fft(x, n, FFT_FORWARD)` (also through the wrapper `fft_radix2_dit`) succeeds
and leaves in every bin `q < n` the discrete Fourier transform of the original
contents, `X[q] = Σ_{j<n} x[j] * exp(-2πi·q·j/n)`. -/
theorem radix2_dit_fft_forward_is_dft (k : Nat) (x : Nat → ℂ) (q : Nat) (hq : q < 2 ^ k) :
    (radix2_dit_fft twiddle_factor x ((2 : Int) ^ k) fft_direction.FFT_FORWARD).1 =
        Except.ok () ∧
    (radix2_dit_fft twiddle_factor x ((2 : Int) ^ k) fft_direction.FFT_FORWARD).2 q =
        ∑ j in Finset.range (2 ^ k),
          x j * Complex.exp (-(2 * Real.pi * Complex.I * q * j / 2 ^ k)) ∧
    fft_radix2_dit twiddle_factor x ((2 : Int) ^ k) =
        radix2_dit_fft twiddle_factor x ((2 : Int) ^ k) fft_direction.FFT_FORWARD := by
  refine ⟨radix2_dit_fft_ok _ _ _ _, ?_, rfl⟩
  rw [forward_apply, if_pos hq]
  apply Finset.sum_congr rfl
  intro j _
  rw [twiddle_forward_pow]

theorem radix2_dit_fft_forward_is_dft_witness :
    (0 : Nat) < 2 ^ 1 ∧
    ((radix2_dit_fft twiddle_factor (fun i => (i : ℂ)) ((2 : Int) ^ 1)
        fft_direction.FFT_FORWARD).1 = Except.ok () ∧
    (radix2_dit_fft twiddle_factor (fun i => (i : ℂ)) ((2 : Int) ^ 1)
        fft_direction.FFT_FORWARD).2 0 =
        ∑ j in Finset.range (2 ^ 1),
          (fun i : Nat => (i : ℂ)) j *
            Complex.exp (-(2 * Real.pi * Complex.I * (0 : Nat) * j / 2 ^ 1)) ∧
    fft_radix2_dit twiddle_factor (fun i => (i : ℂ)) ((2 : Int) ^ 1) =
        radix2_dit_fft twiddle_factor (fun i => (i : ℂ)) ((2 : Int) ^ 1)
          fft_direction.FFT_FORWARD) :=
  ⟨by norm_num, radix2_dit_fft_forward_is_dft 1 (fun i => (i : ℂ)) 0 (by norm_num)⟩

/-- C2: for every size `n = 2 ^ k` and every complex buffer `X`, the inverse call
`radix2_dit_fft(X, n, FFT_INVERSE)` (also through the wrapper `ifft_radix2_dit`)
succeeds and leaves in every position `j < n` the inverse transform scaled by `1/n`,
`x[j] = (1/n) * Σ_{q<n} X[q] * exp(+2πi·q·j/n)`; the division by `n` is applied once to
the output of the butterfly stages in the inverse direction and not at all in the
forward direction. -/
theorem radix2_dit_fft_inverse_is_scaled_idft (k : Nat) (X : Nat → ℂ) (j : Nat)
    (hj : j < 2 ^ k) :
    (radix2_dit_fft twiddle_factor X ((2 : Int) ^ k) fft_direction.FFT_INVERSE).1 =
        Except.ok () ∧
    (radix2_dit_fft twiddle_factor X ((2 : Int) ^ k) fft_direction.FFT_INVERSE).2 j =
        (1 / (2 : ℂ) ^ k) * ∑ q in Finset.range (2 ^ k),
          X q * Complex.exp (2 * Real.pi * Complex.I * q * j / 2 ^ k) ∧
    (radix2_dit_fft twiddle_factor X ((2 : Int) ^ k) fft_direction.FFT_INVERSE).2 j =
        fft_unscaled twiddle_factor X ((2 : Int) ^ k) fft_direction.FFT_INVERSE j /
          (2 : ℂ) ^ k ∧
    (radix2_dit_fft twiddle_factor X ((2 : Int) ^ k) fft_direction.FFT_FORWARD).2 j =
        fft_unscaled twiddle_factor X ((2 : Int) ^ k) fft_direction.FFT_FORWARD j ∧
    ifft_radix2_dit twiddle_factor X ((2 : Int) ^ k) =
        radix2_dit_fft twiddle_factor X ((2 : Int) ^ k) fft_direction.FFT_INVERSE := by
  have h : is_power_of_two ((2 : Int) ^ k) = true := (is_power_of_two_iff _).2 ⟨k, rfl⟩
  refine ⟨radix2_dit_fft_ok _ _ _ _, ?_, ?_, ?_, rfl⟩
  · rw [inverse_apply, if_pos hj, div_eq_mul_inv, mul_comm, one_div]
    congr 1
    apply Finset.sum_congr rfl
    intro q _
    rw [twiddle_inverse_pow]
    congr 2
    ring
  · simp only [radix2_dit_fft, fft_unscaled, h, toNat_two_pow]
    simp only [Bool.true_eq_false, if_false, if_true]
    rw [scale_loop_apply, if_pos hj]
    push_cast
    rfl
  · simp only [radix2_dit_fft, fft_unscaled, h]
    simp

theorem radix2_dit_fft_inverse_is_scaled_idft_witness :
    (1 : Nat) < 2 ^ 1 ∧
    ((radix2_dit_fft twiddle_factor (fun i => (i : ℂ)) ((2 : Int) ^ 1)
        fft_direction.FFT_INVERSE).1 = Except.ok () ∧
    (radix2_dit_fft twiddle_factor (fun i => (i : ℂ)) ((2 : Int) ^ 1)
        fft_direction.FFT_INVERSE).2 1 =
        (1 / (2 : ℂ) ^ 1) * ∑ q in Finset.range (2 ^ 1),
          (fun i : Nat => (i : ℂ)) q *
            Complex.exp (2 * Real.pi * Complex.I * q * (1 : Nat) / 2 ^ 1) ∧
    (radix2_dit_fft twiddle_factor (fun i => (i : ℂ)) ((2 : Int) ^ 1)
        fft_direction.FFT_INVERSE).2 1 =
        fft_unscaled twiddle_factor (fun i => (i : ℂ)) ((2 : Int) ^ 1)
          fft_direction.FFT_INVERSE 1 / (2 : ℂ) ^ 1 ∧
    (radix2_dit_fft twiddle_factor (fun i => (i : ℂ)) ((2 : Int) ^ 1)
        fft_direction.FFT_FORWARD).2 1 =
        fft_unscaled twiddle_factor (fun i => (i : ℂ)) ((2 : Int) ^ 1)
          fft_direction.FFT_FORWARD 1 ∧
    ifft_radix2_dit twiddle_factor (fun i => (i : ℂ)) ((2 : Int) ^ 1) =
        radix2_dit_fft twiddle_factor (fun i => (i : ℂ)) ((2 : Int) ^ 1)
          fft_direction.FFT_INVERSE) :=
  ⟨by norm_num, radix2_dit_fft_inverse_is_scaled_idft 1 (fun i => (i : ℂ)) 1 (by norm_num)⟩


/-- C3: round trip.  For every complex buffer `x` and every size `n = 2 ^ k` (any
`k`, in particular `k ≥ 1`), the forward call followed by the inverse call on the same
buffer succeeds twice and gives back `x` element for element. -/
theorem radix2_dit_fft_round_trip (k : Nat) (x : Nat → ℂ) :
    (radix2_dit_fft twiddle_factor x ((2 : Int) ^ k) fft_direction.FFT_FORWARD).1 =
        Except.ok () ∧
    (radix2_dit_fft twiddle_factor
        (radix2_dit_fft twiddle_factor x ((2 : Int) ^ k) fft_direction.FFT_FORWARD).2
        ((2 : Int) ^ k) fft_direction.FFT_INVERSE).1 = Except.ok () ∧
    (radix2_dit_fft twiddle_factor
        (radix2_dit_fft twiddle_factor x ((2 : Int) ^ k) fft_direction.FFT_FORWARD).2
        ((2 : Int) ^ k) fft_direction.FFT_INVERSE).2 = x := by
  refine ⟨radix2_dit_fft_ok _ _ _ _, radix2_dit_fft_ok _ _ _ _, ?_⟩
  funext p
  rw [inverse_apply]
  by_cases hp : p < 2 ^ k
  · rw [if_pos hp]
    have hsum : ∑ q in Finset.range (2 ^ k),
        (radix2_dit_fft twiddle_factor x ((2 : Int) ^ k) fft_direction.FFT_FORWARD).2 q *
          twiddle_factor 1 ((2 ^ k : Nat) : Int) fft_direction.FFT_INVERSE ^ (q * p) =
        x p * (2 : ℂ) ^ k := by
      have h1 : ∀ q ∈ Finset.range (2 ^ k),
          (radix2_dit_fft twiddle_factor x ((2 : Int) ^ k) fft_direction.FFT_FORWARD).2 q *
            twiddle_factor 1 ((2 ^ k : Nat) : Int) fft_direction.FFT_INVERSE ^ (q * p) =
          ∑ j in Finset.range (2 ^ k), x j *
            ((twiddle_factor 1 ((2 ^ k : Nat) : Int) fft_direction.FFT_INVERSE)⁻¹ ^ (j * q) *
              twiddle_factor 1 ((2 ^ k : Nat) : Int) fft_direction.FFT_INVERSE ^ (q * p)) := by
        intro q hq
        rw [forward_apply, if_pos (Finset.mem_range.1 hq), Finset.sum_mul,
          twiddle_forward_inv]
        apply Finset.sum_congr rfl
        intro j _
        ring
      rw [Finset.sum_congr rfl h1, Finset.sum_comm]
      have h2 : ∀ j ∈ Finset.range (2 ^ k),
          ∑ q in Finset.range (2 ^ k), x j *
            ((twiddle_factor 1 ((2 ^ k : Nat) : Int) fft_direction.FFT_INVERSE)⁻¹ ^ (j * q) *
              twiddle_factor 1 ((2 ^ k : Nat) : Int) fft_direction.FFT_INVERSE ^ (q * p)) =
          if j = p then x j * (2 : ℂ) ^ k else 0 := by
        intro j hj
        rw [← Finset.mul_sum, root_orthogonality _ _ (twiddle_inverse_primitive k) j p
          (Finset.mem_range.1 hj) hp]
        by_cases hjp : j = p
        · simp [hjp]
        · simp [hjp]
      rw [Finset.sum_congr rfl h2, Finset.sum_ite_eq', if_pos (Finset.mem_range.2 hp)]
    rw [hsum]
    field_simp
  · rw [if_neg hp, forward_apply, if_neg hp]

/-- C4: linearity.  For all complex scalars `a`, `b` and buffers `x`, `y` of the same
size `n = 2 ^ k`, the forward transform of `a*x + b*y` is `a*forward(x) + b*forward(y)`
element for element. -/
theorem radix2_dit_fft_linear (k : Nat) (a b : ℂ) (x y : Nat → ℂ) :
    (radix2_dit_fft twiddle_factor (fun i => a * x i + b * y i) ((2 : Int) ^ k)
        fft_direction.FFT_FORWARD).2 =
      fun q =>
        a * (radix2_dit_fft twiddle_factor x ((2 : Int) ^ k) fft_direction.FFT_FORWARD).2 q +
        b * (radix2_dit_fft twiddle_factor y ((2 : Int) ^ k) fft_direction.FFT_FORWARD).2 q := by
  funext q
  rw [forward_apply, forward_apply, forward_apply]
  by_cases hq : q < 2 ^ k
  · rw [if_pos hq, if_pos hq, if_pos hq, Finset.mul_sum, Finset.mul_sum,
      ← Finset.sum_add_distrib]
    apply Finset.sum_congr rfl
    intro j _
    ring
  · rw [if_neg hq, if_neg hq, if_neg hq]


theorem not_pow_two_100 : ¬ ∃ k : Nat, (100 : Int) = 2 ^ k := by
  rintro ⟨k, hk⟩
  by_cases h : k < 7
  · interval_cases k <;> norm_num at hk
  · have h1 : (2 : Int) ^ 7 ≤ 2 ^ k := pow_le_pow_right₀ (by norm_num) (not_lt.1 h)
    norm_num at h1
    omega

/-- C5: `radix2_dit_fft` fails exactly when `n` is not a power of two.  For every such
`n` the outcome is the `InvalidSize` failure with the buffer exactly as it was passed
(no swap, no butterfly, no truncation, no padding), `n = 100` being one such size; for
every power of two the call does not fail. -/
theorem radix2_dit_fft_fails_iff_not_power_of_two {K : Type*} [Field K]
    (tw : Int → Int → fft_direction → K) (x : Nat → K) (n : Int) (dir : fft_direction) :
    ((radix2_dit_fft tw x n dir).1 = Except.error fft_error.InvalidSize ↔
        ¬ ∃ k : Nat, n = 2 ^ k) ∧
    ((radix2_dit_fft tw x n dir).1 = Except.ok () ↔ ∃ k : Nat, n = 2 ^ k) ∧
    ((¬ ∃ k : Nat, n = 2 ^ k) →
        radix2_dit_fft tw x n dir = (Except.error fft_error.InvalidSize, x)) ∧
    radix2_dit_fft tw x 100 dir = (Except.error fft_error.InvalidSize, x) := by
  have hfail : ∀ n' : Int, (¬ ∃ k : Nat, n' = 2 ^ k) →
      radix2_dit_fft tw x n' dir = (Except.error fft_error.InvalidSize, x) := by
    intro n' h
    have hb : is_power_of_two n' = false := by
      rw [← Bool.not_eq_true, is_power_of_two_iff]
      exact h
    simp [radix2_dit_fft, hb]
  have hok : (∃ k : Nat, n = 2 ^ k) → (radix2_dit_fft tw x n dir).1 = Except.ok () := by
    rintro ⟨k, rfl⟩
    exact radix2_dit_fft_ok tw x k dir
  refine ⟨⟨?_, fun h => by rw [hfail n h]⟩, ⟨?_, hok⟩, hfail n, hfail 100 not_pow_two_100⟩
  · intro h hex
    rw [hok hex] at h
    cases h
  · intro h
    by_contra hex
    rw [hfail n hex] at h
    cases h

theorem radix2_dit_fft_fails_iff_not_power_of_two_witness :
    (¬ ∃ k : Nat, (100 : Int) = 2 ^ k) ∧
    radix2_dit_fft (fun _ _ _ => (1 : ℚ)) (fun i : Nat => (i : ℚ)) 100
        fft_direction.FFT_FORWARD =
      (Except.error fft_error.InvalidSize, fun i : Nat => (i : ℚ)) :=
  ⟨not_pow_two_100,
    (radix2_dit_fft_fails_iff_not_power_of_two (fun _ _ _ => (1 : ℚ))
      (fun i : Nat => (i : ℚ)) 100
      fft_direction.FFT_FORWARD).2.2.1 not_pow_two_100⟩

theorem cos_sample_eq (m k j : Nat) :
    ((Real.cos (2 * Real.pi * k * j / 2 ^ m) : ℝ) : ℂ) =
      (twiddle_factor 1 ((2 ^ m : Nat) : Int) fft_direction.FFT_INVERSE ^ (j * k) +
        twiddle_factor 1 ((2 ^ m : Nat) : Int) fft_direction.FFT_FORWARD ^ (j * k)) / 2 := by
  rw [twiddle_inverse_pow, twiddle_forward_pow, Complex.ofReal_cos, Complex.cos]
  have e1 : ((2 * Real.pi * k * j / 2 ^ m : ℝ) : ℂ) * Complex.I =
      2 * Real.pi * Complex.I * k * j / 2 ^ m := by
    push_cast; ring
  have e2 : -((2 * Real.pi * k * j / 2 ^ m : ℝ) : ℂ) * Complex.I =
      -(2 * Real.pi * Complex.I * k * j / 2 ^ m) := by
    push_cast; ring
  rw [e1, e2]

/-- The forward transform of the pure cosine at bin `k`, in closed form. -/
theorem forward_cosine (m k : Nat) (hk0 : 0 < k) (hk : k < 2 ^ m) (q : Nat) (hq : q < 2 ^ m) :
    (radix2_dit_fft twiddle_factor
        (fun j => ((Real.cos (2 * Real.pi * k * j / 2 ^ m) : ℝ) : ℂ)) ((2 : Int) ^ m)
        fft_direction.FFT_FORWARD).2 q =
      ((if q = k then ((2 ^ m : Nat) : ℂ) else 0) +
        (if q = 2 ^ m - k then ((2 ^ m : Nat) : ℂ) else 0)) / 2 := by
  have hprim := twiddle_inverse_primitive m
  have hz0 : twiddle_factor 1 ((2 ^ m : Nat) : Int) fft_direction.FFT_INVERSE ≠ 0 :=
    hprim.ne_zero (by positivity)
  rw [forward_apply, if_pos hq]
  rw [← root_orthogonality _ _ hprim q k hq hk,
    ← root_orthogonality _ _ hprim q (2 ^ m - k) hq (by omega), ← Finset.sum_add_distrib,
    Finset.sum_div]
  apply Finset.sum_congr rfl
  intro j _
  have hflip : twiddle_factor 1 ((2 ^ m : Nat) : Int) fft_direction.FFT_INVERSE ^
        (j * (2 ^ m - k)) =
      (twiddle_factor 1 ((2 ^ m : Nat) : Int) fft_direction.FFT_INVERSE)⁻¹ ^ (j * k) := by
    rw [inv_pow]
    apply eq_inv_of_mul_eq_one_left
    rw [← pow_add]
    have : j * (2 ^ m - k) + j * k = 2 ^ m * j := by
      rw [← Nat.mul_add, Nat.sub_add_cancel hk.le, Nat.mul_comm]
    rw [this, pow_mul, hprim.pow_eq_one, one_pow]
  rw [cos_sample_eq, hflip, twiddle_forward_inv, Nat.mul_comm q j]
  ring

/-- C6: known transform.  For every size `n = 2 ^ m` and every bin `k` with
`0 < k < n/2`, the forward transform of the buffer `x[j] = cos(2π·k·j/n)` has magnitude
exactly `n/2` at bins `k` and `n - k` and is exactly `0` at every other bin. -/
theorem radix2_dit_fft_pure_cosine (m k : Nat) (hk0 : 0 < k) (hk : 2 * k < 2 ^ m)
    (q : Nat) (hq : q < 2 ^ m) :
    ((q = k ∨ q = 2 ^ m - k) →
      Complex.abs ((radix2_dit_fft twiddle_factor
        (fun j => ((Real.cos (2 * Real.pi * k * j / 2 ^ m) : ℝ) : ℂ)) ((2 : Int) ^ m)
        fft_direction.FFT_FORWARD).2 q) = 2 ^ m / 2) ∧
    ((q ≠ k ∧ q ≠ 2 ^ m - k) →
      (radix2_dit_fft twiddle_factor
        (fun j => ((Real.cos (2 * Real.pi * k * j / 2 ^ m) : ℝ) : ℂ)) ((2 : Int) ^ m)
        fft_direction.FFT_FORWARD).2 q = 0) := by
  rw [forward_cosine m k hk0 (by omega) q hq]
  constructor
  · rintro (h | h)
    · subst h
      rw [if_pos rfl, if_neg (by omega)]
      simp
    · subst h
      rw [if_neg (by omega), if_pos rfl]
      simp
  · rintro ⟨h1, h2⟩
    rw [if_neg h1, if_neg h2]
    simp

theorem radix2_dit_fft_pure_cosine_witness :
    (0 < 1) ∧ (2 * 1 < 2 ^ 2) ∧ (1 < 2 ^ 2) ∧
    (((1 = 1 ∨ 1 = 2 ^ 2 - 1) →
      Complex.abs ((radix2_dit_fft twiddle_factor
        (fun j => ((Real.cos (2 * Real.pi * (1 : Nat) * j / 2 ^ 2) : ℝ) : ℂ)) ((2 : Int) ^ 2)
        fft_direction.FFT_FORWARD).2 1) = 2 ^ 2 / 2) ∧
    ((1 ≠ 1 ∧ 1 ≠ 2 ^ 2 - 1) →
      (radix2_dit_fft twiddle_factor
        (fun j => ((Real.cos (2 * Real.pi * (1 : Nat) * j / 2 ^ 2) : ℝ) : ℂ)) ((2 : Int) ^ 2)
        fft_direction.FFT_FORWARD).2 1 = 0)) :=
  ⟨by norm_num, by norm_num, by norm_num,
    radix2_dit_fft_pure_cosine 2 1 (by norm_num) (by norm_num) 1 (by norm_num)⟩


/-! ## The bubble sort of `find_peaks` -/

/-- Exchanging two entries below `num` permutes the first `num` entries. -/
theorem peak_list_swap_perm {α : Type*} (a : Nat → α) (num i j : Nat) (hi : i < num)
    (hj : j < num) :
    (peak_list (Function.update (Function.update a i (a j)) j (a i)) num).Perm
      (peak_list a num) := by
  have hfun : Function.update (Function.update a i (a j)) j (a i) = a ∘ (Equiv.swap i j) := by
    funext p
    simp only [Function.comp_apply, Function.update_apply, Equiv.swap_apply_def]
    by_cases h1 : p = j
    · subst h1
      by_cases h2 : p = i
      · subst h2; simp
      · simp [h2]
    · by_cases h2 : p = i
      · subst h2; simp [h1]
      · simp [h1, h2]
  rw [hfun]
  unfold peak_list
  rw [← List.map_map]
  apply List.Perm.map
  apply (List.perm_ext_iff_of_nodup
    ((List.nodup_range num).map (Equiv.swap i j).injective) (List.nodup_range num)).2
  intro p
  simp only [List.mem_map, List.mem_range]
  constructor
  · rintro ⟨y, hy, rfl⟩
    rw [Equiv.swap_apply_def]
    split_ifs <;> omega
  · intro hp
    refine ⟨Equiv.swap i j p, ?_, by simp⟩
    rw [Equiv.swap_apply_def]
    split_ifs <;> omega

/-- One pass of the inner loop over `j = 0 .. lim - 1`: the entries `0 .. lim` are
permuted among themselves, the smallest magnitude among them ends at index `lim`, and
nothing above `lim` is touched. -/
theorem sort_pass_spec {K : Type*} [LinearOrderedField K] (a : Nat → peak_t K)
    (num lim : Nat) (hlim : lim < num) :
    (peak_list (for_loop 0 lim 1 find_peaks_sort_body a) num).Perm (peak_list a num) ∧
    (∀ p, lim < p → for_loop 0 lim 1 find_peaks_sort_body a p = a p) ∧
    (∀ p, p ≤ lim → (for_loop 0 lim 1 find_peaks_sort_body a lim).magnitude ≤
      (for_loop 0 lim 1 find_peaks_sort_body a p).magnitude) ∧
    (∀ p, p ≤ lim → ∃ p', p' ≤ lim ∧ for_loop 0 lim 1 find_peaks_sort_body a p = a p') := by
  refine for_loop_induction 0 lim find_peaks_sort_body
    (fun j cur => (peak_list cur num).Perm (peak_list a num) ∧
      (∀ p, j < p → cur p = a p) ∧
      (∀ p, p ≤ j → (cur j).magnitude ≤ (cur p).magnitude) ∧
      (∀ p, p ≤ j → ∃ p', p' ≤ j ∧ cur p = a p'))
    (Nat.zero_le _) a ⟨List.Perm.refl _, fun _ _ => rfl, ?_, ?_⟩ ?_
  · intro p hp
    have : p = 0 := by omega
    subst this
    exact le_rfl
  · intro p hp
    exact ⟨p, hp, rfl⟩
  · intro j cur _ hj ⟨hperm, hrest, hmin, hfrom⟩
    unfold find_peaks_sort_body
    by_cases hlt : (cur j).magnitude < (cur (j + 1)).magnitude
    · simp only [hlt, if_true]
      refine ⟨(peak_list_swap_perm cur num j (j + 1) (by omega) (by omega)).trans hperm,
        ?_, ?_, ?_⟩
      · intro p hp
        rw [Function.update_apply, if_neg (by omega), Function.update_apply,
          if_neg (by omega)]
        exact hrest p (by omega)
      · intro p hp
        rw [Function.update_same]
        rw [Function.update_apply]
        by_cases h1 : p = j + 1
        · rw [if_pos h1]
        · rw [if_neg h1, Function.update_apply]
          by_cases h2 : p = j
          · rw [if_pos h2]; exact hlt.le
          · rw [if_neg h2]; exact hmin p (by omega)
      · intro p hp
        rw [Function.update_apply]
        by_cases h1 : p = j + 1
        · rw [if_pos h1]
          obtain ⟨p', hp', e⟩ := hfrom j le_rfl
          exact ⟨p', by omega, e⟩
        · rw [if_neg h1, Function.update_apply]
          by_cases h2 : p = j
          · rw [if_pos h2]
            exact ⟨j + 1, le_rfl, hrest (j + 1) (by omega)⟩
          · rw [if_neg h2]
            obtain ⟨p', hp', e⟩ := hfrom p (by omega)
            exact ⟨p', by omega, e⟩
    · simp only [hlt, if_false]
      refine ⟨hperm, fun p hp => hrest p (by omega), ?_, ?_⟩
      · intro p hp
        by_cases h1 : p = j + 1
        · subst h1; exact le_rfl
        · exact le_trans (not_lt.1 hlt) (hmin p (by omega))
      · intro p hp
        by_cases h1 : p = j + 1
        · subst h1
          exact ⟨j + 1, le_rfl, hrest (j + 1) (by omega)⟩
        · obtain ⟨p', hp', e⟩ := hfrom p (by omega)
          exact ⟨p', by omega, e⟩

/-- The two nested sort loops of `find_peaks` on the first `num` entries: the result
is a permutation of them in non-increasing order of magnitude. -/
theorem sort_loops_spec {K : Type*} [LinearOrderedField K] (a : Nat → peak_t K) (num : Nat) :
    (peak_list (for_loop 0 (num - 1) 1
      (fun i p => for_loop 0 (num - i - 1) 1 find_peaks_sort_body p) a) num).Perm
        (peak_list a num) ∧
    (∀ i, i + 1 < num →
      (for_loop 0 (num - 1) 1
        (fun i p => for_loop 0 (num - i - 1) 1 find_peaks_sort_body p) a (i + 1)).magnitude ≤
      (for_loop 0 (num - 1) 1
        (fun i p => for_loop 0 (num - i - 1) 1 find_peaks_sort_body p) a i).magnitude) := by
  have key := for_loop_induction 0 (num - 1)
    (fun i p => for_loop 0 (num - i - 1) 1 find_peaks_sort_body p)
    (fun i cur => (peak_list cur num).Perm (peak_list a num) ∧
      (∀ p q, p < q → q < num → num - i ≤ q → (cur q).magnitude ≤ (cur p).magnitude))
    (Nat.zero_le _) a ⟨List.Perm.refl _, fun p q _ h1 h2 => by omega⟩ ?_
  · refine ⟨key.1, ?_⟩
    intro i hi
    exact key.2 i (i + 1) (by omega) hi (by omega)
  · intro i cur _ hi ⟨hperm, hsorted⟩
    obtain ⟨h1, h2, h3, h4⟩ := sort_pass_spec cur num (num - i - 1) (by omega)
    refine ⟨h1.trans hperm, ?_⟩
    intro p q hpq hq hqi
    show (for_loop 0 (num - i - 1) 1 find_peaks_sort_body cur q).magnitude ≤
      (for_loop 0 (num - i - 1) 1 find_peaks_sort_body cur p).magnitude
    by_cases hqe : q = num - i - 1
    · subst hqe
      exact h3 p (by omega)
    · rw [h2 q (by omega)]
      by_cases hp : num - i - 1 < p
      · rw [h2 p hp]
        exact hsorted p q hpq hq (by omega)
      · obtain ⟨p', hp', e⟩ := h4 p (by omega)
        rw [e]
        exact hsorted p' q (by omega) hq (by omega)


/-! ## The scan loop of `find_peaks` -/

theorem peak_bins_below_succ {K : Type*} [LinearOrderedField K] (magnitude : Nat → K)
    (i : Nat) :
    peak_bins_below magnitude (i + 1) =
      peak_bins_below magnitude i ++
        (if (decide (1 ≤ i) && is_peak_bin magnitude i) = true then [i] else []) := by
  unfold peak_bins_below
  rw [List.range_succ, List.filter_append]
  congr 1
  by_cases h : (decide (1 ≤ i) && is_peak_bin magnitude i) = true
  · simp [h]
  · simp [h]

theorem peak_bins_below_prefix {K : Type*} [LinearOrderedField K] (magnitude : Nat → K)
    (i d : Nat) :
    ∃ rest, peak_bins_below magnitude (i + d) = peak_bins_below magnitude i ++ rest := by
  induction d with
  | zero => exact ⟨[], by simp⟩
  | succ d ih =>
    obtain ⟨rest, h⟩ := ih
    refine ⟨rest ++
      (if (decide (1 ≤ i + d) && is_peak_bin magnitude (i + d)) = true then [i + d] else []),
      ?_⟩
    rw [← Nat.add_assoc, peak_bins_below_succ, h, List.append_assoc]

theorem peak_bins_below_one {K : Type*} [LinearOrderedField K] (magnitude : Nat → K) :
    peak_bins_below magnitude 1 = [] := by
  simp [peak_bins_below]

theorem peak_bins_below_zero {K : Type*} [LinearOrderedField K] (magnitude : Nat → K) :
    peak_bins_below magnitude 0 = [] := by
  simp [peak_bins_below]

theorem peak_list_update_succ {α : Type*} (a : Nat → α) (num : Nat) (r : α) :
    peak_list (Function.update a num r) (num + 1) = peak_list a num ++ [r] := by
  unfold peak_list
  rw [List.range_succ, List.map_append]
  congr 1
  · apply List.map_congr_left
    intro p hp
    rw [Function.update_apply, if_neg]
    have := List.mem_range.1 hp
    omega
  · simp

theorem scan_body_record {K : Type*} [LinearOrderedField K] (magnitude : Nat → K) (n : Int)
    (sample_rate : K) (i : Nat) (s : (Nat → peak_t K) × Nat) :
    find_peaks_scan_body magnitude n sample_rate i s =
      if is_peak_bin magnitude i = true then
        (Function.update s.1 s.2 (peak_record magnitude n sample_rate i), s.2 + 1)
      else s := by
  unfold find_peaks_scan_body is_peak_bin peak_record bin_to_frequency
  by_cases h : magnitude i > magnitude (i - 1) ∧ magnitude i > magnitude (i + 1) ∧
      magnitude i > 1 / 10
  · simp [h]
  · simp [h]

/-- The scan loop collects the first `min(max_peaks, |Q|)` qualifying bins in ascending
order. -/
theorem scan_loop_spec {K : Type*} [LinearOrderedField K] (magnitude : Nat → K) (n : Int)
    (sample_rate : K) (max_peaks : Int) :
    ∀ (fuel i : Nat) (s : (Nat → peak_t K) × Nat), 1 ≤ i →
      i ≤ max (Int.tdiv n 2 - 1).toNat 1 → max (Int.tdiv n 2 - 1).toNat 1 - i ≤ fuel →
      s.2 = min max_peaks.toNat (peak_bins_below magnitude i).length →
      peak_list s.1 s.2 =
        ((peak_bins_below magnitude i).take s.2).map (peak_record magnitude n sample_rate) →
      (while_loop_go
        (fun i s => decide ((i : Int) < Int.tdiv n 2 - 1) && decide ((s.2 : Int) < max_peaks))
        (find_peaks_scan_body magnitude n sample_rate) fuel i s).2 =
          min max_peaks.toNat (qualifying_bins magnitude n).length ∧
      peak_list (while_loop_go
        (fun i s => decide ((i : Int) < Int.tdiv n 2 - 1) && decide ((s.2 : Int) < max_peaks))
        (find_peaks_scan_body magnitude n sample_rate) fuel i s).1
        (while_loop_go
        (fun i s => decide ((i : Int) < Int.tdiv n 2 - 1) && decide ((s.2 : Int) < max_peaks))
        (find_peaks_scan_body magnitude n sample_rate) fuel i s).2 =
        ((qualifying_bins magnitude n).take (while_loop_go
        (fun i s => decide ((i : Int) < Int.tdiv n 2 - 1) && decide ((s.2 : Int) < max_peaks))
        (find_peaks_scan_body magnitude n sample_rate) fuel i s).2).map
          (peak_record magnitude n sample_rate) := by
  have hQ : qualifying_bins magnitude n =
      peak_bins_below magnitude (max (Int.tdiv n 2 - 1).toNat 1) := by
    unfold qualifying_bins
    by_cases h0 : (Int.tdiv n 2 - 1).toNat = 0
    · rw [h0]
      simp [peak_bins_below_one, peak_bins_below_zero]
    · rw [max_eq_left (by omega)]
  rw [hQ]
  generalize hS : max (Int.tdiv n 2 - 1).toNat 1 = S
  have hstop : ∀ i : Nat, 1 ≤ i → i ≤ S →
      (((i : Int) < Int.tdiv n 2 - 1) ↔ i < S) := by
    intro i h1 h2
    rw [← Int.lt_toNat, ← hS]
    constructor
    · intro h; exact lt_of_lt_of_le h (le_max_left _ _)
    · intro h
      rcases max_cases (Int.tdiv n 2 - 1).toNat 1 with ⟨e, _⟩ | ⟨e, _⟩
      · rw [e] at h; exact h
      · rw [e] at h; omega
  have hfinish : ∀ (i : Nat) (s : (Nat → peak_t K) × Nat), i ≤ S →
      (i = S ∨ max_peaks.toNat ≤ s.2) →
      s.2 = min max_peaks.toNat (peak_bins_below magnitude i).length →
      peak_list s.1 s.2 =
        ((peak_bins_below magnitude i).take s.2).map (peak_record magnitude n sample_rate) →
      s.2 = min max_peaks.toNat (peak_bins_below magnitude S).length ∧
      peak_list s.1 s.2 =
        ((peak_bins_below magnitude S).take s.2).map (peak_record magnitude n sample_rate) := by
    intro i s hi hcase hnum hlist
    rcases hcase with rfl | hfull
    · exact ⟨hnum, hlist⟩
    · obtain ⟨rest, hrest⟩ := peak_bins_below_prefix magnitude i (S - i)
      have e : i + (S - i) = S := by omega
      rw [e] at hrest
      have hlen : s.2 ≤ (peak_bins_below magnitude i).length := by
        rw [hnum]; exact min_le_right _ _
      have hM : s.2 = max_peaks.toNat := by
        have := min_le_left max_peaks.toNat (peak_bins_below magnitude i).length
        omega
      constructor
      · rw [hrest, List.length_append]
        rw [hM] at hlen ⊢
        rw [min_eq_left (by omega)]
      · rw [hlist, hrest, List.take_append_of_le_length hlen]
  intro fuel
  induction fuel with
  | zero =>
    intro i s h1 h2 h3 hnum hlist
    simp only [while_loop_go]
    exact hfinish i s h2 (Or.inl (by omega)) hnum hlist
  | succ fuel ih =>
    intro i s h1 h2 h3 hnum hlist
    rw [while_loop_go]
    by_cases hc : (decide ((i : Int) < Int.tdiv n 2 - 1) &&
        decide ((s.2 : Int) < max_peaks)) = true
    · simp only [hc, if_true]
      rw [Bool.and_eq_true, decide_eq_true_iff, decide_eq_true_iff, hstop i h1 h2] at hc
      obtain ⟨hiS, hlt⟩ := hc
      have hltM : s.2 < max_peaks.toNat := by
        rw [Int.lt_toNat]; exact hlt
      have hfullQ : s.2 = (peak_bins_below magnitude i).length := by
        rcases min_cases max_peaks.toNat (peak_bins_below magnitude i).length with
          ⟨e, _⟩ | ⟨e, _⟩
        · rw [e] at hnum; omega
        · rw [e] at hnum; exact hnum
      apply ih (i + 1) _ (by omega) (by omega) (by omega)
      · rw [scan_body_record, peak_bins_below_succ]
        have hi1 : decide (1 ≤ i) = true := by simpa using h1
        by_cases hq : is_peak_bin magnitude i = true
        · simp only [hq, hi1, Bool.and_self, if_true, List.length_append, List.length_singleton]
          rw [min_eq_right (by omega)]
          rw [hfullQ]
        · simp only [hq, hi1, Bool.and_false, if_false, List.append_nil]
          simpa using hnum
      · rw [scan_body_record, peak_bins_below_succ]
        have hi1 : decide (1 ≤ i) = true := by simpa using h1
        by_cases hq : is_peak_bin magnitude i = true
        · simp only [hq, hi1, Bool.and_self, if_true]
          rw [peak_list_update_succ, hlist, hfullQ, List.take_length,
            List.take_of_length_le (by simp), List.map_append]
          simp
        · simp only [hq, hi1, Bool.and_false, if_false, List.append_nil]
          simpa using hlist
    · simp only [hc, if_false]
      have hc' : ¬ ((i : Int) < Int.tdiv n 2 - 1 ∧ (s.2 : Int) < max_peaks) := by
        intro h
        apply hc
        rw [Bool.and_eq_true, decide_eq_true_iff, decide_eq_true_iff]
        exact h
      rw [hstop i h1 h2] at hc'
      have hcase : i = S ∨ max_peaks.toNat ≤ s.2 := by
        by_cases hiS : i < S
        · right
          by_contra hlt
          apply hc'
          refine ⟨hiS, ?_⟩
          rw [← Int.lt_toNat]
          omega
        · left; omega
      exact hfinish i s h2 hcase hnum hlist


/-! ## `find_peaks` -/

theorem find_peaks_scan_spec {K : Type*} [LinearOrderedField K] (magnitude : Nat → K)
    (n : Int) (sample_rate : K) (peaks : Nat → peak_t K) (max_peaks : Int) :
    (find_peaks_scan magnitude n sample_rate peaks max_peaks).2 =
      min max_peaks.toNat (qualifying_bins magnitude n).length ∧
    peak_list (find_peaks_scan magnitude n sample_rate peaks max_peaks).1
      (find_peaks_scan magnitude n sample_rate peaks max_peaks).2 =
      ((qualifying_bins magnitude n).take
        (find_peaks_scan magnitude n sample_rate peaks max_peaks).2).map
        (peak_record magnitude n sample_rate) := by
  unfold find_peaks_scan
  apply scan_loop_spec magnitude n sample_rate max_peaks _ 1 (peaks, 0) le_rfl
    (le_max_right _ _)
  · rcases max_cases (Int.tdiv n 2 - 1).toNat 1 with ⟨e, _⟩ | ⟨e, _⟩
    · rw [e]; omega
    · rw [e]; omega
  · simp [peak_bins_below_one]
  · simp [peak_bins_below_one, peak_list]

theorem mem_qualifying_bins {K : Type*} [LinearOrderedField K] (magnitude : Nat → K)
    (n : Int) (b : Nat) :
    b ∈ qualifying_bins magnitude n ↔
      (1 ≤ b ∧ (b : Int) ≤ Int.tdiv n 2 - 2 ∧ magnitude b > magnitude (b - 1) ∧
        magnitude b > magnitude (b + 1) ∧ magnitude b > 1 / 10) := by
  unfold qualifying_bins peak_bins_below is_peak_bin
  rw [List.mem_filter, List.mem_range, Int.lt_toNat, Bool.and_eq_true, decide_eq_true_iff,
    decide_eq_true_iff]
  constructor
  · rintro ⟨h1, h2, h3⟩
    exact ⟨h2, by omega, h3⟩
  · rintro ⟨h1, h2, h3⟩
    exact ⟨by omega, h1, h3⟩

/-- C7: for every magnitude array, `n`, `sample_rate`, initial `peaks` array and
`max_peaks`, the peaks that `find_peaks` leaves are in non-increasing order of
magnitude: `peaks[i].magnitude ≥ peaks[i+1].magnitude` whenever `i + 1 < num_peaks`. -/
theorem find_peaks_sorted {K : Type*} [LinearOrderedField K] (magnitude : Nat → K) (n : Int)
    (sample_rate : K) (peaks : Nat → peak_t K) (max_peaks : Int) (i : Nat)
    (hi : i + 1 < (find_peaks magnitude n sample_rate peaks max_peaks).2) :
    ((find_peaks magnitude n sample_rate peaks max_peaks).1 i).magnitude ≥
      ((find_peaks magnitude n sample_rate peaks max_peaks).1 (i + 1)).magnitude := by
  unfold find_peaks find_peaks_sort at hi ⊢
  exact (sort_loops_spec _ _).2 i hi

/-- C8: with `Q` the qualifying bins (`1 ≤ i ≤ n/2 - 2`, strict local maximum, above
0.1) in ascending order and `max_peaks ≥ 0`, `find_peaks` sets
`num_peaks = min(max_peaks, |Q|)` and the returned peaks are a permutation of the
records `(bin = i, frequency = i*sample_rate/n, magnitude = magnitude[i])` of exactly
the first `num_peaks` bins of `Q`; so every returned record belongs to a bin of `Q`. -/
theorem find_peaks_first_qualifying {K : Type*} [LinearOrderedField K] (magnitude : Nat → K)
    (n : Int) (sample_rate : K) (peaks : Nat → peak_t K) (max_peaks : Int)
    (hmax : 0 ≤ max_peaks) :
    ((find_peaks magnitude n sample_rate peaks max_peaks).2 : Int) =
      min max_peaks ((qualifying_bins magnitude n).length : Int) ∧
    (peak_list (find_peaks magnitude n sample_rate peaks max_peaks).1
      (find_peaks magnitude n sample_rate peaks max_peaks).2).Perm
      (((qualifying_bins magnitude n).take
        (find_peaks magnitude n sample_rate peaks max_peaks).2).map
        (peak_record magnitude n sample_rate)) ∧
    (∀ idx, idx < (find_peaks magnitude n sample_rate peaks max_peaks).2 →
      ∃ b : Nat, (find_peaks magnitude n sample_rate peaks max_peaks).1 idx =
          peak_record magnitude n sample_rate b ∧
        1 ≤ b ∧ (b : Int) ≤ Int.tdiv n 2 - 2 ∧ magnitude b > magnitude (b - 1) ∧
        magnitude b > magnitude (b + 1) ∧ magnitude b > 1 / 10) := by
  obtain ⟨hnum, hlist⟩ := find_peaks_scan_spec magnitude n sample_rate peaks max_peaks
  have hperm : (peak_list (find_peaks magnitude n sample_rate peaks max_peaks).1
      (find_peaks magnitude n sample_rate peaks max_peaks).2).Perm
      (((qualifying_bins magnitude n).take
        (find_peaks magnitude n sample_rate peaks max_peaks).2).map
        (peak_record magnitude n sample_rate)) := by
    unfold find_peaks find_peaks_sort
    simp only
    rw [← hlist]
    exact (sort_loops_spec _ _).1
  refine ⟨?_, hperm, ?_⟩
  · unfold find_peaks
    simp only
    rw [hnum, Nat.cast_min, Int.toNat_of_nonneg hmax]
  · intro idx hidx
    have hmem : (find_peaks magnitude n sample_rate peaks max_peaks).1 idx ∈
        peak_list (find_peaks magnitude n sample_rate peaks max_peaks).1
          (find_peaks magnitude n sample_rate peaks max_peaks).2 := by
      unfold peak_list
      exact List.mem_map.2 ⟨idx, List.mem_range.2 hidx, rfl⟩
    have h2 := hperm.subset hmem
    obtain ⟨b, hb, e⟩ := List.mem_map.1 h2
    have hbQ : b ∈ qualifying_bins magnitude n := List.mem_of_mem_take hb
    exact ⟨b, e.symm, (mem_qualifying_bins magnitude n b).1 hbQ⟩


theorem tdiv_12_2 : Int.tdiv 12 2 = 6 := by decide

theorem find_peaks_sorted_witness :
    0 + 1 < (find_peaks two_peak_magnitude 12 1 zero_peaks 10).2 ∧
    ((find_peaks two_peak_magnitude 12 1 zero_peaks 10).1 0).magnitude ≥
      ((find_peaks two_peak_magnitude 12 1 zero_peaks 10).1 (0 + 1)).magnitude :=
  ⟨by norm_num [find_peaks, find_peaks_scan, while_loop_go, find_peaks_scan_body,
      two_peak_magnitude, tdiv_12_2],
    find_peaks_sorted two_peak_magnitude 12 1 zero_peaks 10 0
      (by norm_num [find_peaks, find_peaks_scan, while_loop_go, find_peaks_scan_body,
        two_peak_magnitude, tdiv_12_2])⟩

theorem find_peaks_first_qualifying_witness :
    (0 : Int) ≤ 10 ∧
    (((find_peaks two_peak_magnitude 12 1 zero_peaks 10).2 : Int) =
      min 10 ((qualifying_bins two_peak_magnitude 12).length : Int) ∧
    (peak_list (find_peaks two_peak_magnitude 12 1 zero_peaks 10).1
      (find_peaks two_peak_magnitude 12 1 zero_peaks 10).2).Perm
      (((qualifying_bins two_peak_magnitude 12).take
        (find_peaks two_peak_magnitude 12 1 zero_peaks 10).2).map
        (peak_record two_peak_magnitude 12 1)) ∧
    (∀ idx, idx < (find_peaks two_peak_magnitude 12 1 zero_peaks 10).2 →
      ∃ b : Nat, (find_peaks two_peak_magnitude 12 1 zero_peaks 10).1 idx =
          peak_record two_peak_magnitude 12 1 b ∧
        1 ≤ b ∧ (b : Int) ≤ Int.tdiv 12 2 - 2 ∧
        two_peak_magnitude b > two_peak_magnitude (b - 1) ∧
        two_peak_magnitude b > two_peak_magnitude (b + 1) ∧ two_peak_magnitude b > 1 / 10)) :=
  ⟨by norm_num, find_peaks_first_qualifying two_peak_magnitude 12 1 zero_peaks 10 (by norm_num)⟩


/-! ## `detect_pitch_peak` -/

theorem for_loop_int_go_rule {σ : Type*} (start stop : Int) (body : Int → σ → σ)
    (P : Int → σ → Prop)
    (hbody : ∀ i s, start ≤ i → i < stop → P i s → P (i + 1) (body i s)) :
    ∀ (fuel : Nat) (i : Int) (s : σ), start ≤ i → (stop - i).toNat ≤ fuel → P i s →
      P (max i stop) (for_loop_int_go stop body fuel i s) := by
  intro fuel
  induction fuel with
  | zero =>
    intro i s hi hfuel hP
    have : stop ≤ i := by omega
    rw [for_loop_int_go, max_eq_left this]
    exact hP
  | succ fuel ih =>
    intro i s hi hfuel hP
    rw [for_loop_int_go]
    by_cases hlt : i < stop
    · rw [if_pos hlt]
      have h := ih (i + 1) (body i s) (by omega) (by omega) (hbody i s hi hlt hP)
      have e : max (i + 1) stop = max i stop := by
        rw [max_eq_right (by omega), max_eq_right (by omega)]
      rw [e] at h
      exact h
    · rw [if_neg hlt, max_eq_left (by omega)]
      exact hP

/-- Hoare rule for a loop with `int` bounds. -/
theorem for_loop_int_induction {σ : Type*} (start stop : Int) (body : Int → σ → σ)
    (P : Int → σ → Prop) (s : σ) (h0 : P start s)
    (hbody : ∀ i s, start ≤ i → i < stop → P i s → P (i + 1) (body i s)) :
    P (max start stop) (for_loop_int start stop body s) :=
  for_loop_int_go_rule start stop body P hbody (stop - start).toNat start s le_rfl le_rfl h0

/-! ### `int` products -/

theorem int_wrap_of_bounds {z : Int} (h1 : -2147483648 ≤ z) (h2 : z ≤ 2147483647) :
    int_wrap z = z := by
  unfold int_wrap
  omega

theorem int_mul_of_bounds (a b : Int) (h1 : -2147483648 ≤ a * b) (h2 : a * b ≤ 2147483647) :
    int_mul a b = a * b :=
  int_wrap_of_bounds h1 h2

theorem int_wrap_mul_size (t : Int) : int_wrap (t * 4294967296) = 0 := by
  unfold int_wrap
  rw [add_comm, Int.add_mul_emod_self]
  decide

theorem c_trunc_nonneg {K : Type*} [LinearOrderedField K] [FloorRing K] (x : K) (hx : 0 ≤ x) :
    0 ≤ c_trunc x := by
  unfold c_trunc
  rw [if_pos hx]
  exact Int.floor_nonneg.2 hx

theorem c_trunc_nonpos {K : Type*} [LinearOrderedField K] [FloorRing K] (x : K) (hx : x ≤ 0) :
    c_trunc x ≤ 0 := by
  unfold c_trunc
  by_cases h0 : 0 ≤ x
  · rw [if_pos h0]
    have : x = 0 := le_antisymm hx h0
    rw [this, Int.floor_zero]
  · rw [if_neg h0]
    exact Int.ceil_le.2 (by exact_mod_cast hx)

theorem for_loop_int_empty {σ : Type*} (start stop : Int) (body : Int → σ → σ) (s : σ)
    (h : stop ≤ start) : for_loop_int start stop body s = s := by
  unfold for_loop_int
  have : (stop - start).toNat = 0 := by omega
  rw [this]
  rfl

/-! ### The search range -/

/-- The search range as the code computes it, with the `int` products wrapped. -/
theorem peak_search_range_wrap {K : Type*} [LinearOrderedField K] [FloorRing K] (n : Int)
    (sample_rate : K) :
    peak_search_range n sample_rate =
      (c_trunc (((int_mul 80 n : Int) : K) / sample_rate),
        min (c_trunc (((int_mul 2000 n : Int) : K) / sample_rate)) (Int.tdiv n 2)) := by
  unfold peak_search_range
  simp only
  by_cases h : c_trunc (((int_mul 2000 n : Int) : K) / sample_rate) > Int.tdiv n 2
  · rw [if_pos h, min_eq_right h.le]
  · rw [if_neg h, min_eq_left (not_lt.1 h)]

/-- Where `2000 * n` fits an `int` the range is `(trunc(80*n/sample_rate),
min(trunc(2000*n/sample_rate), n/2))`. -/
theorem peak_search_range_eq {K : Type*} [LinearOrderedField K] [FloorRing K] (n : Int)
    (sample_rate : K) (h1 : -2147483648 ≤ 2000 * n) (h2 : 2000 * n ≤ 2147483647) :
    peak_search_range n sample_rate =
      (c_trunc (((80 * n : Int) : K) / sample_rate),
        min (c_trunc (((2000 * n : Int) : K) / sample_rate)) (Int.tdiv n 2)) := by
  rw [peak_search_range_wrap, int_mul_of_bounds 80 n (by omega) (by omega),
    int_mul_of_bounds 2000 n h1 h2]

theorem two_pow_split (k m : Nat) (hk : m ≤ k) : (2 : Int) ^ k = 2 ^ (k - m) * 2 ^ m := by
  rw [← pow_add, Nat.sub_add_cancel hk]

/-- The wrapped products for a power of two from `2^21` on: either `2000 * n` wraps to a
negative number while `80 * n` is not negative, or both products wrap to the same
number. -/
theorem int_mul_pow_two_large (k : Nat) (hk : 21 ≤ k) :
    (int_mul 2000 ((2 : Int) ^ k) ≤ 0 ∧ 0 ≤ int_mul 80 ((2 : Int) ^ k)) ∨
    int_mul 80 ((2 : Int) ^ k) = int_mul 2000 ((2 : Int) ^ k) := by
  by_cases h28 : 28 ≤ k
  · right
    have e := two_pow_split k 28 h28
    have e80 : 80 * (2 : Int) ^ k = (5 * 2 ^ (k - 28)) * 4294967296 := by
      rw [e]; ring
    have e2000 : 2000 * (2 : Int) ^ k = (125 * 2 ^ (k - 28)) * 4294967296 := by
      rw [e]; ring
    unfold int_mul
    rw [e80, e2000, int_wrap_mul_size, int_wrap_mul_size]
  · have hk2 : k = 21 ∨ k = 22 ∨ k = 23 ∨ k = 24 ∨ k = 25 ∨ k = 26 ∨ k = 27 := by omega
    rcases hk2 with h | h | h | h | h | h | h <;> subst h
    · left; unfold int_mul int_wrap; norm_num
    · left; unfold int_mul int_wrap; norm_num
    · left; unfold int_mul int_wrap; norm_num
    · left; unfold int_mul int_wrap; norm_num
    · right; unfold int_mul int_wrap; norm_num
    · right; unfold int_mul int_wrap; norm_num
    · right; unfold int_mul int_wrap; norm_num

/-- For a power of two `n` and `sample_rate > 0`: either `2000 * n` fits an `int`, or the
search range that the code computes is empty. -/
theorem peak_search_range_pow_two {K : Type*} [LinearOrderedField K] [FloorRing K] (k : Nat)
    (sample_rate : K) (hsr : 0 < sample_rate) :
    (-2147483648 ≤ 2000 * (2 : Int) ^ k ∧ 2000 * (2 : Int) ^ k ≤ 2147483647) ∨
    (peak_search_range ((2 : Int) ^ k) sample_rate).2 ≤
      (peak_search_range ((2 : Int) ^ k) sample_rate).1 := by
  by_cases hk : k ≤ 20
  · left
    have h1 : (2 : Int) ^ k ≤ 2 ^ 20 := pow_le_pow_right₀ (by norm_num) hk
    have h0 : (0 : Int) < 2 ^ k := by positivity
    constructor
    · omega
    · have : (2 : Int) ^ 20 = 1048576 := by norm_num
      omega
  · right
    rw [peak_search_range_wrap]
    show min (c_trunc (((int_mul 2000 ((2 : Int) ^ k) : Int) : K) / sample_rate))
        (Int.tdiv ((2 : Int) ^ k) 2) ≤
      c_trunc (((int_mul 80 ((2 : Int) ^ k) : Int) : K) / sample_rate)
    refine le_trans (min_le_left _ _) ?_
    rcases int_mul_pow_two_large k (by omega) with ⟨hb, ha⟩ | hab
    · refine le_trans (c_trunc_nonpos _ ?_) (c_trunc_nonneg _ ?_)
      · exact div_nonpos_of_nonpos_of_nonneg (by exact_mod_cast hb) hsr.le
      · exact div_nonneg (by exact_mod_cast ha) hsr.le
    · rw [hab]

/-- If no bin of the range that the code computes has a positive magnitude, the search
ends in its initial state. -/
theorem peak_search_no_positive {K : Type*} [LinearOrderedField K] [FloorRing K]
    (magnitude : Nat → K) (n : Int) (sample_rate : K)
    (h : ∀ i : Int, (peak_search_range n sample_rate).1 ≤ i →
      i < (peak_search_range n sample_rate).2 → ¬ (magnitude i.toNat > 0)) :
    peak_search magnitude n sample_rate = (0, 0) := by
  unfold peak_search
  simp only
  apply for_loop_int_induction _ _ _ (fun _ s => s = ((0 : K), (0 : Int)))
  · rfl
  · intro i s h1 h2 hs
    subst hs
    simp only
    rw [if_neg (h i h1 h2)]

/-- The value of `detect_pitch_peak` when the search ends in its initial state. -/
theorem detect_pitch_peak_of_no_peak {C K : Type*} [LinearOrderedField K] [FloorRing K]
    (compute_magnitude : (Nat → C) → Int → (Nat → K)) (spectrum : Nat → C) (n : Int)
    (sample_rate : K)
    (hsearch : peak_search (compute_magnitude spectrum n) n sample_rate = (0, 0)) :
    detect_pitch_peak compute_magnitude spectrum n sample_rate = 0 ∧
    (peak_search (compute_magnitude spectrum n) n sample_rate).2 = 0 ∧
    ¬ ((peak_search (compute_magnitude spectrum n) n sample_rate).2 > 0 ∧
        (peak_search (compute_magnitude spectrum n) n sample_rate).2 < Int.tdiv n 2 - 1) ∧
    peak_interpolate (compute_magnitude spectrum n) n
        (peak_search (compute_magnitude spectrum n) n sample_rate).2 =
      (peak_search (compute_magnitude spectrum n) n sample_rate).2 := by
  have hnot : ¬ ((0 : Int) > 0 ∧ (0 : Int) < Int.tdiv n 2 - 1) := by
    rintro ⟨h1, _⟩
    exact lt_irrefl _ h1
  refine ⟨?_, ?_, ?_, ?_⟩
  · unfold detect_pitch_peak
    simp only [hsearch]
    unfold peak_interpolate
    rw [if_neg hnot]
    simp
  · rw [hsearch]
  · rw [hsearch]
    exact hnot
  · rw [hsearch]
    unfold peak_interpolate
    rw [if_neg hnot]

/-- C10: whenever no bin `i` with `min_bin ≤ i < max_bin` has a magnitude greater than
zero (`min_bin = trunc(80*n/sample_rate)`,
`max_bin = min(trunc(2000*n/sample_rate), n/2)`), the search of `detect_pitch_peak`
ends with `peak_bin = 0`, the interpolation branch is not taken, and the function
returns exactly 0.  This holds for every power of two `n` with `sample_rate > 0` (from
`n = 2^21` on the `int` product `2000 * n` wraps and the range that the code searches is
empty), and for every `n` and `sample_rate` for which `2000 * n` fits an `int`. -/
theorem detect_pitch_peak_no_positive_bin {C K : Type*} [LinearOrderedField K] [FloorRing K]
    (compute_magnitude : (Nat → C) → Int → (Nat → K)) (spectrum : Nat → C) (n : Int)
    (sample_rate : K)
    (hdom : (∃ k : Nat, n = 2 ^ k ∧ 0 < sample_rate) ∨
      (-2147483648 ≤ 2000 * n ∧ 2000 * n ≤ 2147483647))
    (h : ∀ i : Int, c_trunc (((80 * n : Int) : K) / sample_rate) ≤ i →
      i < min (c_trunc (((2000 * n : Int) : K) / sample_rate)) (Int.tdiv n 2) →
      ¬ (compute_magnitude spectrum n i.toNat > 0)) :
    detect_pitch_peak compute_magnitude spectrum n sample_rate = 0 ∧
    (peak_search (compute_magnitude spectrum n) n sample_rate).2 = 0 ∧
    ¬ ((peak_search (compute_magnitude spectrum n) n sample_rate).2 > 0 ∧
        (peak_search (compute_magnitude spectrum n) n sample_rate).2 < Int.tdiv n 2 - 1) ∧
    peak_interpolate (compute_magnitude spectrum n) n
        (peak_search (compute_magnitude spectrum n) n sample_rate).2 =
      (peak_search (compute_magnitude spectrum n) n sample_rate).2 := by
  apply detect_pitch_peak_of_no_peak
  have hfit : (-2147483648 ≤ 2000 * n ∧ 2000 * n ≤ 2147483647) →
      peak_search (compute_magnitude spectrum n) n sample_rate = (0, 0) := by
    rintro ⟨h1, h2⟩
    apply peak_search_no_positive
    rw [peak_search_range_eq n sample_rate h1 h2]
    exact h
  rcases hdom with ⟨k, rfl, hsr⟩ | hfits
  · rcases peak_search_range_pow_two k sample_rate hsr with hfits | hempty
    · exact hfit hfits
    · unfold peak_search
      exact for_loop_int_empty _ _ _ _ hempty
  · exact hfit hfits

theorem detect_pitch_peak_no_positive_bin_witness :
    ((∃ k : Nat, (8 : Int) = 2 ^ k ∧ (0 : ℝ) < 320) ∨
      (-2147483648 ≤ 2000 * (8 : Int) ∧ 2000 * (8 : Int) ≤ 2147483647)) ∧
    (∀ i : Int, c_trunc (((80 * 8 : Int) : ℝ) / 320) ≤ i →
      i < min (c_trunc (((2000 * 8 : Int) : ℝ) / 320)) (Int.tdiv 8 2) →
      ¬ (compute_magnitude zero_spectrum 8 i.toNat > 0)) ∧
    (detect_pitch_peak compute_magnitude zero_spectrum 8 (320 : ℝ) = 0 ∧
    (peak_search (compute_magnitude zero_spectrum 8) 8 (320 : ℝ)).2 = 0 ∧
    ¬ ((peak_search (compute_magnitude zero_spectrum 8) 8 (320 : ℝ)).2 > 0 ∧
        (peak_search (compute_magnitude zero_spectrum 8) 8 (320 : ℝ)).2 < Int.tdiv 8 2 - 1) ∧
    peak_interpolate (compute_magnitude zero_spectrum 8) 8
        (peak_search (compute_magnitude zero_spectrum 8) 8 (320 : ℝ)).2 =
      (peak_search (compute_magnitude zero_spectrum 8) 8 (320 : ℝ)).2) :=
  ⟨Or.inl ⟨3, by norm_num, by norm_num⟩,
    fun i _ _ => by simp [compute_magnitude, zero_spectrum],
    detect_pitch_peak_no_positive_bin compute_magnitude zero_spectrum 8 (320 : ℝ)
      (Or.inl ⟨3, by norm_num, by norm_num⟩)
      (fun i _ _ => by simp [compute_magnitude, zero_spectrum])⟩


theorem c_trunc_eq_of_bounds {K : Type*} [LinearOrderedField K] [FloorRing K] (x : K)
    (z : Int) (h0 : 0 ≤ x) (h1 : (z : K) ≤ x) (h2 : x < (z : K) + 1) : c_trunc x = z := by
  unfold c_trunc
  rw [if_pos h0]
  exact Int.floor_eq_iff.2 ⟨h1, h2⟩

theorem compute_magnitude_skewed (n : Int) :
    compute_magnitude skewed_peak_spectrum n =
      fun i => if i = 1 then 1 else if i = 2 then 4 else if i = 3 then 2 else 0 := by
  funext i
  unfold compute_magnitude skewed_peak_spectrum
  have h4 : Real.sqrt (4 ^ 2) = 4 := Real.sqrt_sq (by norm_num)
  have h2 : Real.sqrt (2 ^ 2) = 2 := Real.sqrt_sq (by norm_num)
  split_ifs <;> simp [h4, h2]

theorem tdiv_8_2 : Int.tdiv 8 2 = 4 := by decide

theorem peak_search_range_8_320 : peak_search_range 8 (320 : ℝ) = (2, 4) := by
  rw [peak_search_range_eq 8 (320 : ℝ) (by norm_num) (by norm_num), tdiv_8_2,
    c_trunc_eq_of_bounds (((80 * 8 : Int) : ℝ) / 320) 2 (by norm_num) (by norm_num)
      (by norm_num),
    c_trunc_eq_of_bounds (((2000 * 8 : Int) : ℝ) / 320) 50 (by norm_num) (by norm_num)
      (by norm_num)]
  rfl

theorem peak_search_skewed :
    peak_search (compute_magnitude skewed_peak_spectrum 8) 8 (320 : ℝ) = (4, 2) := by
  unfold peak_search
  rw [peak_search_range_8_320, compute_magnitude_skewed]
  have t2 : Int.toNat 2 = 2 := rfl
  have t3 : Int.toNat 3 = 3 := rfl
  norm_num [for_loop_int, for_loop_int_go, t2, t3]

/-- C9 (evaluation of the code): on the length-8 spectrum with magnitudes 1, 4, 2 in
bins 1, 2, 3 at `sample_rate = 320`, the winning bin is `b = 2` with `0 < b < n/2 - 1`
and `delta = 1/10`; the claimed result `(b + delta) * sample_rate / n` is 84, but
`detect_pitch_peak` stores `b + delta` in the `int` `peak_bin` and returns
`2 * 320 / 8 = 80`. -/
theorem detect_pitch_peak_truncates_refined_bin :
    (peak_search (compute_magnitude skewed_peak_spectrum 8) 8 (320 : ℝ)).2 = 2 ∧
    ((0 : Int) < 2 ∧ (2 : Int) < Int.tdiv 8 2 - 1) ∧
    (1 / 2 : ℝ) * (compute_magnitude skewed_peak_spectrum 8 1 -
        compute_magnitude skewed_peak_spectrum 8 3) /
      (compute_magnitude skewed_peak_spectrum 8 1 -
        2 * compute_magnitude skewed_peak_spectrum 8 2 +
        compute_magnitude skewed_peak_spectrum 8 3) = 1 / 10 ∧
    ((2 : ℝ) + 1 / 10) * 320 / ((8 : Int) : ℝ) = 84 ∧
    detect_pitch_peak compute_magnitude skewed_peak_spectrum 8 (320 : ℝ) = 80 := by
  refine ⟨by rw [peak_search_skewed], ⟨by norm_num, by rw [tdiv_8_2]; norm_num⟩, ?_, by norm_num,
    ?_⟩
  · rw [compute_magnitude_skewed]
    norm_num
  · unfold detect_pitch_peak
    simp only [peak_search_skewed]
    have hint : peak_interpolate (compute_magnitude skewed_peak_spectrum 8) 8 2 = 2 := by
      unfold peak_interpolate
      rw [if_pos ⟨by norm_num, by rw [tdiv_8_2]; norm_num⟩, compute_magnitude_skewed]
      have t1 : Int.toNat (2 - 1) = 1 := rfl
      have t2 : Int.toNat 2 = 2 := rfl
      have t3 : Int.toNat (2 + 1) = 3 := rfl
      simp only [t1, t2, t3]
      apply c_trunc_eq_of_bounds <;> norm_num
    rw [hint]
    norm_num


/-! ## The maximum searches of the pitch detectors -/

/-- The search `if (f[i] > max) { max = f[i]; arg = i; }` from `(0, 0)` over
`start ≤ i < stop`: either no value in the range is positive and the state is still
`(0, 0)`, or the state holds the lowest index at which `f` is maximal, and that
maximum is positive. -/
theorem argmax_loop_spec {K : Type*} [LinearOrderedField K] (f : Int → K) (start stop : Int) :
    ((∀ i, start ≤ i → i < stop → ¬ f i > 0) ∧
      for_loop_int start stop (fun i s => if f i > s.1 then (f i, i) else s)
        ((0 : K), (0 : Int)) = (0, 0)) ∨
    (start ≤ (for_loop_int start stop (fun i s => if f i > s.1 then (f i, i) else s)
        ((0 : K), (0 : Int))).2 ∧
      (for_loop_int start stop (fun i s => if f i > s.1 then (f i, i) else s)
        ((0 : K), (0 : Int))).2 < stop ∧
      (for_loop_int start stop (fun i s => if f i > s.1 then (f i, i) else s)
        ((0 : K), (0 : Int))).1 =
        f (for_loop_int start stop (fun i s => if f i > s.1 then (f i, i) else s)
          ((0 : K), (0 : Int))).2 ∧
      0 < f (for_loop_int start stop (fun i s => if f i > s.1 then (f i, i) else s)
          ((0 : K), (0 : Int))).2 ∧
      (∀ i, start ≤ i → i < stop →
        f i ≤ f (for_loop_int start stop (fun i s => if f i > s.1 then (f i, i) else s)
          ((0 : K), (0 : Int))).2) ∧
      (∀ i, start ≤ i →
        i < (for_loop_int start stop (fun i s => if f i > s.1 then (f i, i) else s)
          ((0 : K), (0 : Int))).2 →
        f i < f (for_loop_int start stop (fun i s => if f i > s.1 then (f i, i) else s)
          ((0 : K), (0 : Int))).2)) := by
  have key := for_loop_int_induction start stop
    (fun i s => if f i > s.1 then (f i, i) else s)
    (fun j s => ((∀ i, start ≤ i → i < j → ¬ f i > 0) ∧ s = ((0 : K), (0 : Int))) ∨
      (start ≤ s.2 ∧ s.2 < j ∧ s.1 = f s.2 ∧ 0 < f s.2 ∧
        (∀ i, start ≤ i → i < j → f i ≤ f s.2) ∧ (∀ i, start ≤ i → i < s.2 → f i < f s.2)))
    ((0 : K), (0 : Int)) (Or.inl ⟨fun i h1 h2 => by omega, rfl⟩) ?_
  · rcases key with ⟨h1, h2⟩ | ⟨h1, h2, h3, h4, h5, h6⟩
    · left
      exact ⟨fun i hi1 hi2 => h1 i hi1 (lt_of_lt_of_le hi2 (le_max_right _ _)), h2⟩
    · right
      refine ⟨h1, ?_, h3, h4, fun i hi1 hi2 => h5 i hi1 (lt_of_lt_of_le hi2 (le_max_right _ _)),
        h6⟩
      rcases max_cases start stop with ⟨e, _⟩ | ⟨e, _⟩
      · rw [e] at h2; omega
      · rw [e] at h2; exact h2
  · intro j s hj1 hj2 hP
    rcases hP with ⟨h1, rfl⟩ | ⟨h1, h2, h3, h4, h5, h6⟩
    · dsimp only
      split_ifs with hgt
      · right
        refine ⟨hj1, by omega, rfl, hgt, ?_, ?_⟩
        · intro i hi1 hi2
          by_cases hij : i = j
          · rw [hij]
          · exact le_trans (not_lt.1 (h1 i hi1 (by omega))) hgt.le
        · intro i hi1 hi2
          exact lt_of_le_of_lt (not_lt.1 (h1 i hi1 hi2)) hgt
      · left
        refine ⟨?_, rfl⟩
        intro i hi1 hi2
        by_cases hij : i = j
        · rw [hij]; exact hgt
        · exact h1 i hi1 (by omega)
    · right
      dsimp only
      split_ifs with hgt
      · rw [h3] at hgt
        refine ⟨hj1, by omega, rfl, lt_trans h4 hgt, ?_, ?_⟩
        · intro i hi1 hi2
          by_cases hij : i = j
          · rw [hij]
          · exact le_trans (h5 i hi1 (by omega)) hgt.le
        · intro i hi1 hi2
          exact lt_of_le_of_lt (h5 i hi1 hi2) hgt
      · refine ⟨h1, by omega, h3, h4, ?_, h6⟩
        intro i hi1 hi2
        by_cases hij : i = j
        · rw [hij, ← h3]; exact not_lt.1 hgt
        · exact h5 i hi1 (by omega)


/-! ## `detect_pitch_hps` -/

/-- A loop that rewrites element `i` from its own old value leaves `F i (x i)` in each
of the first `c` elements. -/
theorem pointwise_loop_apply {α : Type*} (F : Nat → α → α) (c : Nat) (x : Nat → α) (p : Nat) :
    for_loop 0 c 1 (fun i y => Function.update y i (F i (y i))) x p =
      if p < c then F p (x p) else x p := by
  have key := for_loop_induction 0 c (fun i y => Function.update y i (F i (y i)))
    (fun i cur => ∀ p, cur p = if p < i then F p (x p) else x p)
    (Nat.zero_le _) x (by intro p; simp) ?_
  · exact key p
  · intro i cur _ _ hcur p
    show Function.update cur i (F i (cur i)) p = _
    rw [Function.update_apply]
    by_cases hpi : p = i
    · subst hpi
      rw [if_pos rfl, hcur p, if_neg (by omega), if_pos (by omega)]
    · rw [if_neg hpi, hcur p]
      by_cases h : p < i
      · rw [if_pos h, if_pos (by omega)]
      · rw [if_neg h, if_neg (by omega)]

theorem for_loop_go_congr {σ : Type*} (stop step lo : Nat) (f g : Nat → σ → σ)
    (h : ∀ i s, lo ≤ i → i < stop → f i s = g i s) :
    ∀ (fuel i : Nat) (s : σ), lo ≤ i →
      for_loop_go stop step f fuel i s = for_loop_go stop step g fuel i s := by
  intro fuel
  induction fuel with
  | zero => intro i s _; rfl
  | succ fuel ih =>
    intro i s hi
    show (if i < stop then for_loop_go stop step f fuel (i + step) (f i s) else s) =
      (if i < stop then for_loop_go stop step g fuel (i + step) (g i s) else s)
    by_cases hlt : i < stop
    · rw [if_pos hlt, if_pos hlt, h i s hi hlt]
      exact ih (i + step) (g i s) (by omega)
    · rw [if_neg hlt, if_neg hlt]

/-- Two loop bodies that agree on the indices of the range give the same loop. -/
theorem for_loop_congr {σ : Type*} (start stop step : Nat) (f g : Nat → σ → σ) (s : σ)
    (h : ∀ i s, start ≤ i → i < stop → f i s = g i s) :
    for_loop start stop step f s = for_loop start stop step g s :=
  for_loop_go_congr stop step start f g h (stop - start) start s le_rfl

theorem tdiv_anti {n a b : Int} (hn : 0 ≤ n) (ha : 0 < a) (hab : a ≤ b) :
    Int.tdiv n b ≤ Int.tdiv n a := by
  rw [Int.tdiv_eq_ediv hn (by omega), Int.tdiv_eq_ediv hn (by omega)]
  obtain ⟨N, rfl⟩ := Int.eq_ofNat_of_zero_le hn
  obtain ⟨A, rfl⟩ := Int.eq_ofNat_of_zero_le ha.le
  obtain ⟨B, rfl⟩ := Int.eq_ofNat_of_zero_le (le_trans ha.le hab)
  have h1 : A ≤ B := by exact_mod_cast hab
  have h2 : 0 < A := by exact_mod_cast ha
  exact_mod_cast Nat.div_le_div_left h1 h2

theorem tdiv_double_mul_le {n h : Int} (hn : 0 ≤ n) (hh : 0 < h) :
    Int.tdiv n (2 * h) * h ≤ Int.tdiv n 2 := by
  rw [Int.tdiv_eq_ediv hn (by omega), Int.tdiv_eq_ediv hn (by norm_num)]
  apply Int.le_ediv_of_mul_le (by norm_num)
  have := Int.ediv_mul_le n (show (2 * h) ≠ 0 by omega)
  calc n / (2 * h) * h * 2 = n / (2 * h) * (2 * h) := by ring
    _ ≤ n := this

theorem tdiv_two_le {n : Int} (hn : 0 ≤ n) : Int.tdiv n 2 ≤ n := by
  rw [Int.tdiv_eq_ediv hn (by norm_num)]
  omega

/-- The index facts of one step of the multiplication loops, where `n` is a non-negative
`int` and `2*harmonics` fits an `int`: the `int` products are the exact products. -/
theorem hps_multiply_products (n harmonics : Int) (h i : Nat) (hn0 : 0 ≤ n)
    (hn1 : n ≤ 2147483647) (hH : 2 * harmonics ≤ 2147483647) (h2 : 2 ≤ h)
    (hh : h < (harmonics + 1).toNat) :
    int_mul 2 (h : Int) = 2 * (h : Int) ∧
    (i < (Int.tdiv n (2 * (h : Int)) + 1).toNat →
      (int_mul (i : Int) (h : Int)).toNat = i * h ∧ int_mul (i : Int) (h : Int) = i * h ∧
      (i : Int) * (h : Int) ≤ Int.tdiv n 2) := by
  have hhI : (h : Int) < harmonics + 1 := Int.lt_toNat.1 hh
  have hpos : (0 : Int) < (h : Int) := by exact_mod_cast (by omega : 0 < h)
  refine ⟨int_mul_of_bounds 2 _ (by omega) (by omega), ?_⟩
  intro hi
  have hi2 : (i : Int) < Int.tdiv n (2 * (h : Int)) + 1 := Int.lt_toNat.1 hi
  have hi0 : (0 : Int) ≤ (i : Int) := Int.ofNat_nonneg i
  have hmul : (i : Int) * (h : Int) ≤ Int.tdiv n 2 :=
    le_trans (mul_le_mul_of_nonneg_right (by omega) hpos.le) (tdiv_double_mul_le hn0 hpos)
  have hle := tdiv_two_le hn0
  have hnn : 0 ≤ (i : Int) * (h : Int) := mul_nonneg hi0 hpos.le
  have e : int_mul (i : Int) (h : Int) = (i : Int) * (h : Int) :=
    int_mul_of_bounds _ _ (by omega) (by omega)
  refine ⟨?_, e, hmul⟩
  rw [e]
  have : ((i : Int) * (h : Int)) = ((i * h : Nat) : Int) := by push_cast; rfl
  rw [this, Int.toNat_ofNat]

/-- Where `n` is a non-negative `int` and `2*harmonics` fits an `int`, the multiplication
loops are the loops with the exact products `2*h` and `i*h`. -/
theorem hps_multiply_unwrap {K : Type*} [Field K] (magnitude : Nat → K) (n : Int)
    (harmonics : Int) (hps : Nat → K) (hn0 : 0 ≤ n) (hn1 : n ≤ 2147483647)
    (hH : 2 * harmonics ≤ 2147483647) :
    hps_multiply magnitude n harmonics hps =
      for_loop 2 (harmonics + 1).toNat 1
        (fun h y => for_loop 0 (Int.tdiv n (2 * (h : Int)) + 1).toNat 1
          (fun i z => Function.update z i (z i * magnitude (i * h))) y) hps := by
  unfold hps_multiply
  apply for_loop_congr
  intro h y h2 hh
  have hp := fun i => hps_multiply_products n harmonics h i hn0 hn1 hH h2 hh
  show for_loop 0 (Int.tdiv n (int_mul 2 (h : Int)) + 1).toNat 1 _ y = _
  rw [(hp 0).1]
  apply for_loop_congr
  intro i z _ hi
  show Function.update z i (z i * magnitude (int_mul (i : Int) (h : Int)).toNat) = _
  rw [((hp i).2 hi).1]

theorem hps_init_apply {K : Type*} (magnitude : Nat → K) (n : Int) (hps : Nat → K) (p : Nat) :
    hps_init magnitude n hps p =
      if p < (Int.tdiv n 2 + 1).toNat then magnitude p else hps p := by
  unfold hps_init
  exact pointwise_loop_apply (fun i _ => magnitude i) _ hps p

theorem hps_multiply_apply {K : Type*} [Field K] (magnitude : Nat → K) (n : Int)
    (harmonics : Int) (hh : 1 ≤ harmonics) (hn0 : 0 ≤ n) (hn1 : n ≤ 2147483647)
    (hH : 2 * harmonics ≤ 2147483647) (hps : Nat → K) (p : Nat) :
    hps_multiply magnitude n harmonics hps p =
      hps p * ∏ h in Finset.Ico 2 (harmonics + 1).toNat,
        (if p < (Int.tdiv n (2 * (h : Int)) + 1).toNat then magnitude (p * h) else 1) := by
  rw [hps_multiply_unwrap magnitude n harmonics hps hn0 hn1 hH]
  have key := for_loop_induction 2 (harmonics + 1).toNat
    (fun h y => for_loop 0 (Int.tdiv n (2 * (h : Int)) + 1).toNat 1
      (fun i z => Function.update z i (z i * magnitude (i * h))) y)
    (fun h cur => ∀ p, cur p = hps p * ∏ h' in Finset.Ico 2 h,
        (if p < (Int.tdiv n (2 * (h' : Int)) + 1).toNat then magnitude (p * h') else 1))
    (by omega) hps (by intro p; simp) ?_
  · exact key p
  · intro h cur h2 _ hcur p
    show for_loop 0 (Int.tdiv n (2 * (h : Int)) + 1).toNat 1
      (fun i z => Function.update z i (z i * magnitude (i * h))) cur p = _
    rw [pointwise_loop_apply (fun i v => v * magnitude (i * h)), Finset.prod_Ico_succ_top h2,
      hcur p]
    by_cases hp : p < (Int.tdiv n (2 * (h : Int)) + 1).toNat
    · rw [if_pos hp, if_pos hp, mul_assoc]
    · rw [if_neg hp, if_neg hp, mul_one]

/-- Below `n/(2*harmonics)` every element of the array `hps` is the full product over
the harmonic orders `1 .. harmonics`. -/
theorem hps_array_apply {K : Type*} [Field K] (magnitude : Nat → K) (n : Int)
    (harmonics : Int) (hn : 0 ≤ n) (hh : 1 ≤ harmonics) (hn1 : n ≤ 2147483647)
    (hH : 2 * harmonics ≤ 2147483647) (hps_alloc : Nat → K) (p : Nat)
    (hp : (p : Int) ≤ Int.tdiv n (2 * harmonics)) :
    hps_array magnitude n harmonics hps_alloc p = harmonic_product magnitude harmonics p := by
  unfold hps_array harmonic_product
  rw [hps_multiply_apply magnitude n harmonics hh hn hn1 hH, hps_init_apply]
  have hp2 : p < (Int.tdiv n 2 + 1).toNat := by
    have := tdiv_anti hn (by norm_num : (0 : Int) < 2) (by omega : (2 : Int) ≤ 2 * harmonics)
    rw [Int.lt_toNat]
    omega
  rw [if_pos hp2]
  have hIcc : Finset.Icc 1 harmonics.toNat = insert 1 (Finset.Ico 2 (harmonics + 1).toNat) := by
    ext h
    simp only [Finset.mem_Icc, Finset.mem_insert, Finset.mem_Ico]
    have e : (harmonics + 1).toNat = harmonics.toNat + 1 := by omega
    rw [e]
    omega
  rw [hIcc, Finset.prod_insert (by simp), Nat.mul_one]
  congr 1
  apply Finset.prod_congr rfl
  intro h hmem
  rw [Finset.mem_Ico] at hmem
  have hle : Int.tdiv n (2 * harmonics) ≤ Int.tdiv n (2 * (h : Int)) := by
    apply tdiv_anti hn (by omega)
    have : (h : Int) < harmonics + 1 := by
      rw [← Int.lt_toNat]; exact hmem.2
    omega
  rw [if_pos]
  rw [Int.lt_toNat]
  omega


/-- The search range as the code computes it, with the `int` products wrapped. -/
theorem hps_search_range_wrap {K : Type*} [LinearOrderedField K] [FloorRing K] (n : Int)
    (sample_rate : K) (harmonics : Int) :
    hps_search_range n sample_rate harmonics =
      (c_trunc (((int_mul 80 n : Int) : K) / sample_rate),
        min (c_trunc (((int_mul 1000 n : Int) : K) / sample_rate))
          (Int.tdiv n (int_mul 2 harmonics))) := by
  unfold hps_search_range
  simp only
  by_cases h : c_trunc (((int_mul 1000 n : Int) : K) / sample_rate) >
      Int.tdiv n (int_mul 2 harmonics)
  · rw [if_pos h, min_eq_right h.le]
  · rw [if_neg h, min_eq_left (not_lt.1 h)]

/-- Where `1000 * n` and `2*harmonics` fit an `int` the range is
`(trunc(80*n/sample_rate), min(trunc(1000*n/sample_rate), n/(2*harmonics)))`. -/
theorem hps_search_range_eq {K : Type*} [LinearOrderedField K] [FloorRing K] (n : Int)
    (sample_rate : K) (harmonics : Int) (h1 : -2147483648 ≤ 1000 * n)
    (h2 : 1000 * n ≤ 2147483647) (h3 : -2147483648 ≤ 2 * harmonics)
    (h4 : 2 * harmonics ≤ 2147483647) :
    hps_search_range n sample_rate harmonics =
      (c_trunc (((80 * n : Int) : K) / sample_rate),
        min (c_trunc (((1000 * n : Int) : K) / sample_rate)) (Int.tdiv n (2 * harmonics))) := by
  rw [hps_search_range_wrap, int_mul_of_bounds 80 n (by omega) (by omega),
    int_mul_of_bounds 1000 n h1 h2, int_mul_of_bounds 2 harmonics h3 h4]

theorem scaled_bin_nonneg {K : Type*} [LinearOrderedField K] [FloorRing K] (c n : Int)
    (sample_rate : K) (hc : 0 ≤ c) (hn : 0 < n) (hsr : 0 < sample_rate) :
    0 ≤ c_trunc (((c * n : Int) : K) / sample_rate) := by
  apply c_trunc_nonneg
  apply div_nonneg _ hsr.le
  exact_mod_cast mul_nonneg hc hn.le

/-- The harmonic product spectrum detector where the `int` products fit: for `n > 0` with
`1000 * n ≤ INT_MAX`, `sample_rate > 0` and `harmonics ≥ 1` with `2*harmonics ≤ INT_MAX`,
with `min_bin = trunc(80*n/sample_rate)` and
`max_bin = min(trunc(1000*n/sample_rate), n/(2*harmonics))`: every `hps[i]` that the
search reads is the full product `P(i)` of the magnitudes at `i*h`, `h = 1..harmonics`;
if some `P(i)` in the range is positive, `detect_pitch_hps` returns `b*sample_rate/n`
for the lowest bin `b` of the range that maximises `P`; otherwise it returns 0. -/
theorem detect_pitch_hps_lowest_max_of_fit {C K : Type*} [LinearOrderedField K]
    [FloorRing K] (compute_magnitude : (Nat → C) → Int → (Nat → K)) (hps_alloc : Nat → K)
    (spectrum : Nat → C) (n : Int) (sample_rate : K) (harmonics : Int)
    (hn : 0 < n) (hsr : 0 < sample_rate) (hh : 1 ≤ harmonics)
    (hfit : 1000 * n ≤ 2147483647) (hhfit : 2 * harmonics ≤ 2147483647) :
    (∀ i : Int, c_trunc (((80 * n : Int) : K) / sample_rate) ≤ i →
      i < min (c_trunc (((1000 * n : Int) : K) / sample_rate)) (Int.tdiv n (2 * harmonics)) →
      hps_array (compute_magnitude spectrum n) n harmonics hps_alloc i.toNat =
        harmonic_product (compute_magnitude spectrum n) harmonics i.toNat) ∧
    ((∃ i : Int, c_trunc (((80 * n : Int) : K) / sample_rate) ≤ i ∧
        i < min (c_trunc (((1000 * n : Int) : K) / sample_rate))
          (Int.tdiv n (2 * harmonics)) ∧
        0 < harmonic_product (compute_magnitude spectrum n) harmonics i.toNat) →
      ∃ b : Int, c_trunc (((80 * n : Int) : K) / sample_rate) ≤ b ∧
        b < min (c_trunc (((1000 * n : Int) : K) / sample_rate))
          (Int.tdiv n (2 * harmonics)) ∧
        (∀ i : Int, c_trunc (((80 * n : Int) : K) / sample_rate) ≤ i →
          i < min (c_trunc (((1000 * n : Int) : K) / sample_rate))
            (Int.tdiv n (2 * harmonics)) →
          harmonic_product (compute_magnitude spectrum n) harmonics i.toNat ≤
            harmonic_product (compute_magnitude spectrum n) harmonics b.toNat) ∧
        (∀ i : Int, c_trunc (((80 * n : Int) : K) / sample_rate) ≤ i → i < b →
          harmonic_product (compute_magnitude spectrum n) harmonics i.toNat <
            harmonic_product (compute_magnitude spectrum n) harmonics b.toNat) ∧
        detect_pitch_hps compute_magnitude hps_alloc spectrum n sample_rate harmonics =
          (b : K) * sample_rate / (n : K)) ∧
    ((¬ ∃ i : Int, c_trunc (((80 * n : Int) : K) / sample_rate) ≤ i ∧
        i < min (c_trunc (((1000 * n : Int) : K) / sample_rate))
          (Int.tdiv n (2 * harmonics)) ∧
        0 < harmonic_product (compute_magnitude spectrum n) harmonics i.toNat) →
      detect_pitch_hps compute_magnitude hps_alloc spectrum n sample_rate harmonics = 0) := by
  have hmin0 := scaled_bin_nonneg 80 n sample_rate (by norm_num) hn hsr
  have hP : ∀ i : Int, c_trunc (((80 * n : Int) : K) / sample_rate) ≤ i →
      i < min (c_trunc (((1000 * n : Int) : K) / sample_rate)) (Int.tdiv n (2 * harmonics)) →
      hps_array (compute_magnitude spectrum n) n harmonics hps_alloc i.toNat =
        harmonic_product (compute_magnitude spectrum n) harmonics i.toNat := by
    intro i h1 h2
    apply hps_array_apply _ n harmonics hn.le hh (by omega) hhfit
    have h3 := lt_of_lt_of_le h2 (min_le_right _ _)
    rw [Int.toNat_of_nonneg (by omega)]
    exact h3.le
  have hspec := argmax_loop_spec
    (fun i : Int => hps_array (compute_magnitude spectrum n) n harmonics hps_alloc i.toNat)
    (c_trunc (((80 * n : Int) : K) / sample_rate))
    (min (c_trunc (((1000 * n : Int) : K) / sample_rate)) (Int.tdiv n (2 * harmonics)))
  have hsearch : hps_search (hps_array (compute_magnitude spectrum n) n harmonics hps_alloc)
      n sample_rate harmonics =
      for_loop_int (c_trunc (((80 * n : Int) : K) / sample_rate))
        (min (c_trunc (((1000 * n : Int) : K) / sample_rate)) (Int.tdiv n (2 * harmonics)))
        (fun i s =>
          if (fun i : Int => hps_array (compute_magnitude spectrum n) n harmonics hps_alloc
              i.toNat) i > s.1 then
            ((fun i : Int => hps_array (compute_magnitude spectrum n) n harmonics hps_alloc
              i.toNat) i, i)
          else s) ((0 : K), (0 : Int)) := by
    unfold hps_search
    simp only [hps_search_range_eq n sample_rate harmonics (by omega) hfit (by omega) hhfit]
  rw [← hsearch] at hspec
  have hres : detect_pitch_hps compute_magnitude hps_alloc spectrum n sample_rate harmonics =
      (((hps_search (hps_array (compute_magnitude spectrum n) n harmonics hps_alloc)
        n sample_rate harmonics).2 : Int) : K) * sample_rate / (n : K) := rfl
  refine ⟨hP, ?_, ?_⟩
  · rintro ⟨i0, hi1, hi2, hi3⟩
    rcases hspec with ⟨hnone, _⟩ | ⟨h1, h2, _, _, h5, h6⟩
    · exfalso
      apply hnone i0 hi1 hi2
      show hps_array (compute_magnitude spectrum n) n harmonics hps_alloc i0.toNat > 0
      rw [hP i0 hi1 hi2]
      exact hi3
    · refine ⟨_, h1, h2, ?_, ?_, hres⟩
      · intro i hi1' hi2'
        have := h5 i hi1' hi2'
        simp only at this
        rw [hP i hi1' hi2', hP _ h1 h2] at this
        exact this
      · intro i hi1' hi2'
        have := h6 i hi1' hi2'
        simp only at this
        rw [hP i hi1' (lt_trans hi2' h2), hP _ h1 h2] at this
        exact this
  · intro hno
    rcases hspec with ⟨_, hzero⟩ | ⟨h1, h2, _, h4, _, _⟩
    · rw [hres, hzero]
      simp
    · exfalso
      apply hno
      refine ⟨_, h1, h2, ?_⟩
      rw [hP _ h1 h2] at h4
      exact h4


/-- The search of `detect_pitch_peak` either finds no positive magnitude in the range
that the code computes and ends with `(0, 0)`, or ends at the lowest bin of that range
with the largest magnitude, which is positive. -/
theorem peak_search_cases {K : Type*} [LinearOrderedField K] [FloorRing K]
    (magnitude : Nat → K) (n : Int) (sample_rate : K) :
    ((∀ i : Int, (peak_search_range n sample_rate).1 ≤ i →
        i < (peak_search_range n sample_rate).2 → ¬ magnitude i.toNat > 0) ∧
      peak_search magnitude n sample_rate = (0, 0)) ∨
    ((peak_search_range n sample_rate).1 ≤ (peak_search magnitude n sample_rate).2 ∧
      (peak_search magnitude n sample_rate).2 < (peak_search_range n sample_rate).2 ∧
      0 < magnitude (peak_search magnitude n sample_rate).2.toNat ∧
      (∀ i : Int, (peak_search_range n sample_rate).1 ≤ i →
        i < (peak_search_range n sample_rate).2 →
        magnitude i.toNat ≤ magnitude (peak_search magnitude n sample_rate).2.toNat) ∧
      (∀ i : Int, (peak_search_range n sample_rate).1 ≤ i →
        i < (peak_search magnitude n sample_rate).2 →
        magnitude i.toNat < magnitude (peak_search magnitude n sample_rate).2.toNat)) := by
  have hspec := argmax_loop_spec (fun i : Int => magnitude i.toNat)
    (peak_search_range n sample_rate).1 (peak_search_range n sample_rate).2
  have hsearch : peak_search magnitude n sample_rate =
      for_loop_int (peak_search_range n sample_rate).1 (peak_search_range n sample_rate).2
        (fun i s =>
          if (fun i : Int => magnitude i.toNat) i > s.1 then
            ((fun i : Int => magnitude i.toNat) i, i)
          else s) ((0 : K), (0 : Int)) := rfl
  rw [← hsearch] at hspec
  rcases hspec with ⟨hnone, h0⟩ | ⟨h1, h2, _, h4, h5, h6⟩
  · exact Or.inl ⟨hnone, h0⟩
  · exact Or.inr ⟨h1, h2, h4, h5, h6⟩

/-- The search of `detect_pitch_peak` where `2000 * n` fits an `int`: for `n > 0` with
`2000 * n ≤ INT_MAX` and `sample_rate > 0`, when some magnitude in the range
`min_bin ≤ i < max_bin` is positive (`min_bin = trunc(80*n/sample_rate)`,
`max_bin = min(trunc(2000*n/sample_rate), n/2)`), the bin `b` that `detect_pitch_peak`
holds before the interpolation lies in the range, its magnitude is at least that of
every bin of the range and strictly above that of every lower bin of the range; so it is
the lowest maximiser, and no bin outside the range wins.  The range starts at a
non-negative index. -/
theorem detect_pitch_peak_selects_lowest_max_of_fit {C K : Type*} [LinearOrderedField K]
    [FloorRing K] (compute_magnitude : (Nat → C) → Int → (Nat → K)) (spectrum : Nat → C)
    (n : Int) (sample_rate : K) (hn : 0 < n) (hsr : 0 < sample_rate)
    (hfit : 2000 * n ≤ 2147483647)
    (hpos : ∃ i : Int, c_trunc (((80 * n : Int) : K) / sample_rate) ≤ i ∧
      i < min (c_trunc (((2000 * n : Int) : K) / sample_rate)) (Int.tdiv n 2) ∧
      0 < compute_magnitude spectrum n i.toNat) :
    0 ≤ c_trunc (((80 * n : Int) : K) / sample_rate) ∧
    c_trunc (((80 * n : Int) : K) / sample_rate) ≤
      (peak_search (compute_magnitude spectrum n) n sample_rate).2 ∧
    (peak_search (compute_magnitude spectrum n) n sample_rate).2 <
      min (c_trunc (((2000 * n : Int) : K) / sample_rate)) (Int.tdiv n 2) ∧
    (∀ i : Int, c_trunc (((80 * n : Int) : K) / sample_rate) ≤ i →
      i < min (c_trunc (((2000 * n : Int) : K) / sample_rate)) (Int.tdiv n 2) →
      compute_magnitude spectrum n i.toNat ≤
        compute_magnitude spectrum n
          (peak_search (compute_magnitude spectrum n) n sample_rate).2.toNat) ∧
    (∀ i : Int, c_trunc (((80 * n : Int) : K) / sample_rate) ≤ i →
      i < (peak_search (compute_magnitude spectrum n) n sample_rate).2 →
      compute_magnitude spectrum n i.toNat <
        compute_magnitude spectrum n
          (peak_search (compute_magnitude spectrum n) n sample_rate).2.toNat) ∧
    (∀ b' : Int, c_trunc (((80 * n : Int) : K) / sample_rate) ≤ b' →
      b' < min (c_trunc (((2000 * n : Int) : K) / sample_rate)) (Int.tdiv n 2) →
      (∀ i : Int, c_trunc (((80 * n : Int) : K) / sample_rate) ≤ i →
        i < min (c_trunc (((2000 * n : Int) : K) / sample_rate)) (Int.tdiv n 2) →
        compute_magnitude spectrum n i.toNat ≤ compute_magnitude spectrum n b'.toNat) →
      (peak_search (compute_magnitude spectrum n) n sample_rate).2 ≤ b') := by
  have hmin0 := scaled_bin_nonneg 80 n sample_rate (by norm_num) hn hsr
  have hc := peak_search_cases (compute_magnitude spectrum n) n sample_rate
  rw [peak_search_range_eq n sample_rate (by omega) hfit] at hc
  obtain ⟨i0, hi1, hi2, hi3⟩ := hpos
  rcases hc with ⟨hnone, _⟩ | ⟨h1, h2, _, h5, h6⟩
  · exact absurd hi3 (hnone i0 hi1 hi2)
  · refine ⟨hmin0, h1, h2, h5, h6, ?_⟩
    intro b' hb1 hb2 hall
    by_contra hlt
    have h7 := h6 b' hb1 (not_le.1 hlt)
    have h8 := hall _ h1 h2
    exact absurd h8 (not_le.2 h7)


/-! ## `detect_pitch_autocorr` -/

theorem autocorr_buffer_pow_two {C : Type*} [Field C] (tw : Int → Int → fft_direction → C)
    (conj : C → C) (alloc signal : Nat → C) (k : Nat) :
    autocorr_buffer tw conj alloc signal ((2 : Int) ^ k) =
      ((radix2_dit_fft tw
          (for_loop 0 (2 ^ k) 1 (fun i y => Function.update y i (y i * conj (y i)))
            (radix2_dit_fft tw (memcpy_complex alloc signal ((2 : Int) ^ k)) ((2 : Int) ^ k)
              fft_direction.FFT_FORWARD).2)
          ((2 : Int) ^ k) fft_direction.FFT_INVERSE).1,
        signal,
        (radix2_dit_fft tw
          (for_loop 0 (2 ^ k) 1 (fun i y => Function.update y i (y i * conj (y i)))
            (radix2_dit_fft tw (memcpy_complex alloc signal ((2 : Int) ^ k)) ((2 : Int) ^ k)
              fft_direction.FFT_FORWARD).2)
          ((2 : Int) ^ k) fft_direction.FFT_INVERSE).2) := by
  unfold autocorr_buffer
  simp only [radix2_dit_fft_ok, toNat_two_pow]

theorem memcpy_complex_apply {C : Type*} (dst src : Nat → C) (k j : Nat) (hj : j < 2 ^ k) :
    memcpy_complex dst src ((2 : Int) ^ k) j = src j := by
  unfold memcpy_complex
  rw [if_pos]
  exact_mod_cast hj

/-- The algebra behind the Wiener-Khinchin relation, for a primitive `n`-th root `z`. -/
theorem correlation_sum {K : Type*} [Field K] (z : K) (n : Nat) (hz : IsPrimitiveRoot z n)
    (a b : Nat → K) (l : Nat) (hn : 0 < n) :
    ∑ q in Finset.range n,
      (∑ j in Finset.range n, a j * z⁻¹ ^ (j * q)) *
        (∑ m in Finset.range n, b m * z ^ (m * q)) * z ^ (q * l) =
      (n : K) * ∑ m in Finset.range n, a ((m + l) % n) * b m := by
  have hmod : ∀ q m : Nat, z ^ (q * ((m + l) % n)) = z ^ (m * q) * z ^ (q * l) := by
    intro q m
    have h1 : (z ^ q) ^ ((m + l) % n) = (z ^ q) ^ (m + l) := by
      conv_rhs => rw [← Nat.mod_add_div (m + l) n]
      rw [pow_add, pow_mul (z ^ q) n, ← pow_mul z q n, Nat.mul_comm q n, pow_mul z n q,
        hz.pow_eq_one]
      simp
    calc z ^ (q * ((m + l) % n)) = (z ^ q) ^ ((m + l) % n) := by rw [pow_mul]
      _ = (z ^ q) ^ (m + l) := h1
      _ = z ^ (m * q) * z ^ (q * l) := by
        rw [← pow_mul, ← pow_add]
        congr 1
        ring
  have hterm : ∀ q ∈ Finset.range n,
      (∑ j in Finset.range n, a j * z⁻¹ ^ (j * q)) *
        (∑ m in Finset.range n, b m * z ^ (m * q)) * z ^ (q * l) =
      ∑ j in Finset.range n, ∑ m in Finset.range n,
        a j * b m * (z⁻¹ ^ (j * q) * z ^ (q * ((m + l) % n))) := by
    intro q _
    rw [Finset.sum_mul_sum, Finset.sum_mul]
    apply Finset.sum_congr rfl
    intro j _
    rw [Finset.sum_mul]
    apply Finset.sum_congr rfl
    intro m _
    rw [hmod]
    ring
  have hinner : ∀ m ∈ Finset.range n, ∀ j ∈ Finset.range n,
      ∑ q in Finset.range n, a j * b m * (z⁻¹ ^ (j * q) * z ^ (q * ((m + l) % n))) =
      if j = (m + l) % n then a j * b m * (n : K) else 0 := by
    intro m _ j hj
    rw [← Finset.mul_sum, root_orthogonality z n hz j ((m + l) % n) (Finset.mem_range.1 hj)
      (Nat.mod_lt _ hn)]
    by_cases h : j = (m + l) % n
    · simp [h]
    · simp [h]
  calc ∑ q in Finset.range n,
      (∑ j in Finset.range n, a j * z⁻¹ ^ (j * q)) *
        (∑ m in Finset.range n, b m * z ^ (m * q)) * z ^ (q * l)
      = ∑ q in Finset.range n, ∑ j in Finset.range n, ∑ m in Finset.range n,
          a j * b m * (z⁻¹ ^ (j * q) * z ^ (q * ((m + l) % n))) :=
        Finset.sum_congr rfl hterm
    _ = ∑ j in Finset.range n, ∑ q in Finset.range n, ∑ m in Finset.range n,
          a j * b m * (z⁻¹ ^ (j * q) * z ^ (q * ((m + l) % n))) := Finset.sum_comm
    _ = ∑ j in Finset.range n, ∑ m in Finset.range n, ∑ q in Finset.range n,
          a j * b m * (z⁻¹ ^ (j * q) * z ^ (q * ((m + l) % n))) :=
        Finset.sum_congr rfl (fun j _ => Finset.sum_comm)
    _ = ∑ m in Finset.range n, ∑ j in Finset.range n, ∑ q in Finset.range n,
          a j * b m * (z⁻¹ ^ (j * q) * z ^ (q * ((m + l) % n))) := Finset.sum_comm
    _ = ∑ m in Finset.range n, a ((m + l) % n) * b m * (n : K) := by
        apply Finset.sum_congr rfl
        intro m hm
        rw [Finset.sum_congr rfl (hinner m hm), Finset.sum_ite_eq',
          if_pos (Finset.mem_range.2 (Nat.mod_lt _ hn))]
    _ = (n : K) * ∑ m in Finset.range n, a ((m + l) % n) * b m := by
        rw [Finset.mul_sum]
        apply Finset.sum_congr rfl
        intro m _
        ring

theorem twiddle_forward_conj (k : Nat) :
    (starRingEnd ℂ) (twiddle_factor 1 ((2 ^ k : Nat) : Int) fft_direction.FFT_FORWARD) =
      twiddle_factor 1 ((2 ^ k : Nat) : Int) fft_direction.FFT_INVERSE := by
  rw [twiddle_forward_eq, twiddle_inverse_eq, ← Complex.exp_conj]
  congr 1
  simp only [map_neg, map_div₀, map_mul, map_pow, Complex.conj_ofReal, Complex.conj_I,
    map_ofNat]
  ring

theorem twiddle_inverse_conj (k : Nat) :
    (starRingEnd ℂ) (twiddle_factor 1 ((2 ^ k : Nat) : Int) fft_direction.FFT_INVERSE) =
      twiddle_factor 1 ((2 ^ k : Nat) : Int) fft_direction.FFT_FORWARD := by
  rw [← twiddle_forward_conj, Complex.conj_conj]

/-- The buffer that `detect_pitch_autocorr` searches, for a power-of-two size: the
circular autocorrelation of the signal. -/
theorem autocorr_buffer_apply (k : Nat) (alloc x : Nat → ℂ) (l : Nat) (hl : l < 2 ^ k) :
    (autocorr_buffer twiddle_factor (starRingEnd ℂ) alloc x ((2 : Int) ^ k)).2.2 l =
      ∑ m in Finset.range (2 ^ k), x ((m + l) % 2 ^ k) * (starRingEnd ℂ) (x m) := by
  rw [autocorr_buffer_pow_two]
  simp only
  rw [inverse_apply, if_pos hl]
  have hpower : ∀ q ∈ Finset.range (2 ^ k),
      for_loop 0 (2 ^ k) 1
        (fun i y => Function.update y i (y i * (starRingEnd ℂ) (y i)))
        (radix2_dit_fft twiddle_factor (memcpy_complex alloc x ((2 : Int) ^ k))
          ((2 : Int) ^ k) fft_direction.FFT_FORWARD).2 q *
        twiddle_factor 1 ((2 ^ k : Nat) : Int) fft_direction.FFT_INVERSE ^ (q * l) =
      (∑ j in Finset.range (2 ^ k),
          x j * (twiddle_factor 1 ((2 ^ k : Nat) : Int) fft_direction.FFT_INVERSE)⁻¹ ^ (j * q)) *
        (∑ m in Finset.range (2 ^ k), (starRingEnd ℂ) (x m) *
          twiddle_factor 1 ((2 ^ k : Nat) : Int) fft_direction.FFT_INVERSE ^ (m * q)) *
        twiddle_factor 1 ((2 ^ k : Nat) : Int) fft_direction.FFT_INVERSE ^ (q * l) := by
    intro q hq
    have hq' := Finset.mem_range.1 hq
    rw [pointwise_loop_apply (fun _ v => v * (starRingEnd ℂ) v), if_pos hq', forward_apply,
      if_pos hq']
    have hX : ∑ j in Finset.range (2 ^ k), memcpy_complex alloc x ((2 : Int) ^ k) j *
          twiddle_factor 1 ((2 ^ k : Nat) : Int) fft_direction.FFT_FORWARD ^ (j * q) =
        ∑ j in Finset.range (2 ^ k),
          x j * (twiddle_factor 1 ((2 ^ k : Nat) : Int) fft_direction.FFT_INVERSE)⁻¹ ^
            (j * q) := by
      apply Finset.sum_congr rfl
      intro j hj
      rw [memcpy_complex_apply _ _ _ _ (Finset.mem_range.1 hj), twiddle_forward_inv]
    rw [hX]
    congr 2
    rw [map_sum]
    apply Finset.sum_congr rfl
    intro m _
    rw [map_mul, map_pow, map_inv₀, twiddle_inverse_conj, twiddle_forward_inv, inv_inv]
  rw [Finset.sum_congr rfl hpower,
    correlation_sum _ _ (twiddle_inverse_primitive k) x (fun m => (starRingEnd ℂ) (x m)) l
      (by positivity)]
  push_cast
  field_simp


theorem tdiv_two_le_self (n : Int) (hn : 0 ≤ n) : Int.tdiv n 2 ≤ n := by
  rw [Int.tdiv_eq_ediv hn (by norm_num)]
  exact Int.ediv_le_self 2 hn

theorem autocorr_buffer_ok {C : Type*} [Field C] (tw : Int → Int → fft_direction → C)
    (conj : C → C) (alloc signal : Nat → C) (k : Nat) :
    (autocorr_buffer tw conj alloc signal ((2 : Int) ^ k)).1 = Except.ok () := by
  rw [autocorr_buffer_pow_two]
  exact radix2_dit_fft_ok _ _ _ _

theorem autocorr_search_range_eq {K : Type*} [LinearOrderedField K] [FloorRing K] (n : Int)
    (sample_rate : K) :
    autocorr_search_range n sample_rate =
      (c_trunc (sample_rate / 1000), min (c_trunc (sample_rate / 80)) (Int.tdiv n 2)) := by
  unfold autocorr_search_range
  simp only
  by_cases h : c_trunc (sample_rate / 80) > Int.tdiv n 2
  · rw [if_pos h, min_eq_right h.le]
  · rw [if_neg h, min_eq_left (not_lt.1 h)]

/-- For a power-of-two size `detect_pitch_autocorr` returns `sample_rate / peak_lag` or
0, from the search over the real parts of the buffer. -/
theorem detect_pitch_autocorr_pow_two {C K : Type*} [Field C] [LinearOrderedField K]
    [FloorRing K] (tw : Int → Int → fft_direction → C) (conj : C → C) (creal : C → K)
    (alloc signal : Nat → C) (k : Nat) (sample_rate : K) :
    detect_pitch_autocorr tw conj creal alloc signal ((2 : Int) ^ k) sample_rate =
      if (for_loop_int (c_trunc (sample_rate / 1000))
            (min (c_trunc (sample_rate / 80)) (Int.tdiv ((2 : Int) ^ k) 2))
            (fun lag s =>
              if (fun i : Int => creal ((autocorr_buffer tw conj alloc signal
                  ((2 : Int) ^ k)).2.2 i.toNat)) lag > s.1 then
                ((fun i : Int => creal ((autocorr_buffer tw conj alloc signal
                  ((2 : Int) ^ k)).2.2 i.toNat)) lag, lag)
              else s) ((0 : K), (0 : Int))).2 > 0 then
        Except.ok (sample_rate /
          (((for_loop_int (c_trunc (sample_rate / 1000))
            (min (c_trunc (sample_rate / 80)) (Int.tdiv ((2 : Int) ^ k) 2))
            (fun lag s =>
              if (fun i : Int => creal ((autocorr_buffer tw conj alloc signal
                  ((2 : Int) ^ k)).2.2 i.toNat)) lag > s.1 then
                ((fun i : Int => creal ((autocorr_buffer tw conj alloc signal
                  ((2 : Int) ^ k)).2.2 i.toNat)) lag, lag)
              else s) ((0 : K), (0 : Int))).2 : Int) : K))
      else Except.ok 0 := by
  unfold detect_pitch_autocorr
  simp only [autocorr_buffer_ok, autocorr_search, autocorr_search_range_eq]

/-- C13: for every complex signal `x` and every size `n = 2 ^ k`, the buffer that
`detect_pitch_autocorr` searches (forward transform of a copy of `x`, each bin times its
own conjugate, inverse transform) holds at every lag `l < n` the circular
autocorrelation `Σ_{m<n} x[(m + l) mod n] * conj(x[m])`; both transforms succeed and the
caller's array `signal` is as it was passed. -/
theorem autocorr_buffer_wiener_khinchin (k : Nat) (alloc x : Nat → ℂ) (l : Nat)
    (hl : l < 2 ^ k) :
    (autocorr_buffer twiddle_factor (starRingEnd ℂ) alloc x ((2 : Int) ^ k)).1 =
      Except.ok () ∧
    (autocorr_buffer twiddle_factor (starRingEnd ℂ) alloc x ((2 : Int) ^ k)).2.2 l =
      circular_autocorrelation (starRingEnd ℂ) x (2 ^ k) l ∧
    (autocorr_buffer twiddle_factor (starRingEnd ℂ) alloc x ((2 : Int) ^ k)).2.1 = x := by
  refine ⟨autocorr_buffer_ok _ _ _ _ _, autocorr_buffer_apply k alloc x l hl, ?_⟩
  rw [autocorr_buffer_pow_two]

theorem autocorr_buffer_wiener_khinchin_witness :
    (1 : Nat) < 2 ^ 2 ∧
    ((autocorr_buffer twiddle_factor (starRingEnd ℂ) (fun _ => 0) (fun i => (i : ℂ))
        ((2 : Int) ^ 2)).1 = Except.ok () ∧
    (autocorr_buffer twiddle_factor (starRingEnd ℂ) (fun _ => 0) (fun i => (i : ℂ))
        ((2 : Int) ^ 2)).2.2 1 =
      circular_autocorrelation (starRingEnd ℂ) (fun i => (i : ℂ)) (2 ^ 2) 1 ∧
    (autocorr_buffer twiddle_factor (starRingEnd ℂ) (fun _ => 0) (fun i => (i : ℂ))
        ((2 : Int) ^ 2)).2.1 = fun i : Nat => (i : ℂ)) :=
  ⟨by norm_num,
    autocorr_buffer_wiener_khinchin 2 (fun _ => 0) (fun i => (i : ℂ)) 1 (by norm_num)⟩

/-- C14: for every complex signal, size `n = 2 ^ k` and `sample_rate ≥ 1000`, with
`min_lag = trunc(sample_rate/1000)` and `max_lag = min(trunc(sample_rate/80), n/2)`: if
some lag of the range has an autocorrelation with positive real part,
`detect_pitch_autocorr` returns `sample_rate / L` for the lowest lag `L` of the range
whose real part is maximal, and `L ≥ 1`. -/
theorem detect_pitch_autocorr_lowest_max_lag (k : Nat) (alloc x : Nat → ℂ)
    (sample_rate : ℝ) (hsr : 1000 ≤ sample_rate)
    (hpos : ∃ lag : Int, c_trunc (sample_rate / 1000) ≤ lag ∧
      lag < min (c_trunc (sample_rate / 80)) (Int.tdiv ((2 : Int) ^ k) 2) ∧
      0 < (circular_autocorrelation (starRingEnd ℂ) x (2 ^ k) lag.toNat).re) :
    ∃ L : Int, c_trunc (sample_rate / 1000) ≤ L ∧
      L < min (c_trunc (sample_rate / 80)) (Int.tdiv ((2 : Int) ^ k) 2) ∧ 1 ≤ L ∧
      (∀ lag : Int, c_trunc (sample_rate / 1000) ≤ lag →
        lag < min (c_trunc (sample_rate / 80)) (Int.tdiv ((2 : Int) ^ k) 2) →
        (circular_autocorrelation (starRingEnd ℂ) x (2 ^ k) lag.toNat).re ≤
          (circular_autocorrelation (starRingEnd ℂ) x (2 ^ k) L.toNat).re) ∧
      (∀ lag : Int, c_trunc (sample_rate / 1000) ≤ lag → lag < L →
        (circular_autocorrelation (starRingEnd ℂ) x (2 ^ k) lag.toNat).re <
          (circular_autocorrelation (starRingEnd ℂ) x (2 ^ k) L.toNat).re) ∧
      detect_pitch_autocorr twiddle_factor (starRingEnd ℂ) Complex.re alloc x ((2 : Int) ^ k)
        sample_rate = Except.ok (sample_rate / (L : ℝ)) := by
  have hmin : 1 ≤ c_trunc (sample_rate / 1000) := by
    unfold c_trunc
    rw [if_pos (by positivity)]
    rw [Int.le_floor]
    rw [le_div_iff₀ (by norm_num)]
    simpa using hsr
  have hR : ∀ lag : Int, c_trunc (sample_rate / 1000) ≤ lag →
      lag < min (c_trunc (sample_rate / 80)) (Int.tdiv ((2 : Int) ^ k) 2) →
      ((autocorr_buffer twiddle_factor (starRingEnd ℂ) alloc x ((2 : Int) ^ k)).2.2
        lag.toNat).re = (circular_autocorrelation (starRingEnd ℂ) x (2 ^ k) lag.toNat).re := by
    intro lag h1 h2
    have h3 := lt_of_lt_of_le h2 (min_le_right _ _)
    have h4 := tdiv_two_le_self ((2 : Int) ^ k) (by positivity)
    have h5 : lag.toNat < 2 ^ k := by
      have : ((lag.toNat : Nat) : Int) < ((2 ^ k : Nat) : Int) := by
        rw [Int.toNat_of_nonneg (by omega)]
        push_cast
        omega
      exact_mod_cast this
    rw [autocorr_buffer_apply k alloc x _ h5]
    rfl
  have hspec := argmax_loop_spec
    (fun i : Int => ((autocorr_buffer twiddle_factor (starRingEnd ℂ) alloc x
      ((2 : Int) ^ k)).2.2 i.toNat).re)
    (c_trunc (sample_rate / 1000))
    (min (c_trunc (sample_rate / 80)) (Int.tdiv ((2 : Int) ^ k) 2))
  have hres := detect_pitch_autocorr_pow_two twiddle_factor (starRingEnd ℂ) Complex.re alloc
    x k sample_rate
  obtain ⟨i0, hi1, hi2, hi3⟩ := hpos
  rcases hspec with ⟨hnone, _⟩ | ⟨h1, h2, _, _, h5, h6⟩
  · exfalso
    apply hnone i0 hi1 hi2
    show ((autocorr_buffer twiddle_factor (starRingEnd ℂ) alloc x
      ((2 : Int) ^ k)).2.2 i0.toNat).re > 0
    rw [hR i0 hi1 hi2]
    exact hi3
  · refine ⟨_, h1, h2, le_trans hmin h1, ?_, ?_, ?_⟩
    · intro lag hl1 hl2
      have := h5 lag hl1 hl2
      simp only at this
      rw [hR lag hl1 hl2, hR _ h1 h2] at this
      exact this
    · intro lag hl1 hl2
      have := h6 lag hl1 hl2
      simp only at this
      rw [hR lag hl1 (lt_trans hl2 h2), hR _ h1 h2] at this
      exact this
    · rw [hres, if_pos]
      exact lt_of_lt_of_le (by norm_num) (le_trans hmin h1)


theorem tdiv_4_2 : Int.tdiv ((2 : Int) ^ 2) 2 = 2 := by decide

theorem circular_autocorrelation_const_one (l : Nat) :
    circular_autocorrelation (starRingEnd ℂ) constant_one_signal (2 ^ 2) l = 4 := by
  unfold circular_autocorrelation constant_one_signal
  simp

theorem detect_pitch_autocorr_lowest_max_lag_witness :
    (1000 : ℝ) ≤ 1000 ∧
    (∃ lag : Int, c_trunc ((1000 : ℝ) / 1000) ≤ lag ∧
      lag < min (c_trunc ((1000 : ℝ) / 80)) (Int.tdiv ((2 : Int) ^ 2) 2) ∧
      0 < (circular_autocorrelation (starRingEnd ℂ) constant_one_signal (2 ^ 2)
        lag.toNat).re) ∧
    (∃ L : Int, c_trunc ((1000 : ℝ) / 1000) ≤ L ∧
      L < min (c_trunc ((1000 : ℝ) / 80)) (Int.tdiv ((2 : Int) ^ 2) 2) ∧ 1 ≤ L ∧
      (∀ lag : Int, c_trunc ((1000 : ℝ) / 1000) ≤ lag →
        lag < min (c_trunc ((1000 : ℝ) / 80)) (Int.tdiv ((2 : Int) ^ 2) 2) →
        (circular_autocorrelation (starRingEnd ℂ) constant_one_signal (2 ^ 2) lag.toNat).re ≤
          (circular_autocorrelation (starRingEnd ℂ) constant_one_signal (2 ^ 2) L.toNat).re) ∧
      (∀ lag : Int, c_trunc ((1000 : ℝ) / 1000) ≤ lag → lag < L →
        (circular_autocorrelation (starRingEnd ℂ) constant_one_signal (2 ^ 2) lag.toNat).re <
          (circular_autocorrelation (starRingEnd ℂ) constant_one_signal (2 ^ 2) L.toNat).re) ∧
      detect_pitch_autocorr twiddle_factor (starRingEnd ℂ) Complex.re (fun _ => 0)
        constant_one_signal ((2 : Int) ^ 2) (1000 : ℝ) = Except.ok ((1000 : ℝ) / (L : ℝ))) := by
  have h1 : c_trunc ((1000 : ℝ) / 1000) = 1 :=
    c_trunc_eq_of_bounds _ 1 (by norm_num) (by norm_num) (by norm_num)
  have h2 : c_trunc ((1000 : ℝ) / 80) = 12 :=
    c_trunc_eq_of_bounds _ 12 (by norm_num) (by norm_num) (by norm_num)
  have hpos : ∃ lag : Int, c_trunc ((1000 : ℝ) / 1000) ≤ lag ∧
      lag < min (c_trunc ((1000 : ℝ) / 80)) (Int.tdiv ((2 : Int) ^ 2) 2) ∧
      0 < (circular_autocorrelation (starRingEnd ℂ) constant_one_signal (2 ^ 2)
        lag.toNat).re := by
    refine ⟨1, by rw [h1], by rw [h2, tdiv_4_2]; norm_num, ?_⟩
    rw [circular_autocorrelation_const_one]
    norm_num
  exact ⟨le_rfl, hpos,
    detect_pitch_autocorr_lowest_max_lag 2 (fun _ => 0) constant_one_signal 1000 le_rfl hpos⟩

/-- C15 (evaluation of the code): for the constant signal 1 of length 4 and
`sample_rate = 500` the search range is `[0, 2)`, lag 0 is searched and wins with the
value 4, so `detect_pitch_autocorr` returns 0 although lag 1 lies in the range and its
autocorrelation has the positive real part 4. -/
theorem detect_pitch_autocorr_searches_lag_zero :
    c_trunc ((500 : ℝ) / 1000) = 0 ∧
    min (c_trunc ((500 : ℝ) / 80)) (Int.tdiv ((2 : Int) ^ 2) 2) = 2 ∧
    (autocorr_search (fun i => ((autocorr_buffer twiddle_factor (starRingEnd ℂ) (fun _ => 0)
      constant_one_signal ((2 : Int) ^ 2)).2.2 i).re) ((2 : Int) ^ 2) (500 : ℝ)) = (4, 0) ∧
    (circular_autocorrelation (starRingEnd ℂ) constant_one_signal (2 ^ 2) 1).re = 4 ∧
    detect_pitch_autocorr twiddle_factor (starRingEnd ℂ) Complex.re (fun _ => 0)
      constant_one_signal ((2 : Int) ^ 2) (500 : ℝ) = Except.ok 0 := by
  have h1 : c_trunc ((500 : ℝ) / 1000) = 0 :=
    c_trunc_eq_of_bounds _ 0 (by norm_num) (by norm_num) (by norm_num)
  have h2 : c_trunc ((500 : ℝ) / 80) = 6 :=
    c_trunc_eq_of_bounds _ 6 (by norm_num) (by norm_num) (by norm_num)
  have hmin : min (c_trunc ((500 : ℝ) / 80)) (Int.tdiv ((2 : Int) ^ 2) 2) = 2 := by
    rw [h2, tdiv_4_2]; norm_num
  have hb0 : ((autocorr_buffer twiddle_factor (starRingEnd ℂ) (fun _ => 0)
      constant_one_signal ((2 : Int) ^ 2)).2.2 0).re = 4 := by
    rw [autocorr_buffer_apply 2 _ _ 0 (by norm_num)]
    have := circular_autocorrelation_const_one 0
    unfold circular_autocorrelation at this
    rw [this]
    norm_num
  have hb1 : ((autocorr_buffer twiddle_factor (starRingEnd ℂ) (fun _ => 0)
      constant_one_signal ((2 : Int) ^ 2)).2.2 1).re = 4 := by
    rw [autocorr_buffer_apply 2 _ _ 1 (by norm_num)]
    have := circular_autocorrelation_const_one 1
    unfold circular_autocorrelation at this
    rw [this]
    norm_num
  have hsearch : (autocorr_search (fun i => ((autocorr_buffer twiddle_factor (starRingEnd ℂ)
      (fun _ => 0) constant_one_signal ((2 : Int) ^ 2)).2.2 i).re) ((2 : Int) ^ 2)
      (500 : ℝ)) = (4, 0) := by
    unfold autocorr_search
    simp only [autocorr_search_range_eq, h1, hmin]
    have t0 : Int.toNat 0 = 0 := rfl
    have t1 : Int.toNat (0 + 1) = 1 := rfl
    have f2 : ((2 : Int) - 0).toNat = 2 := rfl
    simp only [for_loop_int, f2, for_loop_int_go, t0, t1, hb0, hb1]
    norm_num
  refine ⟨h1, hmin, hsearch, ?_, ?_⟩
  · rw [circular_autocorrelation_const_one]
    norm_num
  · unfold detect_pitch_autocorr
    simp only [autocorr_buffer_ok, hsearch]
    norm_num


/-! ## The confidence combiner -/

/-- C16 (refutation): for the triple `(0, 0, 0)` of non-negative estimates, which the
three detectors return on a silent frame, the divisor `avg_pitch` of
`sqrt(variance) / avg_pitch` is zero; so it is not the case that both divisors are
non-zero and the confidence lies in `(0, 1]`. -/
theorem pitch_confidence_zero_triple_divides_by_zero :
    ¬ (confidence_avg_pitch (0 : ℝ) 0 0 ≠ 0 ∧
      1 + Real.sqrt (confidence_variance (0 : ℝ) 0 0) / confidence_avg_pitch (0 : ℝ) 0 0 ≠ 0 ∧
      0 < pitch_confidence Real.sqrt (0 : ℝ) 0 0 ∧ pitch_confidence Real.sqrt (0 : ℝ) 0 0 ≤ 1) := by
  rintro ⟨h, _⟩
  apply h
  simp [confidence_avg_pitch]

/-- C16 (amended): for every triple of estimates with a positive sum, in particular for
every triple of non-negative estimates that are not all zero (single 0 Hz sentinels are
allowed), both divisors of the confidence formula are non-zero and the confidence lies
in `(0, 1]`. -/
theorem pitch_confidence_in_unit_interval (pitch1 pitch2 pitch3 : ℝ)
    (hsum : 0 < pitch1 + pitch2 + pitch3) :
    confidence_avg_pitch pitch1 pitch2 pitch3 ≠ 0 ∧
    1 + Real.sqrt (confidence_variance pitch1 pitch2 pitch3) /
      confidence_avg_pitch pitch1 pitch2 pitch3 ≠ 0 ∧
    0 < pitch_confidence Real.sqrt pitch1 pitch2 pitch3 ∧
    pitch_confidence Real.sqrt pitch1 pitch2 pitch3 ≤ 1 := by
  have havg : 0 < confidence_avg_pitch pitch1 pitch2 pitch3 := by
    unfold confidence_avg_pitch
    positivity
  have hq : 0 ≤ Real.sqrt (confidence_variance pitch1 pitch2 pitch3) /
      confidence_avg_pitch pitch1 pitch2 pitch3 :=
    div_nonneg (Real.sqrt_nonneg _) havg.le
  have hden : 1 ≤ 1 + Real.sqrt (confidence_variance pitch1 pitch2 pitch3) /
      confidence_avg_pitch pitch1 pitch2 pitch3 := by linarith
  refine ⟨havg.ne', by linarith, ?_, ?_⟩
  · unfold pitch_confidence
    apply div_pos one_pos
    linarith
  · unfold pitch_confidence
    rw [div_le_one (by linarith)]
    exact hden

theorem pitch_confidence_in_unit_interval_witness :
    (0 : ℝ) < 440 + 0 + 440 ∧
    (confidence_avg_pitch (440 : ℝ) 0 440 ≠ 0 ∧
    1 + Real.sqrt (confidence_variance (440 : ℝ) 0 440) /
      confidence_avg_pitch (440 : ℝ) 0 440 ≠ 0 ∧
    0 < pitch_confidence Real.sqrt (440 : ℝ) 0 440 ∧
    pitch_confidence Real.sqrt (440 : ℝ) 0 440 ≤ 1) :=
  ⟨by norm_num, pitch_confidence_in_unit_interval 440 0 440 (by norm_num)⟩


/-! ## The note table and `frequency_to_note_name` -/

/-- The search `if (fabs(g[i]) < fabs(min)) { min = g[i]; idx = i; }` from `(1200, 0)`
over `0 ≤ i < N`: either no `|g[i]|` is below 1200 and the state is still `(1200, 0)`,
or the state holds the lowest index at which `|g|` is minimal, and that minimum is
below 1200. -/
theorem argmin_loop_spec {K : Type*} [LinearOrderedField K] (g : Nat → K) (N : Nat) :
    ((∀ i, i < N → ¬ |g i| < 1200) ∧
      for_loop 0 N 1 (fun i s => if |g i| < |s.1| then (g i, i) else s)
        ((1200 : K), (0 : Nat)) = (1200, 0)) ∨
    ((for_loop 0 N 1 (fun i s => if |g i| < |s.1| then (g i, i) else s)
        ((1200 : K), (0 : Nat))).2 < N ∧
      (for_loop 0 N 1 (fun i s => if |g i| < |s.1| then (g i, i) else s)
        ((1200 : K), (0 : Nat))).1 =
        g (for_loop 0 N 1 (fun i s => if |g i| < |s.1| then (g i, i) else s)
          ((1200 : K), (0 : Nat))).2 ∧
      |g (for_loop 0 N 1 (fun i s => if |g i| < |s.1| then (g i, i) else s)
          ((1200 : K), (0 : Nat))).2| < 1200 ∧
      (∀ i, i < N →
        |g (for_loop 0 N 1 (fun i s => if |g i| < |s.1| then (g i, i) else s)
          ((1200 : K), (0 : Nat))).2| ≤ |g i|) ∧
      (∀ i, i < (for_loop 0 N 1 (fun i s => if |g i| < |s.1| then (g i, i) else s)
          ((1200 : K), (0 : Nat))).2 →
        |g (for_loop 0 N 1 (fun i s => if |g i| < |s.1| then (g i, i) else s)
          ((1200 : K), (0 : Nat))).2| < |g i|)) := by
  have h1200 : |(1200 : K)| = 1200 := abs_of_nonneg (by norm_num)
  refine for_loop_induction 0 N (fun i s => if |g i| < |s.1| then (g i, i) else s)
    (fun j s => ((∀ i, i < j → ¬ |g i| < 1200) ∧ s = ((1200 : K), (0 : Nat))) ∨
      (s.2 < j ∧ s.1 = g s.2 ∧ |g s.2| < 1200 ∧ (∀ i, i < j → |g s.2| ≤ |g i|) ∧
        (∀ i, i < s.2 → |g s.2| < |g i|)))
    (Nat.zero_le _) ((1200 : K), (0 : Nat)) (Or.inl ⟨fun i h => by omega, rfl⟩) ?_
  intro j s _ _ hP
  rcases hP with ⟨h1, rfl⟩ | ⟨h1, h2, h3, h4, h5⟩
  · dsimp only
    rw [h1200]
    split_ifs with hlt
    · right
      refine ⟨by omega, rfl, hlt, ?_, ?_⟩
      · intro i hi
        by_cases hij : i = j
        · rw [hij]
        · exact le_trans hlt.le (not_lt.1 (h1 i (by omega)))
      · intro i hi
        exact lt_of_lt_of_le hlt (not_lt.1 (h1 i hi))
    · left
      refine ⟨?_, rfl⟩
      intro i hi
      by_cases hij : i = j
      · rw [hij]; exact hlt
      · exact h1 i (by omega)
  · right
    dsimp only
    split_ifs with hlt
    · rw [h2] at hlt
      refine ⟨by omega, rfl, lt_trans hlt h3, ?_, ?_⟩
      · intro i hi
        by_cases hij : i = j
        · rw [hij]
        · exact le_trans hlt.le (h4 i (by omega))
      · intro i hi
        exact lt_of_lt_of_le hlt (h4 i hi)
    · refine ⟨by omega, h2, h3, ?_, h5⟩
      intro i hi
      by_cases hij : i = j
      · rw [hij, ← h2]; exact not_lt.1 hlt
      · exact h4 i (by omega)

/-- C18 (refutation): the table does not have 85 entries. -/
theorem num_notes_ne_85 : ¬ (num_notes = 85) := by decide

/-- C18 (amended): the note table used by `frequency_to_note_name` has exactly 97
entries (`num_notes = 97`: the twelve notes of the octaves 0 to 7, and C8), the first
being C0 and the last C8, with A4 = 440.00 Hz at index 57. -/
theorem notes_table_shape :
    num_notes = 97 ∧ notes.length = 97 ∧
    notes.head? = some ("C0", 16.35) ∧ notes.getLast? = some ("C8", 4186.01) ∧
    notes.getD 57 ("", 0) = ("A4", 440.00) ∧ (notes.getD 57 ("", 0)).2 = 440 := by
  refine ⟨rfl, rfl, rfl, rfl, rfl, ?_⟩
  have : notes.getD 57 ("", 0) = ("A4", 440.00) := rfl
  rw [this]
  norm_num


theorem notes_frequency_bounds : ∀ p ∈ notes, (0 : ℚ) < p.2 ∧ p.2 ≤ 4186.01 := by
  unfold notes
  simp only [List.forall_mem_cons, List.not_mem_nil, false_imp_iff, implies_true, and_true]
  norm_num

theorem notes_getD_pos {K : Type*} [LinearOrderedField K] (i : Nat) (hi : i < num_notes) :
    (0 : K) < ((notes.getD i ("", 0)).2 : K) := by
  have hmem : notes.getD i ("", 0) ∈ notes := by
    rw [List.getD_eq_getElem _ _ hi]
    exact List.getElem_mem _
  exact_mod_cast (notes_frequency_bounds _ hmem).1

/-- For a positive frequency every ratio `freq / f_note` is positive and the loop of
`frequency_to_note_name` is the search for the smallest `|cents|`. -/
theorem closest_note_eq {K : Type*} [LinearOrderedField K] (log2 : K → K) (freq : K)
    (hf : 0 < freq) :
    closest_note log2 freq =
      for_loop 0 num_notes 1
        (fun i s => if |note_cents log2 freq i| < |s.1| then (note_cents log2 freq i, i) else s)
        ((1200 : K), (0 : Nat)) := by
  unfold closest_note
  apply for_loop_congr
  intro i s _ hi
  have hpos : 0 < freq / ((notes.getD i ("", 0)).2 : K) := div_pos hf (notes_getD_pos i hi)
  show (if 0 < freq / ((notes.getD i ("", 0)).2 : K) ∧
      |1200 * log2 (freq / ((notes.getD i ("", 0)).2 : K))| < |s.1| then _ else s) = _
  unfold note_cents
  by_cases h : |1200 * log2 (freq / ((notes.getD i ("", 0)).2 : K))| < |s.1|
  · rw [if_pos ⟨hpos, h⟩, if_pos h]
  · rw [if_neg (fun hc => h hc.2), if_neg h]

/-- For a frequency that is zero or negative the loop of `frequency_to_note_name` never
updates its state: the report is the first entry with the initial 1200 cents. -/
theorem closest_note_of_nonpos {K : Type*} [LinearOrderedField K] (log2 : K → K) (freq : K)
    (hf : freq ≤ 0) : closest_note log2 freq = (1200, 0) := by
  unfold closest_note
  refine for_loop_induction 0 num_notes _ (fun _ s => s = ((1200 : K), (0 : Nat)))
    (Nat.zero_le _) _ rfl ?_
  intro i s _ hi hs
  subst hs
  have hneg : ¬ 0 < freq / ((notes.getD i ("", 0)).2 : K) :=
    not_lt.2 (div_nonpos_of_nonpos_of_nonneg hf (notes_getD_pos i hi).le)
  show (if 0 < freq / ((notes.getD i ("", 0)).2 : K) ∧ _ then _ else _) = _
  rw [if_neg (fun hc => hneg hc.1)]

theorem note_report_fields {K : Type*} [LinearOrderedField K] (log2 : K → K) (freq : K) :
    (frequency_to_note_name log2 freq).name =
        (notes.getD (closest_note log2 freq).2 ("", 0)).1 ∧
      (frequency_to_note_name log2 freq).cents = (closest_note log2 freq).1 ∧
      ((frequency_to_note_name log2 freq).in_tune = true ↔ |(closest_note log2 freq).1| < 1) := by
  unfold frequency_to_note_name
  by_cases h : |(closest_note log2 freq).1| < 1
  · simp [h]
  · simp [h]

/-- When no entry is within 1200 cents the loop of `frequency_to_note_name` never
updates its state. -/
theorem closest_note_default {K : Type*} [LinearOrderedField K] (log2 : K → K) (freq : K)
    (hf : 0 < freq) (hno : ¬ ∃ i, i < num_notes ∧ |note_cents log2 freq i| < 1200) :
    closest_note log2 freq = (1200, 0) := by
  have hspec := argmin_loop_spec (note_cents log2 freq) num_notes
  rw [← closest_note_eq log2 freq hf] at hspec
  rcases hspec with ⟨_, hinit⟩ | ⟨h1, _, h3, _, _⟩
  · exact hinit
  · exact absurd ⟨_, h1, h3⟩ hno

/-- The report for a positive frequency: if some entry of the note table is less than
1200 cents away from `freq`, `frequency_to_note_name` selects the first entry that
minimises the absolute cents difference `|1200*log2(freq / f_note)|` over all entries
and reports that entry's signed cents difference, as "in tune" exactly when its absolute
value is below 1; if no entry is within 1200 cents the state of the loop is still the
initial one and the report is the first entry with 1200 cents. -/
theorem frequency_to_note_name_within_octave {K : Type*} [LinearOrderedField K]
    (log2 : K → K) (freq : K) (hf : 0 < freq) :
    ((∃ i, i < num_notes ∧ |note_cents log2 freq i| < 1200) →
      ∃ b, b < num_notes ∧
        (∀ i, i < num_notes → |note_cents log2 freq b| ≤ |note_cents log2 freq i|) ∧
        (∀ i, i < b → |note_cents log2 freq b| < |note_cents log2 freq i|) ∧
        (frequency_to_note_name log2 freq).name = (notes.getD b ("", 0)).1 ∧
        (frequency_to_note_name log2 freq).cents = note_cents log2 freq b ∧
        ((frequency_to_note_name log2 freq).in_tune = true ↔
          |note_cents log2 freq b| < 1)) ∧
    ((¬ ∃ i, i < num_notes ∧ |note_cents log2 freq i| < 1200) →
      (frequency_to_note_name log2 freq).name = "C0" ∧
      (frequency_to_note_name log2 freq).cents = 1200 ∧
      (frequency_to_note_name log2 freq).in_tune = false) := by
  have hspec := argmin_loop_spec (note_cents log2 freq) num_notes
  rw [← closest_note_eq log2 freq hf] at hspec
  have hreport := note_report_fields log2 freq
  constructor
  · rintro ⟨i0, hi0, hlt0⟩
    rcases hspec with ⟨hnone, _⟩ | ⟨h1, h2, _, h4, h5⟩
    · exact absurd hlt0 (hnone i0 hi0)
    · refine ⟨_, h1, h4, h5, hreport.1, ?_, ?_⟩
      · rw [hreport.2.1, h2]
      · rw [hreport.2.2, h2]
  · intro hno
    rcases hspec with ⟨_, hinit⟩ | ⟨h1, _, h3, _, _⟩
    · rw [hinit] at hreport
      refine ⟨by rw [hreport.1]; rfl, hreport.2.1, ?_⟩
      have : ¬ |(1200 : K)| < 1 := by
        rw [abs_of_nonneg (by norm_num)]
        norm_num
      rcases hb : (frequency_to_note_name log2 freq).in_tune with _ | _
      · rfl
      · exact absurd (hreport.2.2.1 hb) this
    · exact absurd ⟨_, h1, h3⟩ hno

theorem notes_getD_bounds (i : Nat) (hi : i < num_notes) :
    (0 : ℝ) < ((notes.getD i ("", 0)).2 : ℝ) ∧
      ((notes.getD i ("", 0)).2 : ℝ) ≤ ((4186.01 : ℚ) : ℝ) := by
  have hmem : notes.getD i ("", 0) ∈ notes := by
    rw [List.getD_eq_getElem _ _ hi]
    exact List.getElem_mem _
  have h := notes_frequency_bounds _ hmem
  exact ⟨by exact_mod_cast h.1, by exact_mod_cast h.2⟩

theorem note_cents_10000_ge (i : Nat) (hi : i < num_notes) :
    1200 ≤ note_cents (Real.logb 2) 10000 96 ∧
    note_cents (Real.logb 2) 10000 96 ≤ note_cents (Real.logb 2) 10000 i := by
  have e96 : notes.getD 96 ("", 0) = ("C8", 4186.01) := rfl
  obtain ⟨h0, h1⟩ := notes_getD_bounds i hi
  have hC8 : (0 : ℝ) < ((4186.01 : ℚ) : ℝ) := by norm_num
  unfold note_cents
  rw [e96]
  constructor
  · have h2 : (2 : ℝ) ≤ 10000 / ((4186.01 : ℚ) : ℝ) := by
      rw [le_div_iff₀ hC8]
      norm_num
    have h3 : Real.logb 2 2 ≤ Real.logb 2 (10000 / ((4186.01 : ℚ) : ℝ)) :=
      (Real.logb_le_logb (by norm_num) (by norm_num) (by positivity)).2 h2
    rw [Real.logb_self_eq_one (by norm_num)] at h3
    linarith
  · have h2 : 10000 / ((4186.01 : ℚ) : ℝ) ≤ 10000 / ((notes.getD i ("", 0)).2 : ℝ) :=
      div_le_div_of_nonneg_left (by norm_num) h0 h1
    have h3 := (Real.logb_le_logb (b := 2) (by norm_num) (by positivity) (by positivity)).2 h2
    linarith

/-- C17 (evaluation of the code): for `freq = 10000 > 0` every entry of the table is more
than 1200 cents away, the loop never replaces its initial state `(1200, 0)`, and
`frequency_to_note_name` reports the first entry, C0, with 1200 cents and not in tune;
the entry that minimises the absolute cents difference over the table is C8 (index 96),
whose difference is smaller than that of C0, so the reported entry is not the closest
one and the reported cents are not its deviation. -/
theorem frequency_to_note_name_10000_not_closest :
    (10000 : ℝ) > 0 ∧
    closest_note (Real.logb 2) (10000 : ℝ) = (1200, 0) ∧
    (frequency_to_note_name (Real.logb 2) (10000 : ℝ)).name = "C0" ∧
    (frequency_to_note_name (Real.logb 2) (10000 : ℝ)).cents = 1200 ∧
    (frequency_to_note_name (Real.logb 2) (10000 : ℝ)).in_tune = false ∧
    (notes.getD 96 ("", 0)).1 = "C8" ∧
    (∀ i, i < num_notes →
      |note_cents (Real.logb 2) 10000 96| ≤ |note_cents (Real.logb 2) 10000 i|) ∧
    |note_cents (Real.logb 2) 10000 96| < |note_cents (Real.logb 2) 10000 0| ∧
    (frequency_to_note_name (Real.logb 2) (10000 : ℝ)).cents ≠
      note_cents (Real.logb 2) 10000 0 ∧
    ¬ (∀ i, i < num_notes →
      |note_cents (Real.logb 2) 10000 (closest_note (Real.logb 2) (10000 : ℝ)).2| ≤
        |note_cents (Real.logb 2) 10000 i|) := by
  have hge := note_cents_10000_ge
  have h96 := (hge 96 (by decide)).1
  have hno : ¬ ∃ i, i < num_notes ∧ |note_cents (Real.logb 2) (10000 : ℝ) i| < 1200 := by
    rintro ⟨i, hi, hlt⟩
    have := (hge i hi).2
    rw [abs_of_nonneg (by linarith)] at hlt
    linarith
  have hdef := closest_note_default (Real.logb 2) (10000 : ℝ) (by norm_num) hno
  have hrep := note_report_fields (Real.logb 2) (10000 : ℝ)
  rw [hdef] at hrep
  have e0 : notes.getD 0 ("", 0) = ("C0", 16.35) := rfl
  have e96 : notes.getD 96 ("", 0) = ("C8", 4186.01) := rfl
  have hlt : note_cents (Real.logb 2) 10000 96 < note_cents (Real.logb 2) 10000 0 := by
    unfold note_cents
    rw [e0, e96]
    have : Real.logb 2 (10000 / ((4186.01 : ℚ) : ℝ)) <
        Real.logb 2 (10000 / ((16.35 : ℚ) : ℝ)) := by
      apply Real.logb_lt_logb (by norm_num) (by norm_num)
      norm_num
    linarith
  have habs : |note_cents (Real.logb 2) 10000 96| < |note_cents (Real.logb 2) 10000 0| := by
    rw [abs_of_nonneg (by linarith), abs_of_nonneg (by linarith)]
    exact hlt
  have hintune : (frequency_to_note_name (Real.logb 2) (10000 : ℝ)).in_tune = false := by
    have h1 : ¬ |(1200 : ℝ)| < 1 := by
      rw [abs_of_nonneg (by norm_num)]
      norm_num
    rcases hb : (frequency_to_note_name (Real.logb 2) (10000 : ℝ)).in_tune with _ | _
    · rfl
    · exact absurd (hrep.2.2.1 hb) h1
  refine ⟨by norm_num, hdef, by rw [hrep.1]; rfl, hrep.2.1, hintune, by rw [e96], ?_, habs,
    ?_, ?_⟩
  · intro i hi
    have := (hge i hi).2
    rw [abs_of_nonneg (by linarith), abs_of_nonneg (by linarith)]
    exact this
  · rw [hrep.2.1]
    intro h
    have h' : (1200 : ℝ) = note_cents (Real.logb 2) 10000 0 := h
    linarith
  · intro hall
    have h := hall 96 (by decide)
    rw [hdef] at h
    exact absurd h (not_le.2 habs)


theorem frequency_to_note_name_within_octave_witness :
    (∃ i, i < num_notes ∧ |note_cents (Real.logb 2) (440 : ℝ) i| < 1200) ∧
    (∃ b, b < num_notes ∧
      (∀ i, i < num_notes →
        |note_cents (Real.logb 2) (440 : ℝ) b| ≤ |note_cents (Real.logb 2) (440 : ℝ) i|) ∧
      (∀ i, i < b →
        |note_cents (Real.logb 2) (440 : ℝ) b| < |note_cents (Real.logb 2) (440 : ℝ) i|) ∧
      (frequency_to_note_name (Real.logb 2) (440 : ℝ)).name = (notes.getD b ("", 0)).1 ∧
      (frequency_to_note_name (Real.logb 2) (440 : ℝ)).cents =
        note_cents (Real.logb 2) (440 : ℝ) b ∧
      ((frequency_to_note_name (Real.logb 2) (440 : ℝ)).in_tune = true ↔
        |note_cents (Real.logb 2) (440 : ℝ) b| < 1)) := by
  have h : ∃ i, i < num_notes ∧ |note_cents (Real.logb 2) (440 : ℝ) i| < 1200 := by
    refine ⟨57, by decide, ?_⟩
    have e : notes.getD 57 ("", 0) = ("A4", 440.00) := rfl
    unfold note_cents
    rw [e]
    norm_num
  exact ⟨h, (frequency_to_note_name_within_octave (Real.logb 2) (440 : ℝ) (by norm_num)).1 h⟩

/-! ## The bin grid of `detect_pitch_hps` -/

theorem hps_search_bin_range {K : Type*} [LinearOrderedField K] [FloorRing K] (hps : Nat → K)
    (n : Int) (sample_rate : K) (harmonics : Int) (h1 : -2147483648 ≤ 1000 * n)
    (h2 : 1000 * n ≤ 2147483647) (h3 : -2147483648 ≤ 2 * harmonics)
    (h4 : 2 * harmonics ≤ 2147483647) :
    (hps_search hps n sample_rate harmonics).2 = 0 ∨
    (c_trunc (((80 * n : Int) : K) / sample_rate) ≤ (hps_search hps n sample_rate harmonics).2 ∧
      (hps_search hps n sample_rate harmonics).2 <
        min (c_trunc (((1000 * n : Int) : K) / sample_rate)) (Int.tdiv n (2 * harmonics))) := by
  have hspec := argmax_loop_spec (fun i : Int => hps i.toNat)
    (c_trunc (((80 * n : Int) : K) / sample_rate))
    (min (c_trunc (((1000 * n : Int) : K) / sample_rate)) (Int.tdiv n (2 * harmonics)))
  have hsearch : hps_search hps n sample_rate harmonics =
      for_loop_int (c_trunc (((80 * n : Int) : K) / sample_rate))
        (min (c_trunc (((1000 * n : Int) : K) / sample_rate)) (Int.tdiv n (2 * harmonics)))
        (fun i s =>
          if (fun i : Int => hps i.toNat) i > s.1 then ((fun i : Int => hps i.toNat) i, i)
          else s) ((0 : K), (0 : Int)) := by
    unfold hps_search
    simp only [hps_search_range_eq n sample_rate harmonics h1 h2 h3 h4]
  rw [← hsearch] at hspec
  rcases hspec with ⟨_, hzero⟩ | ⟨g1, g2, _⟩
  · left; rw [hzero]
  · right; exact ⟨g1, g2⟩

theorem hps_range_4096_44100 :
    c_trunc (((80 * 4096 : Int) : ℝ) / 44100) = 7 ∧
    min (c_trunc (((1000 * 4096 : Int) : ℝ) / 44100)) (Int.tdiv 4096 (2 * 4)) = 92 := by
  have h1 : c_trunc (((80 * 4096 : Int) : ℝ) / 44100) = 7 :=
    c_trunc_eq_of_bounds _ 7 (by norm_num) (by norm_num) (by norm_num)
  have h2 : c_trunc (((1000 * 4096 : Int) : ℝ) / 44100) = 92 :=
    c_trunc_eq_of_bounds _ 92 (by norm_num) (by norm_num) (by norm_num)
  have h3 : Int.tdiv 4096 (2 * 4) = 512 := by decide
  rw [h1, h2, h3]
  exact ⟨rfl, by norm_num⟩

/-- With `n = 4096`, `sample_rate = 44100` and `harmonics = 4` the result of
`detect_pitch_hps` is `b * 44100 / 4096` for an integer bin `b` that is 0 or lies in
`[7, 92)`, whatever the spectrum. -/
theorem detect_pitch_hps_grid_4096 (hps_alloc : Nat → ℝ) (spectrum : Nat → ℂ) :
    ∃ b : Int, (b = 0 ∨ (7 ≤ b ∧ b < 92)) ∧
      detect_pitch_hps compute_magnitude hps_alloc spectrum 4096 (44100 : ℝ) 4 =
        (b : ℝ) * 44100 / 4096 := by
  refine ⟨(hps_search (hps_array (compute_magnitude spectrum 4096) 4096 4 hps_alloc) 4096
    (44100 : ℝ) 4).2, ?_, ?_⟩
  · have h := hps_search_bin_range (hps_array (compute_magnitude spectrum 4096) 4096 4 hps_alloc)
      4096 (44100 : ℝ) 4 (by norm_num) (by norm_num) (by norm_num) (by norm_num)
    rw [hps_range_4096_44100.1, hps_range_4096_44100.2] at h
    exact h
  · unfold detect_pitch_hps
    norm_num

theorem grid_4096_far_from_220 (b : Int) :
    (4.66 : ℝ) < |(b : ℝ) * 44100 / 4096 - 220| := by
  by_cases hb : b ≤ 20
  · have h1 : (b : ℝ) ≤ 20 := by exact_mod_cast hb
    rw [abs_of_nonpos (by linarith)]
    linarith
  · have h1 : (21 : ℝ) ≤ (b : ℝ) := by exact_mod_cast (by omega : (21 : Int) ≤ b)
    rw [abs_of_nonneg (by linarith)]
    linarith

/-- C12 (refutation): for the 220 Hz tone with harmonics, `n = 4096`,
`sample_rate = 44100` and `harmonics = 4`, the frequency that `detect_pitch_hps` returns
on the forward spectrum is not within 2 Hz of 220. -/
theorem detect_pitch_hps_tone_not_within_2hz :
    ¬ (|detect_pitch_hps compute_magnitude (fun _ => 0)
        (radix2_dit_fft twiddle_factor harmonic_tone_signal 4096
          fft_direction.FFT_FORWARD).2 4096 (44100 : ℝ) 4 - 220| ≤ 2) := by
  obtain ⟨b, _, hb⟩ := detect_pitch_hps_grid_4096 (fun _ => 0)
    (radix2_dit_fft twiddle_factor harmonic_tone_signal 4096 fft_direction.FFT_FORWARD).2
  rw [hb]
  have := grid_4096_far_from_220 b
  intro h
  linarith

/-! ## The spectrum of the 440 Hz sine at `n = 4096`, `sample_rate = 44100` -/

theorem abs_exp_mul_I_sub_one (φ : ℝ) :
    Complex.abs (Complex.exp (φ * Complex.I) - 1) = 2 * |Real.sin (φ / 2)| := by
  have h : Complex.exp (φ * Complex.I) - 1 =
      Complex.exp ((φ / 2 : ℝ) * Complex.I) *
        (2 * Complex.I * ((Real.sin (φ / 2) : ℝ) : ℂ)) := by
    rw [Complex.ofReal_sin, Complex.sin]
    have hI : Complex.I * Complex.I = -1 := Complex.I_mul_I
    have e1 : Complex.exp ((φ / 2 : ℝ) * Complex.I) *
        (2 * Complex.I * ((Complex.exp (-((φ / 2 : ℝ) : ℂ) * Complex.I) -
          Complex.exp (((φ / 2 : ℝ) : ℂ) * Complex.I)) * Complex.I / 2)) =
        Complex.exp ((φ / 2 : ℝ) * Complex.I) * Complex.exp (((φ / 2 : ℝ) : ℂ) * Complex.I) -
        Complex.exp ((φ / 2 : ℝ) * Complex.I) *
          Complex.exp (-((φ / 2 : ℝ) : ℂ) * Complex.I) := by
      linear_combination (Complex.exp ((φ / 2 : ℝ) * Complex.I) *
        (Complex.exp (-((φ / 2 : ℝ) : ℂ) * Complex.I) -
          Complex.exp (((φ / 2 : ℝ) : ℂ) * Complex.I))) * hI
    rw [e1, ← Complex.exp_add, ← Complex.exp_add]
    have e2 : ((φ / 2 : ℝ) : ℂ) * Complex.I + ((φ / 2 : ℝ) : ℂ) * Complex.I =
        (φ : ℂ) * Complex.I := by
      push_cast; ring
    have e3 : ((φ / 2 : ℝ) : ℂ) * Complex.I + -((φ / 2 : ℝ) : ℂ) * Complex.I = 0 := by ring
    rw [e2, e3, Complex.exp_zero]
  rw [h, map_mul, Complex.abs_exp_ofReal_mul_I, map_mul, map_mul, Complex.abs_ofReal]
  simp

/-- Magnitude of a geometric sum on the unit circle. -/
theorem abs_geom_sum_exp (φ : ℝ) (n : Nat) :
    Complex.abs (∑ j in Finset.range n, Complex.exp (φ * Complex.I) ^ j) *
        |Real.sin (φ / 2)| = |Real.sin (n * φ / 2)| := by
  have h := geom_sum_mul (Complex.exp (φ * Complex.I)) n
  have h2 : Complex.exp (φ * Complex.I) ^ n = Complex.exp (((n * φ : ℝ) : ℂ) * Complex.I) := by
    rw [← Complex.exp_nat_mul]
    congr 1
    push_cast
    ring
  rw [h2] at h
  have h3 := congrArg Complex.abs h
  rw [map_mul, abs_exp_mul_I_sub_one, abs_exp_mul_I_sub_one] at h3
  linarith

theorem sine_term_eq (j k : Nat) :
    sine_440_signal j *
        twiddle_factor 1 ((2 ^ 12 : Nat) : Int) fft_direction.FFT_FORWARD ^ (j * k) =
      (Complex.exp (((2 * Real.pi * (440 / 44100 - k / 4096) : ℝ) : ℂ) * Complex.I) ^ j -
        Complex.exp (((-(2 * Real.pi * (440 / 44100 + k / 4096)) : ℝ) : ℂ) * Complex.I) ^ j) /
        (2 * Complex.I) := by
  unfold sine_440_signal
  rw [twiddle_forward_pow, Complex.ofReal_sin, Complex.sin, ← Complex.exp_nat_mul,
    ← Complex.exp_nat_mul]
  have hI : Complex.I * Complex.I = -1 := Complex.I_mul_I
  have hI0 : Complex.I ≠ 0 := Complex.I_ne_zero
  have e1 : (j : ℂ) * (((2 * Real.pi * (440 / 44100 - k / 4096) : ℝ) : ℂ) * Complex.I) =
      ((2 * Real.pi * 440 * j / 44100 : ℝ) : ℂ) * Complex.I +
        -(2 * Real.pi * Complex.I * k * j / 2 ^ 12) := by
    push_cast; ring
  have e2 : (j : ℂ) * (((-(2 * Real.pi * (440 / 44100 + k / 4096)) : ℝ) : ℂ) * Complex.I) =
      -((2 * Real.pi * 440 * j / 44100 : ℝ) : ℂ) * Complex.I +
        -(2 * Real.pi * Complex.I * k * j / 2 ^ 12) := by
    push_cast; ring
  rw [e1, e2, Complex.exp_add, Complex.exp_add]
  generalize Complex.exp (((2 * Real.pi * 440 * j / 44100 : ℝ) : ℂ) * Complex.I) = A
  generalize Complex.exp (-((2 * Real.pi * 440 * j / 44100 : ℝ) : ℂ) * Complex.I) = B
  generalize Complex.exp (-(2 * Real.pi * Complex.I * k * j / 2 ^ 12)) = W
  field_simp
  linear_combination (2 * W * (B - A)) * hI

theorem sine_spectrum_eq (k : Nat) (hk : k < 2 ^ 12) :
    (radix2_dit_fft twiddle_factor sine_440_signal ((2 : Int) ^ 12)
        fft_direction.FFT_FORWARD).2 k =
      (∑ j in Finset.range (2 ^ 12),
          Complex.exp (((2 * Real.pi * (440 / 44100 - k / 4096) : ℝ) : ℂ) * Complex.I) ^ j -
        ∑ j in Finset.range (2 ^ 12),
          Complex.exp (((-(2 * Real.pi * (440 / 44100 + k / 4096)) : ℝ) : ℂ) * Complex.I) ^ j) /
        (2 * Complex.I) := by
  rw [forward_apply, if_pos hk, ← Finset.sum_sub_distrib, Finset.sum_div]
  apply Finset.sum_congr rfl
  intro j _
  exact sine_term_eq j k

/-- Two-sided bound on the magnitude of bin `k` of the spectrum of the 440 Hz sine:
with `S = |sin(π·c)|`, `c = 4096·440/44100`, the magnitude lies between
`(S/a - S/b)/2` and `(S/a + S/b)/2`, where `a = |sin(π(c - k)/4096)|` and
`b = |sin(π(c + k)/4096)|`. -/
theorem sine_magnitude_bounds (k : Nat) (hk : k < 2 ^ 12)
    (ha : 0 < |Real.sin (Real.pi * (440 / 44100 - k / 4096))|)
    (hb : 0 < |Real.sin (Real.pi * (440 / 44100 + k / 4096))|) :
    |Real.sin (Real.pi * (4096 * 440 / 44100))| /
          |Real.sin (Real.pi * (440 / 44100 - k / 4096))| -
        |Real.sin (Real.pi * (4096 * 440 / 44100))| /
          |Real.sin (Real.pi * (440 / 44100 + k / 4096))| ≤
      2 * Complex.abs ((radix2_dit_fft twiddle_factor sine_440_signal ((2 : Int) ^ 12)
        fft_direction.FFT_FORWARD).2 k) ∧
    2 * Complex.abs ((radix2_dit_fft twiddle_factor sine_440_signal ((2 : Int) ^ 12)
        fft_direction.FFT_FORWARD).2 k) ≤
      |Real.sin (Real.pi * (4096 * 440 / 44100))| /
          |Real.sin (Real.pi * (440 / 44100 - k / 4096))| +
        |Real.sin (Real.pi * (4096 * 440 / 44100))| /
          |Real.sin (Real.pi * (440 / 44100 + k / 4096))| := by
  have h1 := abs_geom_sum_exp (2 * Real.pi * (440 / 44100 - k / 4096)) (2 ^ 12)
  have h2 := abs_geom_sum_exp (-(2 * Real.pi * (440 / 44100 + k / 4096))) (2 ^ 12)
  have e1 : 2 * Real.pi * (440 / 44100 - (k : ℝ) / 4096) / 2 =
      Real.pi * (440 / 44100 - k / 4096) := by ring
  have e2 : ((2 ^ 12 : Nat) : ℝ) * (2 * Real.pi * (440 / 44100 - (k : ℝ) / 4096)) / 2 =
      Real.pi * (4096 * 440 / 44100) - k * Real.pi := by
    push_cast; ring
  have e3 : -(2 * Real.pi * (440 / 44100 + (k : ℝ) / 4096)) / 2 =
      -(Real.pi * (440 / 44100 + k / 4096)) := by ring
  have e4 : ((2 ^ 12 : Nat) : ℝ) * -(2 * Real.pi * (440 / 44100 + (k : ℝ) / 4096)) / 2 =
      -(Real.pi * (4096 * 440 / 44100) + k * Real.pi) := by
    push_cast; ring
  have hsign : ∀ x : ℝ, |(-1 : ℝ) ^ k * x| = |x| := by
    intro x
    rw [abs_mul, abs_pow, abs_neg, abs_one, one_pow, one_mul]
  rw [e1, e2, Real.sin_sub_nat_mul_pi, hsign] at h1
  rw [e3, e4, Real.sin_neg, Real.sin_neg, abs_neg, abs_neg, Real.sin_add_nat_mul_pi, hsign] at h2
  have hG1 := eq_div_of_mul_eq ha.ne' h1
  have hG2 := eq_div_of_mul_eq hb.ne' h2
  rw [sine_spectrum_eq k hk, map_div₀, map_mul, Complex.abs_I, Complex.abs_ofNat, mul_one]
  rw [← hG1, ← hG2]
  have t1 := norm_sub_le
    (∑ j in Finset.range (2 ^ 12),
      Complex.exp (((2 * Real.pi * (440 / 44100 - k / 4096) : ℝ) : ℂ) * Complex.I) ^ j)
    (∑ j in Finset.range (2 ^ 12),
      Complex.exp (((-(2 * Real.pi * (440 / 44100 + k / 4096)) : ℝ) : ℂ) * Complex.I) ^ j)
  have t2 := norm_sub_norm_le
    (∑ j in Finset.range (2 ^ 12),
      Complex.exp (((2 * Real.pi * (440 / 44100 - k / 4096) : ℝ) : ℂ) * Complex.I) ^ j)
    (∑ j in Finset.range (2 ^ 12),
      Complex.exp (((-(2 * Real.pi * (440 / 44100 + k / 4096)) : ℝ) : ℂ) * Complex.I) ^ j)
  simp only [Complex.norm_eq_abs] at t1 t2
  constructor
  · linarith
  · linarith


theorem jordan_sin_pi (T : ℝ) (hT : |T| ≤ 1 / 2) : 2 * |T| ≤ |Real.sin (Real.pi * T)| := by
  have hpi := Real.pi_pos
  have h1 : |Real.pi * T| ≤ Real.pi / 2 := by
    rw [abs_mul, abs_of_pos hpi]
    nlinarith
  have h2 := Real.mul_abs_le_abs_sin h1
  rw [abs_mul, abs_of_pos hpi] at h2
  have e : 2 / Real.pi * (Real.pi * |T|) = 2 * |T| := by
    field_simp
    ring
  rw [e] at h2
  exact h2

theorem abs_sin_pi_le (T : ℝ) : |Real.sin (Real.pi * T)| ≤ Real.pi * |T| := by
  have h := @Real.abs_sin_le_abs (Real.pi * T)
  rw [abs_mul, abs_of_pos Real.pi_pos] at h
  exact h

theorem div_le_of_lower {S a lo c : ℝ} (hS : 0 ≤ S) (hlo : 0 < lo) (h : lo ≤ a)
    (hc : 1 ≤ c * lo) : S / a ≤ c * S := by
  have h1 : S / a ≤ S / lo := div_le_div_of_nonneg_left hS hlo h
  have h2 : S / lo ≤ c * S := by
    rw [div_le_iff₀ hlo]
    nlinarith
  exact le_trans h1 h2

theorem le_div_of_upper {S a hi c : ℝ} (hS : 0 ≤ S) (ha : 0 < a) (h : a ≤ hi) (hc0 : 0 ≤ c)
    (hc : c * hi ≤ 1) : c * S ≤ S / a := by
  rw [le_div_iff₀ ha]
  have h1 : c * a ≤ 1 := le_trans (mul_le_mul_of_nonneg_left h hc0) hc
  nlinarith

theorem sine_S_pos : 0 < |Real.sin (Real.pi * (4096 * 440 / 44100))| := by
  have e : Real.pi * (4096 * 440 / 44100) =
      Real.pi * (4096 * 440 / 44100 - 41) + (41 : Nat) * Real.pi := by
    push_cast; ring
  rw [e, Real.sin_add_nat_mul_pi, abs_mul, abs_pow, abs_neg, abs_one, one_pow, one_mul]
  have h := jordan_sin_pi (4096 * 440 / 44100 - 41) (by rw [abs_le]; constructor <;> norm_num)
  have h2 : (0 : ℝ) < 2 * |(4096 * 440 / 44100 - 41 : ℝ)| := by
    have : (4096 * 440 / 44100 - 41 : ℝ) ≠ 0 := by norm_num
    positivity
  linarith

/-- Upper bound for the bins beside the peak: `2|X[k]| ≤ 2410·S` for `7 ≤ k < 185`,
`k ≠ 41`. -/
theorem sine_side_bin_upper (k : Nat) (h7 : 7 ≤ k) (h185 : k < 185) (hne : k ≠ 41) :
    2 * Complex.abs ((radix2_dit_fft twiddle_factor sine_440_signal ((2 : Int) ^ 12)
        fft_direction.FFT_FORWARD).2 k) ≤
      2410 * |Real.sin (Real.pi * (4096 * 440 / 44100))| := by
  have hS := sine_S_pos
  have hk7 : (7 : ℝ) ≤ (k : ℝ) := by exact_mod_cast h7
  have hk185 : (k : ℝ) ≤ 184 := by exact_mod_cast (by omega : k ≤ 184)
  have hT : (2115 / 10000000 : ℝ) ≤ |(440 / 44100 - (k : ℝ) / 4096 : ℝ)| := by
    by_cases h40 : k ≤ 40
    · have : (k : ℝ) ≤ 40 := by exact_mod_cast h40
      rw [abs_of_nonneg (by linarith)]
      linarith
    · have : (42 : ℝ) ≤ (k : ℝ) := by exact_mod_cast (by omega : 42 ≤ k)
      rw [abs_of_nonpos (by linarith)]
      linarith
  have ha1 := jordan_sin_pi (440 / 44100 - (k : ℝ) / 4096)
    (by rw [abs_le]; constructor <;> linarith)
  have hb1 := jordan_sin_pi (440 / 44100 + (k : ℝ) / 4096)
    (by rw [abs_le]; constructor <;> linarith)
  rw [abs_of_nonneg (by linarith : (0 : ℝ) ≤ 440 / 44100 + (k : ℝ) / 4096)] at hb1
  have ha : (423 / 1000000 : ℝ) ≤ |Real.sin (Real.pi * (440 / 44100 - k / 4096))| := by
    linarith
  have hb : (233 / 10000 : ℝ) ≤ |Real.sin (Real.pi * (440 / 44100 + k / 4096))| := by
    linarith
  have hbound := (sine_magnitude_bounds k (by norm_num; omega) (by linarith) (by linarith)).2
  have u1 := div_le_of_lower (c := 2365) hS.le (by norm_num) ha (by norm_num)
  have u2 := div_le_of_lower (c := 43) hS.le (by norm_num) hb (by norm_num)
  linarith

/-- Lower bound for the peak bin: `2|X[41]| ≥ 9700·S`. -/
theorem sine_peak_bin_lower :
    9700 * |Real.sin (Real.pi * (4096 * 440 / 44100))| ≤
      2 * Complex.abs ((radix2_dit_fft twiddle_factor sine_440_signal ((2 : Int) ^ 12)
        fft_direction.FFT_FORWARD).2 41) := by
  have hS := sine_S_pos
  have hpi := Real.pi_lt_d2
  have ha1 := jordan_sin_pi (440 / 44100 - ((41 : Nat) : ℝ) / 4096)
    (by rw [abs_le]; constructor <;> norm_num)
  have ha2 := abs_sin_pi_le (440 / 44100 - ((41 : Nat) : ℝ) / 4096)
  have hT : |(440 / 44100 - ((41 : Nat) : ℝ) / 4096 : ℝ)| = 41 / 4096 - 440 / 44100 := by
    rw [abs_of_nonpos (by norm_num)]
    push_cast; ring
  rw [hT] at ha1 ha2
  have hb1 := jordan_sin_pi (440 / 44100 + ((41 : Nat) : ℝ) / 4096)
    (by rw [abs_le]; constructor <;> norm_num)
  rw [abs_of_nonneg (by norm_num : (0 : ℝ) ≤ 440 / 44100 + ((41 : Nat) : ℝ) / 4096)] at hb1
  have hapos : 0 < |Real.sin (Real.pi * (440 / 44100 - ((41 : Nat) : ℝ) / 4096))| := by
    have : (0 : ℝ) < 2 * (41 / 4096 - 440 / 44100) := by norm_num
    linarith
  have hahi : |Real.sin (Real.pi * (440 / 44100 - ((41 : Nat) : ℝ) / 4096))| ≤
      1023 / 10000000 := by
    have : Real.pi * (41 / 4096 - 440 / 44100) ≤ 3.15 * (41 / 4096 - 440 / 44100) :=
      mul_le_mul_of_nonneg_right hpi.le (by norm_num)
    have : (3.15 : ℝ) * (41 / 4096 - 440 / 44100) ≤ 1023 / 10000000 := by norm_num
    linarith
  have hb : (399 / 10000 : ℝ) ≤
      |Real.sin (Real.pi * (440 / 44100 + ((41 : Nat) : ℝ) / 4096))| := by
    have : (399 / 10000 : ℝ) ≤ 2 * (440 / 44100 + ((41 : Nat) : ℝ) / 4096) := by norm_num
    linarith
  have hbound := (sine_magnitude_bounds 41 (by norm_num) hapos (by linarith)).1
  have l1 := le_div_of_upper (c := 9770) hS.le hapos hahi (by norm_num) (by norm_num)
  have u2 := div_le_of_lower (c := 26) hS.le (by norm_num) hb (by norm_num)
  linarith

/-- Lower bound for the bin below the peak: `2|X[40]| ≥ 1473·S`. -/
theorem sine_bin_40_lower :
    1473 * |Real.sin (Real.pi * (4096 * 440 / 44100))| ≤
      2 * Complex.abs ((radix2_dit_fft twiddle_factor sine_440_signal ((2 : Int) ^ 12)
        fft_direction.FFT_FORWARD).2 40) := by
  have hS := sine_S_pos
  have hpi := Real.pi_lt_d2
  have ha1 := jordan_sin_pi (440 / 44100 - ((40 : Nat) : ℝ) / 4096)
    (by rw [abs_le]; constructor <;> norm_num)
  have ha2 := abs_sin_pi_le (440 / 44100 - ((40 : Nat) : ℝ) / 4096)
  have hT : |(440 / 44100 - ((40 : Nat) : ℝ) / 4096 : ℝ)| = 440 / 44100 - 40 / 4096 := by
    rw [abs_of_nonneg (by norm_num)]
    push_cast; ring
  rw [hT] at ha1 ha2
  have hb1 := jordan_sin_pi (440 / 44100 + ((40 : Nat) : ℝ) / 4096)
    (by rw [abs_le]; constructor <;> norm_num)
  rw [abs_of_nonneg (by norm_num : (0 : ℝ) ≤ 440 / 44100 + ((40 : Nat) : ℝ) / 4096)] at hb1
  have hapos : 0 < |Real.sin (Real.pi * (440 / 44100 - ((40 : Nat) : ℝ) / 4096))| := by
    have : (0 : ℝ) < 2 * (440 / 44100 - 40 / 4096) := by norm_num
    linarith
  have hahi : |Real.sin (Real.pi * (440 / 44100 - ((40 : Nat) : ℝ) / 4096))| ≤
      667 / 1000000 := by
    have : Real.pi * (440 / 44100 - 40 / 4096) ≤ 3.15 * (440 / 44100 - 40 / 4096) :=
      mul_le_mul_of_nonneg_right hpi.le (by norm_num)
    have : (3.15 : ℝ) * (440 / 44100 - 40 / 4096) ≤ 667 / 1000000 := by norm_num
    linarith
  have hb : (394 / 10000 : ℝ) ≤
      |Real.sin (Real.pi * (440 / 44100 + ((40 : Nat) : ℝ) / 4096))| := by
    have : (394 / 10000 : ℝ) ≤ 2 * (440 / 44100 + ((40 : Nat) : ℝ) / 4096) := by norm_num
    linarith
  have hbound := (sine_magnitude_bounds 40 (by norm_num) hapos (by linarith)).1
  have l1 := le_div_of_upper (c := 1499) hS.le hapos hahi (by norm_num) (by norm_num)
  have u2 := div_le_of_lower (c := 26) hS.le (by norm_num) hb (by norm_num)
  linarith

/-- Upper bound for the bin above the peak: `2|X[42]| ≤ 1178·S`. -/
theorem sine_bin_42_upper :
    2 * Complex.abs ((radix2_dit_fft twiddle_factor sine_440_signal ((2 : Int) ^ 12)
        fft_direction.FFT_FORWARD).2 42) ≤
      1178 * |Real.sin (Real.pi * (4096 * 440 / 44100))| := by
  have hS := sine_S_pos
  have hpi1 := Real.pi_gt_d2
  have hpi2 := Real.pi_lt_d2
  have hx0 : 0 < Real.pi * (42 / 4096 - 440 / 44100) := mul_pos Real.pi_pos (by norm_num)
  have hxlo : (86843 / 100000000 : ℝ) ≤ Real.pi * (42 / 4096 - 440 / 44100) := by
    have : (3.14 : ℝ) * (42 / 4096 - 440 / 44100) ≤ Real.pi * (42 / 4096 - 440 / 44100) :=
      mul_le_mul_of_nonneg_right hpi1.le (by norm_num)
    have : (86843 / 100000000 : ℝ) ≤ 3.14 * (42 / 4096 - 440 / 44100) := by norm_num
    linarith
  have hxhi : Real.pi * (42 / 4096 - 440 / 44100) ≤ 1 / 1000 := by
    have : Real.pi * (42 / 4096 - 440 / 44100) ≤ 3.15 * (42 / 4096 - 440 / 44100) :=
      mul_le_mul_of_nonneg_right hpi2.le (by norm_num)
    have : (3.15 : ℝ) * (42 / 4096 - 440 / 44100) ≤ 1 / 1000 := by norm_num
    linarith
  have hsin := Real.sin_gt_sub_cube hx0 (by linarith)
  have hcube : (Real.pi * (42 / 4096 - 440 / 44100)) ^ 3 ≤
      Real.pi * (42 / 4096 - 440 / 44100) * (1 / 1000000) := by
    have h2 : (Real.pi * (42 / 4096 - 440 / 44100)) ^ 2 ≤ 1 / 1000000 := by nlinarith
    have h3 := mul_le_mul_of_nonneg_left h2 hx0.le
    calc (Real.pi * (42 / 4096 - 440 / 44100)) ^ 3
        = Real.pi * (42 / 4096 - 440 / 44100) * (Real.pi * (42 / 4096 - 440 / 44100)) ^ 2 := by
          ring
      _ ≤ Real.pi * (42 / 4096 - 440 / 44100) * (1 / 1000000) := h3
  have e : Real.pi * (440 / 44100 - ((42 : Nat) : ℝ) / 4096) =
      -(Real.pi * (42 / 4096 - 440 / 44100)) := by
    push_cast; ring
  have ha : (868 / 1000000 : ℝ) ≤
      |Real.sin (Real.pi * (440 / 44100 - ((42 : Nat) : ℝ) / 4096))| := by
    rw [e, Real.sin_neg, abs_neg]
    have := le_abs_self (Real.sin (Real.pi * (42 / 4096 - 440 / 44100)))
    linarith
  have hb1 := jordan_sin_pi (440 / 44100 + ((42 : Nat) : ℝ) / 4096)
    (by rw [abs_le]; constructor <;> norm_num)
  rw [abs_of_nonneg (by norm_num : (0 : ℝ) ≤ 440 / 44100 + ((42 : Nat) : ℝ) / 4096)] at hb1
  have hb : (404 / 10000 : ℝ) ≤
      |Real.sin (Real.pi * (440 / 44100 + ((42 : Nat) : ℝ) / 4096))| := by
    have : (404 / 10000 : ℝ) ≤ 2 * (440 / 44100 + ((42 : Nat) : ℝ) / 4096) := by norm_num
    linarith
  have hbound := (sine_magnitude_bounds 42 (by norm_num) (by linarith) (by linarith)).2
  have u1 := div_le_of_lower (c := 1153) hS.le (by norm_num) ha (by norm_num)
  have u2 := div_le_of_lower (c := 25) hS.le (by norm_num) hb (by norm_num)
  linarith


theorem compute_magnitude_eq_abs (spectrum : Nat → ℂ) (n : Int) (i : Nat) :
    compute_magnitude spectrum n i = Complex.abs (spectrum i) := by
  unfold compute_magnitude
  rw [Complex.abs_apply, Complex.normSq_apply, pow_two, pow_two]

theorem peak_range_4096_44100 :
    c_trunc (((80 * 4096 : Int) : ℝ) / 44100) = 7 ∧
    min (c_trunc (((2000 * 4096 : Int) : ℝ) / 44100)) (Int.tdiv 4096 2) = 185 := by
  have h1 : c_trunc (((80 * 4096 : Int) : ℝ) / 44100) = 7 :=
    c_trunc_eq_of_bounds _ 7 (by norm_num) (by norm_num) (by norm_num)
  have h2 : c_trunc (((2000 * 4096 : Int) : ℝ) / 44100) = 185 :=
    c_trunc_eq_of_bounds _ 185 (by norm_num) (by norm_num) (by norm_num)
  have h3 : Int.tdiv 4096 2 = 2048 := by decide
  rw [h1, h2, h3]
  exact ⟨rfl, by norm_num⟩

/-- The magnitudes of the spectrum of the 440 Hz sine around its peak: bin 41 is
strictly above every other bin of the search range, and bin 40 is above bin 42. -/
theorem sine_magnitude_order :
    (∀ k : Nat, 7 ≤ k → k < 185 → k ≠ 41 →
      compute_magnitude (radix2_dit_fft twiddle_factor sine_440_signal 4096
          fft_direction.FFT_FORWARD).2 4096 k <
        compute_magnitude (radix2_dit_fft twiddle_factor sine_440_signal 4096
          fft_direction.FFT_FORWARD).2 4096 41) ∧
    compute_magnitude (radix2_dit_fft twiddle_factor sine_440_signal 4096
        fft_direction.FFT_FORWARD).2 4096 42 <
      compute_magnitude (radix2_dit_fft twiddle_factor sine_440_signal 4096
        fft_direction.FFT_FORWARD).2 4096 40 ∧
    0 < compute_magnitude (radix2_dit_fft twiddle_factor sine_440_signal 4096
        fft_direction.FFT_FORWARD).2 4096 41 := by
  have hX : radix2_dit_fft twiddle_factor sine_440_signal ((2 : Int) ^ 12)
      fft_direction.FFT_FORWARD =
      radix2_dit_fft twiddle_factor sine_440_signal 4096 fft_direction.FFT_FORWARD := by
    norm_num
  have hS := sine_S_pos
  have h41 := sine_peak_bin_lower
  have h40 := sine_bin_40_lower
  have h42 := sine_bin_42_upper
  rw [hX] at h41 h40 h42
  simp only [compute_magnitude_eq_abs]
  refine ⟨?_, by linarith, by linarith⟩
  intro k h7 h185 hne
  have := sine_side_bin_upper k h7 h185 hne
  rw [hX] at this
  linarith

/-- C19 (evaluation of the code): for the 440 Hz sine sampled at 44100 Hz with
`n = 4096` the search of `detect_pitch_peak` on the forward spectrum selects bin 41;
the interpolation offset lies in `[-1, 0)`, so `peak_bin += delta` leaves the `int`
value 40, and the function returns `40 * 44100 / 4096 = 430.66...` Hz, which is not
within 2 Hz of 440. -/
theorem detect_pitch_peak_sine_440_returns_bin_40 :
    (peak_search (compute_magnitude (radix2_dit_fft twiddle_factor sine_440_signal 4096
      fft_direction.FFT_FORWARD).2 4096) 4096 (44100 : ℝ)).2 = 41 ∧
    peak_interpolate (compute_magnitude (radix2_dit_fft twiddle_factor sine_440_signal 4096
      fft_direction.FFT_FORWARD).2 4096) 4096 41 = 40 ∧
    detect_pitch_peak compute_magnitude (radix2_dit_fft twiddle_factor sine_440_signal 4096
      fft_direction.FFT_FORWARD).2 4096 (44100 : ℝ) = 40 * 44100 / 4096 ∧
    ¬ (|detect_pitch_peak compute_magnitude (radix2_dit_fft twiddle_factor sine_440_signal
      4096 fft_direction.FFT_FORWARD).2 4096 (44100 : ℝ) - 440| ≤ 2) := by
  obtain ⟨hside, h4240, hpos⟩ := sine_magnitude_order
  generalize hM : compute_magnitude (radix2_dit_fft twiddle_factor sine_440_signal 4096
      fft_direction.FFT_FORWARD).2 4096 = M at hside h4240 hpos
  have hsearch : (peak_search M 4096 (44100 : ℝ)).2 = 41 := by
    have hspec := argmax_loop_spec (fun i : Int => M i.toNat) 7 185
    have heq : peak_search M 4096 (44100 : ℝ) =
        for_loop_int 7 185
          (fun i s =>
            if (fun i : Int => M i.toNat) i > s.1 then ((fun i : Int => M i.toNat) i, i)
            else s) ((0 : ℝ), (0 : Int)) := by
      unfold peak_search
      simp only [peak_search_range_eq 4096 (44100 : ℝ) (by norm_num) (by norm_num),
        peak_range_4096_44100.1, peak_range_4096_44100.2]
    rw [← heq] at hspec
    rcases hspec with ⟨hnone, _⟩ | ⟨h1, h2, _, _, h5, _⟩
    · exact absurd hpos (hnone 41 (by norm_num) (by norm_num))
    · by_contra hne
      have hb : (peak_search M 4096 (44100 : ℝ)).2.toNat ≠ 41 := by
        intro h
        apply hne
        omega
      have h6 := hside (peak_search M 4096 (44100 : ℝ)).2.toNat (by omega) (by omega) hb
      have h7 := h5 41 (by norm_num) (by norm_num)
      have t41 : Int.toNat 41 = 41 := rfl
      simp only [t41] at h7
      linarith
  have h4041 := hside 40 (by norm_num) (by norm_num) (by norm_num)
  have h4241 := hside 42 (by norm_num) (by norm_num) (by norm_num)
  have hint : peak_interpolate M 4096 41 = 40 := by
    unfold peak_interpolate
    have h3 : Int.tdiv 4096 2 = 2048 := by decide
    rw [if_pos ⟨by norm_num, by rw [h3]; norm_num⟩]
    have t40 : Int.toNat (41 - 1) = 40 := rfl
    have t41 : Int.toNat 41 = 41 := rfl
    have t42 : Int.toNat (41 + 1) = 42 := rfl
    simp only [t40, t41, t42]
    have hD : M 40 - 2 * M 41 + M 42 < 0 := by linarith
    have hneg : 1 / 2 * (M 40 - M 42) / (M 40 - 2 * M 41 + M 42) < 0 :=
      div_neg_of_pos_of_neg (by linarith) hD
    have hge : -1 ≤ 1 / 2 * (M 40 - M 42) / (M 40 - 2 * M 41 + M 42) := by
      rw [le_div_iff_of_neg hD]
      linarith
    apply c_trunc_eq_of_bounds
    · push_cast; linarith
    · push_cast; linarith
    · push_cast; linarith
  have hres : detect_pitch_peak compute_magnitude
      (radix2_dit_fft twiddle_factor sine_440_signal 4096 fft_direction.FFT_FORWARD).2 4096
      (44100 : ℝ) = 40 * 44100 / 4096 := by
    unfold detect_pitch_peak
    simp only [hM, hsearch, hint]
    norm_num
  refine ⟨hsearch, hint, hres, ?_⟩
  rw [hres]
  rw [abs_of_nonpos (by norm_num)]
  norm_num


/-! ## The spectrum of the 220 Hz tone with harmonics: analytic tools -/

theorem exp_mul_I_sub_one (φ : ℝ) :
    Complex.exp ((φ : ℂ) * Complex.I) - 1 =
      Complex.exp (((φ / 2 : ℝ) : ℂ) * Complex.I) *
        (2 * Complex.I * ((Real.sin (φ / 2) : ℝ) : ℂ)) := by
  rw [Complex.ofReal_sin, Complex.sin]
  have hI : Complex.I * Complex.I = -1 := Complex.I_mul_I
  have e1 : Complex.exp ((φ / 2 : ℝ) * Complex.I) *
      (2 * Complex.I * ((Complex.exp (-((φ / 2 : ℝ) : ℂ) * Complex.I) -
        Complex.exp (((φ / 2 : ℝ) : ℂ) * Complex.I)) * Complex.I / 2)) =
      Complex.exp ((φ / 2 : ℝ) * Complex.I) * Complex.exp (((φ / 2 : ℝ) : ℂ) * Complex.I) -
      Complex.exp ((φ / 2 : ℝ) * Complex.I) *
        Complex.exp (-((φ / 2 : ℝ) : ℂ) * Complex.I) := by
    linear_combination (Complex.exp ((φ / 2 : ℝ) * Complex.I) *
      (Complex.exp (-((φ / 2 : ℝ) : ℂ) * Complex.I) -
        Complex.exp (((φ / 2 : ℝ) : ℂ) * Complex.I))) * hI
  rw [e1, ← Complex.exp_add, ← Complex.exp_add]
  have e2 : ((φ / 2 : ℝ) : ℂ) * Complex.I + ((φ / 2 : ℝ) : ℂ) * Complex.I =
      (φ : ℂ) * Complex.I := by
    push_cast; ring
  have e3 : ((φ / 2 : ℝ) : ℂ) * Complex.I + -((φ / 2 : ℝ) : ℂ) * Complex.I = 0 := by ring
  rw [e2, e3, Complex.exp_zero]

/-- Closed form of the geometric sum on the unit circle: with `y = φ/2` and
`sin y ≠ 0`, the sum is `(e^{inφ} - 1) · (-(1 + i·cot y)/2)`. -/
theorem unit_circle_sum_closed (φ : ℝ) (n : Nat) (hs : Real.sin (φ / 2) ≠ 0) :
    unit_circle_sum φ n =
      (Complex.exp (((n * φ : ℝ) : ℂ) * Complex.I) - 1) *
        (-(1 + Complex.I * ((Real.cos (φ / 2) / Real.sin (φ / 2) : ℝ) : ℂ)) / 2) := by
  unfold unit_circle_sum
  have h := geom_sum_mul (Complex.exp ((φ : ℂ) * Complex.I)) n
  have h2 : Complex.exp ((φ : ℂ) * Complex.I) ^ n =
      Complex.exp (((n * φ : ℝ) : ℂ) * Complex.I) := by
    rw [← Complex.exp_nat_mul]
    congr 1
    push_cast
    ring
  rw [h2] at h
  have hsC : ((Real.sin (φ / 2) : ℝ) : ℂ) ≠ 0 := by exact_mod_cast hs
  have hinv : (Complex.exp ((φ : ℂ) * Complex.I) - 1) *
      (-(1 + Complex.I * ((Real.cos (φ / 2) / Real.sin (φ / 2) : ℝ) : ℂ)) / 2) = 1 := by
    rw [exp_mul_I_sub_one]
    have hexp : Complex.exp (((φ / 2 : ℝ) : ℂ) * Complex.I) =
        ((Real.cos (φ / 2) : ℝ) : ℂ) + ((Real.sin (φ / 2) : ℝ) : ℂ) * Complex.I := by
      rw [Complex.exp_mul_I, Complex.ofReal_cos, Complex.ofReal_sin]
    have hcs : ((Real.cos (φ / 2) : ℝ) : ℂ) ^ 2 + ((Real.sin (φ / 2) : ℝ) : ℂ) ^ 2 = 1 := by
      have := Real.cos_sq_add_sin_sq (φ / 2)
      exact_mod_cast this
    have hI : Complex.I * Complex.I = -1 := Complex.I_mul_I
    rw [hexp, Complex.ofReal_div]
    generalize ((Real.cos (φ / 2) : ℝ) : ℂ) = c at hcs ⊢
    generalize ((Real.sin (φ / 2) : ℝ) : ℂ) = s at hcs hsC ⊢
    field_simp
    linear_combination (-(2 * s * c ^ 2) - 2 * s ^ 3 - 2 * c * s ^ 2 * Complex.I) * hI + 2 * s * hcs
  rw [← h, mul_assoc, hinv, mul_one]

/-- Interval product: a product of two bounded reals lies between any lower bound and any
upper bound of the four products of the interval ends. -/
theorem mul_mem_of_corners {x y xl xh yl yh m M : ℝ} (hx1 : xl ≤ x) (hx2 : x ≤ xh)
    (hy1 : yl ≤ y) (hy2 : y ≤ yh)
    (h1 : m ≤ xl * yl) (h2 : m ≤ xl * yh) (h3 : m ≤ xh * yl) (h4 : m ≤ xh * yh)
    (g1 : xl * yl ≤ M) (g2 : xl * yh ≤ M) (g3 : xh * yl ≤ M) (g4 : xh * yh ≤ M) :
    m ≤ x * y ∧ x * y ≤ M := by
  constructor
  · rcases le_total 0 y with hy | hy
    · have a1 : xl * y ≤ x * y := mul_le_mul_of_nonneg_right hx1 hy
      rcases le_total 0 xl with hl | hl
      · have a2 : xl * yl ≤ xl * y := mul_le_mul_of_nonneg_left hy1 hl
        linarith
      · have a2 : xl * yh ≤ xl * y := mul_le_mul_of_nonpos_left hy2 hl
        linarith
    · have a1 : xh * y ≤ x * y := mul_le_mul_of_nonpos_right hx2 hy
      rcases le_total 0 xh with hl | hl
      · have a2 : xh * yl ≤ xh * y := mul_le_mul_of_nonneg_left hy1 hl
        linarith
      · have a2 : xh * yh ≤ xh * y := mul_le_mul_of_nonpos_left hy2 hl
        linarith
  · rcases le_total 0 y with hy | hy
    · have a1 : x * y ≤ xh * y := mul_le_mul_of_nonneg_right hx2 hy
      rcases le_total 0 xh with hl | hl
      · have a2 : xh * y ≤ xh * yh := mul_le_mul_of_nonneg_left hy2 hl
        linarith
      · have a2 : xh * y ≤ xh * yl := mul_le_mul_of_nonpos_left hy1 hl
        linarith
    · have a1 : x * y ≤ xl * y := mul_le_mul_of_nonpos_right hx1 hy
      rcases le_total 0 xl with hl | hl
      · have a2 : xl * y ≤ xl * yh := mul_le_mul_of_nonneg_left hy2 hl
        linarith
      · have a2 : xl * y ≤ xl * yl := mul_le_mul_of_nonpos_left hy1 hl
        linarith

/-- Bounds on the cotangent and the cosecant of `π·x` for `0 < x ≤ 3/10`, from
`x - x³/4 < sin x ≤ x`, `1 - x²/2 ≤ cos x ≤ 1` and `3.141592 < π < 3.141593`. -/
theorem cot_pi_bounds (x : ℝ) (hx : 0 < x) (hx1 : x ≤ 3 / 10) :
    0 < Real.sin (Real.pi * x) ∧
    (1 - (3.141593 * x) ^ 2 / 2) / (3.141593 * x) ≤
      Real.cos (Real.pi * x) / Real.sin (Real.pi * x) ∧
    Real.cos (Real.pi * x) / Real.sin (Real.pi * x) ≤
      1 / (3.141592 * x * (1 - (3.141593 * x) ^ 2 / 4)) ∧
    1 / Real.sin (Real.pi * x) ≤ 1 / (3.141592 * x * (1 - (3.141593 * x) ^ 2 / 4)) := by
  have hp1 := Real.pi_gt_d6
  have hp2 := Real.pi_lt_d6
  have hy0 : 0 < Real.pi * x := mul_pos Real.pi_pos hx
  have hyl : 3.141592 * x ≤ Real.pi * x := mul_le_mul_of_nonneg_right hp1.le hx.le
  have hyh : Real.pi * x ≤ 3.141593 * x := mul_le_mul_of_nonneg_right hp2.le hx.le
  have hy1 : Real.pi * x ≤ 1 := by
    have : (3.141593 : ℝ) * x ≤ 1 := by linarith
    linarith
  have hsq : (Real.pi * x) ^ 2 ≤ (3.141593 * x) ^ 2 := pow_le_pow_left₀ hy0.le hyh 2
  have hsq1 : (3.141593 * x) ^ 2 ≤ 1 := by
    have h0 : (0 : ℝ) ≤ 3.141593 * x := by positivity
    have : (3.141593 : ℝ) * x ≤ 1 := by linarith
    calc (3.141593 * x) ^ 2 ≤ 1 ^ 2 := pow_le_pow_left₀ h0 this 2
      _ = 1 := by norm_num
  have hsin1 := Real.sin_gt_sub_cube hy0 hy1
  have hsin2 := Real.sin_le hy0.le
  have hcos1 := Real.one_sub_sq_div_two_le_cos (x := Real.pi * x)
  have hcos2 := Real.cos_le_one (Real.pi * x)
  have hD : 3.141592 * x * (1 - (3.141593 * x) ^ 2 / 4) ≤
      Real.pi * x - (Real.pi * x) ^ 3 / 4 := by
    have e : Real.pi * x - (Real.pi * x) ^ 3 / 4 =
        Real.pi * x * (1 - (Real.pi * x) ^ 2 / 4) := by ring
    rw [e]
    apply mul_le_mul hyl (by linarith) (by linarith) hy0.le
  have hDpos : 0 < 3.141592 * x * (1 - (3.141593 * x) ^ 2 / 4) := by
    apply mul_pos (by positivity) (by linarith)
  have hsinpos : 0 < Real.sin (Real.pi * x) := by linarith
  have hcsc : 1 / Real.sin (Real.pi * x) ≤
      1 / (3.141592 * x * (1 - (3.141593 * x) ^ 2 / 4)) :=
    one_div_le_one_div_of_le hDpos (by linarith)
  refine ⟨hsinpos, ?_, ?_, hcsc⟩
  · have hN : 0 ≤ 1 - (3.141593 * x) ^ 2 / 2 := by linarith
    have hN2 : 1 - (3.141593 * x) ^ 2 / 2 ≤ Real.cos (Real.pi * x) := by linarith
    calc (1 - (3.141593 * x) ^ 2 / 2) / (3.141593 * x)
        ≤ (1 - (3.141593 * x) ^ 2 / 2) / Real.sin (Real.pi * x) :=
          div_le_div_of_nonneg_left hN hsinpos (by linarith)
      _ ≤ Real.cos (Real.pi * x) / Real.sin (Real.pi * x) :=
          div_le_div_of_nonneg_right hN2 hsinpos.le
  · calc Real.cos (Real.pi * x) / Real.sin (Real.pi * x)
        ≤ 1 / Real.sin (Real.pi * x) := div_le_div_of_nonneg_right hcos2 hsinpos.le
      _ ≤ _ := hcsc

/-- The bounds of `cot_pi_bounds` mirrored to a negative argument. -/
theorem cot_pi_bounds_neg (x : ℝ) (hx : x < 0) (hx1 : -(3 / 10) ≤ x) :
    Real.sin (Real.pi * x) < 0 ∧
    -(1 / (3.141592 * (-x) * (1 - (3.141593 * (-x)) ^ 2 / 4))) ≤
      Real.cos (Real.pi * x) / Real.sin (Real.pi * x) ∧
    Real.cos (Real.pi * x) / Real.sin (Real.pi * x) ≤
      -((1 - (3.141593 * (-x)) ^ 2 / 2) / (3.141593 * (-x))) := by
  obtain ⟨h0, h1, h2, _⟩ := cot_pi_bounds (-x) (by linarith) (by linarith)
  have e : Real.pi * -x = -(Real.pi * x) := by ring
  rw [e, Real.sin_neg, Real.cos_neg, div_neg] at h1 h2
  rw [e, Real.sin_neg] at h0
  refine ⟨by linarith, by linarith, by linarith⟩

/-- Bound on the cosecant of `π·x` in absolute value, for `x` of sign `e`. -/
theorem abs_sin_pi_recip (x e : ℝ) (he : e = 1 ∨ e = -1) (hx : 0 < e * x)
    (hx1 : e * x ≤ 3 / 10) :
    0 < |Real.sin (Real.pi * x)| ∧
    1 / |Real.sin (Real.pi * x)| ≤
      1 / (3.141592 * (e * x) * (1 - (3.141593 * (e * x)) ^ 2 / 4)) := by
  obtain ⟨h0, _, _, h3⟩ := cot_pi_bounds (e * x) hx hx1
  rcases he with he | he
  · subst he
    rw [one_mul] at h0 h3
    rw [abs_of_pos h0]
    simpa using And.intro h0 h3
  · subst he
    have e2 : Real.pi * (-1 * x) = -(Real.pi * x) := by ring
    rw [e2, Real.sin_neg] at h0 h3
    rw [abs_of_neg (by linarith)]
    exact ⟨h0, h3⟩

/-- Sine and cosine of the small angle `π·293/4410`, the complement of the phase
`π·4096·220/44100` modulo `2π`. -/
theorem small_angle_bounds :
    0.207112 ≤ Real.sin (Real.pi * 293 / 4410) ∧ Real.sin (Real.pi * 293 / 4410) ≤ 0.207311 ∧
    0.978117 ≤ Real.cos (Real.pi * 293 / 4410) ∧ Real.cos (Real.pi * 293 / 4410) ≤ 0.978316 := by
  have hp1 := Real.pi_gt_d6
  have hp2 := Real.pi_lt_d6
  have hl : (0.208726 : ℝ) ≤ Real.pi * 293 / 4410 := by linarith
  have hh : Real.pi * 293 / 4410 ≤ (0.208728 : ℝ) := by linarith
  have h0 : (0 : ℝ) ≤ Real.pi * 293 / 4410 := by linarith
  have habs : |Real.pi * 293 / 4410| ≤ 1 := by
    rw [abs_of_nonneg h0]; linarith
  have hs := Real.sin_bound habs
  have hc := Real.cos_bound habs
  rw [abs_of_nonneg h0] at hs hc
  rw [abs_le] at hs hc
  have p2l : (0.208726 : ℝ) ^ 2 ≤ (Real.pi * 293 / 4410) ^ 2 :=
    pow_le_pow_left₀ (by norm_num) hl 2
  have p2h : (Real.pi * 293 / 4410) ^ 2 ≤ (0.208728 : ℝ) ^ 2 := pow_le_pow_left₀ h0 hh 2
  have p3l : (0.208726 : ℝ) ^ 3 ≤ (Real.pi * 293 / 4410) ^ 3 :=
    pow_le_pow_left₀ (by norm_num) hl 3
  have p3h : (Real.pi * 293 / 4410) ^ 3 ≤ (0.208728 : ℝ) ^ 3 := pow_le_pow_left₀ h0 hh 3
  have p4h : (Real.pi * 293 / 4410) ^ 4 ≤ (0.208728 : ℝ) ^ 4 := pow_le_pow_left₀ h0 hh 4
  norm_num at p2l p2h p3l p3h p4h
  refine ⟨?_, ?_, ?_, ?_⟩
  · linarith [hs.1]
  · linarith [hs.2]
  · linarith [hc.1]
  · linarith [hc.2]

/-- Interval arithmetic for the double, triple and quadruple angle from bounds on the
sine `s` and the cosine `c` of an angle. -/
theorem phase_multiples (s c : ℝ) (hs1 : 0.978117 ≤ s ∧ s ≤ 0.978316)
    (hc1 : 0.207112 ≤ c ∧ c ≤ 0.207311) :
    (0.4051 ≤ 2 * s * c ∧ 2 * s * c ≤ 0.4057) ∧
    (-0.9143 ≤ 2 * c ^ 2 - 1 ∧ 2 * c ^ 2 - 1 ≤ -0.9140) ∧
    (-0.8105 ≤ 2 * s * c * c + (2 * c ^ 2 - 1) * s ∧
      2 * s * c * c + (2 * c ^ 2 - 1) * s ≤ -0.8099) ∧
    (-0.5864 ≤ (2 * c ^ 2 - 1) * c - 2 * s * c * s ∧
      (2 * c ^ 2 - 1) * c - 2 * s * c * s ≤ -0.5855) ∧
    (-0.7417 ≤ 2 * (2 * s * c) * (2 * c ^ 2 - 1) ∧
      2 * (2 * s * c) * (2 * c ^ 2 - 1) ≤ -0.7406) ∧
    (0.6709 ≤ 2 * (2 * c ^ 2 - 1) ^ 2 - 1 ∧ 2 * (2 * c ^ 2 - 1) ^ 2 - 1 ≤ 0.6716) := by
  obtain ⟨sc_l, sc_h⟩ := mul_mem_of_corners (m := 0.202578) (M := 0.202817)
    hs1.1 hs1.2 hc1.1 hc1.2 (by norm_num) (by norm_num) (by norm_num) (by norm_num)
    (by norm_num) (by norm_num) (by norm_num) (by norm_num)
  obtain ⟨cc_l, cc_h⟩ := mul_mem_of_corners (m := 0.042894) (M := 0.042979)
    hc1.1 hc1.2 hc1.1 hc1.2 (by norm_num) (by norm_num) (by norm_num) (by norm_num)
    (by norm_num) (by norm_num) (by norm_num) (by norm_num)
  have hs2 : 0.405156 ≤ 2 * s * c ∧ 2 * s * c ≤ 0.405634 := by
    constructor <;> linarith
  have hc2 : -0.914212 ≤ 2 * c ^ 2 - 1 ∧ 2 * c ^ 2 - 1 ≤ -0.914042 := by
    rw [sq]
    constructor <;> linarith
  generalize 2 * s * c = s2 at hs2 ⊢
  generalize 2 * c ^ 2 - 1 = c2 at hc2 ⊢
  obtain ⟨p_l, p_h⟩ := mul_mem_of_corners (m := 0.083912) (M := 0.084093)
    hs2.1 hs2.2 hc1.1 hc1.2 (by norm_num) (by norm_num) (by norm_num) (by norm_num)
    (by norm_num) (by norm_num) (by norm_num) (by norm_num)
  obtain ⟨q_l, q_h⟩ := mul_mem_of_corners (m := -0.894389) (M := -0.894040)
    hc2.1 hc2.2 hs1.1 hs1.2 (by norm_num) (by norm_num) (by norm_num) (by norm_num)
    (by norm_num) (by norm_num) (by norm_num) (by norm_num)
  obtain ⟨r_l, r_h⟩ := mul_mem_of_corners (m := -0.189528) (M := -0.189308)
    hc2.1 hc2.2 hc1.1 hc1.2 (by norm_num) (by norm_num) (by norm_num) (by norm_num)
    (by norm_num) (by norm_num) (by norm_num) (by norm_num)
  obtain ⟨u_l, u_h⟩ := mul_mem_of_corners (m := 0.396289) (M := 0.396839)
    hs2.1 hs2.2 hs1.1 hs1.2 (by norm_num) (by norm_num) (by norm_num) (by norm_num)
    (by norm_num) (by norm_num) (by norm_num) (by norm_num)
  obtain ⟨v_l, v_h⟩ := mul_mem_of_corners (m := -0.370836) (M := -0.370329)
    hs2.1 hs2.2 hc2.1 hc2.2 (by norm_num) (by norm_num) (by norm_num) (by norm_num)
    (by norm_num) (by norm_num) (by norm_num) (by norm_num)
  obtain ⟨w_l, w_h⟩ := mul_mem_of_corners (m := 0.835472) (M := 0.835784)
    hc2.1 hc2.2 hc2.1 hc2.2 (by norm_num) (by norm_num) (by norm_num) (by norm_num)
    (by norm_num) (by norm_num) (by norm_num) (by norm_num)
  have e4 : 2 * s2 * c2 = 2 * (s2 * c2) := by ring
  rw [sq, e4]
  refine ⟨⟨by linarith, by linarith⟩, ⟨by linarith, by linarith⟩, ⟨by linarith, by linarith⟩,
    ⟨by linarith, by linarith⟩, ⟨by linarith, by linarith⟩, ⟨by linarith, by linarith⟩⟩

/-- Sine and cosine of the phases `π·4096·f/44100` of the four partials
`f = 220, 440, 660, 880`, to three decimals. -/
theorem tone_phase_bounds :
    (0.9781 ≤ Real.sin (Real.pi * (4096 * 220 / 44100)) ∧
      Real.sin (Real.pi * (4096 * 220 / 44100)) ≤ 0.9784) ∧
    (0.2071 ≤ Real.cos (Real.pi * (4096 * 220 / 44100)) ∧
      Real.cos (Real.pi * (4096 * 220 / 44100)) ≤ 0.2074) ∧
    (0.4051 ≤ Real.sin (Real.pi * (4096 * 440 / 44100)) ∧
      Real.sin (Real.pi * (4096 * 440 / 44100)) ≤ 0.4057) ∧
    (-0.9143 ≤ Real.cos (Real.pi * (4096 * 440 / 44100)) ∧
      Real.cos (Real.pi * (4096 * 440 / 44100)) ≤ -0.9140) ∧
    (-0.8105 ≤ Real.sin (Real.pi * (4096 * 660 / 44100)) ∧
      Real.sin (Real.pi * (4096 * 660 / 44100)) ≤ -0.8099) ∧
    (-0.5864 ≤ Real.cos (Real.pi * (4096 * 660 / 44100)) ∧
      Real.cos (Real.pi * (4096 * 660 / 44100)) ≤ -0.5855) ∧
    (-0.7417 ≤ Real.sin (Real.pi * (4096 * 880 / 44100)) ∧
      Real.sin (Real.pi * (4096 * 880 / 44100)) ≤ -0.7406) ∧
    (0.6709 ≤ Real.cos (Real.pi * (4096 * 880 / 44100)) ∧
      Real.cos (Real.pi * (4096 * 880 / 44100)) ≤ 0.6716) := by
  obtain ⟨c1l, c1h, s1l, s1h⟩ := small_angle_bounds
  have h := phase_multiples _ _ ⟨s1l, s1h⟩ ⟨c1l, c1h⟩
  have e1 : Real.pi * (4096 * 220 / 44100) =
      (Real.pi / 2 - Real.pi * 293 / 4410) + ((10 : Nat) : ℝ) * (2 * Real.pi) := by
    push_cast; ring
  have e2 : Real.pi * (4096 * 440 / 44100) =
      2 * (Real.pi / 2 - Real.pi * 293 / 4410) + ((20 : Nat) : ℝ) * (2 * Real.pi) := by
    push_cast; ring
  have e3 : Real.pi * (4096 * 660 / 44100) =
      (2 * (Real.pi / 2 - Real.pi * 293 / 4410) + (Real.pi / 2 - Real.pi * 293 / 4410)) +
        ((30 : Nat) : ℝ) * (2 * Real.pi) := by
    push_cast; ring
  have e4 : Real.pi * (4096 * 880 / 44100) =
      2 * (2 * (Real.pi / 2 - Real.pi * 293 / 4410)) + ((40 : Nat) : ℝ) * (2 * Real.pi) := by
    push_cast; ring
  rw [e1, e2, e3, e4]
  simp only [Real.sin_add_nat_mul_two_pi, Real.cos_add_nat_mul_two_pi]
  simp only [Real.sin_add, Real.cos_add, Real.sin_two_mul, Real.cos_two_mul,
    Real.sin_pi_div_two_sub, Real.cos_pi_div_two_sub]
  exact ⟨⟨by linarith, by linarith⟩, ⟨by linarith, by linarith⟩, h⟩

/-! ## The spectrum of the 220 Hz tone with harmonics in closed form -/

theorem tone_term_eq (f : ℝ) (j k : Nat) :
    ((Real.sin (2 * Real.pi * f * j / 44100) : ℝ) : ℂ) *
        twiddle_factor 1 ((2 ^ 12 : Nat) : Int) fft_direction.FFT_FORWARD ^ (j * k) =
      (Complex.exp (((2 * Real.pi * (f / 44100 - k / 4096) : ℝ) : ℂ) * Complex.I) ^ j -
        Complex.exp (((-(2 * Real.pi * (f / 44100 + k / 4096)) : ℝ) : ℂ) * Complex.I) ^ j) /
        (2 * Complex.I) := by
  rw [twiddle_forward_pow, Complex.ofReal_sin, Complex.sin, ← Complex.exp_nat_mul,
    ← Complex.exp_nat_mul]
  have hI : Complex.I * Complex.I = -1 := Complex.I_mul_I
  have hI0 : Complex.I ≠ 0 := Complex.I_ne_zero
  have e1 : (j : ℂ) * (((2 * Real.pi * (f / 44100 - k / 4096) : ℝ) : ℂ) * Complex.I) =
      ((2 * Real.pi * f * j / 44100 : ℝ) : ℂ) * Complex.I +
        -(2 * Real.pi * Complex.I * k * j / 2 ^ 12) := by
    push_cast; ring
  have e2 : (j : ℂ) * (((-(2 * Real.pi * (f / 44100 + k / 4096)) : ℝ) : ℂ) * Complex.I) =
      -((2 * Real.pi * f * j / 44100 : ℝ) : ℂ) * Complex.I +
        -(2 * Real.pi * Complex.I * k * j / 2 ^ 12) := by
    push_cast; ring
  rw [e1, e2, Complex.exp_add, Complex.exp_add]
  generalize Complex.exp (((2 * Real.pi * f * j / 44100 : ℝ) : ℂ) * Complex.I) = A
  generalize Complex.exp (-((2 * Real.pi * f * j / 44100 : ℝ) : ℂ) * Complex.I) = B
  generalize Complex.exp (-(2 * Real.pi * Complex.I * k * j / 2 ^ 12)) = W
  field_simp
  linear_combination (2 * W * (B - A)) * hI

/-- The forward transform of one sampled sine of frequency `f` as a difference of two
geometric sums on the unit circle. -/
theorem tone_sum_eq (f : ℝ) (k : Nat) :
    ∑ j in Finset.range (2 ^ 12),
        ((Real.sin (2 * Real.pi * f * j / 44100) : ℝ) : ℂ) *
          twiddle_factor 1 ((2 ^ 12 : Nat) : Int) fft_direction.FFT_FORWARD ^ (j * k) =
      (unit_circle_sum (2 * Real.pi * (f / 44100 - k / 4096)) 4096 -
        unit_circle_sum (-(2 * Real.pi * (f / 44100 + k / 4096))) 4096) / (2 * Complex.I) := by
  unfold unit_circle_sum
  rw [show (4096 : Nat) = 2 ^ 12 by norm_num, ← Finset.sum_sub_distrib, Finset.sum_div]
  apply Finset.sum_congr rfl
  intro j _
  exact tone_term_eq f j k

/-- Bin `k` of the forward spectrum of the 220 Hz tone with harmonics, as a combination
of geometric sums. -/
theorem harmonic_tone_spectrum_eq (k : Nat) (hk : k < 2 ^ 12) :
    (radix2_dit_fft twiddle_factor harmonic_tone_signal ((2 : Int) ^ 12)
        fft_direction.FFT_FORWARD).2 k =
      (((1.0 : ℝ) : ℂ) * (unit_circle_sum (2 * Real.pi * (220 / 44100 - k / 4096)) 4096 -
          unit_circle_sum (-(2 * Real.pi * (220 / 44100 + k / 4096))) 4096) +
        ((0.5 : ℝ) : ℂ) * (unit_circle_sum (2 * Real.pi * (440 / 44100 - k / 4096)) 4096 -
          unit_circle_sum (-(2 * Real.pi * (440 / 44100 + k / 4096))) 4096) +
        ((0.33 : ℝ) : ℂ) * (unit_circle_sum (2 * Real.pi * (660 / 44100 - k / 4096)) 4096 -
          unit_circle_sum (-(2 * Real.pi * (660 / 44100 + k / 4096))) 4096) +
        ((0.25 : ℝ) : ℂ) * (unit_circle_sum (2 * Real.pi * (880 / 44100 - k / 4096)) 4096 -
          unit_circle_sum (-(2 * Real.pi * (880 / 44100 + k / 4096))) 4096)) /
        (2 * Complex.I) := by
  rw [forward_apply, if_pos hk]
  have h1 := tone_sum_eq 220 k
  have h2 := tone_sum_eq 440 k
  have h3 := tone_sum_eq 660 k
  have h4 := tone_sum_eq 880 k
  have hsplit : ∀ j : Nat, harmonic_tone_signal j *
      twiddle_factor 1 ((2 ^ 12 : Nat) : Int) fft_direction.FFT_FORWARD ^ (j * k) =
      ((1.0 : ℝ) : ℂ) * (((Real.sin (2 * Real.pi * 220 * j / 44100) : ℝ) : ℂ) *
        twiddle_factor 1 ((2 ^ 12 : Nat) : Int) fft_direction.FFT_FORWARD ^ (j * k)) +
      ((0.5 : ℝ) : ℂ) * (((Real.sin (2 * Real.pi * 440 * j / 44100) : ℝ) : ℂ) *
        twiddle_factor 1 ((2 ^ 12 : Nat) : Int) fft_direction.FFT_FORWARD ^ (j * k)) +
      ((0.33 : ℝ) : ℂ) * (((Real.sin (2 * Real.pi * 660 * j / 44100) : ℝ) : ℂ) *
        twiddle_factor 1 ((2 ^ 12 : Nat) : Int) fft_direction.FFT_FORWARD ^ (j * k)) +
      ((0.25 : ℝ) : ℂ) * (((Real.sin (2 * Real.pi * 880 * j / 44100) : ℝ) : ℂ) *
        twiddle_factor 1 ((2 ^ 12 : Nat) : Int) fft_direction.FFT_FORWARD ^ (j * k)) := by
    intro j
    unfold harmonic_tone_signal
    simp only [Complex.ofReal_add, Complex.ofReal_mul]
    ring
  simp only [hsplit, Finset.sum_add_distrib, ← Finset.mul_sum]
  rw [h1, h2, h3, h4]
  ring

/-- A geometric sum over 4096 points of angle `2πx` with `4096·x = ν + m`, `m` an integer:
it equals `-i·sin(πν)·(cos(πν) + i·sin(πν))·(1 + i·cot(πx))`. -/
theorem unit_circle_sum_tone (ν x : ℝ) (m : Int) (h : 4096 * x = ν + m)
    (hs : Real.sin (Real.pi * x) ≠ 0) :
    unit_circle_sum (2 * Real.pi * x) 4096 =
      -Complex.I * ((Real.sin (Real.pi * ν) : ℝ) : ℂ) *
        (((Real.cos (Real.pi * ν) : ℝ) : ℂ) + Complex.I * ((Real.sin (Real.pi * ν) : ℝ) : ℂ)) *
        (1 + Complex.I *
          ((Real.cos (Real.pi * x) / Real.sin (Real.pi * x) : ℝ) : ℂ)) := by
  have e0 : 2 * Real.pi * x / 2 = Real.pi * x := by ring
  have hs2 : Real.sin (2 * Real.pi * x / 2) ≠ 0 := by rw [e0]; exact hs
  rw [unit_circle_sum_closed (2 * Real.pi * x) 4096 hs2, e0]
  have e1 : ((((4096 : Nat) : ℝ) * (2 * Real.pi * x) : ℝ) : ℂ) * Complex.I =
      (((2 * Real.pi * ν : ℝ) : ℝ) : ℂ) * Complex.I + (m : ℂ) * (2 * Real.pi * Complex.I) := by
    have h2 : ((4096 : Nat) : ℝ) * (2 * Real.pi * x) = 2 * Real.pi * ν + m * (2 * Real.pi) := by
      have : ((4096 : Nat) : ℝ) * (2 * Real.pi * x) = 2 * Real.pi * (4096 * x) := by
        push_cast; ring
      rw [this, h]
      ring
    rw [h2]
    push_cast
    ring
  rw [e1, Complex.exp_add, Complex.exp_int_mul_two_pi_mul_I, mul_one, exp_mul_I_sub_one]
  have e2 : 2 * Real.pi * ν / 2 = Real.pi * ν := by ring
  rw [e2, Complex.exp_mul_I, ← Complex.ofReal_cos, ← Complex.ofReal_sin]
  ring

/-- One partial of frequency `f` in bin `k` of the 4096-point transform: the difference of
its two geometric sums divided by `2i`, with `s = sin(πν)`, `c = cos(πν)`,
`ν = 4096·f/44100`, and the cotangents `κ⁻`, `κ⁺` of `π(f/44100 ∓ k/4096)`, is
`(s/2)·((s·(κ⁻ + κ⁺) - 2c) - i·c·(κ⁻ - κ⁺))`. -/
theorem tone_pair_closed (f : ℝ) (k : Nat)
    (hm : Real.sin (Real.pi * (f / 44100 - k / 4096)) ≠ 0)
    (hp : Real.sin (Real.pi * (f / 44100 + k / 4096)) ≠ 0) :
    (unit_circle_sum (2 * Real.pi * (f / 44100 - k / 4096)) 4096 -
        unit_circle_sum (-(2 * Real.pi * (f / 44100 + k / 4096))) 4096) / (2 * Complex.I) =
      ((Real.sin (Real.pi * (4096 * f / 44100)) *
          (Real.sin (Real.pi * (4096 * f / 44100)) *
            (Real.cos (Real.pi * (f / 44100 - k / 4096)) /
                Real.sin (Real.pi * (f / 44100 - k / 4096)) +
              Real.cos (Real.pi * (f / 44100 + k / 4096)) /
                Real.sin (Real.pi * (f / 44100 + k / 4096))) -
            2 * Real.cos (Real.pi * (4096 * f / 44100))) / 2 : ℝ) : ℂ) +
      ((-(Real.sin (Real.pi * (4096 * f / 44100)) * Real.cos (Real.pi * (4096 * f / 44100)) *
          (Real.cos (Real.pi * (f / 44100 - k / 4096)) /
              Real.sin (Real.pi * (f / 44100 - k / 4096)) -
            Real.cos (Real.pi * (f / 44100 + k / 4096)) /
              Real.sin (Real.pi * (f / 44100 + k / 4096)))) / 2 : ℝ) : ℂ) * Complex.I := by
  have h1 := unit_circle_sum_tone (4096 * f / 44100) (f / 44100 - k / 4096) (-(k : Int))
    (by push_cast; ring) hm
  have hp2 : Real.sin (Real.pi * -(f / 44100 + k / 4096)) ≠ 0 := by
    rw [mul_neg, Real.sin_neg]
    exact neg_ne_zero.2 hp
  have h2 := unit_circle_sum_tone (-(4096 * f / 44100)) (-(f / 44100 + k / 4096)) (-(k : Int))
    (by push_cast; ring) hp2
  have e : 2 * Real.pi * -(f / 44100 + (k : ℝ) / 4096) =
      -(2 * Real.pi * (f / 44100 + k / 4096)) := by ring
  rw [e] at h2
  simp only [mul_neg, Real.sin_neg, Real.cos_neg, div_neg] at h2
  rw [h1, h2]
  have hI : Complex.I * Complex.I = -1 := Complex.I_mul_I
  have hI0 : Complex.I ≠ 0 := Complex.I_ne_zero
  simp only [Complex.ofReal_div, Complex.ofReal_mul, Complex.ofReal_sub, Complex.ofReal_add,
    Complex.ofReal_neg, Complex.ofReal_ofNat]
  generalize ((Real.sin (Real.pi * (4096 * f / 44100)) : ℝ) : ℂ) = s
  generalize ((Real.cos (Real.pi * (4096 * f / 44100)) : ℝ) : ℂ) = c
  generalize ((Real.cos (Real.pi * (f / 44100 - k / 4096)) : ℝ) : ℂ) /
    ((Real.sin (Real.pi * (f / 44100 - k / 4096)) : ℝ) : ℂ) = a
  generalize ((Real.cos (Real.pi * (f / 44100 + k / 4096)) : ℝ) : ℂ) /
    ((Real.sin (Real.pi * (f / 44100 + k / 4096)) : ℝ) : ℂ) = b
  field_simp
  linear_combination (s * (2 * c - s * a - s * b) * Complex.I + s * c * (a - b) +
    s * c * (a - b) * Complex.I * Complex.I - s * s * (a + b) * Complex.I +
    2 * s * c * Complex.I - 4 * Complex.I * s * c -
    s * c * a * (1 + Complex.I * Complex.I) + s * c * b * (1 + Complex.I * Complex.I)) * hI

theorem abs_one_add_I_mul_cot (y : ℝ) (hs : Real.sin y ≠ 0) :
    Complex.abs (1 + Complex.I * ((Real.cos y / Real.sin y : ℝ) : ℂ)) = 1 / |Real.sin y| := by
  have h : (1 + Complex.I * ((Real.cos y / Real.sin y : ℝ) : ℂ)) * ((Real.sin y : ℝ) : ℂ) =
      Complex.I * (((Real.cos y : ℝ) : ℂ) + -((Real.sin y : ℝ) : ℂ) * Complex.I) := by
    have hsC : ((Real.sin y : ℝ) : ℂ) ≠ 0 := by exact_mod_cast hs
    have hI : Complex.I * Complex.I = -1 := Complex.I_mul_I
    rw [Complex.ofReal_div]
    generalize ((Real.sin y : ℝ) : ℂ) = s at hsC ⊢
    generalize ((Real.cos y : ℝ) : ℂ) = c
    field_simp
    linear_combination s * hI
  have h2 := congrArg Complex.abs h
  have e : ((Real.cos y : ℝ) : ℂ) + -((Real.sin y : ℝ) : ℂ) * Complex.I =
      Complex.exp (((-y : ℝ) : ℂ) * Complex.I) := by
    rw [Complex.exp_mul_I, ← Complex.ofReal_cos, ← Complex.ofReal_sin, Real.cos_neg,
      Real.sin_neg]
    push_cast
    ring
  rw [map_mul, map_mul, Complex.abs_I, one_mul, e, Complex.abs_exp_ofReal_mul_I,
    Complex.abs_ofReal] at h2
  have hpos : 0 < |Real.sin y| := abs_pos.2 hs
  rw [eq_div_iff hpos.ne']
  exact h2

/-- Magnitude of the geometric sum of `unit_circle_sum_tone`. -/
theorem abs_unit_circle_sum_tone (ν x : ℝ) (m : Int) (h : 4096 * x = ν + m)
    (hs : Real.sin (Real.pi * x) ≠ 0) :
    Complex.abs (unit_circle_sum (2 * Real.pi * x) 4096) =
      |Real.sin (Real.pi * ν)| * (1 / |Real.sin (Real.pi * x)|) := by
  rw [unit_circle_sum_tone ν x m h hs, map_mul, map_mul, map_mul, map_neg_eq_map,
    Complex.abs_I, one_mul, Complex.abs_ofReal, abs_one_add_I_mul_cot _ hs]
  have e : ((Real.cos (Real.pi * ν) : ℝ) : ℂ) + Complex.I * ((Real.sin (Real.pi * ν) : ℝ) : ℂ) =
      Complex.exp (((Real.pi * ν : ℝ) : ℂ) * Complex.I) := by
    rw [Complex.exp_mul_I, ← Complex.ofReal_cos, ← Complex.ofReal_sin]
    ring
  rw [e, Complex.abs_exp_ofReal_mul_I, mul_one]

/-- Magnitude of one partial in bin `k`: at most
`|sin(πν)|/2 · (1/|sin(π(f/44100 - k/4096))| + 1/|sin(π(f/44100 + k/4096))|)`. -/
theorem abs_tone_pair_le (f : ℝ) (k : Nat)
    (hm : Real.sin (Real.pi * (f / 44100 - k / 4096)) ≠ 0)
    (hp : Real.sin (Real.pi * (f / 44100 + k / 4096)) ≠ 0) :
    Complex.abs ((unit_circle_sum (2 * Real.pi * (f / 44100 - k / 4096)) 4096 -
        unit_circle_sum (-(2 * Real.pi * (f / 44100 + k / 4096))) 4096) / (2 * Complex.I)) ≤
      |Real.sin (Real.pi * (4096 * f / 44100))| / 2 *
        (1 / |Real.sin (Real.pi * (f / 44100 - k / 4096))| +
          1 / |Real.sin (Real.pi * (f / 44100 + k / 4096))|) := by
  have h1 := abs_unit_circle_sum_tone (4096 * f / 44100) (f / 44100 - k / 4096) (-(k : Int))
    (by push_cast; ring) hm
  have hp2 : Real.sin (Real.pi * -(f / 44100 + k / 4096)) ≠ 0 := by
    rw [mul_neg, Real.sin_neg]
    exact neg_ne_zero.2 hp
  have h2 := abs_unit_circle_sum_tone (-(4096 * f / 44100)) (-(f / 44100 + k / 4096))
    (-(k : Int)) (by push_cast; ring) hp2
  have e : 2 * Real.pi * -(f / 44100 + (k : ℝ) / 4096) =
      -(2 * Real.pi * (f / 44100 + k / 4096)) := by ring
  rw [e] at h2
  simp only [mul_neg, Real.sin_neg, abs_neg] at h2
  rw [map_div₀, map_mul, Complex.abs_I, Complex.abs_ofNat, mul_one]
  have t := norm_sub_le (unit_circle_sum (2 * Real.pi * (f / 44100 - k / 4096)) 4096)
    (unit_circle_sum (-(2 * Real.pi * (f / 44100 + k / 4096))) 4096)
  simp only [Complex.norm_eq_abs] at t
  rw [h1, h2] at t
  have e2 : |Real.sin (Real.pi * (4096 * f / 44100))| / 2 *
      (1 / |Real.sin (Real.pi * (f / 44100 - k / 4096))| +
        1 / |Real.sin (Real.pi * (f / 44100 + k / 4096))|) =
      (|Real.sin (Real.pi * (4096 * f / 44100))| *
          (1 / |Real.sin (Real.pi * (f / 44100 - k / 4096))|) +
        |Real.sin (Real.pi * (4096 * f / 44100))| *
          (1 / |Real.sin (Real.pi * (f / 44100 + k / 4096))|)) / 2 := by ring
  rw [e2]
  exact div_le_div_of_nonneg_right t (by norm_num)

/-! ## Bounds on single bins of the spectrum of the 220 Hz tone with harmonics -/

theorem mul_mem_of_interval_mul_ok {x y xl xh yl yh m M : ℝ} (hx : xl ≤ x ∧ x ≤ xh)
    (hy : yl ≤ y ∧ y ≤ yh) (h : interval_mul_ok m M xl xh yl yh) :
    m ≤ x * y ∧ x * y ≤ M :=
  mul_mem_of_corners hx.1 hx.2 hy.1 hy.2 h.1.1 h.1.2.1 h.1.2.2.1 h.1.2.2.2
    h.2.1 h.2.2.1 h.2.2.2.1 h.2.2.2.2

/-- Interval arithmetic for the real part `s·(s·(κ⁻ + κ⁺) - 2c)/2` and the imaginary part
`-(s·c·(κ⁻ - κ⁺))/2` of one partial. -/
theorem tone_pair_interval {s c km kp sl sh cl ch ml mh pl ph : ℝ}
    (a b rl rh d1 d2 jl jh : ℝ)
    (hs : sl ≤ s ∧ s ≤ sh) (hc : cl ≤ c ∧ c ≤ ch) (hm : ml ≤ km ∧ km ≤ mh)
    (hp : pl ≤ kp ∧ kp ≤ ph)
    (h1 : interval_mul_ok a b sl sh (ml + pl) (mh + ph))
    (h2 : interval_mul_ok (2 * rl) (2 * rh) sl sh (a - 2 * ch) (b - 2 * cl))
    (h3 : interval_mul_ok d1 d2 sl sh cl ch)
    (h4 : interval_mul_ok (-(2 * jh)) (-(2 * jl)) d1 d2 (ml - ph) (mh - pl)) :
    (rl ≤ s * (s * (km + kp) - 2 * c) / 2 ∧ s * (s * (km + kp) - 2 * c) / 2 ≤ rh) ∧
    (jl ≤ -(s * c * (km - kp)) / 2 ∧ -(s * c * (km - kp)) / 2 ≤ jh) := by
  have hK : ml + pl ≤ km + kp ∧ km + kp ≤ mh + ph := ⟨by linarith [hm.1, hp.1],
    by linarith [hm.2, hp.2]⟩
  have hD : ml - ph ≤ km - kp ∧ km - kp ≤ mh - pl := ⟨by linarith [hm.1, hp.2],
    by linarith [hm.2, hp.1]⟩
  have g1 := mul_mem_of_interval_mul_ok hs hK h1
  have hT : a - 2 * ch ≤ s * (km + kp) - 2 * c ∧ s * (km + kp) - 2 * c ≤ b - 2 * cl :=
    ⟨by linarith [g1.1, hc.2], by linarith [g1.2, hc.1]⟩
  have g2 := mul_mem_of_interval_mul_ok hs hT h2
  have g3 := mul_mem_of_interval_mul_ok hs hc h3
  have g4 := mul_mem_of_interval_mul_ok g3 hD h4
  refine ⟨⟨by linarith [g2.1], by linarith [g2.2]⟩, ⟨by linarith [g4.2], by linarith [g4.1]⟩⟩

/-- Cotangent of `π·x` between the rational bounds, `0 < x ≤ 3/10`. -/
theorem cot_pi_pos (x : ℝ) (hx : 0 < x) (hx1 : x ≤ 3 / 10) :
    Real.sin (Real.pi * x) ≠ 0 ∧
    (cot_pi_lower x ≤ Real.cos (Real.pi * x) / Real.sin (Real.pi * x) ∧
      Real.cos (Real.pi * x) / Real.sin (Real.pi * x) ≤ csc_pi_upper x) := by
  unfold cot_pi_lower csc_pi_upper
  obtain ⟨h0, h1, h2, _⟩ := cot_pi_bounds x hx hx1
  exact ⟨h0.ne', h1, h2⟩

/-- Cotangent of `π·x` between the rational bounds, `-3/10 ≤ x < 0`. -/
theorem cot_pi_neg (x : ℝ) (hx : x < 0) (hx1 : -(3 / 10) ≤ x) :
    Real.sin (Real.pi * x) ≠ 0 ∧
    (-csc_pi_upper (-x) ≤ Real.cos (Real.pi * x) / Real.sin (Real.pi * x) ∧
      Real.cos (Real.pi * x) / Real.sin (Real.pi * x) ≤ -cot_pi_lower (-x)) := by
  unfold cot_pi_lower csc_pi_upper
  obtain ⟨h0, h1, h2⟩ := cot_pi_bounds_neg x hx hx1
  exact ⟨h0.ne, h1, h2⟩

theorem interval_weaken {x lo hi : ℝ} (lo2 hi2 : ℝ) (h : lo ≤ x ∧ x ≤ hi) (h1 : lo2 ≤ lo)
    (h2 : hi ≤ hi2) : lo2 ≤ x ∧ x ≤ hi2 :=
  ⟨le_trans h1 h.1, le_trans h.2 h2⟩

/-- Magnitude of a complex number from intervals for its real and imaginary part: `rm`,
`jm` are lower and `rM`, `jM` upper bounds of the absolute values of the parts. -/
theorem abs_mem_of_re_im (z : ℂ) (rl rh jl jh rm rM jm jM l u : ℝ)
    (hre : rl ≤ z.re ∧ z.re ≤ rh) (him : jl ≤ z.im ∧ z.im ≤ jh)
    (h : ((rm ≤ rl ∨ rh ≤ -rm) ∨ rm = 0) ∧ ((jm ≤ jl ∨ jh ≤ -jm) ∨ jm = 0) ∧
      0 ≤ rm ∧ 0 ≤ jm ∧ (-rM ≤ rl ∧ rh ≤ rM) ∧ (-jM ≤ jl ∧ jh ≤ jM) ∧
      l ^ 2 ≤ rm ^ 2 + jm ^ 2 ∧ rM ^ 2 + jM ^ 2 ≤ u ^ 2 ∧ 0 ≤ u) :
    l ≤ Complex.abs z ∧ Complex.abs z ≤ u := by
  obtain ⟨h1, h2, h3, h4, h5, h6, h7, h8, h9⟩ := h
  have a1 : rm ≤ |z.re| := by
    rcases h1 with (h1 | h1) | h1
    · exact le_trans (le_trans h1 hre.1) (le_abs_self _)
    · exact le_trans (by linarith [hre.2]) (neg_le_abs _)
    · rw [h1]; exact abs_nonneg _
  have a2 : jm ≤ |z.im| := by
    rcases h2 with (h2 | h2) | h2
    · exact le_trans (le_trans h2 him.1) (le_abs_self _)
    · exact le_trans (by linarith [him.2]) (neg_le_abs _)
    · rw [h2]; exact abs_nonneg _
  have b1 : |z.re| ≤ rM := abs_le.2 ⟨by linarith [hre.1, h5.1], by linarith [hre.2, h5.2]⟩
  have b2 : |z.im| ≤ jM := abs_le.2 ⟨by linarith [him.1, h6.1], by linarith [him.2, h6.2]⟩
  have c1 : rm ^ 2 ≤ z.re ^ 2 := by
    rw [← sq_abs z.re]
    exact pow_le_pow_left₀ h3 a1 2
  have c2 : jm ^ 2 ≤ z.im ^ 2 := by
    rw [← sq_abs z.im]
    exact pow_le_pow_left₀ h4 a2 2
  have c3 : z.re ^ 2 ≤ rM ^ 2 := by
    rw [← sq_abs z.re]
    exact pow_le_pow_left₀ (abs_nonneg _) b1 2
  have c4 : z.im ^ 2 ≤ jM ^ 2 := by
    rw [← sq_abs z.im]
    exact pow_le_pow_left₀ (abs_nonneg _) b2 2
  have e : Complex.abs z = Real.sqrt (z.re ^ 2 + z.im ^ 2) := by
    rw [Complex.abs_apply, Complex.normSq_apply, pow_two, pow_two]
  rw [e]
  constructor
  · calc l ≤ |l| := le_abs_self l
      _ = Real.sqrt (l ^ 2) := (Real.sqrt_sq_eq_abs l).symm
      _ ≤ Real.sqrt (z.re ^ 2 + z.im ^ 2) := Real.sqrt_le_sqrt (by linarith)
  · calc Real.sqrt (z.re ^ 2 + z.im ^ 2) ≤ Real.sqrt (u ^ 2) :=
          Real.sqrt_le_sqrt (by linarith)
      _ = u := Real.sqrt_sq h9

/-- Real and imaginary part of bin `k` of the spectrum of the 220 Hz tone with harmonics. -/
theorem harmonic_tone_re_im (k : Nat) (hk : k < 2 ^ 12)
    (hm1 : Real.sin (Real.pi * (220 / 44100 - k / 4096)) ≠ 0)
    (hp1 : Real.sin (Real.pi * (220 / 44100 + k / 4096)) ≠ 0)
    (hm2 : Real.sin (Real.pi * (440 / 44100 - k / 4096)) ≠ 0)
    (hp2 : Real.sin (Real.pi * (440 / 44100 + k / 4096)) ≠ 0)
    (hm3 : Real.sin (Real.pi * (660 / 44100 - k / 4096)) ≠ 0)
    (hp3 : Real.sin (Real.pi * (660 / 44100 + k / 4096)) ≠ 0)
    (hm4 : Real.sin (Real.pi * (880 / 44100 - k / 4096)) ≠ 0)
    (hp4 : Real.sin (Real.pi * (880 / 44100 + k / 4096)) ≠ 0) :
    ((radix2_dit_fft twiddle_factor harmonic_tone_signal ((2 : Int) ^ 12)
        fft_direction.FFT_FORWARD).2 k).re =
      1.0 * (Real.sin (Real.pi * (4096 * 220 / 44100)) *
          (Real.sin (Real.pi * (4096 * 220 / 44100)) *
            (Real.cos (Real.pi * (220 / 44100 - k / 4096)) /
                Real.sin (Real.pi * (220 / 44100 - k / 4096)) +
              Real.cos (Real.pi * (220 / 44100 + k / 4096)) /
                Real.sin (Real.pi * (220 / 44100 + k / 4096))) -
            2 * Real.cos (Real.pi * (4096 * 220 / 44100))) / 2) +
        0.5 * (Real.sin (Real.pi * (4096 * 440 / 44100)) *
          (Real.sin (Real.pi * (4096 * 440 / 44100)) *
            (Real.cos (Real.pi * (440 / 44100 - k / 4096)) /
                Real.sin (Real.pi * (440 / 44100 - k / 4096)) +
              Real.cos (Real.pi * (440 / 44100 + k / 4096)) /
                Real.sin (Real.pi * (440 / 44100 + k / 4096))) -
            2 * Real.cos (Real.pi * (4096 * 440 / 44100))) / 2) +
        0.33 * (Real.sin (Real.pi * (4096 * 660 / 44100)) *
          (Real.sin (Real.pi * (4096 * 660 / 44100)) *
            (Real.cos (Real.pi * (660 / 44100 - k / 4096)) /
                Real.sin (Real.pi * (660 / 44100 - k / 4096)) +
              Real.cos (Real.pi * (660 / 44100 + k / 4096)) /
                Real.sin (Real.pi * (660 / 44100 + k / 4096))) -
            2 * Real.cos (Real.pi * (4096 * 660 / 44100))) / 2) +
        0.25 * (Real.sin (Real.pi * (4096 * 880 / 44100)) *
          (Real.sin (Real.pi * (4096 * 880 / 44100)) *
            (Real.cos (Real.pi * (880 / 44100 - k / 4096)) /
                Real.sin (Real.pi * (880 / 44100 - k / 4096)) +
              Real.cos (Real.pi * (880 / 44100 + k / 4096)) /
                Real.sin (Real.pi * (880 / 44100 + k / 4096))) -
            2 * Real.cos (Real.pi * (4096 * 880 / 44100))) / 2) ∧
    ((radix2_dit_fft twiddle_factor harmonic_tone_signal ((2 : Int) ^ 12)
        fft_direction.FFT_FORWARD).2 k).im =
      1.0 * (-(Real.sin (Real.pi * (4096 * 220 / 44100)) *
          Real.cos (Real.pi * (4096 * 220 / 44100)) *
          (Real.cos (Real.pi * (220 / 44100 - k / 4096)) /
              Real.sin (Real.pi * (220 / 44100 - k / 4096)) -
            Real.cos (Real.pi * (220 / 44100 + k / 4096)) /
              Real.sin (Real.pi * (220 / 44100 + k / 4096)))) / 2) +
        0.5 * (-(Real.sin (Real.pi * (4096 * 440 / 44100)) *
          Real.cos (Real.pi * (4096 * 440 / 44100)) *
          (Real.cos (Real.pi * (440 / 44100 - k / 4096)) /
              Real.sin (Real.pi * (440 / 44100 - k / 4096)) -
            Real.cos (Real.pi * (440 / 44100 + k / 4096)) /
              Real.sin (Real.pi * (440 / 44100 + k / 4096)))) / 2) +
        0.33 * (-(Real.sin (Real.pi * (4096 * 660 / 44100)) *
          Real.cos (Real.pi * (4096 * 660 / 44100)) *
          (Real.cos (Real.pi * (660 / 44100 - k / 4096)) /
              Real.sin (Real.pi * (660 / 44100 - k / 4096)) -
            Real.cos (Real.pi * (660 / 44100 + k / 4096)) /
              Real.sin (Real.pi * (660 / 44100 + k / 4096)))) / 2) +
        0.25 * (-(Real.sin (Real.pi * (4096 * 880 / 44100)) *
          Real.cos (Real.pi * (4096 * 880 / 44100)) *
          (Real.cos (Real.pi * (880 / 44100 - k / 4096)) /
              Real.sin (Real.pi * (880 / 44100 - k / 4096)) -
            Real.cos (Real.pi * (880 / 44100 + k / 4096)) /
              Real.sin (Real.pi * (880 / 44100 + k / 4096)))) / 2) := by
  have h := harmonic_tone_spectrum_eq k hk
  have e : ∀ a b c d z1 z2 z3 z4 : ℂ,
      (a * z1 + b * z2 + c * z3 + d * z4) / (2 * Complex.I) =
        a * (z1 / (2 * Complex.I)) + b * (z2 / (2 * Complex.I)) + c * (z3 / (2 * Complex.I)) +
          d * (z4 / (2 * Complex.I)) := by
    intro a b c d z1 z2 z3 z4
    ring
  rw [e, tone_pair_closed 220 k hm1 hp1, tone_pair_closed 440 k hm2 hp2,
    tone_pair_closed 660 k hm3 hp3, tone_pair_closed 880 k hm4 hp4] at h
  rw [h]
  constructor
  · simp only [Complex.add_re, Complex.mul_re, Complex.ofReal_re, Complex.ofReal_im,
      Complex.I_re, Complex.I_im, Complex.add_im, Complex.mul_im]
    ring
  · simp only [Complex.add_re, Complex.mul_re, Complex.ofReal_re, Complex.ofReal_im,
      Complex.I_re, Complex.I_im, Complex.add_im, Complex.mul_im]
    ring

/-- Magnitude of one partial of frequency `0 < f ≤ 880` in bin `k < 1000`, with `sb` a
bound on `|sin(πν)|` and `e` the sign of `f/44100 - k/4096`. -/
theorem abs_tone_pair_le_csc (k : Nat) (hk : k < 1000) (f e sb : ℝ) (hf0 : 0 < f)
    (hf1 : f ≤ 880) (he : e = 1 ∨ e = -1) (hx : 0 < e * (f / 44100 - k / 4096))
    (hsb : |Real.sin (Real.pi * (4096 * f / 44100))| ≤ sb) :
    Complex.abs ((unit_circle_sum (2 * Real.pi * (f / 44100 - k / 4096)) 4096 -
        unit_circle_sum (-(2 * Real.pi * (f / 44100 + k / 4096))) 4096) / (2 * Complex.I)) ≤
      sb / 2 * (csc_pi_upper (e * (f / 44100 - k / 4096)) +
        csc_pi_upper (f / 44100 + k / 4096)) := by
  have hkr : (k : ℝ) ≤ 1000 := by exact_mod_cast hk.le
  have hk0 : (0 : ℝ) ≤ (k : ℝ) / 4096 := by positivity
  have hf2 : f / 44100 ≤ 880 / 44100 := div_le_div_of_nonneg_right hf1 (by norm_num)
  have hf3 : (0 : ℝ) ≤ f / 44100 := by positivity
  have hk2 : (k : ℝ) / 4096 ≤ 1000 / 4096 := div_le_div_of_nonneg_right hkr (by norm_num)
  have hxle : e * (f / 44100 - k / 4096) ≤ 3 / 10 := by
    rcases he with he | he
    · subst he
      linarith only [hf2, hk0]
    · subst he
      linarith only [hk2, hf3]
  obtain ⟨am0, am⟩ := abs_sin_pi_recip (f / 44100 - k / 4096) e he hx hxle
  have hpx : 0 < (1 : ℝ) * (f / 44100 + k / 4096) := by positivity
  have hpxle : (1 : ℝ) * (f / 44100 + k / 4096) ≤ 3 / 10 := by
    linarith only [hf2, hk2]
  obtain ⟨ap0, ap⟩ := abs_sin_pi_recip (f / 44100 + k / 4096) 1 (Or.inl rfl) hpx hpxle
  rw [one_mul] at ap
  have hm : Real.sin (Real.pi * (f / 44100 - k / 4096)) ≠ 0 := abs_pos.1 am0
  have hp : Real.sin (Real.pi * (f / 44100 + k / 4096)) ≠ 0 := abs_pos.1 ap0
  refine le_trans (abs_tone_pair_le f k hm hp) ?_
  unfold csc_pi_upper
  have hsum0 : 0 ≤ 1 / |Real.sin (Real.pi * (f / 44100 - k / 4096))| +
      1 / |Real.sin (Real.pi * (f / 44100 + k / 4096))| := by positivity
  have hsb0 : 0 ≤ sb := le_trans (abs_nonneg _) hsb
  have hhalf : |Real.sin (Real.pi * (4096 * f / 44100))| / 2 ≤ sb / 2 := by
    linarith only [hsb]
  have hsb2 : 0 ≤ sb / 2 := by linarith only [hsb0]
  exact mul_le_mul hhalf (add_le_add am ap) hsum0 hsb2

/-- Triangle bound on bin `k` of the spectrum of the 220 Hz tone with harmonics; `e1 .. e4`
are the signs of `f/44100 - k/4096` for the four partials. -/
theorem harmonic_tone_bin_le (k : Nat) (hk : k < 1000) (e1 e2 e3 e4 u : ℝ)
    (he1 : e1 = 1 ∨ e1 = -1) (he2 : e2 = 1 ∨ e2 = -1) (he3 : e3 = 1 ∨ e3 = -1)
    (he4 : e4 = 1 ∨ e4 = -1)
    (hx1 : 0 < e1 * (220 / 44100 - k / 4096)) (hx2 : 0 < e2 * (440 / 44100 - k / 4096))
    (hx3 : 0 < e3 * (660 / 44100 - k / 4096)) (hx4 : 0 < e4 * (880 / 44100 - k / 4096))
    (hu : 1.0 * (0.9784 / 2 * (csc_pi_upper (e1 * (220 / 44100 - k / 4096)) +
          csc_pi_upper (220 / 44100 + k / 4096))) +
        0.5 * (0.4057 / 2 * (csc_pi_upper (e2 * (440 / 44100 - k / 4096)) +
          csc_pi_upper (440 / 44100 + k / 4096))) +
        0.33 * (0.8105 / 2 * (csc_pi_upper (e3 * (660 / 44100 - k / 4096)) +
          csc_pi_upper (660 / 44100 + k / 4096))) +
        0.25 * (0.7417 / 2 * (csc_pi_upper (e4 * (880 / 44100 - k / 4096)) +
          csc_pi_upper (880 / 44100 + k / 4096))) ≤ u) :
    Complex.abs ((radix2_dit_fft twiddle_factor harmonic_tone_signal ((2 : Int) ^ 12)
        fft_direction.FFT_FORWARD).2 k) ≤ u := by
  have hk4 : k < 2 ^ 12 := by
    have : (1000 : Nat) < 2 ^ 12 := by norm_num
    omega
  obtain ⟨⟨s1l, s1h⟩, _, ⟨s2l, s2h⟩, _, ⟨s3l, s3h⟩, _, ⟨s4l, s4h⟩, _⟩ := tone_phase_bounds
  have a1 := abs_tone_pair_le_csc k hk 220 e1 0.9784 (by norm_num) (by norm_num) he1 hx1
    (abs_le.2 ⟨by linarith only [s1l], s1h⟩)
  have a2 := abs_tone_pair_le_csc k hk 440 e2 0.4057 (by norm_num) (by norm_num) he2 hx2
    (abs_le.2 ⟨by linarith only [s2l], s2h⟩)
  have a3 := abs_tone_pair_le_csc k hk 660 e3 0.8105 (by norm_num) (by norm_num) he3 hx3
    (abs_le.2 ⟨by linarith only [s3l], by linarith only [s3h]⟩)
  have a4 := abs_tone_pair_le_csc k hk 880 e4 0.7417 (by norm_num) (by norm_num) he4 hx4
    (abs_le.2 ⟨by linarith only [s4l], by linarith only [s4h]⟩)
  rw [harmonic_tone_spectrum_eq k hk4]
  have e : ∀ a b c d z1 z2 z3 z4 : ℂ,
      (a * z1 + b * z2 + c * z3 + d * z4) / (2 * Complex.I) =
        a * (z1 / (2 * Complex.I)) + b * (z2 / (2 * Complex.I)) + c * (z3 / (2 * Complex.I)) +
          d * (z4 / (2 * Complex.I)) := by
    intro a b c d z1 z2 z3 z4
    ring
  rw [e]
  refine le_trans ?_ hu
  refine le_trans (Complex.abs.add_le _ _) (add_le_add (le_trans (Complex.abs.add_le _ _)
    (add_le_add (le_trans (Complex.abs.add_le _ _) (add_le_add ?_ ?_)) ?_)) ?_)
  · rw [map_mul, Complex.abs_ofReal, abs_of_nonneg (by norm_num : (0 : ℝ) ≤ 1.0)]
    exact mul_le_mul_of_nonneg_left a1 (by norm_num)
  · rw [map_mul, Complex.abs_ofReal, abs_of_nonneg (by norm_num : (0 : ℝ) ≤ 0.5)]
    exact mul_le_mul_of_nonneg_left a2 (by norm_num)
  · rw [map_mul, Complex.abs_ofReal, abs_of_nonneg (by norm_num : (0 : ℝ) ≤ 0.33)]
    exact mul_le_mul_of_nonneg_left a3 (by norm_num)
  · rw [map_mul, Complex.abs_ofReal, abs_of_nonneg (by norm_num : (0 : ℝ) ≤ 0.25)]
    exact mul_le_mul_of_nonneg_left a4 (by norm_num)

/-! ## A fixed-point bound for every bin -/

theorem csc_fixed_spec (w d : Nat) (hd : 0 < d) (hd2 : d ≤ 2709504) :
    (w : ℝ) / 10 ^ 7 * csc_pi_upper ((d : ℝ) / 9031680) ≤ (csc_fixed w d : ℝ) / 1000 := by
  have hsq : d ^ 2 ≤ 2709504 ^ 2 := Nat.pow_le_pow_left hd2 2
  have hsub : 3141593 ^ 2 * d ^ 2 < 4 * 10 ^ 12 * 9031680 ^ 2 := by
    calc 3141593 ^ 2 * d ^ 2 ≤ 3141593 ^ 2 * 2709504 ^ 2 := Nat.mul_le_mul_left _ hsq
      _ < 4 * 10 ^ 12 * 9031680 ^ 2 := by norm_num
  have hden : 0 < 3141592 * d * (4 * 10 ^ 12 * 9031680 ^ 2 - 3141593 ^ 2 * d ^ 2) :=
    Nat.mul_pos (Nat.mul_pos (by norm_num) hd) (Nat.sub_pos_of_lt hsub)
  have hdiv := Nat.lt_mul_div_succ (w * (4 * 10 ^ 14 * 9031680 ^ 3)) hden
  have hdivR : ((w * (4 * 10 ^ 14 * 9031680 ^ 3) : Nat) : ℝ) <
      ((3141592 * d * (4 * 10 ^ 12 * 9031680 ^ 2 - 3141593 ^ 2 * d ^ 2) : Nat) : ℝ) *
        ((csc_fixed w d : Nat) : ℝ) := by
    unfold csc_fixed
    exact_mod_cast hdiv
  have hdenR : ((3141592 * d * (4 * 10 ^ 12 * 9031680 ^ 2 - 3141593 ^ 2 * d ^ 2) : Nat) : ℝ) =
      3141592 * (d : ℝ) * (4 * 10 ^ 12 * 9031680 ^ 2 - 3141593 ^ 2 * (d : ℝ) ^ 2) := by
    rw [Nat.cast_mul, Nat.cast_mul, Nat.cast_sub hsub.le]
    push_cast
    ring
  rw [hdenR] at hdivR
  have hdR : (0 : ℝ) < (d : ℝ) := by exact_mod_cast hd
  have hsubR : (0 : ℝ) < 4 * 10 ^ 12 * 9031680 ^ 2 - 3141593 ^ 2 * (d : ℝ) ^ 2 := by
    have : ((3141593 ^ 2 * d ^ 2 : Nat) : ℝ) < ((4 * 10 ^ 12 * 9031680 ^ 2 : Nat) : ℝ) := by
      exact_mod_cast hsub
    push_cast at this
    linarith
  generalize (csc_fixed w d : ℝ) = q at hdivR ⊢
  generalize (d : ℝ) = x at hdivR hdR hsubR ⊢
  have hnum : ((w * (4 * 10 ^ 14 * 9031680 ^ 3) : Nat) : ℝ) =
      (w : ℝ) * (4 * 10 ^ 14 * 9031680 ^ 3) := by push_cast; ring
  rw [hnum] at hdivR
  generalize (w : ℝ) = v at hdivR ⊢
  unfold csc_pi_upper
  have e1 : 3.141592 * (x / 9031680) * (1 - (3.141593 * (x / 9031680)) ^ 2 / 4) =
      3141592 * x * (4 * 10 ^ 12 * 9031680 ^ 2 - 3141593 ^ 2 * x ^ 2) /
        (4 * 10 ^ 18 * 9031680 ^ 3) := by
    norm_num
    ring
  rw [e1, one_div, inv_div]
  have hpos : 0 < 3141592 * x * (4 * 10 ^ 12 * 9031680 ^ 2 - 3141593 ^ 2 * x ^ 2) :=
    mul_pos (mul_pos (by norm_num) hdR) hsubR
  rw [div_mul_div_comm, div_le_div_iff₀ (mul_pos (by norm_num) hpos) (by norm_num)]
  nlinarith [hdivR]

theorem tone_bin_sign (f : ℝ) (t k : Nat) (hf : f = 220 * t) (ht1 : 1 ≤ t) (ht4 : t ≤ 4)
    (hk : k < 1000) :
    ∃ e : ℝ, (e = 1 ∨ e = -1) ∧
      e * (f / 44100 - k / 4096) = (tone_bin_distance t k : ℝ) / 9031680 ∧
      0 < tone_bin_distance t k ∧ tone_bin_distance t k ≤ 2709504 := by
  have hne : 2205 * k ≠ 45056 * t := by
    interval_cases t <;> omega
  unfold tone_bin_distance
  rcases Nat.lt_or_gt_of_ne hne with h | h
  · refine ⟨1, Or.inl rfl, ?_, by omega, by omega⟩
    have e0 : 2205 * k - 45056 * t = 0 := by omega
    rw [e0, add_zero, Nat.cast_sub h.le, hf]
    push_cast
    ring
  · refine ⟨-1, Or.inr rfl, ?_, by omega, by omega⟩
    have e0 : 45056 * t - 2205 * k = 0 := by omega
    rw [e0, zero_add, Nat.cast_sub h.le, hf]
    push_cast
    ring

theorem tone_bin_plus (f : ℝ) (t k : Nat) (hf : f = 220 * t) :
    f / 44100 + k / 4096 = ((45056 * t + 2205 * k : Nat) : ℝ) / 9031680 := by
  rw [hf]
  push_cast
  ring

/-- Every bin `k < 1000` of the spectrum of the 220 Hz tone with harmonics has magnitude
at most `tone_leak_fixed k / 1000`. -/
theorem harmonic_tone_bin_le_fixed (k : Nat) (hk : k < 1000) :
    Complex.abs ((radix2_dit_fft twiddle_factor harmonic_tone_signal ((2 : Int) ^ 12)
        fft_direction.FFT_FORWARD).2 k) ≤ (tone_leak_fixed k : ℝ) / 1000 := by
  obtain ⟨e1, he1, hx1, d1a, d1b⟩ := tone_bin_sign 220 1 k (by norm_num) (by norm_num)
    (by norm_num) hk
  obtain ⟨e2, he2, hx2, d2a, d2b⟩ := tone_bin_sign 440 2 k (by norm_num) (by norm_num)
    (by norm_num) hk
  obtain ⟨e3, he3, hx3, d3a, d3b⟩ := tone_bin_sign 660 3 k (by norm_num) (by norm_num)
    (by norm_num) hk
  obtain ⟨e4, he4, hx4, d4a, d4b⟩ := tone_bin_sign 880 4 k (by norm_num) (by norm_num)
    (by norm_num) hk
  have hp1 := tone_bin_plus 220 1 k (by norm_num)
  have hp2 := tone_bin_plus 440 2 k (by norm_num)
  have hp3 := tone_bin_plus 660 3 k (by norm_num)
  have hp4 := tone_bin_plus 880 4 k (by norm_num)
  have pos : ∀ d : Nat, 0 < d → (0 : ℝ) < (d : ℝ) / 9031680 := by
    intro d hd
    have : (0 : ℝ) < (d : ℝ) := by exact_mod_cast hd
    exact div_pos this (by norm_num)
  apply harmonic_tone_bin_le k hk e1 e2 e3 e4 _ he1 he2 he3 he4
    (by rw [hx1]; exact pos _ d1a) (by rw [hx2]; exact pos _ d2a)
    (by rw [hx3]; exact pos _ d3a) (by rw [hx4]; exact pos _ d4a)
  rw [hx1, hx2, hx3, hx4, hp1, hp2, hp3, hp4]
  have a1 := csc_fixed_spec 4892000 _ d1a d1b
  have a2 := csc_fixed_spec 1014250 _ d2a d2b
  have a3 := csc_fixed_spec 1337325 _ d3a d3b
  have a4 := csc_fixed_spec 927125 _ d4a d4b
  have b1 := csc_fixed_spec 4892000 (45056 * 1 + 2205 * k) (by omega) (by omega)
  have b2 := csc_fixed_spec 1014250 (45056 * 2 + 2205 * k) (by omega) (by omega)
  have b3 := csc_fixed_spec 1337325 (45056 * 3 + 2205 * k) (by omega) (by omega)
  have b4 := csc_fixed_spec 927125 (45056 * 4 + 2205 * k) (by omega) (by omega)
  generalize csc_pi_upper ((tone_bin_distance 1 k : ℝ) / 9031680) = x1 at a1 ⊢
  generalize csc_pi_upper ((tone_bin_distance 2 k : ℝ) / 9031680) = x2 at a2 ⊢
  generalize csc_pi_upper ((tone_bin_distance 3 k : ℝ) / 9031680) = x3 at a3 ⊢
  generalize csc_pi_upper ((tone_bin_distance 4 k : ℝ) / 9031680) = x4 at a4 ⊢
  generalize csc_pi_upper (((45056 * 1 + 2205 * k : Nat) : ℝ) / 9031680) = y1 at b1 ⊢
  generalize csc_pi_upper (((45056 * 2 + 2205 * k : Nat) : ℝ) / 9031680) = y2 at b2 ⊢
  generalize csc_pi_upper (((45056 * 3 + 2205 * k : Nat) : ℝ) / 9031680) = y3 at b3 ⊢
  generalize csc_pi_upper (((45056 * 4 + 2205 * k : Nat) : ℝ) / 9031680) = y4 at b4 ⊢
  unfold tone_leak_fixed
  simp only [Nat.cast_add]
  generalize (csc_fixed 4892000 (tone_bin_distance 1 k) : ℝ) = u1 at a1 ⊢
  generalize (csc_fixed 1014250 (tone_bin_distance 2 k) : ℝ) = u2 at a2 ⊢
  generalize (csc_fixed 1337325 (tone_bin_distance 3 k) : ℝ) = u3 at a3 ⊢
  generalize (csc_fixed 927125 (tone_bin_distance 4 k) : ℝ) = u4 at a4 ⊢
  generalize (csc_fixed 4892000 (45056 * 1 + 2205 * k) : ℝ) = v1 at b1 ⊢
  generalize (csc_fixed 1014250 (45056 * 2 + 2205 * k) : ℝ) = v2 at b2 ⊢
  generalize (csc_fixed 1337325 (45056 * 3 + 2205 * k) : ℝ) = v3 at b3 ⊢
  generalize (csc_fixed 927125 (45056 * 4 + 2205 * k) : ℝ) = v4 at b4 ⊢
  norm_num at a1 a2 a3 a4 b1 b2 b3 b4 ⊢
  linarith only [a1, a2, a3, a4, b1, b2, b3, b4]

/-! ## Single bins near the partials, with the phases taken into account -/

/-- Bin 20 of the spectrum of the 220 Hz tone with harmonics has magnitude between
1494.778 and 1495.819. -/
theorem harmonic_tone_bin_20 :
    1494.778 ≤ Complex.abs ((radix2_dit_fft twiddle_factor harmonic_tone_signal ((2 : Int) ^ 12)
        fft_direction.FFT_FORWARD).2 20) ∧
    Complex.abs ((radix2_dit_fft twiddle_factor harmonic_tone_signal ((2 : Int) ^ 12)
        fft_direction.FFT_FORWARD).2 20) ≤ 1495.819 := by
  obtain ⟨hs1, hc1, hs2, hc2, hs3, hc3, hs4, hc4⟩ := tone_phase_bounds
  have m1 := cot_pi_pos (220 / 44100 - ((20 : Nat) : ℝ) / 4096) (by norm_num) (by norm_num)
  have p1 := cot_pi_pos (220 / 44100 + ((20 : Nat) : ℝ) / 4096) (by norm_num) (by norm_num)
  have m2 := cot_pi_pos (440 / 44100 - ((20 : Nat) : ℝ) / 4096) (by norm_num) (by norm_num)
  have p2 := cot_pi_pos (440 / 44100 + ((20 : Nat) : ℝ) / 4096) (by norm_num) (by norm_num)
  have m3 := cot_pi_pos (660 / 44100 - ((20 : Nat) : ℝ) / 4096) (by norm_num) (by norm_num)
  have p3 := cot_pi_pos (660 / 44100 + ((20 : Nat) : ℝ) / 4096) (by norm_num) (by norm_num)
  have m4 := cot_pi_pos (880 / 44100 - ((20 : Nat) : ℝ) / 4096) (by norm_num) (by norm_num)
  have p4 := cot_pi_pos (880 / 44100 + ((20 : Nat) : ℝ) / 4096) (by norm_num) (by norm_num)
  obtain ⟨hre, him⟩ := harmonic_tone_re_im 20 (by norm_num) m1.1 p1.1 m2.1 p2.1 m3.1 p3.1
    m4.1 p4.1
  have km1 := interval_weaken 3007.1888 3007.1901 m1.2
    (by norm_num [csc_pi_upper, cot_pi_lower]) (by norm_num [csc_pi_upper, cot_pi_lower])
  have kp1 := interval_weaken 32.2299 32.2532 p1.2
    (by norm_num [csc_pi_upper, cot_pi_lower]) (by norm_num [csc_pi_upper, cot_pi_lower])
  have km2 := interval_weaken 62.4729 62.4850 m2.2
    (by norm_num [csc_pi_upper, cot_pi_lower]) (by norm_num [csc_pi_upper, cot_pi_lower])
  have kp2 := interval_weaken 21.3970 21.4321 p2.2
    (by norm_num [csc_pi_upper, cot_pi_lower]) (by norm_num [csc_pi_upper, cot_pi_lower])
  have km3 := interval_weaken 31.5525 31.5764 m3.2
    (by norm_num [csc_pi_upper, cot_pi_lower]) (by norm_num [csc_pi_upper, cot_pi_lower])
  have kp3 := interval_weaken 16.0055 16.0524 p3.2
    (by norm_num [csc_pi_upper, cot_pi_lower]) (by norm_num [csc_pi_upper, cot_pi_lower])
  have km4 := interval_weaken 21.0958 21.1314 m4.2
    (by norm_num [csc_pi_upper, cot_pi_lower]) (by norm_num [csc_pi_upper, cot_pi_lower])
  have kp4 := interval_weaken 12.7767 12.8353 p4.2
    (by norm_num [csc_pi_upper, cot_pi_lower]) (by norm_num [csc_pi_upper, cot_pi_lower])
  have t1 := tone_pair_interval 2972.8554 2973.7914 1453.6720 1454.5762 0.202564 0.202921 (-301.8410) (-301.3074)
    hs1 hc1 km1 kp1 (by norm_num [interval_mul_ok]) (by norm_num [interval_mul_ok])
    (by norm_num [interval_mul_ok]) (by norm_num [interval_mul_ok])
  have t2 := tone_pair_interval 33.9756 34.0452 7.2520 7.2771 (-0.370932) (-0.370261) 7.5979 7.6205
    hs2 hc2 km2 kp2 (by norm_num [interval_mul_ok]) (by norm_num [interval_mul_ok])
    (by norm_num [interval_mul_ok]) (by norm_num [interval_mul_ok])
  have t3 := tone_pair_interval (-38.6032) (-38.5172) 15.1226 15.1694 0.474196 0.475278 (-3.7003) (-3.6750)
    hs3 hc3 km3 kp3 (by norm_num [interval_mul_ok]) (by norm_num [interval_mul_ok])
    (by norm_num [interval_mul_ok]) (by norm_num [interval_mul_ok])
  have t4 := tone_pair_interval (-25.1932) (-25.0859) 9.7861 9.8411 (-0.498126) (-0.496868) 2.0521 2.0809
    hs4 hc4 km4 kp4 (by norm_num [interval_mul_ok]) (by norm_num [interval_mul_ok])
    (by norm_num [interval_mul_ok]) (by norm_num [interval_mul_ok])
  have hR := interval_weaken 1464.734 1465.681 (And.intro (le_of_eq hre.symm) (le_of_eq hre))
    (by linarith only [t1.1.1, t2.1.1, t3.1.1, t4.1.1]) (by linarith only [t1.1.2, t2.1.2, t3.1.2, t4.1.2])
  have hJ := interval_weaken (-298.751) (-298.189) (And.intro (le_of_eq him.symm) (le_of_eq him))
    (by linarith only [t1.2.1, t2.2.1, t3.2.1, t4.2.1]) (by linarith only [t1.2.2, t2.2.2, t3.2.2, t4.2.2])
  exact abs_mem_of_re_im _ 1464.734 1465.681 (-298.751) (-298.189) 1464.734 1465.681
    298.189 298.751 1494.778 1495.819 hR hJ (by norm_num)

/-- Bin 30 of the spectrum of the 220 Hz tone with harmonics has magnitude between
45.698 and 45.824. -/
theorem harmonic_tone_bin_30 :
    45.698 ≤ Complex.abs ((radix2_dit_fft twiddle_factor harmonic_tone_signal ((2 : Int) ^ 12)
        fft_direction.FFT_FORWARD).2 30) ∧
    Complex.abs ((radix2_dit_fft twiddle_factor harmonic_tone_signal ((2 : Int) ^ 12)
        fft_direction.FFT_FORWARD).2 30) ≤ 45.824 := by
  obtain ⟨hs1, hc1, hs2, hc2, hs3, hc3, hs4, hc4⟩ := tone_phase_bounds
  have m1 := cot_pi_neg (220 / 44100 - ((30 : Nat) : ℝ) / 4096) (by norm_num) (by norm_num)
  have p1 := cot_pi_pos (220 / 44100 + ((30 : Nat) : ℝ) / 4096) (by norm_num) (by norm_num)
  have m2 := cot_pi_pos (440 / 44100 - ((30 : Nat) : ℝ) / 4096) (by norm_num) (by norm_num)
  have p2 := cot_pi_pos (440 / 44100 + ((30 : Nat) : ℝ) / 4096) (by norm_num) (by norm_num)
  have m3 := cot_pi_pos (660 / 44100 - ((30 : Nat) : ℝ) / 4096) (by norm_num) (by norm_num)
  have p3 := cot_pi_pos (660 / 44100 + ((30 : Nat) : ℝ) / 4096) (by norm_num) (by norm_num)
  have m4 := cot_pi_pos (880 / 44100 - ((30 : Nat) : ℝ) / 4096) (by norm_num) (by norm_num)
  have p4 := cot_pi_pos (880 / 44100 + ((30 : Nat) : ℝ) / 4096) (by norm_num) (by norm_num)
  obtain ⟨hre, him⟩ := harmonic_tone_re_im 30 (by norm_num) m1.1 p1.1 m2.1 p2.1 m3.1 p3.1
    m4.1 p4.1
  have km1 := interval_weaken (-136.2906) (-136.2849) m1.2
    (by norm_num [csc_pi_upper, cot_pi_lower]) (by norm_num [csc_pi_upper, cot_pi_lower])
  have kp1 := interval_weaken 25.8324 25.8615 p1.2
    (by norm_num [csc_pi_upper, cot_pi_lower]) (by norm_num [csc_pi_upper, cot_pi_lower])
  have km2 := interval_weaken 119.9721 119.9785 m2.2
    (by norm_num [csc_pi_upper, cot_pi_lower]) (by norm_num [csc_pi_upper, cot_pi_lower])
  have kp2 := interval_weaken 18.3705 18.4114 p2.2
    (by norm_num [csc_pi_upper, cot_pi_lower]) (by norm_num [csc_pi_upper, cot_pi_lower])
  have km3 := interval_weaken 41.6419 41.6600 m3.2
    (by norm_num [csc_pi_upper, cot_pi_lower]) (by norm_num [csc_pi_upper, cot_pi_lower])
  have kp3 := interval_weaken 14.2452 14.2978 p3.2
    (by norm_num [csc_pi_upper, cot_pi_lower]) (by norm_num [csc_pi_upper, cot_pi_lower])
  have km4 := interval_weaken 25.1819 25.2118 m4.2
    (by norm_num [csc_pi_upper, cot_pi_lower]) (by norm_num [csc_pi_upper, cot_pi_lower])
  have kp4 := interval_weaken 11.6258 11.6903 p4.2
    (by norm_num [csc_pi_upper, cot_pi_lower]) (by norm_num [csc_pi_upper, cot_pi_lower])
  have t1 := tone_pair_interval (-108.0724) (-108.0051) (-53.0720) (-53.0224) 0.202564 0.202921 16.4195 16.4521
    hs1 hc1 km1 kp1 (by norm_num [interval_mul_ok]) (by norm_num [interval_mul_ok])
    (by norm_num [interval_mul_ok]) (by norm_num [interval_mul_ok])
  have t2 := tone_pair_interval 56.0425 56.1448 11.7216 11.7600 (-0.370932) (-0.370261) 18.8019 18.8449
    hs2 hc2 km2 kp2 (by norm_num [interval_mul_ok]) (by norm_num [interval_mul_ok])
    (by norm_num [interval_mul_ok]) (by norm_num [interval_mul_ok])
  have t3 := tone_pair_interval (-45.3538) (-45.2629) 17.8542 17.9051 0.474196 0.475278 (-6.5149) (-6.4832)
    hs3 hc3 km3 kp3 (by norm_num [interval_mul_ok]) (by norm_num [interval_mul_ok])
    (by norm_num [interval_mul_ok]) (by norm_num [interval_mul_ok])
  have t4 := tone_pair_interval (-27.3703) (-27.2597) 10.5911 10.6485 (-0.498126) (-0.496868) 3.3517 3.3838
    hs4 hc4 km4 kp4 (by norm_num [interval_mul_ok]) (by norm_num [interval_mul_ok])
    (by norm_num [interval_mul_ok]) (by norm_num [interval_mul_ok])
  have hR := interval_weaken (-38.672) (-38.571) (And.intro (le_of_eq hre.symm) (le_of_eq hre))
    (by linarith only [t1.1.1, t2.1.1, t3.1.1, t4.1.1]) (by linarith only [t1.1.2, t2.1.2, t3.1.2, t4.1.2])
  have hJ := interval_weaken 24.508 24.582 (And.intro (le_of_eq him.symm) (le_of_eq him))
    (by linarith only [t1.2.1, t2.2.1, t3.2.1, t4.2.1]) (by linarith only [t1.2.2, t2.2.2, t3.2.2, t4.2.2])
  exact abs_mem_of_re_im _ (-38.672) (-38.571) 24.508 24.582 38.571 38.672
    24.508 24.582 45.698 45.824 hR hJ (by norm_num)

/-- Bin 40 of the spectrum of the 220 Hz tone with harmonics has magnitude between
153.056 and 153.425. -/
theorem harmonic_tone_bin_40 :
    153.056 ≤ Complex.abs ((radix2_dit_fft twiddle_factor harmonic_tone_signal ((2 : Int) ^ 12)
        fft_direction.FFT_FORWARD).2 40) ∧
    Complex.abs ((radix2_dit_fft twiddle_factor harmonic_tone_signal ((2 : Int) ^ 12)
        fft_direction.FFT_FORWARD).2 40) ≤ 153.425 := by
  obtain ⟨hs1, hc1, hs2, hc2, hs3, hc3, hs4, hc4⟩ := tone_phase_bounds
  have m1 := cot_pi_neg (220 / 44100 - ((40 : Nat) : ℝ) / 4096) (by norm_num) (by norm_num)
  have p1 := cot_pi_pos (220 / 44100 + ((40 : Nat) : ℝ) / 4096) (by norm_num) (by norm_num)
  have m2 := cot_pi_pos (440 / 44100 - ((40 : Nat) : ℝ) / 4096) (by norm_num) (by norm_num)
  have p2 := cot_pi_pos (440 / 44100 + ((40 : Nat) : ℝ) / 4096) (by norm_num) (by norm_num)
  have m3 := cot_pi_pos (660 / 44100 - ((40 : Nat) : ℝ) / 4096) (by norm_num) (by norm_num)
  have p3 := cot_pi_pos (660 / 44100 + ((40 : Nat) : ℝ) / 4096) (by norm_num) (by norm_num)
  have m4 := cot_pi_pos (880 / 44100 - ((40 : Nat) : ℝ) / 4096) (by norm_num) (by norm_num)
  have p4 := cot_pi_pos (880 / 44100 + ((40 : Nat) : ℝ) / 4096) (by norm_num) (by norm_num)
  obtain ⟨hre, him⟩ := harmonic_tone_re_im 40 (by norm_num) m1.1 p1.1 m2.1 p2.1 m3.1 p3.1
    m4.1 p4.1
  have km1 := interval_weaken (-66.6382) (-66.6268) m1.2
    (by norm_num [csc_pi_upper, cot_pi_lower]) (by norm_num [csc_pi_upper, cot_pi_lower])
  have kp1 := interval_weaken 21.5508 21.5857 p1.2
    (by norm_num [csc_pi_upper, cot_pi_lower]) (by norm_num [csc_pi_upper, cot_pi_lower])
  have km2 := interval_weaken 1503.5941 1503.5952 m2.2
    (by norm_num [csc_pi_upper, cot_pi_lower]) (by norm_num [csc_pi_upper, cot_pi_lower])
  have kp2 := interval_weaken 16.0916 16.1383 p2.2
    (by norm_num [csc_pi_upper, cot_pi_lower]) (by norm_num [csc_pi_upper, cot_pi_lower])
  have km3 := interval_weaken 61.2010 61.2133 m3.2
    (by norm_num [csc_pi_upper, cot_pi_lower]) (by norm_num [csc_pi_upper, cot_pi_lower])
  have kp3 := interval_weaken 12.8317 12.8901 p3.2
    (by norm_num [csc_pi_upper, cot_pi_lower]) (by norm_num [csc_pi_upper, cot_pi_lower])
  have km4 := interval_weaken 31.2244 31.2485 m4.2
    (by norm_num [csc_pi_upper, cot_pi_lower]) (by norm_num [csc_pi_upper, cot_pi_lower])
  have kp4 := interval_weaken 10.6635 10.7336 p4.2
    (by norm_num [csc_pi_upper, cot_pi_lower]) (by norm_num [csc_pi_upper, cot_pi_lower])
  have t1 := tone_pair_interval (-44.1136) (-44.0546) (-21.7833) (-21.7474) 0.202564 0.202921 8.9308 8.9513
    hs1 hc1 km1 kp1 (by norm_num [interval_mul_ok]) (by norm_num [interval_mul_ok])
    (by norm_num [interval_mul_ok]) (by norm_num [interval_mul_ok])
  have t2 := tone_pair_interval 615.6246 616.5559 125.0650 125.4393 (-0.370932) (-0.370261) 275.3734 275.8814
    hs2 hc2 km2 kp2 (by norm_num [interval_mul_ok]) (by norm_num [interval_mul_ok])
    (by norm_num [interval_mul_ok]) (by norm_num [interval_mul_ok])
  have t3 := tone_pair_interval (-60.0609) (-59.9590) 23.8054 23.8652 0.474196 0.475278 (-11.4974) (-11.4544)
    hs3 hc3 km3 kp3 (by norm_num [interval_mul_ok]) (by norm_num [interval_mul_ok])
    (by norm_num [interval_mul_ok]) (by norm_num [interval_mul_ok])
  have t4 := tone_pair_interval (-31.1382) (-31.0221) 11.9843 12.0458 (-0.498126) (-0.496868) 5.0906 5.1270
    hs4 hc4 km4 kp4 (by norm_num [interval_mul_ok]) (by norm_num [interval_mul_ok])
    (by norm_num [interval_mul_ok]) (by norm_num [interval_mul_ok])
  have hR := interval_weaken 51.601 51.860 (And.intro (le_of_eq hre.symm) (le_of_eq hre))
    (by linarith only [t1.1.1, t2.1.1, t3.1.1, t4.1.1]) (by linarith only [t1.1.2, t2.1.2, t3.1.2, t4.1.2])
  have hJ := interval_weaken 144.096 144.394 (And.intro (le_of_eq him.symm) (le_of_eq him))
    (by linarith only [t1.2.1, t2.2.1, t3.2.1, t4.2.1]) (by linarith only [t1.2.2, t2.2.2, t3.2.2, t4.2.2])
  exact abs_mem_of_re_im _ 51.601 51.860 144.096 144.394 51.601 51.860
    144.096 144.394 153.056 153.425 hR hJ (by norm_num)

/-- Bin 42 of the spectrum of the 220 Hz tone with harmonics has magnitude between
115.908 and 116.226. -/
theorem harmonic_tone_bin_42 :
    115.908 ≤ Complex.abs ((radix2_dit_fft twiddle_factor harmonic_tone_signal ((2 : Int) ^ 12)
        fft_direction.FFT_FORWARD).2 42) ∧
    Complex.abs ((radix2_dit_fft twiddle_factor harmonic_tone_signal ((2 : Int) ^ 12)
        fft_direction.FFT_FORWARD).2 42) ≤ 116.226 := by
  obtain ⟨hs1, hc1, hs2, hc2, hs3, hc3, hs4, hc4⟩ := tone_phase_bounds
  have m1 := cot_pi_neg (220 / 44100 - ((42 : Nat) : ℝ) / 4096) (by norm_num) (by norm_num)
  have p1 := cot_pi_pos (220 / 44100 + ((42 : Nat) : ℝ) / 4096) (by norm_num) (by norm_num)
  have m2 := cot_pi_neg (440 / 44100 - ((42 : Nat) : ℝ) / 4096) (by norm_num) (by norm_num)
  have p2 := cot_pi_pos (440 / 44100 + ((42 : Nat) : ℝ) / 4096) (by norm_num) (by norm_num)
  have m3 := cot_pi_pos (660 / 44100 - ((42 : Nat) : ℝ) / 4096) (by norm_num) (by norm_num)
  have p3 := cot_pi_pos (660 / 44100 + ((42 : Nat) : ℝ) / 4096) (by norm_num) (by norm_num)
  have m4 := cot_pi_pos (880 / 44100 - ((42 : Nat) : ℝ) / 4096) (by norm_num) (by norm_num)
  have p4 := cot_pi_pos (880 / 44100 + ((42 : Nat) : ℝ) / 4096) (by norm_num) (by norm_num)
  obtain ⟨hre, him⟩ := harmonic_tone_re_im 42 (by norm_num) m1.1 p1.1 m2.1 p2.1 m3.1 p3.1
    m4.1 p4.1
  have km1 := interval_weaken (-60.4591) (-60.4466) m1.2
    (by norm_num [csc_pi_upper, cot_pi_lower]) (by norm_num [csc_pi_upper, cot_pi_lower])
  have kp1 := interval_weaken 20.8590 20.8950 p1.2
    (by norm_num [csc_pi_upper, cot_pi_lower]) (by norm_num [csc_pi_upper, cot_pi_lower])
  have km2 := interval_weaken (-1150.8704) (-1150.8693) m2.2
    (by norm_num [csc_pi_upper, cot_pi_lower]) (by norm_num [csc_pi_upper, cot_pi_lower])
  have kp2 := interval_weaken 15.7018 15.7495 p2.2
    (by norm_num [csc_pi_upper, cot_pi_lower]) (by norm_num [csc_pi_upper, cot_pi_lower])
  have km3 := interval_weaken 67.5444 67.5556 m3.2
    (by norm_num [csc_pi_upper, cot_pi_lower]) (by norm_num [csc_pi_upper, cot_pi_lower])
  have kp3 := interval_weaken 12.5817 12.6413 p3.2
    (by norm_num [csc_pi_upper, cot_pi_lower]) (by norm_num [csc_pi_upper, cot_pi_lower])
  have km4 := interval_weaken 32.7976 32.8206 m4.2
    (by norm_num [csc_pi_upper, cot_pi_lower]) (by norm_num [csc_pi_upper, cot_pi_lower])
  have kp4 := interval_weaken 10.4896 10.5609 p4.2
    (by norm_num [csc_pi_upper, cot_pi_lower]) (by norm_num [csc_pi_upper, cot_pi_lower])
  have t1 := tone_pair_interval (-38.7448) (-38.6854) (-19.1569) (-19.1216) 0.202564 0.202921 8.2347 8.2543
    hs1 hc1 km1 kp1 (by norm_num [interval_mul_ok]) (by norm_num [interval_mul_ok])
    (by norm_num [interval_mul_ok]) (by norm_num [interval_mul_ok])
  have t2 := tone_pair_interval (-460.5380) (-459.8370) (-93.0494) (-92.7696) (-0.370932) (-0.370261) (-216.3684) (-215.9678)
    hs2 hc2 km2 kp2 (by norm_num [interval_mul_ok]) (by norm_num [interval_mul_ok])
    (by norm_num [interval_mul_ok]) (by norm_num [interval_mul_ok])
  have t3 := tone_pair_interval (-64.9996) (-64.8941) 25.8039 25.8666 0.474196 0.475278 (-13.0640) (-13.0174)
    hs3 hc3 km3 kp3 (by norm_num [interval_mul_ok]) (by norm_num [interval_mul_ok])
    (by norm_num [interval_mul_ok]) (by norm_num [interval_mul_ok])
  have t4 := tone_pair_interval (-32.1761) (-32.0585) 12.3681 12.4307 (-0.498126) (-0.496868) 5.5243 5.5619
    hs4 hc4 km4 kp4 (by norm_num [interval_mul_ok]) (by norm_num [interval_mul_ok])
    (by norm_num [interval_mul_ok]) (by norm_num [interval_mul_ok])
  have hR := interval_weaken (-54.075) (-53.862) (And.intro (le_of_eq hre.symm) (le_of_eq hre))
    (by linarith only [t1.1.1, t2.1.1, t3.1.1, t4.1.1]) (by linarith only [t1.1.2, t2.1.2, t3.1.2, t4.1.2])
  have hJ := interval_weaken (-102.880) (-102.634) (And.intro (le_of_eq him.symm) (le_of_eq him))
    (by linarith only [t1.2.1, t2.2.1, t3.2.1, t4.2.1]) (by linarith only [t1.2.2, t2.2.2, t3.2.2, t4.2.2])
  exact abs_mem_of_re_im _ (-54.075) (-53.862) (-102.880) (-102.634) 53.862 54.075
    102.634 102.880 115.908 116.226 hR hJ (by norm_num)

/-- Bin 60 of the spectrum of the 220 Hz tone with harmonics has magnitude between
129.384 and 129.717. -/
theorem harmonic_tone_bin_60 :
    129.384 ≤ Complex.abs ((radix2_dit_fft twiddle_factor harmonic_tone_signal ((2 : Int) ^ 12)
        fft_direction.FFT_FORWARD).2 60) ∧
    Complex.abs ((radix2_dit_fft twiddle_factor harmonic_tone_signal ((2 : Int) ^ 12)
        fft_direction.FFT_FORWARD).2 60) ≤ 129.717 := by
  obtain ⟨hs1, hc1, hs2, hc2, hs3, hc3, hs4, hc4⟩ := tone_phase_bounds
  have m1 := cot_pi_neg (220 / 44100 - ((60 : Nat) : ℝ) / 4096) (by norm_num) (by norm_num)
  have p1 := cot_pi_pos (220 / 44100 + ((60 : Nat) : ℝ) / 4096) (by norm_num) (by norm_num)
  have m2 := cot_pi_neg (440 / 44100 - ((60 : Nat) : ℝ) / 4096) (by norm_num) (by norm_num)
  have p2 := cot_pi_pos (440 / 44100 + ((60 : Nat) : ℝ) / 4096) (by norm_num) (by norm_num)
  have m3 := cot_pi_pos (660 / 44100 - ((60 : Nat) : ℝ) / 4096) (by norm_num) (by norm_num)
  have p3 := cot_pi_pos (660 / 44100 + ((60 : Nat) : ℝ) / 4096) (by norm_num) (by norm_num)
  have m4 := cot_pi_pos (880 / 44100 - ((60 : Nat) : ℝ) / 4096) (by norm_num) (by norm_num)
  have p4 := cot_pi_pos (880 / 44100 + ((60 : Nat) : ℝ) / 4096) (by norm_num) (by norm_num)
  obtain ⟨hre, him⟩ := harmonic_tone_re_im 60 (by norm_num) m1.1 p1.1 m2.1 p2.1 m3.1 p3.1
    m4.1 p4.1
  have km1 := interval_weaken (-32.9597) (-32.9369) m1.2
    (by norm_num [csc_pi_upper, cot_pi_lower]) (by norm_num [csc_pi_upper, cot_pi_lower])
  have kp1 := interval_weaken 16.1787 16.2251 p1.2
    (by norm_num [csc_pi_upper, cot_pi_lower]) (by norm_num [csc_pi_upper, cot_pi_lower])
  have km2 := interval_weaken (-68.1481) (-68.1369) m2.2
    (by norm_num [csc_pi_upper, cot_pi_lower]) (by norm_num [csc_pi_upper, cot_pi_lower])
  have kp2 := interval_weaken 12.8872 12.9453 p2.2
    (by norm_num [csc_pi_upper, cot_pi_lower]) (by norm_num [csc_pi_upper, cot_pi_lower])
  have km3 := interval_weaken 1002.3958 1002.3970 m3.2
    (by norm_num [csc_pi_upper, cot_pi_lower]) (by norm_num [csc_pi_upper, cot_pi_lower])
  have kp3 := interval_weaken 10.7019 10.7718 p3.2
    (by norm_num [csc_pi_upper, cot_pi_lower]) (by norm_num [csc_pi_upper, cot_pi_lower])
  have km4 := interval_weaken 59.9798 59.9924 m4.2
    (by norm_num [csc_pi_upper, cot_pi_lower]) (by norm_num [csc_pi_upper, cot_pi_lower])
  have kp4 := interval_weaken 9.1445 9.2262 p4.2
    (by norm_num [csc_pi_upper, cot_pi_lower]) (by norm_num [csc_pi_upper, cot_pi_lower])
  have t1 := tone_pair_interval (-16.4186) (-16.3458) (-8.2349) (-8.1964) 0.202564 0.202921 4.9745 4.9904
    hs1 hc1 km1 kp1 (by norm_num [interval_mul_ok]) (by norm_num [interval_mul_ok])
    (by norm_num [interval_mul_ok]) (by norm_num [interval_mul_ok])
  have t2 := tone_pair_interval (-22.4194) (-22.3581) (-4.1770) (-4.1582) (-0.370932) (-0.370261) (-15.0401) (-15.0000)
    hs2 hc2 km2 kp2 (by norm_num [interval_mul_ok]) (by norm_num [interval_mul_ok])
    (by norm_num [interval_mul_ok]) (by norm_num [interval_mul_ok])
  have t3 := tone_pair_interval (-821.1734) (-820.5078) 331.7897 332.3060 0.474196 0.475278 (-235.6655) (-235.1120)
    hs3 hc3 km3 kp3 (by norm_num [interval_mul_ok]) (by norm_num [interval_mul_ok])
    (by norm_num [interval_mul_ok]) (by norm_num [interval_mul_ok])
  have t4 := tone_pair_interval (-51.3395) (-51.1934) 19.4537 19.5374 (-0.498126) (-0.496868) 12.6089 12.6644
    hs4 hc4 km4 kp4 (by norm_num [interval_mul_ok]) (by norm_num [interval_mul_ok])
    (by norm_num [interval_mul_ok]) (by norm_num [interval_mul_ok])
  have hR := interval_weaken 104.030 104.270 (And.intro (le_of_eq hre.symm) (le_of_eq hre))
    (by linarith only [t1.1.1, t2.1.1, t3.1.1, t4.1.1]) (by linarith only [t1.1.2, t2.1.2, t3.1.2, t4.1.2])
  have hJ := interval_weaken (-77.163) (-76.930) (And.intro (le_of_eq him.symm) (le_of_eq him))
    (by linarith only [t1.2.1, t2.2.1, t3.2.1, t4.2.1]) (by linarith only [t1.2.2, t2.2.2, t3.2.2, t4.2.2])
  exact abs_mem_of_re_im _ 104.030 104.270 (-77.163) (-76.930) 104.030 104.270
    76.930 77.163 129.384 129.717 hR hJ (by norm_num)

/-- Bin 80 of the spectrum of the 220 Hz tone with harmonics has magnitude between
65.602 and 65.888. -/
theorem harmonic_tone_bin_80 :
    65.602 ≤ Complex.abs ((radix2_dit_fft twiddle_factor harmonic_tone_signal ((2 : Int) ^ 12)
        fft_direction.FFT_FORWARD).2 80) ∧
    Complex.abs ((radix2_dit_fft twiddle_factor harmonic_tone_signal ((2 : Int) ^ 12)
        fft_direction.FFT_FORWARD).2 80) ≤ 65.888 := by
  obtain ⟨hs1, hc1, hs2, hc2, hs3, hc3, hs4, hc4⟩ := tone_phase_bounds
  have m1 := cot_pi_neg (220 / 44100 - ((80 : Nat) : ℝ) / 4096) (by norm_num) (by norm_num)
  have p1 := cot_pi_pos (220 / 44100 + ((80 : Nat) : ℝ) / 4096) (by norm_num) (by norm_num)
  have m2 := cot_pi_neg (440 / 44100 - ((80 : Nat) : ℝ) / 4096) (by norm_num) (by norm_num)
  have p2 := cot_pi_pos (440 / 44100 + ((80 : Nat) : ℝ) / 4096) (by norm_num) (by norm_num)
  have m3 := cot_pi_neg (660 / 44100 - ((80 : Nat) : ℝ) / 4096) (by norm_num) (by norm_num)
  have p3 := cot_pi_pos (660 / 44100 + ((80 : Nat) : ℝ) / 4096) (by norm_num) (by norm_num)
  have m4 := cot_pi_pos (880 / 44100 - ((80 : Nat) : ℝ) / 4096) (by norm_num) (by norm_num)
  have p4 := cot_pi_pos (880 / 44100 + ((80 : Nat) : ℝ) / 4096) (by norm_num) (by norm_num)
  obtain ⟨hre, him⟩ := harmonic_tone_re_im 80 (by norm_num) m1.1 p1.1 m2.1 p2.1 m3.1 p3.1
    m4.1 p4.1
  have km1 := interval_weaken (-21.8996) (-21.8652) m1.2
    (by norm_num [csc_pi_upper, cot_pi_lower]) (by norm_num [csc_pi_upper, cot_pi_lower])
  have kp1 := interval_weaken 12.9431 13.0010 p1.2
    (by norm_num [csc_pi_upper, cot_pi_lower]) (by norm_num [csc_pi_upper, cot_pi_lower])
  have km2 := interval_weaken (-33.3247) (-33.3021) m2.2
    (by norm_num [csc_pi_upper, cot_pi_lower]) (by norm_num [csc_pi_upper, cot_pi_lower])
  have kp2 := interval_weaken 10.7406 10.8103 p2.2
    (by norm_num [csc_pi_upper, cot_pi_lower]) (by norm_num [csc_pi_upper, cot_pi_lower])
  have km3 := interval_weaken (-69.7280) (-69.7171) m3.2
    (by norm_num [csc_pi_upper, cot_pi_lower]) (by norm_num [csc_pi_upper, cot_pi_lower])
  have kp3 := interval_weaken 9.1729 9.2543 p3.2
    (by norm_num [csc_pi_upper, cot_pi_lower]) (by norm_num [csc_pi_upper, cot_pi_lower])
  have km4 := interval_weaken 751.7965 751.7979 m4.2
    (by norm_num [csc_pi_upper, cot_pi_lower]) (by norm_num [csc_pi_upper, cot_pi_lower])
  have kp4 := interval_weaken 7.9993 8.0925 p4.2
    (by norm_num [csc_pi_upper, cot_pi_lower]) (by norm_num [csc_pi_upper, cot_pi_lower])
  have t1 := tone_pair_interval (-8.7631) (-8.6700) (-4.4899) (-4.4426) 0.202564 0.202921 3.5254 3.5411
    hs1 hc1 km1 kp1 (by norm_num [interval_mul_ok]) (by norm_num [interval_mul_ok])
    (by norm_num [interval_mul_ok]) (by norm_num [interval_mul_ok])
  have t2 := tone_pair_interval (-9.1624) (-9.1114) (-1.4878) (-1.4751) (-0.370932) (-0.370261) (-8.1856) (-8.1536)
    hs2 hc2 km2 kp2 (by norm_num [interval_mul_ok]) (by norm_num [interval_mul_ok])
    (by norm_num [interval_mul_ok]) (by norm_num [interval_mul_ok])
  have t3 := tone_pair_interval 48.9688 49.0800 (-20.3650) (-20.3041) 0.474196 0.475278 18.7046 18.7693
    hs3 hc3 km3 kp3 (by norm_num [interval_mul_ok]) (by norm_num [interval_mul_ok])
    (by norm_num [interval_mul_ok]) (by norm_num [interval_mul_ok])
  have t4 := tone_pair_interval (-563.6108) (-562.7047) 208.8664 209.5132 (-0.498126) (-0.496868) 184.7613 185.2528
    hs4 hc4 km4 kp4 (by norm_num [interval_mul_ok]) (by norm_num [interval_mul_ok])
    (by norm_num [interval_mul_ok]) (by norm_num [interval_mul_ok])
  have hR := interval_weaken 40.262 40.498 (And.intro (le_of_eq hre.symm) (le_of_eq hre))
    (by linarith only [t1.1.1, t2.1.1, t3.1.1, t4.1.1]) (by linarith only [t1.1.2, t2.1.2, t3.1.2, t4.1.2])
  have hJ := interval_weaken 51.795 51.972 (And.intro (le_of_eq him.symm) (le_of_eq him))
    (by linarith only [t1.2.1, t2.2.1, t3.2.1, t4.2.1]) (by linarith only [t1.2.2, t2.2.2, t3.2.2, t4.2.2])
  exact abs_mem_of_re_im _ 40.262 40.498 51.795 51.972 40.262 40.498
    51.795 51.972 65.602 65.888 hR hJ (by norm_num)

/-! ## The harmonic product spectrum of the tone peaks at bin 20 -/

theorem harmonic_tone_bin_le_bound (k : Nat) (hk : k < 1000) :
    Complex.abs ((radix2_dit_fft twiddle_factor harmonic_tone_signal ((2 : Int) ^ 12)
        fft_direction.FFT_FORWARD).2 k) ≤ (tone_bin_bound k : ℝ) / 1000 := by
  unfold tone_bin_bound
  split_ifs with h30 h40 h42
  · subst h30
    have h := harmonic_tone_bin_30.2
    norm_num at h ⊢
    linarith
  · subst h40
    have h := harmonic_tone_bin_40.2
    norm_num at h ⊢
    linarith
  · subst h42
    have h := harmonic_tone_bin_42.2
    norm_num at h ⊢
    linarith
  · exact harmonic_tone_bin_le_fixed k hk

/-- The product of the bounds of the bins `i, 2i, 3i, 4i` stays below the product of the
lower bounds of the bins 20, 40, 60, 80, for every other `i` of the search range. -/
theorem tone_bin_bound_products : ∀ i : Nat, i < 92 → 7 ≤ i → i ≠ 20 →
    tone_bin_bound i * tone_bin_bound (2 * i) * tone_bin_bound (3 * i) *
        tone_bin_bound (4 * i) < 1494778 * 153056 * 129384 * 65602 := by
  decide

theorem harmonic_product_four {K : Type*} [Field K] (magnitude : Nat → K) (i : Nat) :
    harmonic_product magnitude 4 i =
      magnitude i * magnitude (2 * i) * magnitude (3 * i) * magnitude (4 * i) := by
  unfold harmonic_product
  have e : Finset.Icc 1 (4 : Int).toNat = {1, 2, 3, 4} := by decide
  rw [e, Finset.prod_insert (by decide), Finset.prod_insert (by decide),
    Finset.prod_insert (by decide), Finset.prod_singleton]
  rw [Nat.mul_one, Nat.mul_comm i 2, Nat.mul_comm i 3, Nat.mul_comm i 4]
  ring

/-- A magnitude array bounded bin by bin by `tone_bin_bound` and from below at the bins
20, 40, 60 and 80 has its harmonic product over four harmonics strictly largest at bin 20
among the bins of `[7, 92)`. -/
theorem harmonic_product_peak_of_bounds (M : Nat → ℝ) (hM : ∀ k : Nat, 0 ≤ M k)
    (hB : ∀ k : Nat, k < 1000 → M k ≤ (tone_bin_bound k : ℝ) / 1000)
    (h20 : 1494.778 ≤ M 20) (h40 : 153.056 ≤ M 40) (h60 : 129.384 ≤ M 60)
    (h80 : 65.602 ≤ M 80) :
    (∀ i : Nat, 7 ≤ i → i < 92 → i ≠ 20 →
      harmonic_product M 4 i < harmonic_product M 4 20) ∧
    0 < harmonic_product M 4 20 := by
  have e20 : harmonic_product M 4 20 = M 20 * M 40 * M 60 * M 80 := by
    rw [harmonic_product_four]
  have hlow : (1494778 * 153056 * 129384 * 65602 : ℝ) / 10 ^ 12 ≤
      M 20 * M 40 * M 60 * M 80 := by
    have e : (1494778 * 153056 * 129384 * 65602 : ℝ) / 10 ^ 12 =
        1494.778 * 153.056 * 129.384 * 65.602 := by norm_num
    rw [e]
    have p1 : (1494.778 : ℝ) * 153.056 ≤ M 20 * M 40 :=
      mul_le_mul h20 h40 (by norm_num) (le_trans (by norm_num) h20)
    have p2 : (1494.778 : ℝ) * 153.056 * 129.384 ≤ M 20 * M 40 * M 60 :=
      mul_le_mul p1 h60 (by norm_num) (le_trans (by norm_num) p1)
    exact mul_le_mul p2 h80 (by norm_num) (le_trans (by norm_num) p2)
  rw [e20]
  constructor
  · intro i h7 h92 hne
    have k1 : i < 1000 := by omega
    have k2 : 2 * i < 1000 := by omega
    have k3 : 3 * i < 1000 := by omega
    have k4 : 4 * i < 1000 := by omega
    have hfix := tone_bin_bound_products i h92 h7 hne
    have hfixR : ((tone_bin_bound i * tone_bin_bound (2 * i) * tone_bin_bound (3 * i) *
        tone_bin_bound (4 * i) : Nat) : ℝ) <
        ((1494778 * 153056 * 129384 * 65602 : Nat) : ℝ) := by
      exact_mod_cast hfix
    have b1 := hB i k1
    have b2 := hB (2 * i) k2
    have b3 := hB (3 * i) k3
    have b4 := hB (4 * i) k4
    have n1 := hM i
    have n2 := hM (2 * i)
    have n3 := hM (3 * i)
    have n4 := hM (4 * i)
    have p1 : M i * M (2 * i) ≤
        (tone_bin_bound i : ℝ) / 1000 * ((tone_bin_bound (2 * i) : ℝ) / 1000) :=
      mul_le_mul b1 b2 n2 (le_trans n1 b1)
    have p2 : M i * M (2 * i) * M (3 * i) ≤
        (tone_bin_bound i : ℝ) / 1000 * ((tone_bin_bound (2 * i) : ℝ) / 1000) *
          ((tone_bin_bound (3 * i) : ℝ) / 1000) :=
      mul_le_mul p1 b3 n3 (le_trans (mul_nonneg n1 n2) p1)
    have p3 : M i * M (2 * i) * M (3 * i) * M (4 * i) ≤
        (tone_bin_bound i : ℝ) / 1000 * ((tone_bin_bound (2 * i) : ℝ) / 1000) *
          ((tone_bin_bound (3 * i) : ℝ) / 1000) * ((tone_bin_bound (4 * i) : ℝ) / 1000) :=
      mul_le_mul p2 b4 n4 (le_trans (mul_nonneg (mul_nonneg n1 n2) n3) p2)
    have e : (tone_bin_bound i : ℝ) / 1000 * ((tone_bin_bound (2 * i) : ℝ) / 1000) *
          ((tone_bin_bound (3 * i) : ℝ) / 1000) * ((tone_bin_bound (4 * i) : ℝ) / 1000) =
        ((tone_bin_bound i * tone_bin_bound (2 * i) * tone_bin_bound (3 * i) *
          tone_bin_bound (4 * i) : Nat) : ℝ) / 10 ^ 12 := by
      push_cast
      ring
    rw [e] at p3
    have hlt : ((tone_bin_bound i * tone_bin_bound (2 * i) * tone_bin_bound (3 * i) *
          tone_bin_bound (4 * i) : Nat) : ℝ) / 10 ^ 12 <
        (1494778 * 153056 * 129384 * 65602 : ℝ) / 10 ^ 12 := by
      apply div_lt_div_of_pos_right _ (by norm_num)
      have e2 : ((1494778 * 153056 * 129384 * 65602 : Nat) : ℝ) =
          1494778 * 153056 * 129384 * 65602 := by norm_num
      rw [← e2]
      exact hfixR
    rw [harmonic_product_four]
    exact lt_of_le_of_lt p3 (lt_of_lt_of_le hlt hlow)
  · exact lt_of_lt_of_le (by norm_num) hlow

/-- The harmonic product of the spectrum of the 220 Hz tone with harmonics (`n = 4096`,
`sample_rate = 44100`, four harmonics) is positive at bin 20 and strictly smaller at every
other bin of the search range `[7, 92)`. -/
theorem harmonic_tone_product_peak :
    (∀ i : Nat, 7 ≤ i → i < 92 → i ≠ 20 →
      harmonic_product (compute_magnitude (radix2_dit_fft twiddle_factor harmonic_tone_signal
          4096 fft_direction.FFT_FORWARD).2 4096) 4 i <
        harmonic_product (compute_magnitude (radix2_dit_fft twiddle_factor
          harmonic_tone_signal 4096 fft_direction.FFT_FORWARD).2 4096) 4 20) ∧
    0 < harmonic_product (compute_magnitude (radix2_dit_fft twiddle_factor
      harmonic_tone_signal 4096 fft_direction.FFT_FORWARD).2 4096) 4 20 := by
  have hX : radix2_dit_fft twiddle_factor harmonic_tone_signal ((2 : Int) ^ 12)
      fft_direction.FFT_FORWARD =
      radix2_dit_fft twiddle_factor harmonic_tone_signal 4096 fft_direction.FFT_FORWARD := by
    norm_num
  have hB := harmonic_tone_bin_le_bound
  have h20 := harmonic_tone_bin_20.1
  have h40 := harmonic_tone_bin_40.1
  have h60 := harmonic_tone_bin_60.1
  have h80 := harmonic_tone_bin_80.1
  rw [hX] at h20 h40 h60 h80
  simp only [hX] at hB
  apply harmonic_product_peak_of_bounds
  · intro k
    rw [compute_magnitude_eq_abs]
    exact Complex.abs.nonneg _
  · intro k hk
    rw [compute_magnitude_eq_abs]
    exact hB k hk
  · rw [compute_magnitude_eq_abs]
    exact h20
  · rw [compute_magnitude_eq_abs]
    exact h40
  · rw [compute_magnitude_eq_abs]
    exact h60
  · rw [compute_magnitude_eq_abs]
    exact h80

/-- C12 (amended): for the 220 Hz tone with harmonics at 440, 660 and 880 Hz (amplitudes
1.0, 0.5, 0.33, 0.25) sampled at 44100 Hz with `n = 4096`, `detect_pitch_hps` applied to
the forward spectrum with `harmonics = 4` returns the centre of bin 20,
`20 * 44100 / 4096 = 215.33203125` Hz, whatever the initial contents of the array `hps`;
the result is within 5 Hz of 220 Hz (it differs from 220 Hz by 4.66796875 Hz). -/
theorem detect_pitch_hps_tone_returns_bin_20 (hps_alloc : Nat → ℝ) :
    detect_pitch_hps compute_magnitude hps_alloc
        (radix2_dit_fft twiddle_factor harmonic_tone_signal 4096
          fft_direction.FFT_FORWARD).2 4096 (44100 : ℝ) 4 = 20 * 44100 / 4096 ∧
    |detect_pitch_hps compute_magnitude hps_alloc
        (radix2_dit_fft twiddle_factor harmonic_tone_signal 4096
          fft_direction.FFT_FORWARD).2 4096 (44100 : ℝ) 4 - 220| ≤ 5 := by
  obtain ⟨hlt, hpos⟩ := harmonic_tone_product_peak
  obtain ⟨_, hfound, _⟩ := detect_pitch_hps_lowest_max_of_fit compute_magnitude hps_alloc
    (radix2_dit_fft twiddle_factor harmonic_tone_signal 4096 fft_direction.FFT_FORWARD).2
    4096 (44100 : ℝ) 4 (by norm_num) (by norm_num) (by norm_num) (by norm_num) (by norm_num)
  rw [hps_range_4096_44100.1, hps_range_4096_44100.2] at hfound
  have e20 : (20 : Int).toNat = 20 := rfl
  obtain ⟨b, hb1, hb2, hmax, _, hret⟩ := hfound ⟨20, by norm_num, by norm_num, by
    rw [e20]; exact hpos⟩
  have hb : b = 20 := by
    by_contra hne
    have h1 : 7 ≤ b.toNat := by omega
    have h2 : b.toNat < 92 := by omega
    have h3 : b.toNat ≠ 20 := by omega
    have h4 := hlt b.toNat h1 h2 h3
    have h5 := hmax 20 (by norm_num) (by norm_num)
    rw [e20] at h5
    exact absurd h4 (not_lt.2 h5)
  have hval : detect_pitch_hps compute_magnitude hps_alloc
      (radix2_dit_fft twiddle_factor harmonic_tone_signal 4096
        fft_direction.FFT_FORWARD).2 4096 (44100 : ℝ) 4 = 20 * 44100 / 4096 := by
    rw [hret, hb]
    norm_num
  refine ⟨hval, ?_⟩
  rw [hval]
  norm_num [abs_le]

/-! ## Lag 0 of the autocorrelation -/

theorem sum_range_add_mod {M : Type*} [AddCommMonoid M] (f : Nat → M) (n l : Nat) :
    ∑ m in Finset.range n, f ((m + l) % n) = ∑ m in Finset.range n, f m := by
  rcases Nat.eq_zero_or_pos n with hn | hn
  · subst hn; simp
  have key : ∀ l, l < n →
      ∑ m in Finset.range n, f ((m + l) % n) = ∑ m in Finset.range n, f m := by
    intro l hl
    refine Finset.sum_nbij' (fun m => (m + l) % n) (fun m => (m + (n - l)) % n) ?_ ?_ ?_ ?_ ?_
    · intro m _
      exact Finset.mem_range.2 (Nat.mod_lt _ hn)
    · intro m _
      exact Finset.mem_range.2 (Nat.mod_lt _ hn)
    · intro m hm
      have hm := Finset.mem_range.1 hm
      show ((m + l) % n + (n - l)) % n = m
      rw [Nat.mod_add_mod]
      have : m + l + (n - l) = m + n := by omega
      rw [this, Nat.add_mod_right, Nat.mod_eq_of_lt hm]
    · intro m hm
      have hm := Finset.mem_range.1 hm
      show ((m + (n - l)) % n + l) % n = m
      rw [Nat.mod_add_mod]
      have : m + (n - l) + l = m + n := by omega
      rw [this, Nat.add_mod_right, Nat.mod_eq_of_lt hm]
    · intro m _
      rfl
  have hred : ∀ m, (m + l) % n = (m + l % n) % n := by
    intro m
    rw [Nat.add_mod_mod]
  simp only [hred]
  exact key (l % n) (Nat.mod_lt _ hn)

theorem re_mul_conj_le (a b : ℂ) :
    (a * (starRingEnd ℂ) b).re ≤ (Complex.normSq a + Complex.normSq b) / 2 := by
  have h1 := Complex.normSq_sub a b
  have h2 := Complex.normSq_nonneg (a - b)
  linarith

theorem autocorr_power_apply (k : Nat) (alloc x : Nat → ℂ) (q : Nat) (hq : q < 2 ^ k) :
    autocorr_power twiddle_factor (starRingEnd ℂ) alloc x ((2 : Int) ^ k) q =
      ((Complex.normSq ((radix2_dit_fft twiddle_factor
        (memcpy_complex alloc x ((2 : Int) ^ k)) ((2 : Int) ^ k)
        fft_direction.FFT_FORWARD).2 q) : ℝ) : ℂ) := by
  unfold autocorr_power
  rw [toNat_two_pow, pointwise_loop_apply (fun _ v => v * (starRingEnd ℂ) v), if_pos hq,
    Complex.mul_conj]

theorem circular_autocorrelation_zero (x : Nat → ℂ) (n : Nat) :
    circular_autocorrelation (starRingEnd ℂ) x n 0 =
      ((∑ m in Finset.range n, Complex.normSq (x m) : ℝ) : ℂ) := by
  unfold circular_autocorrelation
  rw [Complex.ofReal_sum]
  apply Finset.sum_congr rfl
  intro m hm
  rw [Nat.add_zero, Nat.mod_eq_of_lt (Finset.mem_range.1 hm), Complex.mul_conj]

theorem circular_autocorrelation_re_le (x : Nat → ℂ) (n l : Nat) :
    (circular_autocorrelation (starRingEnd ℂ) x n l).re ≤
      ∑ m in Finset.range n, Complex.normSq (x m) := by
  unfold circular_autocorrelation
  rw [Complex.re_sum]
  have h1 : ∑ m in Finset.range n, (x ((m + l) % n) * (starRingEnd ℂ) (x m)).re ≤
      ∑ m in Finset.range n,
        (Complex.normSq (x ((m + l) % n)) + Complex.normSq (x m)) / 2 :=
    Finset.sum_le_sum (fun m _ => re_mul_conj_le _ _)
  have h2 : ∑ m in Finset.range n,
        (Complex.normSq (x ((m + l) % n)) + Complex.normSq (x m)) / 2 =
      ∑ m in Finset.range n, Complex.normSq (x m) := by
    rw [← Finset.sum_div, Finset.sum_add_distrib,
      sum_range_add_mod (fun m => Complex.normSq (x m)) n l]
    ring
  linarith

/-- C21: for every complex signal `x` and size `n = 2 ^ k`, the autocorrelation buffer
`r` that `detect_pitch_autocorr` computes has `r[0] = Σ |x[m]|²`, a real non-negative
number, and `Re r[l] ≤ Re r[0]` for every lag `l < n`; the buffer is the inverse
transform of the power spectrum `autocorr_power`, each bin of which has zero imaginary
part and non-negative real part. -/
theorem autocorr_lag_zero_is_global_maximum (k : Nat) (alloc x : Nat → ℂ) (l : Nat)
    (hl : l < 2 ^ k) :
    (autocorr_buffer twiddle_factor (starRingEnd ℂ) alloc x ((2 : Int) ^ k)).2.2 0 =
      ((∑ m in Finset.range (2 ^ k), Complex.normSq (x m) : ℝ) : ℂ) ∧
    ((autocorr_buffer twiddle_factor (starRingEnd ℂ) alloc x ((2 : Int) ^ k)).2.2 0).im = 0 ∧
    0 ≤ ((autocorr_buffer twiddle_factor (starRingEnd ℂ) alloc x ((2 : Int) ^ k)).2.2 0).re ∧
    ((autocorr_buffer twiddle_factor (starRingEnd ℂ) alloc x ((2 : Int) ^ k)).2.2 l).re ≤
      ((autocorr_buffer twiddle_factor (starRingEnd ℂ) alloc x ((2 : Int) ^ k)).2.2 0).re ∧
    (autocorr_buffer twiddle_factor (starRingEnd ℂ) alloc x ((2 : Int) ^ k)).2.2 =
      (radix2_dit_fft twiddle_factor
        (autocorr_power twiddle_factor (starRingEnd ℂ) alloc x ((2 : Int) ^ k))
        ((2 : Int) ^ k) fft_direction.FFT_INVERSE).2 ∧
    (∀ q, q < 2 ^ k →
      (autocorr_power twiddle_factor (starRingEnd ℂ) alloc x ((2 : Int) ^ k) q).im = 0 ∧
      0 ≤ (autocorr_power twiddle_factor (starRingEnd ℂ) alloc x ((2 : Int) ^ k) q).re) := by
  have h0 : (autocorr_buffer twiddle_factor (starRingEnd ℂ) alloc x ((2 : Int) ^ k)).2.2 0 =
      ((∑ m in Finset.range (2 ^ k), Complex.normSq (x m) : ℝ) : ℂ) := by
    rw [autocorr_buffer_apply k alloc x 0 (by positivity)]
    exact circular_autocorrelation_zero x (2 ^ k)
  have hpos : 0 ≤ ∑ m in Finset.range (2 ^ k), Complex.normSq (x m) :=
    Finset.sum_nonneg (fun m _ => Complex.normSq_nonneg _)
  refine ⟨h0, ?_, ?_, ?_, ?_, ?_⟩
  · rw [h0, Complex.ofReal_im]
  · rw [h0, Complex.ofReal_re]
    exact hpos
  · rw [h0, Complex.ofReal_re, autocorr_buffer_apply k alloc x l hl]
    exact circular_autocorrelation_re_le x (2 ^ k) l
  · rw [autocorr_buffer_pow_two]
    unfold autocorr_power
    rw [toNat_two_pow]
  · intro q hq
    rw [autocorr_power_apply k alloc x q hq, Complex.ofReal_im, Complex.ofReal_re]
    exact ⟨rfl, Complex.normSq_nonneg _⟩

theorem autocorr_lag_zero_is_global_maximum_witness :
    1 < 2 ^ 2 ∧
    ((autocorr_buffer twiddle_factor (starRingEnd ℂ) (fun _ => 0) constant_one_signal
      ((2 : Int) ^ 2)).2.2 1).re ≤
    ((autocorr_buffer twiddle_factor (starRingEnd ℂ) (fun _ => 0) constant_one_signal
      ((2 : Int) ^ 2)).2.2 0).re :=
  ⟨by norm_num,
    (autocorr_lag_zero_is_global_maximum 2 (fun _ => 0) constant_one_signal 1
      (by norm_num)).2.2.2.1⟩


/-! ## The bit-reversal step -/

theorem bit_reversal_step_apply {K : Type*} (k : Nat) (x : Nat → K) (p : Nat) :
    bit_reversal_step x ((2 : Int) ^ k) p =
      if p < 2 ^ k then x (bit_reverse p k) else x p := by
  unfold bit_reversal_step
  rw [toNat_two_pow, log2_int_two_pow]
  exact bit_reversal_loop_apply k x p

theorem bit_reversal_body_eq_swap {K : Type*} (k i : Nat) (y : Nat → K) :
    bit_reversal_body k i y =
      if i < bit_reverse i k then y ∘ Equiv.swap i (bit_reverse i k) else y := by
  unfold bit_reversal_body
  by_cases h : i < bit_reverse i k
  · simp only [h, if_true]
    funext p
    simp only [Function.comp_apply, Function.update_apply, Equiv.swap_apply_def]
    by_cases h1 : p = bit_reverse i k
    · subst h1
      have : bit_reverse i k ≠ i := by omega
      simp [this]
    · by_cases h2 : p = i
      · subst h2
        simp [h1]
      · simp [h1, h2]
  · simp only [h, if_false]

/-- The index map of the bit-reversal step for size `2 ^ k`. -/
theorem bit_reverse_index_involutive (k : Nat) :
    Function.Involutive (fun p : Nat => if p < 2 ^ k then bit_reverse p k else p) := by
  intro p
  by_cases hp : p < 2 ^ k
  · simp only [hp, if_true, bit_reverse_lt k p, bit_reverse_involutive k p hp]
  · simp only [hp, if_false]

/-- C22: for `n = 2 ^ k` the first loop of `radix2_dit_fft` (`bit_reversal_step`, after
which the butterfly stages run) leaves `new[i] = old[rev_k(i)]` for every `i < n` and
does not touch the elements from `n` on; `rev_k` maps `0..n-1` to itself and is its own
inverse, so the step is a permutation of the buffer and applying it twice gives the
buffer back.  Iteration `i` of the loop is the exchange of the positions `i` and
`rev_k(i)` when `i < rev_k(i)` and does nothing otherwise: of the two iterations `i` and
`rev_k(i)` of a pair with `i ≠ rev_k(i)` exactly one exchanges, and the iteration of a
fixed point leaves the buffer as it is. -/
theorem bit_reversal_step_permutes {K : Type*} [Field K]
    (tw : Int → Int → fft_direction → K) (k : Nat) (x : Nat → K) :
    (radix2_dit_fft tw x ((2 : Int) ^ k) fft_direction.FFT_FORWARD).2 =
      for_loop 1 (k + 1) 1 (fft_stage_body tw (2 ^ k) fft_direction.FFT_FORWARD)
        (bit_reversal_step x ((2 : Int) ^ k)) ∧
    (∀ i, i < 2 ^ k → bit_reversal_step x ((2 : Int) ^ k) i = x (bit_reverse i k)) ∧
    (∀ i, 2 ^ k ≤ i → bit_reversal_step x ((2 : Int) ^ k) i = x i) ∧
    (∀ i, i < 2 ^ k → bit_reverse i k < 2 ^ k ∧ bit_reverse (bit_reverse i k) k = i) ∧
    (∃ σ : Equiv.Perm Nat, (∀ i, i < 2 ^ k → σ i = bit_reverse i k) ∧
      (∀ i, 2 ^ k ≤ i → σ i = i) ∧ (∀ i, σ (σ i) = i) ∧
      bit_reversal_step x ((2 : Int) ^ k) = x ∘ σ) ∧
    bit_reversal_step (bit_reversal_step x ((2 : Int) ^ k)) ((2 : Int) ^ k) = x ∧
    (∀ (i : Nat) (y : Nat → K), bit_reversal_body k i y =
      if i < bit_reverse i k then y ∘ Equiv.swap i (bit_reverse i k) else y) ∧
    (∀ i, i < 2 ^ k → bit_reverse i k ≠ i →
      (i < bit_reverse i k ∧ ¬ bit_reverse i k < bit_reverse (bit_reverse i k) k) ∨
      (¬ i < bit_reverse i k ∧ bit_reverse i k < bit_reverse (bit_reverse i k) k)) ∧
    (∀ (i : Nat) (y : Nat → K), bit_reverse i k = i → bit_reversal_body k i y = y) := by
  refine ⟨?_, ?_, ?_, ?_, ?_, ?_, ?_, ?_, ?_⟩
  · unfold radix2_dit_fft bit_reversal_step
    have hp : is_power_of_two ((2 : Int) ^ k) = true := (is_power_of_two_iff _).2 ⟨k, rfl⟩
    simp [hp, toNat_two_pow, log2_int_two_pow]
  · intro i hi
    rw [bit_reversal_step_apply, if_pos hi]
  · intro i hi
    rw [bit_reversal_step_apply, if_neg (by omega)]
  · intro i hi
    exact ⟨bit_reverse_lt k i, bit_reverse_involutive k i hi⟩
  · refine ⟨(bit_reverse_index_involutive k).toPerm _, ?_, ?_, ?_, ?_⟩
    · intro i hi
      show (if i < 2 ^ k then bit_reverse i k else i) = _
      rw [if_pos hi]
    · intro i hi
      show (if i < 2 ^ k then bit_reverse i k else i) = _
      rw [if_neg (by omega)]
    · intro i
      exact bit_reverse_index_involutive k i
    · funext p
      rw [bit_reversal_step_apply]
      show _ = x (if p < 2 ^ k then bit_reverse p k else p)
      by_cases hp : p < 2 ^ k
      · simp only [hp, if_true]
      · simp only [hp, if_false]
  · funext p
    rw [bit_reversal_step_apply]
    by_cases hp : p < 2 ^ k
    · rw [if_pos hp, bit_reversal_step_apply, if_pos (bit_reverse_lt k p),
        bit_reverse_involutive k p hp]
    · rw [if_neg hp, bit_reversal_step_apply, if_neg hp]
  · exact bit_reversal_body_eq_swap k
  · intro i hi hne
    rw [bit_reverse_involutive k i hi]
    omega
  · intro i y hfix
    rw [bit_reversal_body_eq_swap, hfix, if_neg (lt_irrefl _)]


/-! ## One butterfly -/

theorem for_loop_unfold {σ : Type*} (i stop : Nat) (body : Nat → σ → σ) (s : σ)
    (hi : i < stop) :
    for_loop i stop 1 body s = for_loop (i + 1) stop 1 body (body i s) := by
  unfold for_loop
  have h : stop - i = (stop - (i + 1)) + 1 := by omega
  rw [h]
  show (if i < stop then for_loop_go stop 1 body (stop - (i + 1)) (i + 1) (body i s) else s) = _
  rw [if_pos hi]

theorem for_loop_split {σ : Type*} (a b c : Nat) (body : Nat → σ → σ) (s : σ)
    (hab : a ≤ b) (hbc : b ≤ c) :
    for_loop a c 1 body s = for_loop b c 1 body (for_loop a b 1 body s) := by
  refine for_loop_induction a b body
    (fun i cur => for_loop a c 1 body s = for_loop i c 1 body cur) hab s rfl ?_
  intro i cur _ hib hcur
  rw [hcur]
  exact for_loop_unfold i c body cur (by omega)

theorem for_loop_empty {σ : Type*} (a : Nat) (body : Nat → σ → σ) (s : σ) :
    for_loop a a 1 body s = s := by
  unfold for_loop
  rw [Nat.sub_self]
  rfl

theorem running_twiddle {K : Type*} [Field K] (w_m : K) (k half j : Nat) (y0 : Nat → K) :
    (for_loop 0 j 1 (butterfly_body w_m k half) (y0, (1 : K))).2 = w_m ^ j := by
  refine for_loop_induction 0 j (butterfly_body w_m k half)
    (fun i cur => cur.2 = w_m ^ i) (Nat.zero_le _) (y0, 1) (by simp) ?_
  intro i cur _ _ hcur
  show cur.2 * w_m = w_m ^ (i + 1)
  rw [hcur, pow_succ]

theorem butterfly_body_apply {K : Type*} [Field K] (w_m : K) (k half j : Nat)
    (hhalf : 0 < half) (st : (Nat → K) × K) :
    (butterfly_body w_m k half j st).1 (k + j) = st.1 (k + j) + st.2 * st.1 (k + j + half) ∧
    (butterfly_body w_m k half j st).1 (k + j + half) =
      st.1 (k + j) - st.2 * st.1 (k + j + half) ∧
    (∀ p, p ≠ k + j → p ≠ k + j + half → (butterfly_body w_m k half j st).1 p = st.1 p) ∧
    (butterfly_body w_m k half j st).2 = st.2 * w_m := by
  have hne : k + j ≠ k + j + half := by omega
  refine ⟨?_, ?_, ?_, rfl⟩
  · show Function.update (Function.update st.1 (k + j + half) _) (k + j) _ (k + j) = _
    rw [Function.update_same, Function.update_noteq hne]
    ring
  · show Function.update (Function.update st.1 (k + j + half) _) (k + j) _ (k + j + half) = _
    rw [Function.update_noteq hne.symm, Function.update_same]
    ring
  · intro p h1 h2
    show Function.update (Function.update st.1 (k + j + half) _) (k + j) _ p = _
    rw [Function.update_noteq h1, Function.update_noteq h2]

theorem shift_sizes (s : Nat) : 1 <<< s = 2 ^ s ∧ (1 <<< s) >>> 1 = 2 ^ s / 2 := by
  have h1 : 1 <<< s = 2 ^ s := by rw [Nat.shiftLeft_eq, one_mul]
  refine ⟨h1, ?_⟩
  rw [h1, Nat.shiftRight_eq_div_pow, pow_one]


/-- C23: in stage `s` of `radix2_dit_fft` (`m = 1 << s = 2^s`, `half = m >> 1 = m/2`,
`w_m = twiddle_factor(1, m, dir)`), for every block start `k` and every `j < half`: the
inner loop reaches butterfly `j` in the state left by the butterflies `0 .. j-1`, with the
running twiddle `w = w_m^j = exp(∓2πi·j/m)` (minus for FORWARD, plus for INVERSE); with
`T` and `B` the values of `x[k+j]` and `x[k+j+half]` in that state, the butterfly leaves
`x[k+j] = T + w*B` and `x[k+j+half] = T - w*B`, changes no other element, and passes
`w * w_m` on. -/
theorem butterfly_writes_from_old_values (dir : fft_direction) (s k j : Nat) (y0 : Nat → ℂ)
    (hj : j < (1 <<< s) >>> 1) :
    (∀ (n : Nat) (x : Nat → ℂ), fft_stage_body twiddle_factor n dir s x =
      for_loop 0 n (1 <<< s) (fun k x =>
        (for_loop 0 ((1 <<< s) >>> 1) 1
          (butterfly_body (twiddle_factor 1 ((1 <<< s : Nat) : Int) dir) k
            ((1 <<< s) >>> 1)) (x, (1 : ℂ))).1) x) ∧
    (1 <<< s = 2 ^ s ∧ (1 <<< s) >>> 1 = 2 ^ s / 2) ∧
    for_loop 0 ((1 <<< s) >>> 1) 1 (butterfly_body (twiddle_factor 1 ((1 <<< s : Nat) : Int) dir) k ((1 <<< s) >>> 1)) (y0, (1 : ℂ)) =
      for_loop (j + 1) ((1 <<< s) >>> 1) 1 (butterfly_body (twiddle_factor 1 ((1 <<< s : Nat) : Int) dir) k ((1 <<< s) >>> 1))
        (butterfly_body (twiddle_factor 1 ((1 <<< s : Nat) : Int) dir) k ((1 <<< s) >>> 1) j
        (for_loop 0 j 1 (butterfly_body (twiddle_factor 1 ((1 <<< s : Nat) : Int) dir) k ((1 <<< s) >>> 1)) (y0, (1 : ℂ)))) ∧
    (for_loop 0 j 1 (butterfly_body (twiddle_factor 1 ((1 <<< s : Nat) : Int) dir) k ((1 <<< s) >>> 1)) (y0, (1 : ℂ))).2 =
      (twiddle_factor 1 ((1 <<< s : Nat) : Int) dir) ^ j ∧
    (twiddle_factor 1 ((1 <<< s : Nat) : Int) dir) ^ j =
      (if dir = fft_direction.FFT_FORWARD
        then Complex.exp (-(2 * Real.pi * Complex.I * j / 2 ^ s))
        else Complex.exp (2 * Real.pi * Complex.I * j / 2 ^ s)) ∧
    (butterfly_body (twiddle_factor 1 ((1 <<< s : Nat) : Int) dir) k ((1 <<< s) >>> 1) j
        (for_loop 0 j 1 (butterfly_body (twiddle_factor 1 ((1 <<< s : Nat) : Int) dir) k ((1 <<< s) >>> 1)) (y0, (1 : ℂ)))).1 (k + j) =
      (for_loop 0 j 1 (butterfly_body (twiddle_factor 1 ((1 <<< s : Nat) : Int) dir) k ((1 <<< s) >>> 1)) (y0, (1 : ℂ))).1 (k + j) +
        (twiddle_factor 1 ((1 <<< s : Nat) : Int) dir) ^ j *
          (for_loop 0 j 1 (butterfly_body (twiddle_factor 1 ((1 <<< s : Nat) : Int) dir) k ((1 <<< s) >>> 1)) (y0, (1 : ℂ))).1 (k + j + ((1 <<< s) >>> 1)) ∧
    (butterfly_body (twiddle_factor 1 ((1 <<< s : Nat) : Int) dir) k ((1 <<< s) >>> 1) j
        (for_loop 0 j 1 (butterfly_body (twiddle_factor 1 ((1 <<< s : Nat) : Int) dir) k ((1 <<< s) >>> 1)) (y0, (1 : ℂ)))).1 (k + j + ((1 <<< s) >>> 1)) =
      (for_loop 0 j 1 (butterfly_body (twiddle_factor 1 ((1 <<< s : Nat) : Int) dir) k ((1 <<< s) >>> 1)) (y0, (1 : ℂ))).1 (k + j) -
        (twiddle_factor 1 ((1 <<< s : Nat) : Int) dir) ^ j *
          (for_loop 0 j 1 (butterfly_body (twiddle_factor 1 ((1 <<< s : Nat) : Int) dir) k ((1 <<< s) >>> 1)) (y0, (1 : ℂ))).1 (k + j + ((1 <<< s) >>> 1)) ∧
    (∀ p, p ≠ k + j → p ≠ k + j + ((1 <<< s) >>> 1) →
      (butterfly_body (twiddle_factor 1 ((1 <<< s : Nat) : Int) dir) k ((1 <<< s) >>> 1) j
        (for_loop 0 j 1 (butterfly_body (twiddle_factor 1 ((1 <<< s : Nat) : Int) dir) k ((1 <<< s) >>> 1)) (y0, (1 : ℂ)))).1 p =
        (for_loop 0 j 1 (butterfly_body (twiddle_factor 1 ((1 <<< s : Nat) : Int) dir) k ((1 <<< s) >>> 1)) (y0, (1 : ℂ))).1 p) ∧
    (butterfly_body (twiddle_factor 1 ((1 <<< s : Nat) : Int) dir) k ((1 <<< s) >>> 1) j
        (for_loop 0 j 1 (butterfly_body (twiddle_factor 1 ((1 <<< s : Nat) : Int) dir) k ((1 <<< s) >>> 1)) (y0, (1 : ℂ)))).2 =
      (twiddle_factor 1 ((1 <<< s : Nat) : Int) dir) ^ j * (twiddle_factor 1 ((1 <<< s : Nat) : Int) dir) := by
  have hH : 0 < (1 <<< s) >>> 1 := by omega
  have hw := running_twiddle (twiddle_factor 1 ((1 <<< s : Nat) : Int) dir) k ((1 <<< s) >>> 1) j y0
  have hb := butterfly_body_apply (twiddle_factor 1 ((1 <<< s : Nat) : Int) dir) k ((1 <<< s) >>> 1) j hH
    (for_loop 0 j 1 (butterfly_body (twiddle_factor 1 ((1 <<< s : Nat) : Int) dir) k ((1 <<< s) >>> 1)) (y0, (1 : ℂ)))
  rw [hw] at hb
  refine ⟨fun n x => rfl, shift_sizes s, ?_, hw, ?_, hb.1, hb.2.1, hb.2.2.1, hb.2.2.2⟩
  · rw [for_loop_split 0 j ((1 <<< s) >>> 1) _ _ (Nat.zero_le _) (le_of_lt hj),
      for_loop_unfold j ((1 <<< s) >>> 1) _ _ hj]
  · rw [(shift_sizes s).1]
    cases dir
    · rw [if_pos rfl, twiddle_forward_eq, ← Complex.exp_nat_mul]
      congr 1
      ring
    · rw [if_neg (by decide), twiddle_inverse_eq, ← Complex.exp_nat_mul]
      congr 1
      ring

theorem butterfly_writes_from_old_values_witness :
    0 < (1 <<< 1) >>> 1 ∧
    (butterfly_body (twiddle_factor 1 ((1 <<< 1 : Nat) : Int) fft_direction.FFT_FORWARD) 0 ((1 <<< 1) >>> 1) 0
        (for_loop 0 0 1 (butterfly_body (twiddle_factor 1 ((1 <<< 1 : Nat) : Int) fft_direction.FFT_FORWARD) 0 ((1 <<< 1) >>> 1)) (constant_one_signal, (1 : ℂ)))).1 (0 + 0) =
      (for_loop 0 0 1 (butterfly_body (twiddle_factor 1 ((1 <<< 1 : Nat) : Int) fft_direction.FFT_FORWARD) 0 ((1 <<< 1) >>> 1)) (constant_one_signal, (1 : ℂ))).1 (0 + 0) +
        (twiddle_factor 1 ((1 <<< 1 : Nat) : Int) fft_direction.FFT_FORWARD) ^ 0 *
          (for_loop 0 0 1 (butterfly_body (twiddle_factor 1 ((1 <<< 1 : Nat) : Int) fft_direction.FFT_FORWARD) 0 ((1 <<< 1) >>> 1)) (constant_one_signal, (1 : ℂ))).1 (0 + 0 + ((1 <<< 1) >>> 1)) ∧
    (butterfly_body (twiddle_factor 1 ((1 <<< 1 : Nat) : Int) fft_direction.FFT_FORWARD) 0 ((1 <<< 1) >>> 1) 0
        (for_loop 0 0 1 (butterfly_body (twiddle_factor 1 ((1 <<< 1 : Nat) : Int) fft_direction.FFT_FORWARD) 0 ((1 <<< 1) >>> 1)) (constant_one_signal, (1 : ℂ)))).1 (0 + 0 + ((1 <<< 1) >>> 1)) =
      (for_loop 0 0 1 (butterfly_body (twiddle_factor 1 ((1 <<< 1 : Nat) : Int) fft_direction.FFT_FORWARD) 0 ((1 <<< 1) >>> 1)) (constant_one_signal, (1 : ℂ))).1 (0 + 0) -
        (twiddle_factor 1 ((1 <<< 1 : Nat) : Int) fft_direction.FFT_FORWARD) ^ 0 *
          (for_loop 0 0 1 (butterfly_body (twiddle_factor 1 ((1 <<< 1 : Nat) : Int) fft_direction.FFT_FORWARD) 0 ((1 <<< 1) >>> 1)) (constant_one_signal, (1 : ℂ))).1 (0 + 0 + ((1 <<< 1) >>> 1)) :=
  ⟨by decide,
    (butterfly_writes_from_old_values fft_direction.FFT_FORWARD 1 0 0 constant_one_signal
      (by decide)).2.2.2.2.2.1,
    (butterfly_writes_from_old_values fft_direction.FFT_FORWARD 1 0 0 constant_one_signal
      (by decide)).2.2.2.2.2.2.1⟩

/-! ## Confidence 1 means agreement -/

theorem confidence_variance_eq_zero_iff (p1 p2 p3 : ℝ) :
    confidence_variance p1 p2 p3 = 0 ↔ p1 = p2 ∧ p2 = p3 := by
  unfold confidence_variance confidence_avg_pitch
  constructor
  · intro h
    have h1 := sq_nonneg (p1 - (p1 + p2 + p3) / 3)
    have h2 := sq_nonneg (p2 - (p1 + p2 + p3) / 3)
    have h3 := sq_nonneg (p3 - (p1 + p2 + p3) / 3)
    have hs : (p1 - (p1 + p2 + p3) / 3) ^ 2 + (p2 - (p1 + p2 + p3) / 3) ^ 2 +
        (p3 - (p1 + p2 + p3) / 3) ^ 2 = 0 := by
      have := h
      simp only at this
      linarith
    have e1 : (p1 - (p1 + p2 + p3) / 3) ^ 2 = 0 := by linarith
    have e2 : (p2 - (p1 + p2 + p3) / 3) ^ 2 = 0 := by linarith
    have e3 : (p3 - (p1 + p2 + p3) / 3) ^ 2 = 0 := by linarith
    have d1 := pow_eq_zero_iff (two_ne_zero) |>.1 e1
    have d2 := pow_eq_zero_iff (two_ne_zero) |>.1 e2
    have d3 := pow_eq_zero_iff (two_ne_zero) |>.1 e3
    constructor <;> linarith
  · rintro ⟨rfl, rfl⟩
    simp only
    ring

theorem confidence_variance_nonneg (p1 p2 p3 : ℝ) : 0 ≤ confidence_variance p1 p2 p3 := by
  unfold confidence_variance
  simp only
  positivity

/-- C24: for every triple of estimates with positive mean, the confidence computed in
`detect_pitch_with_confidence` is 1 exactly when `pitch1 = pitch2 = pitch3`, and it is
strictly below 1 whenever two of the estimates differ. -/
theorem pitch_confidence_one_iff_all_equal (pitch1 pitch2 pitch3 : ℝ)
    (hmean : 0 < confidence_avg_pitch pitch1 pitch2 pitch3) :
    (pitch_confidence Real.sqrt pitch1 pitch2 pitch3 = 1 ↔
      pitch1 = pitch2 ∧ pitch2 = pitch3) ∧
    ((pitch1 ≠ pitch2 ∨ pitch2 ≠ pitch3 ∨ pitch1 ≠ pitch3) →
      pitch_confidence Real.sqrt pitch1 pitch2 pitch3 < 1) := by
  have hq : 0 ≤ Real.sqrt (confidence_variance pitch1 pitch2 pitch3) /
      confidence_avg_pitch pitch1 pitch2 pitch3 :=
    div_nonneg (Real.sqrt_nonneg _) hmean.le
  have hden : 0 < 1 + Real.sqrt (confidence_variance pitch1 pitch2 pitch3) /
      confidence_avg_pitch pitch1 pitch2 pitch3 := by linarith
  have hiff : pitch_confidence Real.sqrt pitch1 pitch2 pitch3 = 1 ↔
      pitch1 = pitch2 ∧ pitch2 = pitch3 := by
    unfold pitch_confidence
    rw [div_eq_iff hden.ne', one_mul, ← confidence_variance_eq_zero_iff]
    constructor
    · intro h
      have h0 : Real.sqrt (confidence_variance pitch1 pitch2 pitch3) /
          confidence_avg_pitch pitch1 pitch2 pitch3 = 0 := by linarith
      rcases div_eq_zero_iff.1 h0 with h1 | h1
      · exact le_antisymm (Real.sqrt_eq_zero'.1 h1) (confidence_variance_nonneg _ _ _)
      · exact absurd h1 hmean.ne'
    · intro h
      rw [h, Real.sqrt_zero, zero_div, add_zero]
  refine ⟨hiff, ?_⟩
  intro hne
  have hle : pitch_confidence Real.sqrt pitch1 pitch2 pitch3 ≤ 1 := by
    unfold pitch_confidence
    rw [div_le_one hden]
    linarith
  refine lt_of_le_of_ne hle ?_
  intro h1
  obtain ⟨e1, e2⟩ := hiff.1 h1
  rcases hne with h | h | h
  · exact h e1
  · exact h e2
  · exact h (e1.trans e2)

theorem pitch_confidence_one_iff_all_equal_witness :
    0 < confidence_avg_pitch (440 : ℝ) 440 440 ∧
    (pitch_confidence Real.sqrt (440 : ℝ) 440 440 = 1 ↔
      (440 : ℝ) = 440 ∧ (440 : ℝ) = 440) :=
  ⟨by norm_num [confidence_avg_pitch],
    (pitch_confidence_one_iff_all_equal 440 440 440
      (by norm_num [confidence_avg_pitch])).1⟩


/-! ## Array bounds in `detect_pitch_hps` -/

theorem for_loop_go_checked {σ : Type*} (stop step lo : Nat)
    (bodyC : Nat → Option σ → Option σ) (body : Nat → σ → σ)
    (h : ∀ i s, lo ≤ i → i < stop → bodyC i (some s) = some (body i s)) :
    ∀ (fuel i : Nat) (s : σ), lo ≤ i →
      for_loop_go stop step bodyC fuel i (some s) =
        some (for_loop_go stop step body fuel i s) := by
  intro fuel
  induction fuel with
  | zero => intro i s _; rfl
  | succ fuel ih =>
    intro i s hi
    show (if i < stop then for_loop_go stop step bodyC fuel (i + step) (bodyC i (some s))
      else some s) =
      some (if i < stop then for_loop_go stop step body fuel (i + step) (body i s) else s)
    by_cases hlt : i < stop
    · rw [if_pos hlt, if_pos hlt, h i s hi hlt]
      exact ih (i + step) (body i s) (by omega)
    · rw [if_neg hlt, if_neg hlt]

/-- A loop whose checked body succeeds at every index of the range succeeds, with the
state of the unchecked loop. -/
theorem for_loop_checked {σ : Type*} (start stop step : Nat)
    (bodyC : Nat → Option σ → Option σ) (body : Nat → σ → σ) (s : σ)
    (h : ∀ i s, start ≤ i → i < stop → bodyC i (some s) = some (body i s)) :
    for_loop start stop step bodyC (some s) = some (for_loop start stop step body s) :=
  for_loop_go_checked stop step start bodyC body h (stop - start) start s le_rfl

theorem for_loop_int_go_checked {σ : Type*} (stop lo : Int)
    (bodyC : Int → Option σ → Option σ) (body : Int → σ → σ)
    (h : ∀ i s, lo ≤ i → i < stop → bodyC i (some s) = some (body i s)) :
    ∀ (fuel : Nat) (i : Int) (s : σ), lo ≤ i →
      for_loop_int_go stop bodyC fuel i (some s) =
        some (for_loop_int_go stop body fuel i s) := by
  intro fuel
  induction fuel with
  | zero => intro i s _; rfl
  | succ fuel ih =>
    intro i s hi
    show (if i < stop then for_loop_int_go stop bodyC fuel (i + 1) (bodyC i (some s))
      else some s) =
      some (if i < stop then for_loop_int_go stop body fuel (i + 1) (body i s) else s)
    by_cases hlt : i < stop
    · rw [if_pos hlt, if_pos hlt, h i s hi hlt]
      exact ih (i + 1) (body i s) (by omega)
    · rw [if_neg hlt, if_neg hlt]

theorem for_loop_int_checked {σ : Type*} (start stop : Int)
    (bodyC : Int → Option σ → Option σ) (body : Int → σ → σ) (s : σ)
    (h : ∀ i s, start ≤ i → i < stop → bodyC i (some s) = some (body i s)) :
    for_loop_int start stop bodyC (some s) = some (for_loop_int start stop body s) :=
  for_loop_int_go_checked stop start bodyC body h (stop - start).toNat start s le_rfl

theorem in_bounds_of {i len : Int} (h0 : 0 ≤ i) (h1 : i < len) : in_bounds i len = true := by
  unfold in_bounds
  exact decide_eq_true ⟨h0, h1⟩

theorem tdiv_nonneg_of {n a : Int} (hn : 0 ≤ n) (ha : 0 < a) : 0 ≤ Int.tdiv n a := by
  rw [Int.tdiv_eq_ediv hn ha.le]
  exact Int.ediv_nonneg hn ha.le

theorem hps_init_checked_eq {K : Type*} (magnitude : Nat → K) (mag_len n : Int)
    (hps : Nat → K) (hlen : Int.tdiv n 2 < mag_len) :
    hps_init_checked magnitude mag_len n hps = some (hps_init magnitude n hps) := by
  unfold hps_init_checked hps_init
  apply for_loop_checked
  intro i y _ hi
  have hi2 : (i : Int) < Int.tdiv n 2 + 1 := Int.lt_toNat.1 hi
  have hi0 : (0 : Int) ≤ (i : Int) := Int.ofNat_nonneg i
  show (if in_bounds i (Int.tdiv n 2 + 1) && in_bounds i mag_len then _ else none) = _
  rw [in_bounds_of hi0 hi2, in_bounds_of hi0 (by omega)]
  rfl

theorem hps_multiply_checked_eq {K : Type*} [Field K] (magnitude : Nat → K)
    (mag_len n : Int) (harmonics : Int) (hps : Nat → K) (hn : 0 ≤ n) (hn1 : n ≤ 2147483647)
    (hH : 2 * harmonics ≤ 2147483647) (hlen : Int.tdiv n 2 < mag_len) :
    hps_multiply_checked magnitude mag_len n harmonics (some hps) =
      some (hps_multiply magnitude n harmonics hps) := by
  unfold hps_multiply_checked hps_multiply
  apply for_loop_checked
  intro h y h2 hlt
  have hp := fun i => hps_multiply_products n harmonics h i hn hn1 hH h2 hlt
  have hh : (0 : Int) < (h : Int) := by exact_mod_cast (by omega : 0 < h)
  show (if int_mul 2 (h : Int) = 0 then none else _) = _
  rw [(hp 0).1, if_neg (by omega)]
  apply for_loop_checked
  intro i z _ hi
  have hi2 : (i : Int) < Int.tdiv n (2 * (h : Int)) + 1 := Int.lt_toNat.1 hi
  have hi0 : (0 : Int) ≤ (i : Int) := Int.ofNat_nonneg i
  have hanti : Int.tdiv n (2 * (h : Int)) ≤ Int.tdiv n 2 :=
    tdiv_anti hn (by norm_num) (by omega)
  have hb1 : in_bounds i (Int.tdiv n 2 + 1) = true := in_bounds_of hi0 (by omega)
  obtain ⟨_, e, hmul⟩ := (hp i).2 hi
  have hb2 : in_bounds (int_mul (i : Int) (h : Int)) mag_len = true := by
    rw [e]
    exact in_bounds_of (mul_nonneg hi0 hh.le) (lt_of_le_of_lt hmul hlen)
  simp only [Option.some_bind, hb1, hb2, Bool.and_self, if_true]

theorem hps_search_checked_eq {K : Type*} [LinearOrderedField K] [FloorRing K]
    (hps : Nat → K) (n : Int) (sample_rate : K) (harmonics : Int) (hn : 0 < n)
    (hsr : 0 < sample_rate) (hh : 1 ≤ harmonics) (hfit : 1000 * n ≤ 2147483647)
    (hH : 2 * harmonics ≤ 2147483647) :
    hps_search_checked hps n sample_rate harmonics =
      some (hps_search hps n sample_rate harmonics) := by
  unfold hps_search_checked hps_search
  have hne : ¬ (sample_rate = 0 ∨ int_mul 2 harmonics = 0) := by
    rw [int_mul_of_bounds 2 harmonics (by omega) hH]
    rintro (h | h)
    · exact hsr.ne' h
    · omega
  rw [if_neg hne]
  simp only
  apply for_loop_int_checked
  intro i st hlo hhi
  rw [hps_search_range_eq n sample_rate harmonics (by omega) hfit (by omega) hH] at hlo hhi
  have h0 : 0 ≤ i := le_trans (scaled_bin_nonneg 80 n sample_rate (by norm_num) hn hsr) hlo
  have h1 : i < Int.tdiv n (2 * harmonics) := lt_of_lt_of_le hhi (min_le_right _ _)
  have h2 : Int.tdiv n (2 * harmonics) ≤ Int.tdiv n 2 :=
    tdiv_anti hn.le (by norm_num) (by omega)
  show (if in_bounds i (Int.tdiv n 2 + 1) then _ else none) = _
  rw [in_bounds_of h0 (by omega)]
  rfl

/-- Array bounds where the `int` products fit: for every `n > 0` with
`1000 * n ≤ INT_MAX`, `sample_rate > 0` and `harmonics ≥ 1` with
`2*harmonics ≤ INT_MAX`, and a magnitude array of more than `n/2` elements (`n` elements
for the array of `compute_magnitude`, as `n/2 < n`), the run of `detect_pitch_hps` with
every array access and every divisor checked succeeds and gives the value of
`detect_pitch_hps`: no index leaves its array and no divisor is zero.  The index facts
behind it: in the multiplication loops `0 ≤ i*h ≤ n/2` and `0 ≤ i ≤ n/2`; the search
visits `min_bin ≤ i < max_bin` with `0 ≤ min_bin` and `max_bin ≤ n/(2*harmonics) ≤ n/2`;
the divisors `sample_rate`, `2*harmonics` and `n` are not zero. -/
theorem detect_pitch_hps_accesses_in_bounds_of_fit {C K : Type*} [LinearOrderedField K]
    [FloorRing K] (compute_magnitude : (Nat → C) → Int → (Nat → K)) (mag_len : Int)
    (hps_alloc : Nat → K) (spectrum : Nat → C) (n : Int) (sample_rate : K) (harmonics : Int)
    (hn : 0 < n) (hlen : Int.tdiv n 2 < mag_len) (hsr : 0 < sample_rate)
    (hh : 1 ≤ harmonics) (hfit : 1000 * n ≤ 2147483647)
    (hH : 2 * harmonics ≤ 2147483647) :
    detect_pitch_hps_checked compute_magnitude mag_len hps_alloc spectrum n sample_rate
        harmonics =
      some (detect_pitch_hps compute_magnitude hps_alloc spectrum n sample_rate harmonics) ∧
    Int.tdiv n 2 < n ∧
    (∀ h i : Int, 2 ≤ h → h ≤ harmonics → 0 ≤ i → i ≤ Int.tdiv n (2 * h) →
      0 ≤ i * h ∧ i * h ≤ Int.tdiv n 2 ∧ i ≤ Int.tdiv n 2) ∧
    0 ≤ (hps_search_range n sample_rate harmonics).1 ∧
    (hps_search_range n sample_rate harmonics).2 ≤ Int.tdiv n (2 * harmonics) ∧
    Int.tdiv n (2 * harmonics) ≤ Int.tdiv n 2 ∧
    sample_rate ≠ 0 ∧ 2 * harmonics ≠ 0 ∧ (n : K) ≠ 0 := by
  have hnK : (n : K) ≠ 0 := by exact_mod_cast hn.ne'
  refine ⟨?_, ?_, ?_, ?_, ?_, ?_, hsr.ne', by omega, hnK⟩
  · unfold detect_pitch_hps_checked detect_pitch_hps hps_array
    simp only
    rw [hps_init_checked_eq _ _ _ _ hlen,
      hps_multiply_checked_eq _ _ _ _ _ hn.le (by omega) hH hlen,
      Option.some_bind, hps_search_checked_eq _ _ _ _ hn hsr hh hfit hH, Option.some_bind,
      if_neg hnK]
  · rw [Int.tdiv_eq_ediv hn.le (by norm_num)]
    omega
  · intro h i h2 _ hi0 hile
    have hh0 : (0 : Int) < h := by omega
    refine ⟨mul_nonneg hi0 hh0.le, ?_, ?_⟩
    · exact le_trans (mul_le_mul_of_nonneg_right hile hh0.le) (tdiv_double_mul_le hn.le hh0)
    · exact le_trans hile (tdiv_anti hn.le (by norm_num) (by omega))
  · rw [hps_search_range_eq n sample_rate harmonics (by omega) hfit (by omega) hH]
    exact scaled_bin_nonneg 80 n sample_rate (by norm_num) hn hsr
  · rw [hps_search_range_eq n sample_rate harmonics (by omega) hfit (by omega) hH]
    exact min_le_right _ _
  · exact tdiv_anti hn.le (by norm_num) (by omega)

theorem detect_pitch_hps_accesses_in_bounds_of_fit_witness :
    (0 : Int) < 16 ∧ Int.tdiv 16 2 < 16 ∧ (0 : ℚ) < 640 ∧ (1 : Int) ≤ 2 ∧
    detect_pitch_hps_checked abs_magnitude 16 (fun _ => (0 : ℚ)) two_peak_magnitude 16
        (640 : ℚ) 2 =
      some (detect_pitch_hps abs_magnitude (fun _ => (0 : ℚ)) two_peak_magnitude 16
        (640 : ℚ) 2) :=
  ⟨by norm_num, by decide, by norm_num, by norm_num,
    (detect_pitch_hps_accesses_in_bounds_of_fit abs_magnitude 16 (fun _ => (0 : ℚ))
      two_peak_magnitude 16 (640 : ℚ) 2 (by norm_num) (by decide) (by norm_num)
      (by norm_num) (by norm_num) (by norm_num)).1⟩

/-- The checks are effective: with a magnitude array of 2 elements and `n = 8` the
initialisation loop reads `magnitude[2]` outside the array, and the checked run fails. -/
theorem detect_pitch_hps_checked_short_magnitude :
    detect_pitch_hps_checked abs_magnitude 2 (fun _ => (0 : ℚ)) two_peak_magnitude 8
      (320 : ℚ) 1 = none := by
  have t : (Int.tdiv 8 2 + 1).toNat = 5 := by decide
  have hinit : hps_init_checked (abs_magnitude two_peak_magnitude 8) 2 8 (fun _ => (0 : ℚ)) =
      none := by
    unfold hps_init_checked
    rw [t]
    simp [for_loop, for_loop_go, in_bounds, tdiv_8_2]
  have hmul : hps_multiply_checked (abs_magnitude two_peak_magnitude 8) 2 8 1 none = none := by
    unfold hps_multiply_checked
    have t2 : ((1 : Int) + 1).toNat = 2 := by decide
    rw [t2]
    rfl
  unfold detect_pitch_hps_checked
  simp only
  rw [hinit, hmul]
  rfl


/-! ## The interpolation of `detect_pitch_peak` -/

theorem falling_search_range :
    c_trunc (((80 * 8 : Int) : ℚ) / (320 : ℚ)) = 2 ∧
    min (c_trunc (((2000 * 8 : Int) : ℚ) / (320 : ℚ))) (Int.tdiv 8 2) = 4 := by
  have h1 : c_trunc (((80 * 8 : Int) : ℚ) / (320 : ℚ)) = 2 :=
    c_trunc_eq_of_bounds _ 2 (by norm_num) (by norm_num) (by norm_num)
  have h2 : c_trunc (((2000 * 8 : Int) : ℚ) / (320 : ℚ)) = 50 :=
    c_trunc_eq_of_bounds _ 50 (by norm_num) (by norm_num) (by norm_num)
  rw [h1, h2, tdiv_8_2]
  exact ⟨rfl, by norm_num⟩

theorem peak_search_falling :
    peak_search (abs_magnitude falling_spectrum 8) 8 (320 : ℚ) = (2, 2) := by
  unfold peak_search
  rw [peak_search_range_eq 8 (320 : ℚ) (by norm_num) (by norm_num), falling_search_range.1,
    falling_search_range.2]
  have t2 : Int.toNat 2 = 2 := rfl
  have t3 : Int.toNat 3 = 3 := rfl
  norm_num [for_loop_int, for_loop_int_go, t2, t3, abs_magnitude, falling_spectrum]

/-- C26 (refutation): on the length-8 spectrum with magnitudes 3, 2, 1 in bins 1, 2, 3
at `sample_rate = 320` the search range is `[2, 4)`, the winning bin is `b = 2` and the
interpolation is applied (`0 < b < n/2 - 1`); but bin 1, outside the search range, has a
larger magnitude than bin 2, so the winning bin is not a local maximum, and the
denominator `y1 - 2*y2 + y3` is 0, not negative. -/
theorem detect_pitch_peak_interpolates_on_a_slope :
    (peak_search (abs_magnitude falling_spectrum 8) 8 (320 : ℚ)).2 = 2 ∧
    ((0 : Int) < 2 ∧ (2 : Int) < Int.tdiv 8 2 - 1) ∧
    abs_magnitude falling_spectrum 8 ((2 : Int) - 1).toNat >
      abs_magnitude falling_spectrum 8 (2 : Int).toNat ∧
    peak_denominator (abs_magnitude falling_spectrum 8) 2 = 0 ∧
    ¬ (peak_denominator (abs_magnitude falling_spectrum 8) 2 < 0) := by
  have t1 : Int.toNat (2 - 1) = 1 := rfl
  have t2 : Int.toNat 2 = 2 := rfl
  have t3 : Int.toNat (2 + 1) = 3 := rfl
  have hd : peak_denominator (abs_magnitude falling_spectrum 8) 2 = 0 := by
    unfold peak_denominator
    simp only [t1, t2, t3]
    norm_num [abs_magnitude, falling_spectrum]
  refine ⟨by rw [peak_search_falling], ⟨by norm_num, by rw [tdiv_8_2]; norm_num⟩, ?_, hd, ?_⟩
  · rw [t1, t2]
    norm_num [abs_magnitude, falling_spectrum]
  · rw [hd]
    exact lt_irrefl 0

/-- C26 (amended): for `n > 0` that is a power of two, or for which `2000 * n` fits an
`int`, and `sample_rate > 0`, whenever the winning bin `b` of `detect_pitch_peak` has
both neighbours inside the search range (`min_bin < b` and `b + 1 < max_bin`), the
interpolation is applied (`0 < b < n/2 - 1`), the magnitude at `b` is strictly above the
one at `b - 1` and at least the one at `b + 1`, so the denominator `y1 - 2*y2 + y3` is
strictly negative and the offset `delta` satisfies `|delta| ≤ 1/2`; `peak_bin` then holds
`trunc(b + delta)`.  (For a power of two from `2^21` on the product `2000 * n` wraps, the
range that the code searches is empty and the winning bin is 0, which has no neighbour
below it.) -/
theorem peak_interpolation_with_neighbours_in_range {C K : Type*} [LinearOrderedField K]
    [FloorRing K] (compute_magnitude : (Nat → C) → Int → (Nat → K)) (spectrum : Nat → C)
    (n : Int) (sample_rate : K) (hn : 0 < n) (hsr : 0 < sample_rate)
    (hdom : (∃ k : Nat, n = 2 ^ k) ∨ 2000 * n ≤ 2147483647)
    (hleft : c_trunc (((80 * n : Int) : K) / sample_rate) <
      (peak_search (compute_magnitude spectrum n) n sample_rate).2)
    (hright : (peak_search (compute_magnitude spectrum n) n sample_rate).2 + 1 <
      min (c_trunc (((2000 * n : Int) : K) / sample_rate)) (Int.tdiv n 2)) :
    0 < (peak_search (compute_magnitude spectrum n) n sample_rate).2 ∧
    (peak_search (compute_magnitude spectrum n) n sample_rate).2 < Int.tdiv n 2 - 1 ∧
    (compute_magnitude spectrum n) ((peak_search (compute_magnitude spectrum n) n sample_rate).2 - 1).toNat <
      (compute_magnitude spectrum n) ((peak_search (compute_magnitude spectrum n) n sample_rate).2).toNat ∧
    (compute_magnitude spectrum n) ((peak_search (compute_magnitude spectrum n) n sample_rate).2 + 1).toNat ≤
      (compute_magnitude spectrum n) ((peak_search (compute_magnitude spectrum n) n sample_rate).2).toNat ∧
    peak_denominator (compute_magnitude spectrum n)
      (peak_search (compute_magnitude spectrum n) n sample_rate).2 < 0 ∧
    |peak_delta (compute_magnitude spectrum n)
      (peak_search (compute_magnitude spectrum n) n sample_rate).2| ≤ 1 / 2 ∧
    peak_interpolate (compute_magnitude spectrum n) n
        (peak_search (compute_magnitude spectrum n) n sample_rate).2 =
      c_trunc ((((peak_search (compute_magnitude spectrum n) n sample_rate).2 : Int) : K) +
        peak_delta (compute_magnitude spectrum n)
          (peak_search (compute_magnitude spectrum n) n sample_rate).2) := by
  have hmin0 := scaled_bin_nonneg 80 n sample_rate (by norm_num) hn hsr
  have hb0 : 0 < (peak_search (compute_magnitude spectrum n) n sample_rate).2 :=
    lt_of_le_of_lt hmin0 hleft
  have hbn : (peak_search (compute_magnitude spectrum n) n sample_rate).2 < Int.tdiv n 2 - 1 := by
    have := lt_of_lt_of_le hright (min_le_right _ _)
    omega
  have hfit_case : 2000 * n ≤ 2147483647 →
      (compute_magnitude spectrum n) ((peak_search (compute_magnitude spectrum n) n sample_rate).2 - 1).toNat <
        (compute_magnitude spectrum n) ((peak_search (compute_magnitude spectrum n) n sample_rate).2).toNat ∧
      (compute_magnitude spectrum n) ((peak_search (compute_magnitude spectrum n) n sample_rate).2 + 1).toNat ≤
        (compute_magnitude spectrum n) ((peak_search (compute_magnitude spectrum n) n sample_rate).2).toNat := by
    intro hfit
    have hc := peak_search_cases (compute_magnitude spectrum n) n sample_rate
    rw [peak_search_range_eq n sample_rate (by omega) hfit] at hc
    rcases hc with ⟨_, h0⟩ | ⟨_, _, _, h5, h6⟩
    · rw [h0] at hb0
      exact absurd hb0 (lt_irrefl _)
    · exact ⟨h6 ((peak_search (compute_magnitude spectrum n) n sample_rate).2 - 1)
        (by omega) (by omega), h5 ((peak_search (compute_magnitude spectrum n) n sample_rate).2 + 1)
        (by omega) hright⟩
  have hy : (compute_magnitude spectrum n) ((peak_search (compute_magnitude spectrum n) n sample_rate).2 - 1).toNat <
        (compute_magnitude spectrum n) ((peak_search (compute_magnitude spectrum n) n sample_rate).2).toNat ∧
      (compute_magnitude spectrum n) ((peak_search (compute_magnitude spectrum n) n sample_rate).2 + 1).toNat ≤
        (compute_magnitude spectrum n) ((peak_search (compute_magnitude spectrum n) n sample_rate).2).toNat := by
    rcases hdom with ⟨k, hk⟩ | hfit
    · subst hk
      rcases peak_search_range_pow_two k sample_rate hsr with hfit | hempty
      · exact hfit_case hfit.2
      · exfalso
        have h0 : peak_search (compute_magnitude spectrum ((2 : Int) ^ k)) ((2 : Int) ^ k)
            sample_rate = (0, 0) := by
          unfold peak_search
          exact for_loop_int_empty _ _ _ _ hempty
        rw [h0] at hb0
        exact absurd hb0 (lt_irrefl _)
    · exact hfit_case hfit
  obtain ⟨hy1, hy3⟩ := hy
  have hd : peak_denominator (compute_magnitude spectrum n)
      (peak_search (compute_magnitude spectrum n) n sample_rate).2 < 0 := by
    unfold peak_denominator
    simp only
    linarith
  refine ⟨hb0, hbn, hy1, hy3, hd, ?_, ?_⟩
  · unfold peak_denominator at hd
    simp only at hd
    unfold peak_delta
    simp only
    rw [abs_le]
    constructor
    · rw [le_div_iff_of_neg hd]
      linarith
    · rw [div_le_iff_of_neg hd]
      linarith
  · unfold peak_interpolate peak_delta
    rw [if_pos ⟨hb0, hbn⟩]

theorem peak_search_skewed_640 :
    peak_search (compute_magnitude skewed_peak_spectrum 8) 8 (640 : ℝ) = (4, 2) := by
  unfold peak_search
  rw [peak_search_range_eq 8 (640 : ℝ) (by norm_num) (by norm_num), tdiv_8_2,
    c_trunc_eq_of_bounds (((80 * 8 : Int) : ℝ) / 640) 1 (by norm_num) (by norm_num)
      (by norm_num),
    c_trunc_eq_of_bounds (((2000 * 8 : Int) : ℝ) / 640) 25 (by norm_num) (by norm_num)
      (by norm_num), compute_magnitude_skewed]
  have t1 : Int.toNat 1 = 1 := rfl
  have t2 : Int.toNat 2 = 2 := rfl
  have t3 : Int.toNat 3 = 3 := rfl
  norm_num [for_loop_int, for_loop_int_go, t1, t2, t3]

theorem peak_interpolation_with_neighbours_in_range_witness :
    (0 : Int) < 8 ∧ (0 : ℝ) < 640 ∧
    ((∃ k : Nat, (8 : Int) = 2 ^ k) ∨ 2000 * (8 : Int) ≤ 2147483647) ∧
    c_trunc (((80 * 8 : Int) : ℝ) / (640 : ℝ)) <
      (peak_search (compute_magnitude skewed_peak_spectrum 8) 8 (640 : ℝ)).2 ∧
    (peak_search (compute_magnitude skewed_peak_spectrum 8) 8 (640 : ℝ)).2 + 1 <
      min (c_trunc (((2000 * 8 : Int) : ℝ) / (640 : ℝ))) (Int.tdiv 8 2) ∧
    peak_denominator (compute_magnitude skewed_peak_spectrum 8)
      (peak_search (compute_magnitude skewed_peak_spectrum 8) 8 (640 : ℝ)).2 < 0 ∧
    |peak_delta (compute_magnitude skewed_peak_spectrum 8)
      (peak_search (compute_magnitude skewed_peak_spectrum 8) 8 (640 : ℝ)).2| ≤ 1 / 2 := by
  have hleft : c_trunc (((80 * 8 : Int) : ℝ) / (640 : ℝ)) <
      (peak_search (compute_magnitude skewed_peak_spectrum 8) 8 (640 : ℝ)).2 := by
    rw [peak_search_skewed_640,
      c_trunc_eq_of_bounds (((80 * 8 : Int) : ℝ) / 640) 1 (by norm_num) (by norm_num)
        (by norm_num)]
    norm_num
  have hright : (peak_search (compute_magnitude skewed_peak_spectrum 8) 8 (640 : ℝ)).2 + 1 <
      min (c_trunc (((2000 * 8 : Int) : ℝ) / (640 : ℝ))) (Int.tdiv 8 2) := by
    rw [peak_search_skewed_640, tdiv_8_2,
      c_trunc_eq_of_bounds (((2000 * 8 : Int) : ℝ) / 640) 25 (by norm_num) (by norm_num)
        (by norm_num)]
    norm_num
  have h := peak_interpolation_with_neighbours_in_range compute_magnitude skewed_peak_spectrum
    8 (640 : ℝ) (by norm_num) (by norm_num) (Or.inl ⟨3, by norm_num⟩) hleft hright
  exact ⟨by norm_num, by norm_num, Or.inl ⟨3, by norm_num⟩, hleft, hright, h.2.2.2.2.1,
    h.2.2.2.2.2.1⟩


/-! ## `find_peaks` keeps the first peaks, not the strongest -/

theorem two_peak_magnitude_le (i : Nat) : two_peak_magnitude i ≤ two_peak_magnitude 3 := by
  have h3 : two_peak_magnitude 3 = 2 := by norm_num [two_peak_magnitude]
  rw [h3]
  unfold two_peak_magnitude
  split_ifs <;> norm_num

theorem find_peaks_two_peak_one :
    (find_peaks two_peak_magnitude 12 1 zero_peaks 1).2 = 1 ∧
    ((find_peaks two_peak_magnitude 12 1 zero_peaks 1).1 0).bin = 1 ∧
    ((find_peaks two_peak_magnitude 12 1 zero_peaks 1).1 0).magnitude = 1 := by
  refine ⟨?_, ?_, ?_⟩ <;>
  norm_num [find_peaks, find_peaks_scan, while_loop_go, find_peaks_scan_body,
    find_peaks_sort, for_loop, for_loop_go, two_peak_magnitude, tdiv_12_2]

/-- C27: `find_peaks` stops collecting after `max_peaks` qualifying bins in ascending bin
order and sorts only what it collected, so it does not return the strongest peaks.  For
the magnitude array with the value 1 in bin 1 and 2 in bin 3 (0 elsewhere), `n = 12` and
`max_peaks = 1`: bin 3 qualifies and has the largest magnitude of all qualifying bins,
but the call returns the single peak of bin 1 (magnitude 1), and bin 3 is not among the
returned peaks. -/
theorem find_peaks_misses_strongest_peak :
    (1 : Int) ≤ 1 ∧
    3 ∈ qualifying_bins two_peak_magnitude 12 ∧
    (∀ i, i ∈ qualifying_bins two_peak_magnitude 12 →
      two_peak_magnitude i ≤ two_peak_magnitude 3) ∧
    (find_peaks two_peak_magnitude 12 1 zero_peaks 1).2 = 1 ∧
    ((find_peaks two_peak_magnitude 12 1 zero_peaks 1).1 0).bin = 1 ∧
    ((find_peaks two_peak_magnitude 12 1 zero_peaks 1).1 0).magnitude <
      two_peak_magnitude 3 ∧
    (∀ j, j < (find_peaks two_peak_magnitude 12 1 zero_peaks 1).2 →
      ((find_peaks two_peak_magnitude 12 1 zero_peaks 1).1 j).bin ≠ 3) := by
  obtain ⟨hnum, hbin, hmag⟩ := find_peaks_two_peak_one
  refine ⟨le_rfl, ?_, fun i _ => two_peak_magnitude_le i, hnum, hbin, ?_, ?_⟩
  · rw [mem_qualifying_bins, tdiv_12_2]
    norm_num [two_peak_magnitude]
  · rw [hmag]
    norm_num [two_peak_magnitude]
  · intro j hj
    rw [hnum] at hj
    have hj0 : j = 0 := by omega
    rw [hj0, hbin]
    norm_num


/-! ## Conjugate symmetry for real input -/

theorem twiddle_forward_pow_size (k : Nat) :
    twiddle_factor 1 ((2 ^ k : Nat) : Int) fft_direction.FFT_FORWARD ^ (2 ^ k) = 1 := by
  rw [twiddle_forward_inv, inv_pow, (twiddle_inverse_primitive k).pow_eq_one, inv_one]

theorem twiddle_forward_pow_reflect (k j q : Nat) (hq : q ≤ 2 ^ k) :
    twiddle_factor 1 ((2 ^ k : Nat) : Int) fft_direction.FFT_FORWARD ^ (j * (2 ^ k - q)) =
      (starRingEnd ℂ)
        (twiddle_factor 1 ((2 ^ k : Nat) : Int) fft_direction.FFT_FORWARD ^ (j * q)) := by
  rw [map_pow, twiddle_forward_conj, ← inv_inv
    (twiddle_factor 1 ((2 ^ k : Nat) : Int) fft_direction.FFT_INVERSE), ← twiddle_forward_inv,
    inv_pow]
  apply eq_inv_of_mul_eq_one_left
  rw [← pow_add]
  have h : j * (2 ^ k - q) + j * q = 2 ^ k * j := by
    rw [← Nat.mul_add, Nat.sub_add_cancel hq, Nat.mul_comm]
  rw [h, pow_mul, twiddle_forward_pow_size, one_pow]

theorem conj_of_real (z : ℂ) (hz : z.im = 0) : (starRingEnd ℂ) z = z :=
  Complex.conj_eq_iff_im.2 hz

/-- The forward sum at the reflected bin is the conjugate of the sum at the bin, for real
samples. -/
theorem forward_sum_reflect (k : Nat) (x : Nat → ℂ) (hreal : ∀ j, j < 2 ^ k → (x j).im = 0)
    (q : Nat) (hq : q ≤ 2 ^ k) :
    ∑ j in Finset.range (2 ^ k),
        x j * twiddle_factor 1 ((2 ^ k : Nat) : Int) fft_direction.FFT_FORWARD ^
          (j * (2 ^ k - q)) =
      (starRingEnd ℂ) (∑ j in Finset.range (2 ^ k),
        x j * twiddle_factor 1 ((2 ^ k : Nat) : Int) fft_direction.FFT_FORWARD ^ (j * q)) := by
  rw [map_sum]
  apply Finset.sum_congr rfl
  intro j hj
  rw [map_mul, conj_of_real (x j) (hreal j (Finset.mem_range.1 hj)),
    twiddle_forward_pow_reflect k j q hq]

/-- C28: for every buffer of length `n = 2 ^ k` whose samples all have zero imaginary
part, the forward transform `X` of `radix2_dit_fft` is conjugate-symmetric:
`X[n-q] = conj(X[q])` for every `q` in `1..n-1`, so `|X[n-q]| = |X[q]|` (also as computed
by `compute_magnitude`), and `X[0]` and `X[n/2]` are real. -/
theorem radix2_dit_fft_real_input_conjugate_symmetric (k : Nat) (x : Nat → ℂ)
    (hreal : ∀ j, j < 2 ^ k → (x j).im = 0) (q : Nat) (hq1 : 1 ≤ q) (hq : q < 2 ^ k) :
    (radix2_dit_fft twiddle_factor x ((2 : Int) ^ k) fft_direction.FFT_FORWARD).2 (2 ^ k - q) =
      (starRingEnd ℂ)
        ((radix2_dit_fft twiddle_factor x ((2 : Int) ^ k) fft_direction.FFT_FORWARD).2 q) ∧
    Complex.abs
        ((radix2_dit_fft twiddle_factor x ((2 : Int) ^ k) fft_direction.FFT_FORWARD).2
          (2 ^ k - q)) =
      Complex.abs
        ((radix2_dit_fft twiddle_factor x ((2 : Int) ^ k) fft_direction.FFT_FORWARD).2 q) ∧
    compute_magnitude
        (radix2_dit_fft twiddle_factor x ((2 : Int) ^ k) fft_direction.FFT_FORWARD).2
        ((2 : Int) ^ k) (2 ^ k - q) =
      compute_magnitude
        (radix2_dit_fft twiddle_factor x ((2 : Int) ^ k) fft_direction.FFT_FORWARD).2
        ((2 : Int) ^ k) q ∧
    ((radix2_dit_fft twiddle_factor x ((2 : Int) ^ k) fft_direction.FFT_FORWARD).2 0).im = 0 ∧
    ((radix2_dit_fft twiddle_factor x ((2 : Int) ^ k) fft_direction.FFT_FORWARD).2
      (2 ^ k / 2)).im = 0 := by
  have hsym : ∀ p, 1 ≤ p → p < 2 ^ k →
      (radix2_dit_fft twiddle_factor x ((2 : Int) ^ k) fft_direction.FFT_FORWARD).2
          (2 ^ k - p) =
        (starRingEnd ℂ)
          ((radix2_dit_fft twiddle_factor x ((2 : Int) ^ k) fft_direction.FFT_FORWARD).2 p) := by
    intro p hp1 hp
    rw [forward_apply, forward_apply, if_pos (by omega), if_pos hp]
    exact forward_sum_reflect k x hreal p hp.le
  have h0 : ((radix2_dit_fft twiddle_factor x ((2 : Int) ^ k)
      fft_direction.FFT_FORWARD).2 0).im = 0 := by
    rw [forward_apply, if_pos (by positivity), Complex.im_sum]
    apply Finset.sum_eq_zero
    intro j hj
    rw [Nat.mul_zero, pow_zero, mul_one]
    exact hreal j (Finset.mem_range.1 hj)
  have habs : Complex.abs
        ((radix2_dit_fft twiddle_factor x ((2 : Int) ^ k) fft_direction.FFT_FORWARD).2
          (2 ^ k - q)) =
      Complex.abs
        ((radix2_dit_fft twiddle_factor x ((2 : Int) ^ k) fft_direction.FFT_FORWARD).2 q) := by
    rw [hsym q hq1 hq, Complex.abs_conj]
  refine ⟨hsym q hq1 hq, habs, ?_, h0, ?_⟩
  · rw [compute_magnitude_eq_abs, compute_magnitude_eq_abs]
    exact habs
  · rcases Nat.eq_zero_or_pos (2 ^ k / 2) with hz | hpos
    · rw [hz]
      exact h0
    · have hlt : 2 ^ k / 2 < 2 ^ k := Nat.div_lt_self (by positivity) (by norm_num)
      have hk : k ≠ 0 := by
        rintro rfl
        simp at hpos
      have heven : 2 ^ k - 2 ^ k / 2 = 2 ^ k / 2 := by
        obtain ⟨m, rfl⟩ := Nat.exists_eq_succ_of_ne_zero hk
        rw [pow_succ]
        omega
      have h := hsym (2 ^ k / 2) hpos hlt
      rw [heven] at h
      exact Complex.conj_eq_iff_im.1 h.symm

theorem radix2_dit_fft_real_input_conjugate_symmetric_witness :
    (∀ j, j < 2 ^ 2 → (constant_one_signal j).im = 0) ∧ 1 ≤ 1 ∧ 1 < 2 ^ 2 ∧
    (radix2_dit_fft twiddle_factor constant_one_signal ((2 : Int) ^ 2)
        fft_direction.FFT_FORWARD).2 (2 ^ 2 - 1) =
      (starRingEnd ℂ)
        ((radix2_dit_fft twiddle_factor constant_one_signal ((2 : Int) ^ 2)
          fft_direction.FFT_FORWARD).2 1) :=
  ⟨fun _ _ => by simp [constant_one_signal], le_rfl, by norm_num,
    (radix2_dit_fft_real_input_conjugate_symmetric 2 constant_one_signal
      (fun _ _ => by simp [constant_one_signal]) 1 le_rfl (by norm_num)).1⟩


/-! ## Sizes for which an `int` product overflows -/

theorem c_trunc_eq_of_bounds_neg {K : Type*} [LinearOrderedField K] [FloorRing K] (x : K)
    (z : Int) (h0 : x < 0) (h1 : (z : K) - 1 < x) (h2 : x ≤ (z : K)) : c_trunc x = z := by
  unfold c_trunc
  rw [if_neg (not_le.2 h0)]
  exact Int.ceil_eq_iff.2 ⟨h1, h2⟩

theorem compute_magnitude_const_one (n : Int) (i : Nat) :
    compute_magnitude (fun _ => (1 : ℂ)) n i = 1 := by
  rw [compute_magnitude_eq_abs]
  simp

theorem for_loop_int_go_none {σ : Type*} (stop : Int) (bodyC : Int → Option σ → Option σ)
    (h : ∀ i, bodyC i none = none) :
    ∀ (fuel : Nat) (i : Int), for_loop_int_go stop bodyC fuel i none = none := by
  intro fuel
  induction fuel with
  | zero => intro i; rfl
  | succ fuel ih =>
    intro i
    show (if i < stop then for_loop_int_go stop bodyC fuel (i + 1) (bodyC i none) else none) = _
    by_cases hlt : i < stop
    · rw [if_pos hlt, h i]
      exact ih (i + 1)
    · rw [if_neg hlt]

/-- A checked loop whose first iteration fails ends in failure. -/
theorem for_loop_int_first_fails {σ : Type*} (start stop : Int)
    (bodyC : Int → Option σ → Option σ) (s : σ) (hlt : start < stop)
    (hfirst : bodyC start (some s) = none) (h : ∀ i, bodyC i none = none) :
    for_loop_int start stop bodyC (some s) = none := by
  unfold for_loop_int
  obtain ⟨fuel, hfuel⟩ : ∃ fuel, (stop - start).toNat = fuel + 1 :=
    ⟨(stop - start).toNat - 1, by omega⟩
  rw [hfuel]
  show (if start < stop then for_loop_int_go stop bodyC fuel (start + 1)
    (bodyC start (some s)) else some s) = none
  rw [if_pos hlt, hfirst]
  exact for_loop_int_go_none stop bodyC h fuel (start + 1)

theorem int_mul_values :
    int_mul 80 2097152 = 167772160 ∧ int_mul 2000 2097152 = -100663296 ∧
    int_mul 80 4194304 = 335544320 ∧ int_mul 1000 4194304 = -100663296 ∧
    int_mul 80 33554432 = -1610612736 ∧ int_mul 1000 33554432 = -805306368 ∧
    int_mul 2 2 = 4 ∧ int_mul 2 4 = 8 := by
  unfold int_mul int_wrap
  norm_num

/-- C20 (evaluation of the code): for `n = 2^21`, `sample_rate = 44100` and a spectrum
whose magnitudes are all 1, the `int` product `2000 * n` wraps to `-100663296`, the
range that the code searches is `[3804, -2282)`, which is empty, the search ends with
`peak_bin = 0` and the function returns 0; the range of the claim is `[3804, 95108)`,
every magnitude in it is positive and its lowest maximiser is bin 3804, and bin 0 is
outside that range. -/
theorem detect_pitch_peak_size_2_21_selects_no_bin :
    (2097152 : Int) = 2 ^ 21 ∧
    int_mul 2000 2097152 = -100663296 ∧
    peak_search_range 2097152 (44100 : ℝ) = (3804, -2282) ∧
    (peak_search (compute_magnitude (fun _ => (1 : ℂ)) 2097152) 2097152 (44100 : ℝ)).2 = 0 ∧
    detect_pitch_peak compute_magnitude (fun _ => (1 : ℂ)) 2097152 (44100 : ℝ) = 0 ∧
    c_trunc (((80 * 2097152 : Int) : ℝ) / 44100) = 3804 ∧
    min (c_trunc (((2000 * 2097152 : Int) : ℝ) / 44100)) (Int.tdiv 2097152 2) = 95108 ∧
    0 < compute_magnitude (fun _ => (1 : ℂ)) 2097152 (3804 : Int).toNat ∧
    (∀ i : Int, 3804 ≤ i → i < 95108 →
      compute_magnitude (fun _ => (1 : ℂ)) 2097152 i.toNat ≤
        compute_magnitude (fun _ => (1 : ℂ)) 2097152 (3804 : Int).toNat) ∧
    ¬ ((3804 : Int) ≤ 0) := by
  have hrange : peak_search_range 2097152 (44100 : ℝ) = (3804, -2282) := by
    rw [peak_search_range_wrap, int_mul_values.1, int_mul_values.2.1,
      c_trunc_eq_of_bounds (((167772160 : Int) : ℝ) / 44100) 3804 (by norm_num) (by norm_num)
        (by norm_num),
      c_trunc_eq_of_bounds_neg (((-100663296 : Int) : ℝ) / 44100) (-2282) (by norm_num)
        (by norm_num) (by norm_num)]
    have ht : Int.tdiv 2097152 2 = 1048576 := by decide
    rw [ht]
    rfl
  have hsearch : peak_search (compute_magnitude (fun _ => (1 : ℂ)) 2097152) 2097152
      (44100 : ℝ) = (0, 0) := by
    unfold peak_search
    rw [hrange]
    exact for_loop_int_empty _ _ _ _ (by norm_num)
  have hres := detect_pitch_peak_of_no_peak compute_magnitude (fun _ => (1 : ℂ)) 2097152
    (44100 : ℝ) hsearch
  refine ⟨by norm_num, int_mul_values.2.1, hrange, hres.2.1, hres.1, ?_, ?_, ?_, ?_,
    by norm_num⟩
  · exact c_trunc_eq_of_bounds _ 3804 (by norm_num) (by norm_num) (by norm_num)
  · rw [c_trunc_eq_of_bounds (((2000 * 2097152 : Int) : ℝ) / 44100) 95108 (by norm_num)
      (by norm_num) (by norm_num)]
    have ht : Int.tdiv 2097152 2 = 1048576 := by decide
    rw [ht]
    rfl
  · rw [compute_magnitude_const_one]
    norm_num
  · intro i _ _
    rw [compute_magnitude_const_one, compute_magnitude_const_one]

/-- C11 (evaluation of the code): for `n = 2^22`, `sample_rate = 44100`, `harmonics = 2`
and a spectrum whose magnitudes are all 1, the `int` product `1000 * n` wraps to
`-100663296`, the range that the code searches is `[7608, -2282)`, which is empty, and
`detect_pitch_hps` returns 0; the range of the claim is `[7608, 95108)`, the product
`P(7608)` is positive, so the claim gives `7608 * sample_rate / n`, which is not 0. -/
theorem detect_pitch_hps_size_2_22_returns_zero :
    (4194304 : Int) = 2 ^ 22 ∧
    int_mul 1000 4194304 = -100663296 ∧
    hps_search_range 4194304 (44100 : ℝ) 2 = (7608, -2282) ∧
    detect_pitch_hps compute_magnitude (fun _ => 0) (fun _ => (1 : ℂ)) 4194304
      (44100 : ℝ) 2 = 0 ∧
    c_trunc (((80 * 4194304 : Int) : ℝ) / 44100) = 7608 ∧
    min (c_trunc (((1000 * 4194304 : Int) : ℝ) / 44100)) (Int.tdiv 4194304 (2 * 2)) = 95108 ∧
    0 < harmonic_product (compute_magnitude (fun _ => (1 : ℂ)) 4194304) 2
      (7608 : Int).toNat ∧
    ((7608 : Int) : ℝ) * 44100 / ((4194304 : Int) : ℝ) ≠ 0 := by
  have ht : Int.tdiv 4194304 4 = 1048576 := by decide
  have hrange : hps_search_range 4194304 (44100 : ℝ) 2 = (7608, -2282) := by
    rw [hps_search_range_wrap, int_mul_values.2.2.1, int_mul_values.2.2.2.1,
      int_mul_values.2.2.2.2.2.2.1,
      c_trunc_eq_of_bounds (((335544320 : Int) : ℝ) / 44100) 7608 (by norm_num) (by norm_num)
        (by norm_num),
      c_trunc_eq_of_bounds_neg (((-100663296 : Int) : ℝ) / 44100) (-2282) (by norm_num)
        (by norm_num) (by norm_num), ht]
    rfl
  have hsearch : ∀ hps : Nat → ℝ, hps_search hps 4194304 (44100 : ℝ) 2 = (0, 0) := by
    intro hps
    unfold hps_search
    rw [hrange]
    exact for_loop_int_empty _ _ _ _ (by norm_num)
  refine ⟨by norm_num, int_mul_values.2.2.2.1, hrange, ?_, ?_, ?_, ?_, by norm_num⟩
  · unfold detect_pitch_hps
    simp only [hsearch]
    norm_num
  · exact c_trunc_eq_of_bounds _ 7608 (by norm_num) (by norm_num) (by norm_num)
  · rw [c_trunc_eq_of_bounds (((1000 * 4194304 : Int) : ℝ) / 44100) 95108 (by norm_num)
      (by norm_num) (by norm_num)]
    have ht2 : Int.tdiv 4194304 (2 * 2) = 1048576 := by decide
    rw [ht2]
    rfl
  · unfold harmonic_product
    simp only [compute_magnitude_const_one, Finset.prod_const_one]
    norm_num

/-- C25 (evaluation of the code): for `n = 2^25`, `sample_rate = 44100` and
`harmonics = 4` the `int` products `80 * n` and `1000 * n` wrap to `-1610612736` and
`-805306368`, the range that the code searches is `[-36521, -18260)`, and the first
access of the search, `hps[-36521]`, is outside the array of `n/2 + 1` elements: the run
with every access checked fails. -/
theorem detect_pitch_hps_size_2_25_reads_below_the_array :
    (33554432 : Int) = 2 ^ 25 ∧
    int_mul 80 33554432 = -1610612736 ∧ int_mul 1000 33554432 = -805306368 ∧
    hps_search_range 33554432 (44100 : ℝ) 4 = (-36521, -18260) ∧
    in_bounds (-36521) (Int.tdiv 33554432 2 + 1) = false ∧
    detect_pitch_hps_checked compute_magnitude 33554432 (fun _ => 0) (fun _ => (1 : ℂ))
      33554432 (44100 : ℝ) 4 = none := by
  have ht : Int.tdiv 33554432 8 = 4194304 := by decide
  have hlen : Int.tdiv 33554432 2 < 33554432 := by decide
  have hrange : hps_search_range 33554432 (44100 : ℝ) 4 = (-36521, -18260) := by
    rw [hps_search_range_wrap, int_mul_values.2.2.2.2.1, int_mul_values.2.2.2.2.2.1,
      int_mul_values.2.2.2.2.2.2.2,
      c_trunc_eq_of_bounds_neg (((-1610612736 : Int) : ℝ) / 44100) (-36521) (by norm_num)
        (by norm_num) (by norm_num),
      c_trunc_eq_of_bounds_neg (((-805306368 : Int) : ℝ) / 44100) (-18260) (by norm_num)
        (by norm_num) (by norm_num), ht]
    rfl
  have hout : in_bounds (-36521) (Int.tdiv 33554432 2 + 1) = false := by decide
  have hsearch : ∀ hps : Nat → ℝ,
      hps_search_checked hps 33554432 (44100 : ℝ) 4 = none := by
    intro hps
    unfold hps_search_checked
    have hne : ¬ ((44100 : ℝ) = 0 ∨ int_mul 2 4 = 0) := by
      rw [int_mul_values.2.2.2.2.2.2.2]
      norm_num
    rw [if_neg hne]
    simp only [hrange]
    apply for_loop_int_first_fails _ _ _ _ (by norm_num)
    · simp only [Option.some_bind, hout]
      rfl
    · intro i
      rfl
  refine ⟨by norm_num, int_mul_values.2.2.2.2.1, int_mul_values.2.2.2.2.2.1, hrange, hout, ?_⟩
  unfold detect_pitch_hps_checked
  simp only
  rw [hps_init_checked_eq _ _ _ _ hlen,
    hps_multiply_checked_eq _ _ _ _ _ (by norm_num) (by norm_num) (by norm_num) hlen,
    Option.some_bind, hsearch]
  rfl


end PitchFFT

